import Mathlib

/-! Weenix virtual memory: address-space map and memory objects.

A shallow embedding of `kernel/vm/vmmap.c`, `kernel/vm/mmap.c`, `kernel/vm/anon.c`,
`kernel/vm/shadow.c` and `kernel/proc/fork.c`.

* C pointers to memory objects and to address-space maps are natural numbers (the address),
  `none` being `NULL`.
* `uint32_t` arithmetic is arithmetic on `Nat` reduced modulo `2 ^ 32`.
* A `vmm_list` is the Lean list of its areas in list order.  The iteration macro
  `list_iterate_begin` reads the successor link before it runs the loop body, so the loops
  below carry the index of the successor explicitly.
* Calls made through an operation table (`mmo_ops->ref`, `mmo_ops->put`) and calls to the
  page-table layer are recorded, in order, in a call trace.
* The `KASSERT`s of `vmmap.c` are stated as separate predicates; those of `anon.c` and
  `shadow.c` are checked where they stand, and a failed one ends the run in `Res.panic`.
-/

namespace Weenix

/-! ## Machine arithmetic and constants -/

/-- The number of values of a `uint32_t`. -/
def U32 : Nat := 4294967296

/-- Addition of two `uint32_t` values. -/
def u32add (a b : Nat) : Nat := (a + b) % U32

/-- Subtraction of two `uint32_t` values. -/
def u32sub (a b : Nat) : Nat := (a + U32 - b % U32) % U32

/-- Constants of `mm/page.h`, `mm/mm.h`, `mm/mman.h` and `errno.h`, which the functions below
use and which are defined outside the embedded sources. -/
structure KParams where
  PAGE_SHIFT : Nat
  USER_MEM_LOW : Nat
  USER_MEM_HIGH : Nat
  EINVAL : Nat
  ENOMEM : Nat
  MAP_SHARED : Nat
  MAP_PRIVATE : Nat
  MAP_TYPE : Nat
deriving DecidableEq

/-- Modelled from the spec: the page size, `1 << PAGE_SHIFT` of `mm/page.h`. -/
def PAGE_SIZE (K : KParams) : Nat := 2 ^ K.PAGE_SHIFT

/-- Modelled from the spec: `ADDR_TO_PN(x)` of `mm/page.h`, the page number of an address,
`x >> PAGE_SHIFT`. -/
def ADDR_TO_PN (K : KParams) (x : Nat) : Nat := x / PAGE_SIZE K

/-- Modelled from the spec: `PN_TO_ADDR(x)` of `mm/page.h`, the address of a page,
`x << PAGE_SHIFT` in 32 bits. -/
def PN_TO_ADDR (K : KParams) (x : Nat) : Nat := (x * PAGE_SIZE K) % U32

/-- Modelled from the spec: `PAGE_ALIGNED(x)` of `mm/page.h`, `0 == x % PAGE_SIZE`. -/
def PAGE_ALIGNED (K : KParams) (x : Nat) : Bool := x % PAGE_SIZE K == 0

/-! ## Areas and maps -/

/-- The `vmarea_t` of `vm/vmmap.h`, without its two list links. -/
structure vmarea where
  vma_start : Nat
  vma_end : Nat
  vma_off : Nat
  vma_prot : Nat
  vma_flags : Nat
  vma_vmmap : Option Nat
  vma_obj : Option Nat
deriving DecidableEq

/-- The `vmmap_t` of `vm/vmmap.h`; `vmm_addr` is the address of the struct, the value a
`vma_vmmap` back-pointer holds. -/
structure vmmap where
  vmm_addr : Nat
  vmm_list : List vmarea
  vmm_proc : Option Nat
deriving DecidableEq

/-- A recorded call: an operation of a memory object's operation table, or a call into the
page-table layer. -/
inductive KCall where
  | ref (o : Option Nat)
  | put (o : Option Nat)
  | tlb_flush_all
  | pt_unmap_range (vlow vhigh : Nat)
deriving DecidableEq

/-! ## `vmmap_insert` -/

/-- The `KASSERT`s at the head of `vmmap_insert`. -/
def vmmap_insert_asserts (K : KParams) (newvma : vmarea) : Prop :=
  newvma.vma_vmmap = none ∧ newvma.vma_start < newvma.vma_end ∧
  ADDR_TO_PN K K.USER_MEM_LOW ≤ newvma.vma_start ∧ ADDR_TO_PN K K.USER_MEM_HIGH ≥ newvma.vma_end

instance (K : KParams) (newvma : vmarea) : Decidable (vmmap_insert_asserts K newvma) :=
  inferInstanceAs (Decidable (newvma.vma_vmmap = none ∧ newvma.vma_start < newvma.vma_end ∧
    ADDR_TO_PN K K.USER_MEM_LOW ≤ newvma.vma_start ∧
    ADDR_TO_PN K K.USER_MEM_HIGH ≥ newvma.vma_end))

/-- The index at which `vmmap_insert` links the new area: that of the first area with
`vma_start >= newvma->vma_end`, or the length of the list (`list_insert_tail`). -/
def vmmap_insert_pos (newvma : vmarea) : List vmarea → Nat
  | [] => 0
  | vma :: rest =>
    if vma.vma_start ≥ newvma.vma_end then 0 else vmmap_insert_pos newvma rest + 1

/-- The list loop of `vmmap_insert`: the new area, its `vma_vmmap` set to the map, goes before
the first area with `vma_start >= newvma->vma_end`, or at the tail. -/
def vmmap_insert_list (mapaddr : Nat) (newvma : vmarea) : List vmarea → List vmarea
  | [] => [{ newvma with vma_vmmap := some mapaddr }]
  | vma :: rest =>
    if vma.vma_start ≥ newvma.vma_end then
      { newvma with vma_vmmap := some mapaddr } :: vma :: rest
    else vma :: vmmap_insert_list mapaddr newvma rest

/-- The function `vmmap_insert`. -/
def vmmap_insert (map : vmmap) (newvma : vmarea) : vmmap :=
  { map with vmm_list := vmmap_insert_list map.vmm_addr newvma map.vmm_list }

/-! ## `vmmap_is_range_empty` and `vmmap_lookup` -/

/-- The `KASSERT` at the head of `vmmap_is_range_empty`. -/
def vmmap_is_range_empty_asserts (K : KParams) (startvfn npages : Nat) : Prop :=
  startvfn < u32add startvfn npages ∧ ADDR_TO_PN K K.USER_MEM_LOW ≤ startvfn ∧
  ADDR_TO_PN K K.USER_MEM_HIGH ≥ u32add startvfn npages

instance (K : KParams) (startvfn npages : Nat) :
    Decidable (vmmap_is_range_empty_asserts K startvfn npages) :=
  inferInstanceAs (Decidable (startvfn < u32add startvfn npages ∧
    ADDR_TO_PN K K.USER_MEM_LOW ≤ startvfn ∧
    ADDR_TO_PN K K.USER_MEM_HIGH ≥ u32add startvfn npages))

/-- The loop of `vmmap_is_range_empty`, `record` being the value so far. -/
def vmmap_is_range_empty_loop (startvfn npages : Nat) : List vmarea → Int → Int
  | [], record => record
  | tmp :: rest, record =>
    if tmp.vma_start < u32add startvfn npages ∧ tmp.vma_end > startvfn then
      vmmap_is_range_empty_loop startvfn npages rest 0
    else vmmap_is_range_empty_loop startvfn npages rest record

/-- The function `vmmap_is_range_empty`. -/
def vmmap_is_range_empty (map : vmmap) (startvfn npages : Nat) : Int :=
  vmmap_is_range_empty_loop startvfn npages map.vmm_list 1

/-- The loop of `vmmap_lookup`, `vma_recorded` being the area recorded so far. -/
def vmmap_lookup_loop (vfn : Nat) : List vmarea → Option vmarea → Option vmarea
  | [], vma_recorded => vma_recorded
  | vma :: rest, vma_recorded =>
    if vma_recorded = none ∧ vma.vma_start ≤ vfn ∧ vma.vma_end > vfn then
      vmmap_lookup_loop vfn rest (some vma)
    else vmmap_lookup_loop vfn rest vma_recorded

/-- The function `vmmap_lookup`. -/
def vmmap_lookup (map : vmmap) (vfn : Nat) : Option vmarea :=
  vmmap_lookup_loop vfn map.vmm_list none

/-! ## `vmmap_find_range` -/

/-- The conversion of a `uint32_t` to `int`. -/
def u32_to_int (x : Nat) : Int :=
  if x % U32 < 2147483648 then (x % U32 : Nat) else ((x % U32 : Nat) : Int) - (U32 : Int)

/-- The reverse loop of `vmmap_find_range` over the areas from the tail of the list to its
head (`rev` is the list reversed); `record` and `result` are carried as one option, and the
result is that option and `pre_start` after the loop. -/
def vmmap_find_range_loop (npages : Nat) :
    List vmarea → Option Nat → Nat → Option Nat × Nat
  | [], result, pre_start => (result, pre_start)
  | tmp :: rev, result, pre_start =>
    if result = none ∧ u32sub pre_start tmp.vma_end ≥ npages then
      vmmap_find_range_loop npages rev (some (u32sub pre_start npages)) tmp.vma_start
    else vmmap_find_range_loop npages rev result tmp.vma_start

/-- The function `vmmap_find_range`.  The argument `dir` is not read.  On a list without
areas `list_head` yields the list head itself taken as an area; `head_of_empty` is the word
read there as `vma_start`. -/
def vmmap_find_range (K : KParams) (head_of_empty : Nat) (map : vmmap) (npages : Nat)
    (_dir : Int) : Int :=
  let r := vmmap_find_range_loop npages map.vmm_list.reverse none (ADDR_TO_PN K K.USER_MEM_HIGH)
  match r.1 with
  | some result => u32_to_int result
  | none =>
    let head_start :=
      match map.vmm_list with
      | [] => head_of_empty
      | head_vma :: _ => head_vma.vma_start
    if u32sub head_start (ADDR_TO_PN K K.USER_MEM_LOW) ≥ npages then
      u32_to_int (u32sub head_start npages)
    else -1

/-! ## `vmmap_remove` -/

/-- The area allocated and filled in by case 1 of `vmmap_remove`, before it is inserted. -/
def vmmap_remove_newvma (lopage npages : Nat) (tmp : vmarea) : vmarea :=
  { vma_start := u32add lopage npages
    vma_end := tmp.vma_end
    vma_off := u32sub (u32add tmp.vma_off (u32add lopage npages)) tmp.vma_start
    vma_flags := tmp.vma_flags
    vma_prot := tmp.vma_prot
    vma_obj := tmp.vma_obj
    vma_vmmap := none }

/-- The loop of `vmmap_remove`.  `l` is the list, `i` the index of the area the iteration
visits next, `tr` the calls made so far.  One unit of fuel is used per visited area; `none`
is returned when it runs out.  A call through `vma_obj->mmo_ops` is recorded with the pointer
`vma_obj` as it is, null included: the pointer is followed where the recorded calls are run
on the heap (`run_calls`), and a null pointer is a panic there.  The `KASSERT`s of the
`vmmap_insert` call of case 1 are the predicate `vmmap_insert_asserts` on
`vmmap_remove_newvma`; they are not tested here. -/
def vmmap_remove_loop (mapaddr lopage npages : Nat) :
    Nat → List vmarea → Nat → List KCall → Option (List vmarea × List KCall)
  | 0, _, _, _ => none
  | fuel + 1, l, i, tr =>
    match l[i]? with
    | none => some (l, tr)
    | some tmp =>
      let hi := u32add lopage npages
      -- case 1
      let c1 : Bool := tmp.vma_start < lopage ∧ tmp.vma_end > hi
      let newvma := vmmap_remove_newvma lopage npages tmp
      let idx := vmmap_insert_pos newvma l
      let l1 := if c1 then vmmap_insert_list mapaddr newvma l else l
      let cur := if c1 ∧ idx ≤ i then i + 1 else i
      let next := if c1 ∧ idx ≤ i + 1 then i + 2 else i + 1
      let tr1 := if c1 then tr ++ [KCall.ref newvma.vma_obj] else tr
      let tmp1 := if c1 then { tmp with vma_end := lopage } else tmp
      -- case 2
      let c2 : Bool := tmp1.vma_start < lopage ∧ tmp1.vma_end > lopage ∧ tmp1.vma_end ≤ hi
      let tmp2 := if c2 then { tmp1 with vma_end := lopage } else tmp1
      -- case 3
      let c3 : Bool := tmp2.vma_end > hi ∧ tmp2.vma_start < hi ∧ tmp2.vma_start ≥ lopage
      let tmp3 :=
        if c3 then
          { tmp2 with vma_off := u32sub (u32add tmp2.vma_off hi) tmp2.vma_start, vma_start := hi }
        else tmp2
      -- case 4
      let c4 : Bool := tmp3.vma_start ≥ lopage ∧ tmp3.vma_end ≤ hi
      if c4 then
        vmmap_remove_loop mapaddr lopage npages fuel (l1.eraseIdx cur) (next - 1)
          (tr1 ++ [KCall.put tmp3.vma_obj])
      else
        vmmap_remove_loop mapaddr lopage npages fuel (l1.set cur tmp3) next tr1

/-- The function `vmmap_remove`: the list loop, then `tlb_flush_all` and `pt_unmap_range`,
then `return 0`.  The result is the returned value, the map and the calls made, those
through the operation table of an object among them; what these do to the heap, and whether
the object is there at all, is the matter of `run_calls`. -/
def vmmap_remove (K : KParams) (fuel : Nat) (map : vmmap) (lopage npages : Nat) :
    Option (Int × vmmap × List KCall) :=
  match vmmap_remove_loop map.vmm_addr lopage npages fuel map.vmm_list 0 [] with
  | none => none
  | some (l, tr) =>
    some (0, { map with vmm_list := l },
      tr ++ [KCall.tlb_flush_all,
        KCall.pt_unmap_range (PN_TO_ADDR K lopage) (PN_TO_ADDR K (u32add lopage npages))])

/-! ## `do_munmap` -/

/-- The function `validate_munmap_args` of `vm/mmap.c`. -/
def validate_munmap_args (K : KParams) (addr len : Nat) : Int :=
  if ¬ PAGE_ALIGNED K addr then -(K.EINVAL : Int)
  else if u32add addr len > K.USER_MEM_HIGH then -(K.EINVAL : Int)
  else if u32add addr len < K.USER_MEM_LOW then -(K.EINVAL : Int)
  else 0

/-- The function `do_munmap` of `vm/mmap.c`, on the map of the current process. -/
def do_munmap (K : KParams) (fuel : Nat) (map : vmmap) (addr len : Nat) :
    Option (Int × vmmap × List KCall) :=
  let err := validate_munmap_args K addr len
  if err < 0 then some (err, map, [])
  else
    let num_pages := if len % PAGE_SIZE K = 0 then len / PAGE_SIZE K else len / PAGE_SIZE K + 1
    match vmmap_remove K fuel map (ADDR_TO_PN K addr) num_pages with
    | none => none
    | some (_, map1, tr) => some (0, map1, tr ++ [KCall.tlb_flush_all])

/-! ## The four cases of `vmmap_remove`, area by area -/

/-- What the four cases of `vmmap_remove` leave of one area `a` when the removed range is
`[lopage, lopage + npages)`: two areas (case 1), one (cases 2 and 3, and an area the range
does not touch) or none (case 4). -/
def remove_area (mapaddr lopage npages : Nat) (a : vmarea) : List vmarea :=
  if a.vma_start < lopage ∧ a.vma_end > lopage + npages then
    [{ a with vma_end := lopage },
     { vmmap_remove_newvma lopage npages a with vma_vmmap := some mapaddr }]
  else if a.vma_start < lopage ∧ a.vma_end > lopage ∧ a.vma_end ≤ lopage + npages then
    [{ a with vma_end := lopage }]
  else if a.vma_end > lopage + npages ∧ a.vma_start < lopage + npages ∧ a.vma_start ≥ lopage then
    [{ a with vma_off := u32sub (u32add a.vma_off (lopage + npages)) a.vma_start,
              vma_start := lopage + npages }]
  else if a.vma_start ≥ lopage ∧ a.vma_end ≤ lopage + npages then []
  else [a]

/-- The calls the four cases make for one area: `ref` on a split, `put` on a deletion. -/
def remove_area_calls (lopage npages : Nat) (a : vmarea) : List KCall :=
  if a.vma_start < lopage ∧ a.vma_end > lopage + npages then [KCall.ref a.vma_obj]
  else if a.vma_start < lopage ∧ a.vma_end > lopage ∧ a.vma_end ≤ lopage + npages then []
  else if a.vma_end > lopage + npages ∧ a.vma_start < lopage + npages ∧ a.vma_start ≥ lopage then []
  else if a.vma_start ≥ lopage ∧ a.vma_end ≤ lopage + npages then [KCall.put a.vma_obj]
  else []

/-- The areas `remove_area` leaves of a list of areas, in order. -/
def remove_areas (mapaddr lopage npages : Nat) : List vmarea → List vmarea
  | [] => []
  | a :: rest => remove_area mapaddr lopage npages a ++ remove_areas mapaddr lopage npages rest

/-- The calls `remove_area_calls` gives for a list of areas, in order. -/
def remove_calls (lopage npages : Nat) : List vmarea → List KCall
  | [] => []
  | a :: rest => remove_area_calls lopage npages a ++ remove_calls lopage npages rest

/-! ## Well-formed area lists -/

/-- The page ranges `[s1, e1)` and `[s2, e2)` intersect: some page lies in both. -/
def ranges_intersect (s1 e1 s2 e2 : Nat) : Prop :=
  ∃ p, s1 ≤ p ∧ p < e1 ∧ s2 ≤ p ∧ p < e2

/-- Area `a` intersects the page range `[lo, hi)`. -/
def vmarea_intersects (a : vmarea) (lo hi : Nat) : Prop :=
  ranges_intersect a.vma_start a.vma_end lo hi

/-- A well-formed area list: sorted ascending by start page, ranges pairwise disjoint, and
`vma_start < vma_end` for every area. -/
def WellFormed (l : List vmarea) : Prop :=
  l.Pairwise (fun a b => a.vma_start ≤ b.vma_start) ∧
  l.Pairwise (fun a b => ¬ ranges_intersect a.vma_start a.vma_end b.vma_start b.vma_end) ∧
  ∀ a ∈ l, a.vma_start < a.vma_end

/-- Each area of the list ends at or before the start of every later one. -/
def Ordered (l : List vmarea) : Prop :=
  l.Pairwise (fun a b => a.vma_end ≤ b.vma_start)

/-! ## Concrete instances -/

/-- The constants of the Weenix build: 4 KiB pages, user memory from `0x00400000` to
`0xc0000000`. -/
def exK : KParams :=
  { PAGE_SHIFT := 12, USER_MEM_LOW := 0x400000, USER_MEM_HIGH := 0xc0000000,
    EINVAL := 22, ENOMEM := 12, MAP_SHARED := 1, MAP_PRIVATE := 2, MAP_TYPE := 3 }

/-- An area of the map at address 7, readable and writable, `MAP_SHARED`. -/
def exArea (s e off obj : Nat) : vmarea :=
  { vma_start := s, vma_end := e, vma_off := off, vma_prot := 3, vma_flags := 1,
    vma_vmmap := some 7, vma_obj := some obj }

/-- A map of four areas. -/
def exMap4 : vmmap :=
  { vmm_addr := 7
    vmm_list := [exArea 1024 1030 0 1, exArea 1030 1035 0 2, exArea 1040 1050 3 3,
      exArea 1060 1070 3 4]
    vmm_proc := none }

/-- A map of one area of three pages. -/
def exMap1 : vmmap :=
  { vmm_addr := 7, vmm_list := [exArea 1024 1027 0 1], vmm_proc := none }

/-! ## Memory objects and page frames

Memory objects live in a heap indexed by their address.  An object of these sources has one
of two operation tables, `anon_mmobj_ops` or `shadow_mmobj_ops`.  A call through an
operation table is a call of a field of `OpsCalls`, the table resolved by `mmo_ops_at`.
A function that can fail a `KASSERT`, dereference `NULL` or a dangling pointer, or run out of
fuel returns a `Res`.  `slab_obj_alloc` is taken to succeed. -/

/-- The outcome of a kernel function: a normal return, a kernel panic (failed `KASSERT`,
dereference of `NULL` or of a freed object), or exhausted fuel. -/
inductive Res (α : Type) where
  | ok (a : α)
  | panic
  | nofuel
deriving DecidableEq

/-- Sequencing of kernel functions. -/
def Res.bind {α β : Type} (r : Res α) (f : α → Res β) : Res β :=
  match r with
  | Res.ok a => f a
  | Res.panic => Res.panic
  | Res.nofuel => Res.nofuel

/-- The two operation tables defined in `vm/anon.c` and `vm/shadow.c`. -/
inductive mmobj_ops_t where
  | anon_mmobj_ops
  | shadow_mmobj_ops
deriving DecidableEq

/-- Modelled from the spec: the page frame `pframe_t` of `mm/pframe.h`, the cache of one
page of one object, with its pinned, busy and dirty states; `pf_data` stands for the bytes
of the page at `pf_addr`. -/
structure pframe where
  pf_obj : Nat
  pf_pagenum : Nat
  pf_addr : Nat
  pf_data : Nat
  pf_pinned : Bool
  pf_busy : Bool
  pf_dirty : Bool
deriving DecidableEq

/-- Modelled from the spec: the memory object `mmobj_t` of `mm/mmobj.h`: operation table,
reference count, number and list of resident pages, and for a shadow object the shadowed
object and the bottom object (`mmo_un.mmo_bottom_obj`). -/
structure mmobj where
  mmo_ops : mmobj_ops_t
  mmo_refcount : Int
  mmo_nrespages : Int
  mmo_respages : List pframe
  mmo_shadowed : Option Nat
  mmo_bottom_obj : Option Nat
deriving DecidableEq

/-- The state of the memory-object layer: the heap of objects, the next address the slab
allocators hand out, and the free pages (address and present bytes) of the page-frame
allocator. -/
structure VMState where
  objs : Nat → Option mmobj
  next_obj : Nat
  free_pages : List (Nat × Nat)

/-- A resolved operation table, together with the `ref` and `put` entries. -/
structure OpsCalls where
  ref : VMState → Option Nat → Res VMState
  put : VMState → Option Nat → Res VMState
  lookuppage : VMState → Nat → Nat → Int → Res (Int × Option pframe × VMState)
  fillpage : VMState → Nat → pframe → Res (Int × VMState)

/-- Writes object `ob` at address `o`. -/
def VMState.set (st : VMState) (o : Nat) (ob : mmobj) : VMState :=
  { st with objs := Function.update st.objs o (some ob) }

/-- Modelled from the spec: `mmobj_bottom_obj` of `mm/mmobj.h`: the object itself when it
shadows nothing, its `mmo_bottom_obj` otherwise. -/
def mmobj_bottom_obj (st : VMState) (o : Nat) : Res (Option Nat) :=
  match st.objs o with
  | none => Res.panic
  | some ob => if ob.mmo_shadowed = none then Res.ok (some o) else Res.ok ob.mmo_bottom_obj

/-! ### The page-frame service -/

/-- Modelled from the spec: `pframe_get_resident`, the cache lookup without populating: the
resident frame of page `pagenum` of object `o`, if there is one. -/
def pframe_get_resident (st : VMState) (o : Option Nat) (pagenum : Nat) : Option pframe :=
  match o with
  | none => none
  | some a =>
    match st.objs a with
    | none => none
    | some ob => ob.mmo_respages.find? (fun pf => pf.pf_pagenum == pagenum)

/-- Applies `f` to the resident frame that `pf` points to. -/
def pframe_update (st : VMState) (pf : pframe) (f : pframe → pframe) : VMState :=
  match st.objs pf.pf_obj with
  | none => st
  | some ob =>
    st.set pf.pf_obj
      { ob with mmo_respages :=
          ob.mmo_respages.map (fun q => if q.pf_pagenum = pf.pf_pagenum then f q else q) }

/-- Modelled from the spec: `pframe_pin`. -/
def pframe_pin (st : VMState) (pf : pframe) : VMState :=
  pframe_update st pf (fun q => { q with pf_pinned := true })

/-- Modelled from the spec: `pframe_unpin`. -/
def pframe_unpin (st : VMState) (pf : pframe) : VMState :=
  pframe_update st pf (fun q => { q with pf_pinned := false })

/-- Modelled from the spec: `pframe_dirty`, which marks the frame dirty (the `dirtypage`
operations of both tables return 0). -/
def pframe_dirty (st : VMState) (pf : pframe) : VMState :=
  pframe_update st pf (fun q => { q with pf_dirty := true })

/-- Modelled from the spec: `memcpy(pf->pf_addr, src->pf_addr, PAGE_SIZE)`. -/
def pframe_copy (st : VMState) (pf src : pframe) : VMState :=
  pframe_update st pf (fun q => { q with pf_data := src.pf_data })

/-- Modelled from the spec: `pframe_free`: the frame leaves the resident pages of its
object, the reference the page held on the object is dropped, and the page returns to the
allocator. -/
def pframe_free (st : VMState) (pf : pframe) : VMState :=
  match st.objs pf.pf_obj with
  | none => st
  | some ob =>
    { st.set pf.pf_obj
        { ob with
          mmo_respages := ob.mmo_respages.filter (fun q => q.pf_pagenum != pf.pf_pagenum)
          mmo_nrespages := ob.mmo_nrespages - 1
          mmo_refcount := ob.mmo_refcount - 1 } with
      free_pages := (pf.pf_addr, pf.pf_data) :: st.free_pages }

/-- The frame `pframe_alloc` makes of a free page: busy, not pinned, not dirty, with the
bytes the page holds. -/
def pframe_fresh (o pagenum addr bytes : Nat) : pframe :=
  { pf_obj := o, pf_pagenum := pagenum, pf_addr := addr, pf_data := bytes,
    pf_pinned := false, pf_busy := true, pf_dirty := false }

/-- The heap after frame `f` became resident in object `o`, which was `ob`: the frame heads
the resident pages, the counts of pages and of references (the page holds one) rise by one,
and `rest` are the pages still free. -/
def with_new_frame (st : VMState) (o : Nat) (ob : mmobj) (f : pframe)
    (rest : List (Nat × Nat)) : VMState :=
  { objs := Function.update st.objs o
      (some { ob with mmo_respages := f :: ob.mmo_respages
                      mmo_nrespages := ob.mmo_nrespages + 1
                      mmo_refcount := ob.mmo_refcount + 1 })
    next_obj := st.next_obj
    free_pages := rest }

/-- The end of `pframe_get` once `fillpage` has returned `r`: on an error the frame is freed
and the error returned; otherwise the frame is no longer busy and is returned. -/
def pframe_get_filled (o pagenum : Nat) (pf : pframe) (r : Int × VMState) :
    Res (Int × Option pframe × VMState) :=
  if r.1 < 0 then Res.ok (r.1, none, pframe_free r.2 pf)
  else
    let st2 := pframe_update r.2 pf (fun q => { q with pf_busy := false })
    match pframe_get_resident st2 (some o) pagenum with
    | none => Res.panic
    | some live => Res.ok (0, some live, st2)

/-- Modelled from the spec: `pframe_get`, the frame-acquire primitive.  A resident frame is
returned as it is.  Otherwise a free page becomes a busy, unpinned frame of the object (which
the page holds a reference on), the `fillpage` operation of the object fills it, and it is
returned no longer busy; without a free page the result is `-ENOMEM`, and when `fillpage`
fails the frame is freed and the error returned. -/
def pframe_get (K : KParams) (T : OpsCalls) (st : VMState) (o pagenum : Nat) :
    Res (Int × Option pframe × VMState) :=
  match pframe_get_resident st (some o) pagenum with
  | some pf => Res.ok (0, some pf, st)
  | none =>
    match st.objs o, st.free_pages with
    | none, _ => Res.panic
    | some _, [] => Res.ok (-(K.ENOMEM : Int), none, st)
    | some ob, (addr, bytes) :: rest =>
      (T.fillpage (with_new_frame st o ob (pframe_fresh o pagenum addr bytes) rest) o
          (pframe_fresh o pagenum addr bytes)).bind
        (pframe_get_filled o pagenum (pframe_fresh o pagenum addr bytes))

/-- Modelled from the spec: `pframe_lookup`, the full lookup: the `lookuppage` operation of
the object. -/
def pframe_lookup (T : OpsCalls) (st : VMState) (o : Option Nat) (pagenum : Nat)
    (forwrite : Int) : Res (Int × Option pframe × VMState) :=
  match o with
  | none => Res.panic
  | some a => T.lookuppage st a pagenum forwrite

/-- Modelled from the spec: `slab_obj_free` on a memory object: the object leaves the heap. -/
def slab_obj_free (st : VMState) (o : Nat) : VMState :=
  { st with objs := Function.update st.objs o none }

/-- The page loop of `anon_put` and `shadow_put`: every resident page is unpinned if it is
pinned, then freed. -/
def put_free_pages (st : VMState) : List pframe → VMState
  | [] => st
  | pf :: rest =>
    let st1 := if pf.pf_pinned then pframe_unpin st pf else st
    put_free_pages (pframe_free st1 pf) rest

/-! ### `vm/anon.c` -/

/-- The function `anon_create`. -/
def anon_create (st : VMState) : Option Nat × VMState :=
  (some st.next_obj,
    { st.set st.next_obj
        { mmo_ops := mmobj_ops_t.anon_mmobj_ops, mmo_refcount := 1, mmo_nrespages := 0,
          mmo_respages := [], mmo_shadowed := none, mmo_bottom_obj := none } with
      next_obj := st.next_obj + 1 })

/-- The function `anon_ref`. -/
def anon_ref (st : VMState) (o : Option Nat) : Res VMState :=
  match o with
  | none => Res.panic
  | some a =>
    match st.objs a with
    | none => Res.panic
    | some ob =>
      if 0 < ob.mmo_refcount ∧ ob.mmo_ops = mmobj_ops_t.anon_mmobj_ops then
        Res.ok (st.set a { ob with mmo_refcount := ob.mmo_refcount + 1 })
      else Res.panic

/-- The function `anon_put`.  When the object has been freed the final decrement of the
reference count writes to freed memory and leaves no trace in the heap. -/
def anon_put (st : VMState) (o : Option Nat) : Res VMState :=
  match o with
  | none => Res.panic
  | some a =>
    match st.objs a with
    | none => Res.panic
    | some ob =>
      if 0 < ob.mmo_refcount ∧ ob.mmo_ops = mmobj_ops_t.anon_mmobj_ops then
        if ob.mmo_refcount = ob.mmo_nrespages + 1 then
          Res.ok (slab_obj_free (put_free_pages st ob.mmo_respages) a)
        else Res.ok (st.set a { ob with mmo_refcount := ob.mmo_refcount - 1 })
      else Res.panic

/-- The function `anon_fillpage`. -/
def anon_fillpage (st : VMState) (_o : Nat) (pf : pframe) : Res (Int × VMState) :=
  if pf.pf_busy ∧ ¬ pf.pf_pinned then
    Res.ok (0, pframe_update (pframe_pin st pf) pf (fun q => { q with pf_data := 0 }))
  else Res.panic

/-- The function `anon_lookuppage`. -/
def anon_lookuppage (K : KParams) (T : OpsCalls) (st : VMState) (o pagenum : Nat)
    (_forwrite : Int) : Res (Int × Option pframe × VMState) :=
  pframe_get K T st o pagenum

/-! ### `vm/shadow.c` -/

/-- The function `shadow_create`. -/
def shadow_create (st : VMState) : Nat × VMState :=
  (st.next_obj,
    { st.set st.next_obj
        { mmo_ops := mmobj_ops_t.shadow_mmobj_ops, mmo_refcount := 1, mmo_nrespages := 0,
          mmo_respages := [], mmo_shadowed := none, mmo_bottom_obj := none } with
      next_obj := st.next_obj + 1 })

/-- The function `shadow_ref`. -/
def shadow_ref (st : VMState) (o : Option Nat) : Res VMState :=
  match o with
  | none => Res.panic
  | some a =>
    match st.objs a with
    | none => Res.panic
    | some ob =>
      if 0 < ob.mmo_refcount ∧ ob.mmo_ops = mmobj_ops_t.shadow_mmobj_ops then
        Res.ok (st.set a { ob with mmo_refcount := ob.mmo_refcount + 1 })
      else Res.panic

/-- The function `shadow_put`; `T.put` is the call through the operation table of the
shadowed and of the bottom object. -/
def shadow_put (T : OpsCalls) (st : VMState) (o : Option Nat) : Res VMState :=
  match o with
  | none => Res.panic
  | some a =>
    match st.objs a with
    | none => Res.panic
    | some ob =>
      if 0 < ob.mmo_refcount ∧ ob.mmo_ops = mmobj_ops_t.shadow_mmobj_ops then
        if ob.mmo_nrespages ≠ ob.mmo_refcount - 1 then
          Res.ok (st.set a { ob with mmo_refcount := ob.mmo_refcount - 1 })
        else
          let st1 := put_free_pages st ob.mmo_respages
          match st1.objs a with
          | none => Res.panic
          | some ob1 =>
            let st2 := st1.set a { ob1 with mmo_refcount := ob1.mmo_refcount - 1 }
            (T.put st2 ob1.mmo_shadowed).bind fun st3 =>
              match st3.objs a with
              | none => Res.panic
              | some ob3 =>
                (T.put st3 ob3.mmo_bottom_obj).bind fun st4 => Res.ok (slab_obj_free st4 a)
      else Res.panic

/-- The read loop of `shadow_lookuppage`: from `cur`, while the object shadows another, the
resident frame of the page if the object has one, else on to the shadowed object.  The result
is `tempPf` after the loop. -/
def shadow_lookuppage_walk (st : VMState) (pagenum : Nat) : Nat → Nat → Res (Option pframe)
  | 0, _ => Res.nofuel
  | fuel + 1, cur =>
    match st.objs cur with
    | none => Res.panic
    | some c =>
      match c.mmo_shadowed with
      | none => Res.ok none
      | some next =>
        match pframe_get_resident st (some cur) pagenum with
        | none => shadow_lookuppage_walk st pagenum fuel next
        | some tempPf => Res.ok (some tempPf)

/-- The two `KASSERT`s at the end of `shadow_lookuppage`, before `return 0`. -/
def shadow_lookuppage_return (st : VMState) (pagenum : Nat) (pf : Option pframe) :
    Res (Int × Option pframe × VMState) :=
  match pf with
  | none => Res.panic
  | some f =>
    if pagenum = f.pf_pagenum ∧ ¬ f.pf_busy then Res.ok (0, some f, st) else Res.panic

/-- The function `shadow_lookuppage`; `fuel` bounds the read loop. -/
def shadow_lookuppage (K : KParams) (T : OpsCalls) (fuel : Nat) (st : VMState)
    (o pagenum : Nat) (forwrite : Int) : Res (Int × Option pframe × VMState) :=
  if forwrite = 0 then
    (shadow_lookuppage_walk st pagenum fuel o).bind fun tempPf =>
      match tempPf with
      | some f => shadow_lookuppage_return st pagenum (some f)
      | none =>
        match st.objs o with
        | none => Res.panic
        | some ob =>
          (pframe_lookup T st ob.mmo_bottom_obj pagenum 0).bind fun r =>
            if r.1 < 0 then Res.ok (r.1, none, r.2.2)
            else shadow_lookuppage_return r.2.2 pagenum r.2.1
  else
    match pframe_get_resident st (some o) pagenum with
    | some f => shadow_lookuppage_return st pagenum (some f)
    | none =>
      (pframe_get K T st o pagenum).bind fun r =>
        if r.1 < 0 then Res.ok (r.1, none, r.2.2)
        else
          match r.2.1 with
          | none => Res.panic
          | some f =>
            shadow_lookuppage_return (pframe_dirty r.2.2 f) pagenum
              (some { f with pf_dirty := true })

/-- The loop of `shadow_fillpage`: from `cur`, the resident frame of the page in the object
that `cur` shadows if there is one, else on to that object, until `cur` is `NULL`.  The
result is `shadowpf` after the loop. -/
def shadow_fillpage_walk (st : VMState) (pagenum : Nat) : Nat → Option Nat → Res (Option pframe)
  | _, none => Res.ok none
  | 0, some _ => Res.nofuel
  | fuel + 1, some cur =>
    match st.objs cur with
    | none => Res.panic
    | some c =>
      match pframe_get_resident st c.mmo_shadowed pagenum with
      | none => shadow_fillpage_walk st pagenum fuel c.mmo_shadowed
      | some shadowpf => Res.ok (some shadowpf)

/-- The function `shadow_fillpage`; `fuel` bounds the loop. -/
def shadow_fillpage (T : OpsCalls) (fuel : Nat) (st : VMState) (o : Nat) (pf : pframe) :
    Res (Int × VMState) :=
  if pf.pf_busy ∧ ¬ pf.pf_pinned then
    (shadow_fillpage_walk st pf.pf_pagenum fuel (some o)).bind fun shadowpf =>
      match shadowpf with
      | some src => Res.ok (0, pframe_pin (pframe_copy st pf src) pf)
      | none =>
        match st.objs o with
        | none => Res.panic
        | some ob =>
          (pframe_lookup T st ob.mmo_bottom_obj pf.pf_pagenum 0).bind fun r =>
            if r.1 ≥ 0 then
              match r.2.1 with
              | none => Res.panic
              | some src => Res.ok (0, pframe_pin (pframe_copy r.2.2 pf src) pf)
            else Res.ok (r.1, r.2.2)
  else Res.panic

/-! ### Calls through the operation tables -/

/-- The operation tables resolved with `fuel` levels of nested calls left: an entry looks at
`o->mmo_ops` and calls the function of `vm/anon.c` or `vm/shadow.c` it names. -/
def mmo_ops_at (K : KParams) : Nat → OpsCalls
  | 0 =>
    { ref := fun _ _ => Res.nofuel
      put := fun _ _ => Res.nofuel
      lookuppage := fun _ _ _ _ => Res.nofuel
      fillpage := fun _ _ _ => Res.nofuel }
  | fuel + 1 =>
    let T := mmo_ops_at K fuel
    { ref := fun st o =>
        match o.bind st.objs with
        | none => Res.panic
        | some ob =>
          match ob.mmo_ops with
          | mmobj_ops_t.anon_mmobj_ops => anon_ref st o
          | mmobj_ops_t.shadow_mmobj_ops => shadow_ref st o
      put := fun st o =>
        match o.bind st.objs with
        | none => Res.panic
        | some ob =>
          match ob.mmo_ops with
          | mmobj_ops_t.anon_mmobj_ops => anon_put st o
          | mmobj_ops_t.shadow_mmobj_ops => shadow_put T st o
      lookuppage := fun st o pagenum forwrite =>
        match st.objs o with
        | none => Res.panic
        | some ob =>
          match ob.mmo_ops with
          | mmobj_ops_t.anon_mmobj_ops => anon_lookuppage K T st o pagenum forwrite
          | mmobj_ops_t.shadow_mmobj_ops =>
            shadow_lookuppage K T (fuel + 1) st o pagenum forwrite
      fillpage := fun st o pf =>
        match st.objs o with
        | none => Res.panic
        | some ob =>
          match ob.mmo_ops with
          | mmobj_ops_t.anon_mmobj_ops => anon_fillpage st o pf
          | mmobj_ops_t.shadow_mmobj_ops => shadow_fillpage T (fuel + 1) st o pf }

/-- A heap with an anonymous object at address 1 and a shadow object at address 2 that
shadows it and has it as bottom object; three pages are free. -/
def exHeap : VMState :=
  { objs := fun i =>
      if i = 1 then
        some { mmo_ops := mmobj_ops_t.anon_mmobj_ops, mmo_refcount := 2, mmo_nrespages := 0,
               mmo_respages := [], mmo_shadowed := none, mmo_bottom_obj := none }
      else if i = 2 then
        some { mmo_ops := mmobj_ops_t.shadow_mmobj_ops, mmo_refcount := 1, mmo_nrespages := 0,
               mmo_respages := [], mmo_shadowed := some 1, mmo_bottom_obj := some 1 }
      else none
    next_obj := 3
    free_pages := [(100, 77), (101, 78), (102, 79)] }

/-- The anonymous object of `exHeap`. -/
def exAnon : mmobj :=
  { mmo_ops := mmobj_ops_t.anon_mmobj_ops, mmo_refcount := 2, mmo_nrespages := 0,
    mmo_respages := [], mmo_shadowed := none, mmo_bottom_obj := none }

/-- The shadow object of `exHeap`. -/
def exShadow : mmobj :=
  { mmo_ops := mmobj_ops_t.shadow_mmobj_ops, mmo_refcount := 1, mmo_nrespages := 0,
    mmo_respages := [], mmo_shadowed := some 1, mmo_bottom_obj := some 1 }

/-- The calls of a trace run on the heap: `ref` and `put` go through the operation table;
the page-table calls leave the heap as it is. -/
def run_calls (T : OpsCalls) : VMState → List KCall → Res VMState
  | st, [] => Res.ok st
  | st, KCall.ref o :: rest => (T.ref st o).bind fun st1 => run_calls T st1 rest
  | st, KCall.put o :: rest => (T.put st o).bind fun st1 => run_calls T st1 rest
  | st, KCall.tlb_flush_all :: rest => run_calls T st rest
  | st, KCall.pt_unmap_range _ _ :: rest => run_calls T st rest

/-- The number of areas of the list bound to object `X`. -/
def areas_bound (X : Nat) (l : List vmarea) : Nat :=
  l.countP (fun a => a.vma_obj = some X)

/-- The number of `ref` calls on object `X` in a trace. -/
def ref_calls (X : Nat) (tr : List KCall) : Nat := tr.count (KCall.ref (some X))

/-- The number of `put` calls on object `X` in a trace. -/
def put_calls (X : Nat) (tr : List KCall) : Nat := tr.count (KCall.put (some X))

/-- The reference count of object `X` in the state a function returned, if it returned and
the object is in the heap. -/
def refcount_of (r : Res VMState) (X : Nat) : Option Int :=
  match r with
  | Res.ok st => (st.objs X).map (·.mmo_refcount)
  | _ => none

/-- The heap after a private anonymous mapping was forked: the anonymous object at 1, its
first shadow object at 2, and the shadow objects of parent and child at 3 and 4. -/
def exHeapFork : VMState :=
  { objs := fun i =>
      if i = 1 then
        some { mmo_ops := mmobj_ops_t.anon_mmobj_ops, mmo_refcount := 4, mmo_nrespages := 0,
               mmo_respages := [], mmo_shadowed := none, mmo_bottom_obj := none }
      else if i = 2 then
        some { mmo_ops := mmobj_ops_t.shadow_mmobj_ops, mmo_refcount := 2, mmo_nrespages := 0,
               mmo_respages := [], mmo_shadowed := some 1, mmo_bottom_obj := some 1 }
      else if i = 3 ∨ i = 4 then
        some { mmo_ops := mmobj_ops_t.shadow_mmobj_ops, mmo_refcount := 1, mmo_nrespages := 0,
               mmo_respages := [], mmo_shadowed := some 2, mmo_bottom_obj := some 1 }
      else none
    next_obj := 5
    free_pages := [] }

/-- The map of the parent after the fork: one private area bound to the shadow object at 3. -/
def exMapFork : vmmap :=
  { vmm_addr := 7
    vmm_list := [{ vma_start := 1024, vma_end := 1027, vma_off := 0, vma_prot := 3,
                   vma_flags := 2, vma_vmmap := some 7, vma_obj := some 3 }]
    vmm_proc := none }

/-! ## `vmmap_map` -/

/-- The `KASSERT`s at the head of `vmmap_map`. -/
def vmmap_map_asserts (K : KParams) (lopage npages flags off : Nat) : Prop :=
  0 < npages ∧ (K.MAP_SHARED &&& flags ≠ 0 ∨ K.MAP_PRIVATE &&& flags ≠ 0) ∧
  (0 = lopage ∨ ADDR_TO_PN K K.USER_MEM_LOW ≤ lopage) ∧
  (0 = lopage ∨ ADDR_TO_PN K K.USER_MEM_HIGH ≥ u32add lopage npages) ∧
  PAGE_ALIGNED K off = true

instance (K : KParams) (lopage npages flags off : Nat) :
    Decidable (vmmap_map_asserts K lopage npages flags off) :=
  inferInstanceAs (Decidable (0 < npages ∧
    (K.MAP_SHARED &&& flags ≠ 0 ∨ K.MAP_PRIVATE &&& flags ≠ 0) ∧
    (0 = lopage ∨ ADDR_TO_PN K K.USER_MEM_LOW ≤ lopage) ∧
    (0 = lopage ∨ ADDR_TO_PN K K.USER_MEM_HIGH ≥ u32add lopage npages) ∧
    PAGE_ALIGNED K off = true))

/-- What `vmmap_map` returns and leaves behind: the returned value, the map, the area stored
through `new`, the heap, and the calls made to operation tables and to the page-table layer. -/
structure MapResult where
  ret : Int
  map : vmmap
  new : Option vmarea
  st : VMState
  calls : List KCall

/-- The second half of `vmmap_map`, from `vmarea_alloc` on, with `lopage` settled: the area
is filled in and inserted (a failed `KASSERT` of `vmmap_insert` is a panic), bound to the
object of the file (`file` is the `mmap` operation of its vnode, whose returned value is not
read) or to a new anonymous object, and for `MAP_PRIVATE` to a new shadow object over it. -/
def vmmap_map_area (K : KParams) (T : OpsCalls)
    (file : Option (VMState → Int × Option Nat × VMState)) (map : vmmap) (st : VMState)
    (calls : List KCall) (lopage npages prot flags off : Nat) : Res MapResult :=
  let vma : vmarea :=
    { vma_start := lopage, vma_end := u32add lopage npages, vma_off := ADDR_TO_PN K off,
      vma_flags := flags, vma_prot := prot, vma_vmmap := none, vma_obj := none }
  if ¬ vmmap_insert_asserts K vma then Res.panic
  else
    let idx := vmmap_insert_pos vma map.vmm_list
    let map1 := vmmap_insert map vma
    let created : Option Nat × VMState :=
      match file with
      | some mmap => ((mmap st).2.1, (mmap st).2.2)
      | none => anon_create st
    match created.1 with
    | none => Res.panic
    | some o =>
      if flags &&& K.MAP_PRIVATE ≠ 0 then
        let sh := shadow_create created.2
        match sh.2.objs sh.1 with
        | none => Res.panic
        | some sob =>
          (mmobj_bottom_obj sh.2 o).bind fun bottom_obj =>
            let st1 := sh.2.set sh.1
              { sob with mmo_shadowed := some o, mmo_bottom_obj := bottom_obj }
            (T.ref st1 bottom_obj).bind fun st2 =>
              let vma1 := { vma with vma_vmmap := some map.vmm_addr, vma_obj := some sh.1 }
              Res.ok
                { ret := 0, map := { map1 with vmm_list := map1.vmm_list.set idx vma1 },
                  new := some vma1, st := st2, calls := calls ++ [KCall.ref bottom_obj] }
      else
        let vma1 := { vma with vma_vmmap := some map.vmm_addr, vma_obj := some o }
        Res.ok
          { ret := 0, map := { map1 with vmm_list := map1.vmm_list.set idx vma1 },
            new := some vma1, st := created.2, calls := calls }

/-- The function `vmmap_map`; `fuel` is the fuel of the loop of `vmmap_remove`, and a null
`new` is not modelled apart (the area is reported in either case).  A failed `KASSERT`, of
`vmmap_map` itself, of `vmmap_is_range_empty` or of `vmmap_insert`, is a panic, and so is a
call of `vmmap_remove` that goes through a null or dangling object pointer (`run_calls`). -/
def vmmap_map (K : KParams) (T : OpsCalls) (fuel head_of_empty : Nat) (map : vmmap)
    (st : VMState) (file : Option (VMState → Int × Option Nat × VMState))
    (lopage npages prot flags off : Nat) (dir : Int) : Res MapResult :=
  if ¬ vmmap_map_asserts K lopage npages flags off then Res.panic
  else if lopage = 0 then
    let range := vmmap_find_range K head_of_empty map npages dir
    if range < 0 then Res.ok { ret := range, map := map, new := none, st := st, calls := [] }
    else vmmap_map_area K T file map st [] range.toNat npages prot flags off
  else if ¬ vmmap_is_range_empty_asserts K lopage npages then Res.panic
  else if vmmap_is_range_empty map lopage npages = 0 then
    match vmmap_remove K fuel map lopage npages with
    | none => Res.nofuel
    | some (_, map1, tr) =>
      (run_calls T st tr).bind fun st1 =>
        vmmap_map_area K T file map1 st1 tr lopage npages prot flags off
  else vmmap_map_area K T file map st [] lopage npages prot flags off

/-! ## `handle_memory_object` of `proc/fork.c` -/

/-- The function `handle_memory_object`: the child area and the parent area after the call,
and the heap.  The link of the child area into the area list of the bottom object is not
modelled. -/
def handle_memory_object (K : KParams) (T : OpsCalls) (st : VMState)
    (childVmArea parentVmArea : vmarea) : Res (vmarea × vmarea × VMState) :=
  if K.MAP_SHARED ≠ childVmArea.vma_flags &&& K.MAP_TYPE then
    match parentVmArea.vma_obj with
    | none => Res.panic
    | some p =>
      let parentSO := shadow_create st
      (mmobj_bottom_obj parentSO.2 p).bind fun pbottom =>
        match parentSO.2.objs parentSO.1 with
        | none => Res.panic
        | some pob =>
          let st1 := parentSO.2.set parentSO.1
            { pob with mmo_shadowed := some p, mmo_bottom_obj := pbottom }
          let childSO := shadow_create st1
          match childSO.2.objs childSO.1 with
          | none => Res.panic
          | some cob =>
            let st2 := childSO.2.set childSO.1 { cob with mmo_shadowed := some p }
            (T.ref st2 (some p)).bind fun st3 =>
              (mmobj_bottom_obj st3 p).bind fun cbottom =>
                match st3.objs childSO.1 with
                | none => Res.panic
                | some cob3 =>
                  let st4 := st3.set childSO.1 { cob3 with mmo_bottom_obj := cbottom }
                  (T.ref st4 cbottom).bind fun st5 =>
                    match st5.objs parentSO.1 with
                    | none => Res.panic
                    | some pob5 =>
                      (T.ref st5 pob5.mmo_bottom_obj).bind fun st6 =>
                        Res.ok ({ childVmArea with vma_obj := some childSO.1 },
                          { parentVmArea with vma_obj := some parentSO.1 }, st6)
  else
    (T.ref st parentVmArea.vma_obj).bind fun st1 =>
      Res.ok ({ childVmArea with vma_obj := parentVmArea.vma_obj }, parentVmArea, st1)

/-! ## Maps reachable from the empty map -/

/-- The maps obtained from a map without areas by `vmmap_remove` (on a page range that does
not wrap around `2 ^ 32`), by `vmmap_insert` of an area that passes the assertions of
`vmmap_insert` and intersects no area of the map, and by `vmmap_map` at a non-zero `lopage`
with 32-bit arguments that pass the assertion on the range. -/
inductive Reachable (K : KParams) : vmmap → Prop where
  | empty (addr : Nat) (proc : Option Nat) :
      Reachable K { vmm_addr := addr, vmm_list := [], vmm_proc := proc }
  | remove (map map1 : vmmap) (fuel lopage npages : Nat) (ret : Int) (tr : List KCall) :
      Reachable K map → lopage + npages < U32 →
      vmmap_remove K fuel map lopage npages = some (ret, map1, tr) → Reachable K map1
  | insert (map : vmmap) (newvma : vmarea) :
      Reachable K map → vmmap_insert_asserts K newvma →
      (∀ a ∈ map.vmm_list, ¬ vmarea_intersects a newvma.vma_start newvma.vma_end) →
      Reachable K (vmmap_insert map newvma)
  | map_fixed (map : vmmap) (T : OpsCalls) (fuel head_of_empty : Nat) (st : VMState)
      (file : Option (VMState → Int × Option Nat × VMState))
      (lopage npages prot flags off : Nat) (dir : Int) (r : MapResult) :
      Reachable K map → lopage ≠ 0 → lopage < U32 → npages < U32 →
      vmmap_is_range_empty_asserts K lopage npages →
      vmmap_map K T fuel head_of_empty map st file lopage npages prot flags off dir = Res.ok r →
      Reachable K r.map

/-! ## Shadow chains -/

/-- `ShadowChain st o chain b`: following `mmo_shadowed` from `o` passes through the objects
`chain`, each of which shadows the next, and arrives at `b`, which shadows nothing. -/
inductive ShadowChain (st : VMState) : Nat → List Nat → Nat → Prop where
  | bottom (b : Nat) (ob : mmobj) :
      st.objs b = some ob → ob.mmo_shadowed = none → ShadowChain st b [] b
  | step (o next b : Nat) (ob : mmobj) (chain : List Nat) :
      st.objs o = some ob → ob.mmo_shadowed = some next → ShadowChain st next chain b →
      ShadowChain st o (o :: chain) b

/-- The resident frame of page `pagenum` in the first object of the list that has one. -/
def first_resident (st : VMState) (pagenum : Nat) : List Nat → Option pframe
  | [] => none
  | s :: rest =>
    match pframe_get_resident st (some s) pagenum with
    | some pf => some pf
    | none => first_resident st pagenum rest

/-- No resident frame of object `o` is busy. -/
def no_busy_frame (st : VMState) (o : Nat) : Prop :=
  ∀ ob, st.objs o = some ob → ∀ pf ∈ ob.mmo_respages, pf.pf_busy = false

/-- The frame `pframe_get` makes of the free page at `addr` for page `pagenum` of an
anonymous object `b`: zero-filled and pinned by `anon_fillpage`, no longer busy. -/
def anon_new_frame (b pagenum addr : Nat) : pframe :=
  { pf_obj := b, pf_pagenum := pagenum, pf_addr := addr, pf_data := 0, pf_pinned := true,
    pf_busy := false, pf_dirty := false }

/-- The busy frame for page 5 that `pframe_get` hands to `shadow_fillpage` in `exHeapFill`. -/
def exFrame : pframe := pframe_fresh 2 5 100 77

/-- The heap `exHeap` once `pframe_get` has made `exFrame` resident in the shadow object. -/
def exHeapFill : VMState := with_new_frame exHeap 2 exShadow exFrame [(101, 78), (102, 79)]

/-- The two heaps have the same objects with the same operation tables and the same
`mmo_shadowed` and `mmo_bottom_obj` links. -/
def same_links (st st1 : VMState) : Prop :=
  ∀ x, (st1.objs x).map (fun ob => (ob.mmo_ops, ob.mmo_shadowed, ob.mmo_bottom_obj))
    = (st.objs x).map (fun ob => (ob.mmo_ops, ob.mmo_shadowed, ob.mmo_bottom_obj))

/-- The frame a write lookup makes for page `pagenum` of shadow object `s` on the free page
at `addr`, with the bytes of the frame `src` it was filled from: pinned, dirty, not busy. -/
def cow_frame (s pagenum addr : Nat) (src : pframe) : pframe :=
  { pf_obj := s, pf_pagenum := pagenum, pf_addr := addr, pf_data := src.pf_data,
    pf_pinned := true, pf_busy := false, pf_dirty := true }

/-- Two distinct shadow objects `s1` and `s2` that shadow the same object: below each lies
the same chain `c` of shadow objects over the anonymous bottom object `b`, which both name as
their bottom object; no resident frame of any of these objects is busy. -/
structure CowPair (st : VMState) (s1 s2 b : Nat) (c : List Nat) : Prop where
  ne : s1 ≠ s2
  chain1 : ShadowChain st s1 (s1 :: c) b
  chain2 : ShadowChain st s2 (s2 :: c) b
  shadow1 : ∃ ob, st.objs s1 = some ob ∧ ob.mmo_ops = mmobj_ops_t.shadow_mmobj_ops ∧
    ob.mmo_bottom_obj = some b
  shadow2 : ∃ ob, st.objs s2 = some ob ∧ ob.mmo_ops = mmobj_ops_t.shadow_mmobj_ops ∧
    ob.mmo_bottom_obj = some b
  anon : ∃ bob, st.objs b = some bob ∧ bob.mmo_ops = mmobj_ops_t.anon_mmobj_ops
  busy : ∀ z ∈ s1 :: s2 :: c ++ [b], no_busy_frame st z

/-- A private area of the parent over pages [1024, 1027), bound to the shadow object of
`exHeap`. -/
def exParentArea : vmarea :=
  { vma_start := 1024, vma_end := 1027, vma_off := 0, vma_prot := 3, vma_flags := 2,
    vma_vmmap := some 7, vma_obj := some 2 }

/-- The area of the child that `vmmap_clone` made of `exParentArea`: bound to no object. -/
def exChildArea : vmarea :=
  { vma_start := 1024, vma_end := 1027, vma_off := 0, vma_prot := 3, vma_flags := 2,
    vma_vmmap := some 8, vma_obj := none }

/-! ## Reference conservation -/

/-- Every resident frame of every object of the heap names that object as its owner. -/
def frames_owned (st : VMState) : Prop :=
  ∀ Z ob, st.objs Z = some ob → ∀ pf ∈ ob.mmo_respages, pf.pf_obj = Z

/-- Every object of `st1` was in `st`, with the same operation table and the same shadowed
and bottom object: between the two heaps no object was created and no link changed. -/
def links_kept (st st1 : VMState) : Prop :=
  ∀ Z ob1, st1.objs Z = some ob1 →
    ∃ ob, st.objs Z = some ob ∧ ob1.mmo_ops = ob.mmo_ops ∧
      ob1.mmo_shadowed = ob.mmo_shadowed ∧ ob1.mmo_bottom_obj = ob.mmo_bottom_obj

/-- Every object of `st` that shadows `X` or has `X` as its bottom object is still in `st1`:
no such object was torn down between the two heaps. -/
def shadowers_live (st st1 : VMState) (X : Nat) : Prop :=
  ∀ W obW, st.objs W = some obW →
    (obW.mmo_shadowed = some X ∨ obW.mmo_bottom_obj = some X) → st1.objs W ≠ none

/-! ## `vmmap_create` and `vmmap_clone` -/

/-- The function `vmmap_create`; `newaddr` is the address `slab_obj_alloc` returns. -/
def vmmap_create (newaddr : Nat) : vmmap :=
  { vmm_addr := newaddr, vmm_list := [], vmm_proc := none }

/-- The area the loop of `vmmap_clone` allocates and fills in for the area `tmp` of the
source map; `newaddr` is the address of the new map. -/
def vmmap_clone_area (newaddr : Nat) (tmp : vmarea) : vmarea :=
  { vma_obj := none, vma_start := tmp.vma_start, vma_end := tmp.vma_end,
    vma_off := tmp.vma_off, vma_flags := tmp.vma_flags, vma_prot := tmp.vma_prot,
    vma_vmmap := some newaddr }

/-- The loop of `vmmap_clone` over the areas of the source map; `newlist` is the list of the
new map so far, to which `list_insert_tail` adds. -/
def vmmap_clone_loop (newaddr : Nat) : List vmarea → List vmarea → List vmarea
  | [], newlist => newlist
  | tmp :: rest, newlist =>
    vmmap_clone_loop newaddr rest (newlist ++ [vmmap_clone_area newaddr tmp])

/-- The function `vmmap_clone`: the new map.  The source map is read only. -/
def vmmap_clone (newaddr : Nat) (map : vmmap) : vmmap :=
  let newmap := vmmap_create newaddr
  { newmap with vmm_list := vmmap_clone_loop newaddr map.vmm_list []
                vmm_proc := map.vmm_proc }

/-- Constants in which the user window is pages [0, 40). -/
def exKSmall : KParams :=
  { PAGE_SHIFT := 12, USER_MEM_LOW := 0, USER_MEM_HIGH := 40 * 4096,
    EINVAL := 22, ENOMEM := 12, MAP_SHARED := 1, MAP_PRIVATE := 2, MAP_TYPE := 3 }

/-- A map with the areas [10, 20) and [30, 40). -/
def exMapGap : vmmap :=
  { vmm_addr := 7, vmm_list := [exArea 10 20 0 1, exArea 30 40 0 2], vmm_proc := none }

/-- A map with the single area [10, 20). -/
def exMapOne : vmmap :=
  { vmm_addr := 7, vmm_list := [exArea 10 20 0 1], vmm_proc := none }

/-- The area list is sorted ascending by start page. -/
def SortedByStart (l : List vmarea) : Prop :=
  l.Pairwise (fun a b => a.vma_start ≤ b.vma_start)

/-- A map with the areas [1024, 1030) and [1040, 1060). -/
def exMapTwo : vmmap :=
  { vmm_addr := 7, vmm_list := [exArea 1024 1030 0 1, exArea 1040 1060 0 2], vmm_proc := none }

/-- An area over pages [1035, 1050) that belongs to no map. -/
def exNewArea : vmarea :=
  { vma_start := 1035, vma_end := 1050, vma_off := 0, vma_prot := 3, vma_flags := 1,
    vma_vmmap := none, vma_obj := none }

/-! ## The reference definition of `vmmap_find_range` -/

/-- Every area of the list lies inside the user window. -/
def InWindow (K : KParams) (l : List vmarea) : Prop :=
  ∀ a ∈ l, ADDR_TO_PN K K.USER_MEM_LOW ≤ a.vma_start ∧
    a.vma_end ≤ ADDR_TO_PN K K.USER_MEM_HIGH

/-- Page `s` starts a free run of `npages` pages in the user window: `LOW <= s`,
`s + npages <= HIGH`, and no area of the map intersects `[s, s + npages)`. -/
def free_run (K : KParams) (map : vmmap) (npages s : Nat) : Prop :=
  ADDR_TO_PN K K.USER_MEM_LOW ≤ s ∧ s + npages ≤ ADDR_TO_PN K K.USER_MEM_HIGH ∧
  ∀ a ∈ map.vmm_list, ¬ vmarea_intersects a s (s + npages)

/-- The area `vmmap_map` makes for a shared anonymous mapping of page 1025 in the map at
address 7, bound to the new anonymous object at address 3. -/
def exMappedArea : vmarea :=
  { vma_start := 1025, vma_end := 1026, vma_off := 0, vma_prot := 3, vma_flags := 1,
    vma_vmmap := some 7, vma_obj := some 3 }

/-- What `vmmap_map` of page 1025 (shared, anonymous) leaves of `exMap1` and `exHeap`: the
area [1024, 1027) is split around the new area, with one `ref` on its object, and the new
anonymous object is at address 3. -/
def exMapResult : MapResult :=
  { ret := 0
    map := { exMap1 with
      vmm_list := [exArea 1024 1025 0 1, exMappedArea, exArea 1026 1027 2 1] }
    new := some exMappedArea
    st := (anon_create (exHeap.set 1 { exAnon with mmo_refcount := 3 })).2
    calls := [KCall.ref (some 1), KCall.tlb_flush_all,
      KCall.pt_unmap_range (1025 * 4096) (1026 * 4096)] }

/-- The first half of `vmmap_map`, up to `vmarea_alloc`: the `KASSERT`s, then the page the
mapping starts at is settled, by `vmmap_find_range` when `lopage` is zero, and at a non-zero
`lopage` the range is unmapped when `vmmap_is_range_empty` says it is not empty.  The result
is the code to return when negative (0 otherwise), the map, the heap, the calls made, and the
start page. -/
def vmmap_map_settle (K : KParams) (T : OpsCalls) (fuel head_of_empty : Nat) (map : vmmap)
    (st : VMState) (lopage npages flags off : Nat) (dir : Int) :
    Res (Int × vmmap × VMState × List KCall × Nat) :=
  if ¬ vmmap_map_asserts K lopage npages flags off then Res.panic
  else if lopage = 0 then
    let range := vmmap_find_range K head_of_empty map npages dir
    if range < 0 then Res.ok (range, map, st, [], 0)
    else Res.ok (0, map, st, [], range.toNat)
  else if ¬ vmmap_is_range_empty_asserts K lopage npages then Res.panic
  else if vmmap_is_range_empty map lopage npages = 0 then
    match vmmap_remove K fuel map lopage npages with
    | none => Res.nofuel
    | some (_, map1, tr) =>
      (run_calls T st tr).bind fun st1 => Res.ok (0, map1, st1, tr, lopage)
  else Res.ok (0, map, st, [], lopage)

/-! ## `do_mmap` of `vm/mmap.c` -/

/-- Constants of `mm/mman.h`, `errno.h`, `fs/file.h` and `vm/vmmap.h` that `do_mmap` and its
helpers use and that are defined outside the embedded sources. -/
structure MmapParams where
  MAP_FIXED : Nat
  MAP_ANON : Nat
  PROT_WRITE : Nat
  FMODE_WRITE : Nat
  EBADF : Nat
  EACCES : Nat
  VMMAP_DIR_HILO : Int
deriving DecidableEq

/-- The fields of a `file_t` of `fs/file.h` that `do_mmap` reads: the mode, the reference
count, and the vnode (its address). -/
structure file_t where
  f_mode : Nat
  f_refcount : Int
  f_vnode : Nat
deriving DecidableEq

/-- Modelled from the spec: `fget` of `fs/file.c` for a descriptor other than -1: the open
file of the descriptor, which gains a reference, or `NULL`.  A file pointer is modelled by
the descriptor. -/
def fget (files : Int → Option file_t) (fd : Int) :
    Option file_t × (Int → Option file_t) :=
  match files fd with
  | none => (none, files)
  | some f =>
    (some { f with f_refcount := f.f_refcount + 1 },
      Function.update files fd (some { f with f_refcount := f.f_refcount + 1 }))

/-- Modelled from the spec: `fput` of `fs/file.c`: the file loses a reference. -/
def fput (files : Int → Option file_t) (fd : Int) : Int → Option file_t :=
  match files fd with
  | none => files
  | some f => Function.update files fd (some { f with f_refcount := f.f_refcount - 1 })

/-- The function `validate_mmap_args`. -/
def validate_mmap_args (K : KParams) (M : MmapParams) (addr len _prot flags off : Nat) : Int :=
  if ¬ PAGE_ALIGNED K off then -(K.EINVAL : Int)
  else if len = 0 then -(K.EINVAL : Int)
  else if flags &&& M.MAP_FIXED ≠ 0 ∧ addr = 0 then -(K.EINVAL : Int)
  else if addr ≠ 0 ∧ ¬ PAGE_ALIGNED K addr then -(K.EINVAL : Int)
  else if u32add addr len > K.USER_MEM_HIGH then -(K.EINVAL : Int)
  else if ¬ (flags &&& K.MAP_PRIVATE ≠ 0) ∧ ¬ (flags &&& K.MAP_SHARED ≠ 0) then -(K.EINVAL : Int)
  else 0

/-- The function `handle_file_related_tasks`: the returned value, `*file` (the descriptor of
the file, `none` being `NULL`), `*vn`, and the file table.  After `-EACCES` the file has been
put and `*file` still points to it. -/
def handle_file_related_tasks (K : KParams) (M : MmapParams) (files : Int → Option file_t)
    (fd : Int) (flags prot : Nat) : Int × Option Int × Option Nat × (Int → Option file_t) :=
  if ¬ (flags &&& M.MAP_ANON ≠ 0) then
    if fd = -1 then (-(M.EBADF : Int), none, none, files)
    else
      match (fget files fd).1 with
      | none => (-(M.EBADF : Int), none, none, (fget files fd).2)
      | some f =>
        if ¬ (f.f_mode &&& M.FMODE_WRITE ≠ 0) ∧ prot &&& M.PROT_WRITE ≠ 0 ∧
            ¬ (flags &&& K.MAP_PRIVATE ≠ 0) then
          (-(M.EACCES : Int), some fd, some f.f_vnode, fput (fget files fd).2 fd)
        else (0, some fd, some f.f_vnode, (fget files fd).2)
  else (0, none, none, files)

/-- What `do_mmap` returns and leaves behind: the returned value, the address stored through
`ret`, the map of the process, the heap, the file table, and the calls made. -/
structure MmapResult where
  ret : Int
  retaddr : Option Nat
  map : vmmap
  st : VMState
  files : Int → Option file_t
  calls : List KCall

/-- The function `do_mmap`, on the map `map` of the current process.  `vn_mmap` gives the
`mmap` operation of a vnode.  The values returned by `validate_mmap_args` and by
`handle_file_related_tasks` are stored in `err` and not read.  When `vmmap_map` fails with a
file open, the function goes on and dereferences `new`, which was never set. -/
def do_mmap (K : KParams) (M : MmapParams) (T : OpsCalls) (fuel head_of_empty : Nat)
    (vn_mmap : Nat → VMState → Int × Option Nat × VMState) (map : vmmap) (st : VMState)
    (files : Int → Option file_t) (addr len prot flags : Nat) (fd : Int) (off : Nat) :
    Res MmapResult :=
  let _err := validate_mmap_args K M addr len prot flags off
  let lopage := if addr = 0 then 0 else ADDR_TO_PN K addr
  let h := handle_file_related_tasks K M files fd flags prot
  let file := h.2.1
  let vn := h.2.2.1
  let npages := (len / PAGE_SIZE K + (if len % PAGE_SIZE K ≠ 0 then 1 else 0)) % U32
  (vmmap_map K T fuel head_of_empty map st (vn.map vn_mmap) lopage npages prot flags off
      M.VMMAP_DIR_HILO).bind fun r =>
    if r.ret < 0 ∧ file = none then
      Res.ok { ret := r.ret, retaddr := none, map := r.map, st := r.st, files := h.2.2.2,
               calls := r.calls }
    else
      let files1 := match file with
        | some f => fput h.2.2.2 f
        | none => h.2.2.2
      match r.new with
      | none => Res.panic
      | some new =>
        Res.ok { ret := 0, retaddr := some (PN_TO_ADDR K new.vma_start), map := r.map,
                 st := r.st, files := files1, calls := r.calls ++ [KCall.tlb_flush_all] }

/-- The constants of the Weenix build that `do_mmap` uses. -/
def exM : MmapParams :=
  { MAP_FIXED := 4, MAP_ANON := 8, PROT_WRITE := 2, FMODE_WRITE := 2, EBADF := 9, EACCES := 13,
    VMMAP_DIR_HILO := 2 }

/-- A file table without open files. -/
def exNoFiles : Int → Option file_t := fun _ => none

/-! ## `handle_pagefault` of `vm/pagefault.c` -/

/-- Constants of `vm/pagefault.h`, `mm/mman.h`, `mm/pagetable.h` and `errno.h` that
`handle_pagefault` uses and that are defined outside the embedded sources. -/
structure PfParams where
  FAULT_WRITE : Nat
  FAULT_EXEC : Nat
  PROT_READ : Nat
  PROT_WRITE : Nat
  PROT_EXEC : Nat
  EFAULT : Nat
  PD_PRESENT : Nat
  PD_USER : Nat
  PD_WRITE : Nat
  PT_PRESENT : Nat
  PT_USER : Nat
  PT_WRITE : Nat
deriving DecidableEq

/-- Modelled from the spec: `PAGE_ALIGN_DOWN(x)` of `mm/page.h`, `x` with the bits below the
page size cleared. -/
def PAGE_ALIGN_DOWN (K : KParams) (x : Nat) : Nat := x / PAGE_SIZE K * PAGE_SIZE K

/-- How `handle_pagefault` ends: in `do_exit(status)`, which does not return (the thread
exits through `kthread_exit` and `sched_switch`), or after `pt_map` of `vaddr` to `paddr`
with the two flag words and `tlb_flush(vaddr)`. -/
inductive PfOutcome where
  | exited (status : Nat)
  | mapped (vaddr paddr pdflags ptflags : Nat)
deriving DecidableEq

/-- What `handle_pagefault` does: how it ends, the calls of `pframe_lookup` it made (object,
page index, `forwrite`), and the heap. -/
structure PfResult where
  outcome : PfOutcome
  lookups : List (Option Nat × Nat × Int)
  st : VMState

/-- The test of `handle_pagefault` on the cause of the fault and the protection of the
area: the access is not permitted. -/
def pagefault_denied (P : PfParams) (cause prot : Nat) : Prop :=
  (cause &&& P.FAULT_WRITE ≠ 0 ∧ ¬ (prot &&& P.PROT_WRITE ≠ 0)) ∨
  (¬ (cause &&& P.FAULT_WRITE ≠ 0 ∨ cause &&& P.FAULT_EXEC ≠ 0) ∧
    ¬ (prot &&& P.PROT_READ ≠ 0)) ∨
  (cause &&& P.FAULT_EXEC ≠ 0 ∧ ¬ (prot &&& P.PROT_EXEC ≠ 0))

instance (P : PfParams) (cause prot : Nat) : Decidable (pagefault_denied P cause prot) := by
  unfold pagefault_denied
  infer_instance

/-- The function `handle_pagefault`, on the map `map` of the current process;
`virt_to_phys` is `pt_virt_to_phys`. -/
def handle_pagefault (K : KParams) (P : PfParams) (T : OpsCalls) (virt_to_phys : Nat → Nat)
    (map : vmmap) (st : VMState) (vaddr cause : Nat) : Res PfResult :=
  match vmmap_lookup map (ADDR_TO_PN K vaddr) with
  | none => Res.ok { outcome := PfOutcome.exited P.EFAULT, lookups := [], st := st }
  | some vmarea =>
    if pagefault_denied P cause vmarea.vma_prot then
      Res.ok { outcome := PfOutcome.exited P.EFAULT, lookups := [], st := st }
    else
      let access_is_write : Int := if cause &&& P.FAULT_WRITE ≠ 0 then 1 else 0
      let pagenum := u32add (u32sub (ADDR_TO_PN K vaddr) vmarea.vma_start) vmarea.vma_off
      (pframe_lookup T st vmarea.vma_obj pagenum access_is_write).bind fun x =>
        if x.1 < 0 then
          Res.ok { outcome := PfOutcome.exited P.EFAULT,
                   lookups := [(vmarea.vma_obj, pagenum, access_is_write)], st := x.2.2 }
        else
          match x.2.1 with
          | none => Res.panic
          | some pf =>
            if pf.pf_addr = 0 then Res.panic
            else
              let st2 :=
                if access_is_write ≠ 0 then
                  pframe_unpin (pframe_dirty (pframe_pin x.2.2 pf) pf) pf
                else x.2.2
              Res.ok
                { outcome := PfOutcome.mapped (PAGE_ALIGN_DOWN K vaddr) (virt_to_phys pf.pf_addr)
                    (P.PD_PRESENT ||| P.PD_USER |||
                      (if access_is_write ≠ 0 then P.PD_WRITE else 0))
                    (P.PT_PRESENT ||| P.PT_USER |||
                      (if access_is_write ≠ 0 then P.PT_WRITE else 0))
                  lookups := [(vmarea.vma_obj, pagenum, access_is_write)]
                  st := st2 }

/-- The constants of the Weenix build that `handle_pagefault` uses. -/
def exP : PfParams :=
  { FAULT_WRITE := 2, FAULT_EXEC := 16, PROT_READ := 1, PROT_WRITE := 2, PROT_EXEC := 4,
    EFAULT := 14, PD_PRESENT := 1, PD_USER := 4, PD_WRITE := 2, PT_PRESENT := 1, PT_USER := 4,
    PT_WRITE := 2 }

/-- The frame of page 1 of the anonymous object of `exHeap` after its first lookup: on the
free page at 100, zero-filled, pinned by `anon_fillpage`. -/
def exFaultFrame : pframe :=
  { pf_obj := 1, pf_pagenum := 1, pf_addr := 100, pf_data := 0,
    pf_pinned := true, pf_busy := false, pf_dirty := false }

/-- The heap `exHeap` after the first lookup of page 1 of its anonymous object. -/
def exFaultHeap : VMState :=
  pframe_update
    (pframe_update
      (pframe_pin
        (with_new_frame exHeap 1 exAnon (pframe_fresh 1 1 100 77) [(101, 78), (102, 79)])
        (pframe_fresh 1 1 100 77))
      (pframe_fresh 1 1 100 77) (fun q => { q with pf_data := 0 }))
    (pframe_fresh 1 1 100 77) (fun q => { q with pf_busy := false })

/-! ## `do_brk` of `vm/brk.c` -/

/-- Modelled from the spec: `PAGE_ALIGN_UP(x)` of `mm/page.h`, `x` rounded up to the page
boundary in 32 bits. -/
def PAGE_ALIGN_UP (K : KParams) (x : Nat) : Nat :=
  ((x + (PAGE_SIZE K - 1)) % U32) / PAGE_SIZE K * PAGE_SIZE K

/-- The fields of `curproc` that `do_brk` reads and writes. -/
structure BrkProc where
  p_brk : Nat
  p_start_brk : Nat
  p_vmmap : vmmap
deriving DecidableEq

/-- What `do_brk` returns and leaves: the returned value, the value written to `*ret` if
one was written, the fields of `curproc`, and the calls made. -/
structure BrkResult where
  ret : Int
  brk_out : Option Nat
  proc : BrkProc
  calls : List KCall
deriving DecidableEq

/-- The function `validate_brk_addr`. -/
def validate_brk_addr (K : KParams) (proc : BrkProc) (addr : Nat) : Int :=
  if addr < proc.p_start_brk ∨ addr > K.USER_MEM_HIGH then -(K.ENOMEM : Int) else 0

/-- The assignment `vma->vma_end = cur_end`, `vma` being the area `vmmap_lookup` returned for
page `vfn`: the first area of the list that contains the page. -/
def vma_set_end (vfn cur_end : Nat) : List vmarea → List vmarea
  | [] => []
  | a :: rest =>
    if a.vma_start ≤ vfn ∧ a.vma_end > vfn then { a with vma_end := cur_end } :: rest
    else a :: vma_set_end vfn cur_end rest

/-- The function `expand_brk`; `vfn` is the page `vma` was looked up for.  The result is the
returned value and the map. -/
def expand_brk (K : KParams) (map : vmmap) (vfn prev_end cur_end npages : Nat) :
    Int × vmmap :=
  if vmmap_is_range_empty map prev_end npages = 0 then (-(K.ENOMEM : Int), map)
  else (0, { map with vmm_list := vma_set_end vfn cur_end map.vmm_list })

/-- The function `do_brk`, `proc` being `curproc`.  When `vmmap_lookup` finds no area for
the page of `p_start_brk`, `vma->vma_end` reads through `NULL`. -/
def do_brk (K : KParams) (fuel : Nat) (proc : BrkProc) (addr : Nat) : Res BrkResult :=
  if addr = 0 then
    Res.ok { ret := 0, brk_out := some proc.p_brk, proc := proc, calls := [] }
  else
    let err := validate_brk_addr K proc addr
    if err < 0 then Res.ok { ret := err, brk_out := none, proc := proc, calls := [] }
    else
      match vmmap_lookup proc.p_vmmap (ADDR_TO_PN K proc.p_start_brk) with
      | none => Res.panic
      | some vma =>
        let prev_end := vma.vma_end
        let cur_end := ADDR_TO_PN K (PAGE_ALIGN_UP K addr)
        let num_pages := u32sub cur_end prev_end
        if prev_end < cur_end then
          let r := expand_brk K proc.p_vmmap (ADDR_TO_PN K proc.p_start_brk) prev_end cur_end
            num_pages
          if r.1 < 0 then Res.ok { ret := r.1, brk_out := none, proc := proc, calls := [] }
          else
            Res.ok { ret := 0, brk_out := some addr,
                     proc := { proc with p_brk := addr, p_vmmap := r.2 }, calls := [] }
        else if prev_end > cur_end then
          match vmmap_remove K fuel proc.p_vmmap cur_end (u32sub 0 num_pages) with
          | none => Res.nofuel
          | some x =>
            Res.ok { ret := 0, brk_out := some addr,
                     proc := { proc with p_brk := addr, p_vmmap := x.2.1 }, calls := x.2.2 }
        else
          Res.ok { ret := 0, brk_out := some addr,
                   proc := { proc with p_brk := addr }, calls := [] }

/-- A process whose break starts at page 1024 exactly, with the break at the end of the one
area `[1024, 1027)` of its map. -/
def exBrkProc : BrkProc :=
  { p_brk := 0x403000, p_start_brk := 0x400000, p_vmmap := exMap1 }

/-- A process whose break area `[1024, 1030)` is followed by the area `[1040, 1060)`. -/
def exBrkProcTwo : BrkProc :=
  { p_brk := 0x406000, p_start_brk := 0x400010, p_vmmap := exMapTwo }

/-- Page `p` lies in an area of the list. -/
def page_mapped (l : List vmarea) (p : Nat) : Prop :=
  ∃ a ∈ l, a.vma_start ≤ p ∧ p < a.vma_end

/-! ## `lookup` and `dir_namev` of `fs/namev.c`

A vnode is named by its address; a `NULL` pointer is `none`.  A pathname is the list of its
characters before the terminating zero. -/

/-- The file system as `lookup` and `dir_namev` see it.  `vn_lookup d` is the entry
`d->vn_ops->lookup` of the vnode at `d`, `none` when the entry is `NULL`; applied to the
`len` characters at `name` it gives the value it returns and the value it stored in
`*result`.  `vfs_root_vn` and `p_cwd` are the root vnode and `curproc->p_cwd`; the other
fields are constants of `config.h` and `errno.h`. -/
structure VfsEnv where
  vn_lookup : Nat → Option (List Char → Int × Option Nat)
  vfs_root_vn : Option Nat
  p_cwd : Option Nat
  NAME_LEN : Nat
  ENAMETOOLONG : Nat
  ENOTDIR : Nat

/-- A recorded call on a vnode: its `lookup` operation with the name given, `vref`, `vput`,
or its `create` or `mknod` operation with the name (and mode and device) given. -/
inductive VCall where
  | lookup (dir : Nat) (name : List Char)
  | vref (vn : Nat)
  | vput (vn : Nat)
  | create (dir : Nat) (name : List Char)
  | mknod (dir : Nat) (name : List Char) (mode devid : Nat)
deriving DecidableEq

/-- The function `lookup`: the returned value, `*result`, and the calls made.  The test for
a missing `lookup` operation is commented out in the source, so the call goes through the
entry whatever it holds. -/
def lookup (F : VfsEnv) (dir : Option Nat) (name : List Char) (len : Nat) :
    Res (Int × Option Nat × List VCall) :=
  match dir with
  | none => Res.panic
  | some d =>
    match F.vn_lookup d with
    | none => Res.panic
    | some op =>
      Res.ok ((op (name.take len)).1, (op (name.take len)).2, [VCall.lookup d (name.take len)])

/-- The first loop of `dir_namev`: `dir_index_limit` goes down from `n - 1` while it is not
negative and the character there is not a slash. -/
def dir_index_limit_loop (cur_path : List Char) : Nat → Int
  | 0 => -1
  | n + 1 => if cur_path[n]? ≠ some '/' then dir_index_limit_loop cur_path n else (n : Int)

/-- The loops of `dir_namev` that skip slashes: `next_pos` goes up while it is below
`dir_index_limit` and the character there is a slash.  The first argument bounds the number
of steps; `dir_namev` passes the length of the pathname. -/
def skip_slash (pathname : List Char) (dir_index_limit : Int) : Nat → Nat → Nat
  | 0, next_pos => next_pos
  | steps + 1, next_pos =>
    if (next_pos : Int) < dir_index_limit ∧ pathname[next_pos]? = some '/' then
      skip_slash pathname dir_index_limit steps (next_pos + 1)
    else next_pos

/-- The loop of `dir_namev` that moves `next_pos` to the next slash or to
`dir_index_limit`.  The first argument bounds the number of steps; `dir_namev` passes the
length of the pathname. -/
def scan_name (pathname : List Char) (dir_index_limit : Int) : Nat → Nat → Nat
  | 0, next_pos => next_pos
  | steps + 1, next_pos =>
    if (next_pos : Int) < dir_index_limit ∧ pathname[next_pos]? ≠ some '/' then
      scan_name pathname dir_index_limit steps (next_pos + 1)
    else next_pos

/-- How the component loop of `dir_namev` ends: with the value it returns from inside the
loop, or past the loop (`returned = none`); and `cur_base`, `cur_node` and the calls
made. -/
structure WalkEnd where
  returned : Option Int
  cur_base : Option Nat
  cur_node : Option Nat
  calls : List VCall
deriving DecidableEq

/-- The component loop of `dir_namev`; `fuel` bounds the number of iterations. -/
def dir_namev_loop (F : VfsEnv) (pathname : List Char) (dir_index_limit : Int) :
    Nat → Nat → Option Nat → Option Nat → Option Nat → List VCall → Res WalkEnd
  | 0, next_pos, cur_base, cur_node, _, tr =>
    if (next_pos : Int) < dir_index_limit then Res.nofuel
    else Res.ok { returned := none, cur_base := cur_base, cur_node := cur_node, calls := tr }
  | fuel + 1, next_pos, cur_base, cur_node, prev_node, tr =>
    if (next_pos : Int) < dir_index_limit then
      let cur_pos := next_pos
      let next_pos1 := scan_name pathname dir_index_limit pathname.length next_pos
      let len := next_pos1 - cur_pos
      (lookup F cur_base (pathname.drop cur_pos) len).bind fun x =>
        let tr1 := tr ++ x.2.2 ++
          (match prev_node with
           | none => []
           | some p => [VCall.vput p])
        if x.1 < 0 then
          Res.ok { returned := some x.1, cur_base := cur_base, cur_node := x.2.1, calls := tr1 }
        else
          dir_namev_loop F pathname dir_index_limit fuel
            (skip_slash pathname dir_index_limit pathname.length next_pos1)
            x.2.1 x.2.1 x.2.1 tr1
    else Res.ok { returned := none, cur_base := cur_base, cur_node := cur_node, calls := tr }

/-- What `dir_namev` returns and writes: the returned value, `*name_len`, the offset in
`pathname` that `*name` points to (`none` when `*name` is not written), `*res_vnode` (`none`
when it is not written), and the calls made. -/
structure NamevResult where
  ret : Int
  name_len : Nat
  name : Option Nat
  res_vnode : Option Nat
  calls : List VCall
deriving DecidableEq

/-- The end of `dir_namev`, after the component loop: the test of the `lookup` operation of
the directory reached, and the assignment of `*res_vnode`.  `vref(NULL)` fails the assertion
of `vref`. -/
def dir_namev_finish (F : VfsEnv) (name_len : Nat) (name : Option Nat) (w : WalkEnd) :
    Res NamevResult :=
  match w.returned with
  | some res =>
    Res.ok { ret := res, name_len := name_len, name := name, res_vnode := none,
             calls := w.calls }
  | none =>
    match w.cur_node with
    | some n =>
      match w.cur_base with
      | none => Res.panic
      | some b =>
        if (F.vn_lookup b).isNone then
          Res.ok { ret := -(F.ENOTDIR : Int), name_len := name_len, name := name,
                   res_vnode := none, calls := w.calls ++ [VCall.vput n] }
        else
          Res.ok { ret := 0, name_len := name_len, name := name, res_vnode := some n,
                   calls := w.calls }
    | none =>
      match w.cur_base with
      | none => Res.panic
      | some b =>
        Res.ok { ret := 0, name_len := name_len, name := name, res_vnode := some b,
                 calls := w.calls ++ [VCall.vref b] }

/-- The function `dir_namev`; `fuel` bounds the iterations of the component loop. -/
def dir_namev (F : VfsEnv) (fuel : Nat) (pathname : List Char) (base : Option Nat) :
    Res NamevResult :=
  let cur_base0 := if base = none then F.p_cwd else base
  let cur_base := if pathname[0]? = some '/' then F.vfs_root_vn else cur_base0
  let dir_index_limit := dir_index_limit_loop pathname pathname.length
  let name_len := ((pathname.length : Int) - (dir_index_limit + 1)).toNat
  if name_len > 0 ∧ name_len > F.NAME_LEN then
    Res.ok { ret := -(F.ENAMETOOLONG : Int), name_len := name_len, name := none,
             res_vnode := none, calls := [] }
  else
    let name : Option Nat :=
      if name_len > 0 then
        (if dir_index_limit ≥ 0 then some (dir_index_limit.toNat + 1) else some 0)
      else none
    let next_pos := skip_slash pathname dir_index_limit pathname.length 0
    (dir_namev_loop F pathname dir_index_limit fuel next_pos cur_base none none []).bind
      (dir_namev_finish F name_len name)

/-! ### The documented behaviour of `dir_namev` -/

/-- The components of a directory path: a slash is skipped, and a component runs up to the
next slash, so that a run of slashes separates two components as one slash does. -/
def path_components : List Char → List (List Char)
  | [] => []
  | c :: cs =>
    if c = '/' then path_components cs
    else (c :: cs.takeWhile (fun x => x ≠ '/')) ::
      path_components (cs.dropWhile (fun x => x ≠ '/'))
termination_by s => s.length
decreasing_by
  · simp
  · have := (List.dropWhile_sublist (l := cs) (fun x => decide (x ≠ '/'))).length_le
    simp only [List.length_cons]
    omega

/-- The resolution of the components one after the other with `lookup`, from the directory
`cur_base`; the vnode the previous `lookup` gave is released with `vput` after each
`lookup`. -/
def resolve_components (F : VfsEnv) :
    Option Nat → Option Nat → Option Nat → List (List Char) → Res WalkEnd
  | cur_base, cur_node, _, [] =>
    Res.ok { returned := none, cur_base := cur_base, cur_node := cur_node, calls := [] }
  | cur_base, _, prev_node, n :: ns =>
    (lookup F cur_base n n.length).bind fun x =>
      let tr1 := x.2.2 ++
        (match prev_node with
         | none => []
         | some p => [VCall.vput p])
      if x.1 < 0 then
        Res.ok { returned := some x.1, cur_base := cur_base, cur_node := x.2.1, calls := tr1 }
      else
        (resolve_components F x.2.1 x.2.1 x.2.1 ns).bind fun y =>
          Res.ok { y with calls := tr1 ++ y.calls }

/-- The directory resolution starts at: the root for a pathname that begins with a slash,
else `base`, or the working directory of the process when `base` is `NULL`. -/
def start_dir (F : VfsEnv) (pathname : List Char) (base : Option Nat) : Option Nat :=
  if pathname.head? = some '/' then F.vfs_root_vn
  else
    match base with
    | none => F.p_cwd
    | some b => some b

/-- The characters of the pathname after its last slash, all of them when it has none. -/
def path_basename (pathname : List Char) : List Char :=
  (pathname.reverse.takeWhile (fun x => x ≠ '/')).reverse

/-- The characters of the pathname before its last slash, none when it has no slash. -/
def path_dirname (pathname : List Char) : List Char :=
  ((pathname.reverse.dropWhile (fun x => x ≠ '/')).drop 1).reverse

/-- The behaviour of `dir_namev` in the words of its documentation: the pathname is split at
its last slash, the components before it are resolved from the start directory, and the
directory reached is the result. -/
def dir_namev_spec (F : VfsEnv) (pathname : List Char) (base : Option Nat) :
    Res NamevResult :=
  let basename := path_basename pathname
  if basename.length > F.NAME_LEN then
    Res.ok { ret := -(F.ENAMETOOLONG : Int), name_len := basename.length, name := none,
             res_vnode := none, calls := [] }
  else
    (resolve_components F (start_dir F pathname base) none none
        (path_components (path_dirname pathname))).bind
      (dir_namev_finish F basename.length
        (if basename = [] then none else some (pathname.length - basename.length)))

/-- A file system with the root at 1, the directory `s5fs` in it at 2, the directory `bin`
in that at 3, and the file `ls` in that at 4, which has no `lookup` operation. -/
def exVfs : VfsEnv :=
  { vn_lookup := fun d =>
      if d = 1 then some (fun n => if n = ['s', '5', 'f', 's'] then (0, some 2) else (-2, none))
      else if d = 2 then some (fun n => if n = ['b', 'i', 'n'] then (0, some 3) else (-2, none))
      else if d = 3 then some (fun n => if n = ['l', 's'] then (0, some 4) else (-2, none))
      else none
    vfs_root_vn := some 1
    p_cwd := some 2
    NAME_LEN := 28
    ENAMETOOLONG := 36
    ENOTDIR := 20 }

/-- The pathname `/s5fs/bin/ls`. -/
def exPath : List Char := ['/', 's', '5', 'f', 's', '/', 'b', 'i', 'n', '/', 'l', 's']

/-- The pathname `/s5fs//bin/`, with a run of two slashes and a slash at its end. -/
def exPathDir : List Char := ['/', 's', '5', 'f', 's', '/', '/', 'b', 'i', 'n', '/']

/-! ## `open_namev` of `fs/namev.c` and `do_mknod` of `fs/vfs_syscall.c` -/

/-- The vnode operations and constants `open_namev` and `do_mknod` use beside those of
`VfsEnv`.  `vn_create d` is the entry `d->vn_ops->create`, which gives the value it returns
and the value it stored in `*result`; `vn_mknod d` is the entry `d->vn_ops->mknod`; both are
`none` when the entry is `NULL`.  `O_CREAT` is the flag of `fs/fcntl.h`, and `S_ISCHR` and
`S_ISBLK` are the tests of `fs/stat.h`. -/
structure VfsOps where
  vn_create : Nat → Option (List Char → Int × Option Nat)
  vn_mknod : Nat → Option (List Char → Nat → Nat → Int)
  O_CREAT : Nat
  S_ISCHR : Nat → Bool
  S_ISBLK : Nat → Bool

/-- What `open_namev` returns and writes: the returned value, `*res_vnode` (`none` when it is
`NULL` or not written), and the calls made. -/
structure OpenResult where
  ret : Int
  res_vnode : Option Nat
  calls : List VCall
deriving DecidableEq

/-- The function `open_namev`; `fuel` is that of `dir_namev`.  A `name` that `dir_namev` did
not write is `NULL` and fails the assertion of `lookup`. -/
def open_namev (F : VfsEnv) (O : VfsOps) (fuel : Nat) (pathname : List Char) (flag : Nat)
    (base : Option Nat) : Res OpenResult :=
  (dir_namev F fuel pathname base).bind fun d =>
    if d.ret < 0 then Res.ok { ret := d.ret, res_vnode := none, calls := d.calls }
    else if d.name_len = 0 then
      Res.ok { ret := 0, res_vnode := d.res_vnode, calls := d.calls }
    else
      match d.name with
      | none => Res.panic
      | some off =>
        (lookup F d.res_vnode (pathname.drop off) d.name_len).bind fun x =>
          match d.res_vnode with
          | none => Res.panic
          | some dir_node =>
            if x.1 < 0 then
              if flag &&& O.O_CREAT ≠ 0 then
                match O.vn_create dir_node with
                | none => Res.panic
                | some create =>
                  Res.ok { ret := (create ((pathname.drop off).take d.name_len)).1
                           res_vnode := (create ((pathname.drop off).take d.name_len)).2
                           calls := d.calls ++ x.2.2 ++
                             [VCall.create dir_node ((pathname.drop off).take d.name_len),
                              VCall.vput dir_node] }
              else
                Res.ok { ret := x.1, res_vnode := x.2.1,
                         calls := d.calls ++ x.2.2 ++ [VCall.vput dir_node] }
            else
              Res.ok { ret := 0, res_vnode := x.2.1,
                       calls := d.calls ++ x.2.2 ++ [VCall.vput dir_node] }

/-- The function `do_mknod`: the returned value and the calls made.  The test of the value
of `dir_namev` is commented out in the source; `dir_vnode` and `name` are `NULL` when
`dir_namev` did not write them, and fail the assertions that follow. -/
def do_mknod (F : VfsEnv) (O : VfsOps) (fuel : Nat) (path : List Char) (mode devid : Nat) :
    Res (Int × List VCall) :=
  if O.S_ISCHR mode ∨ O.S_ISBLK mode then
    (dir_namev F fuel path none).bind fun d =>
      match d.res_vnode with
      | none => Res.panic
      | some dir_vnode =>
        match d.name with
        | none => Res.panic
        | some off =>
          (lookup F (some dir_vnode) (path.drop off) d.name_len).bind fun x =>
            match O.vn_mknod dir_vnode with
            | none => Res.panic
            | some mknod =>
              Res.ok (mknod ((path.drop off).take d.name_len) mode devid,
                d.calls ++ x.2.2 ++
                  [VCall.mknod dir_vnode ((path.drop off).take d.name_len) mode devid,
                   VCall.vput dir_vnode])
  else Res.panic

/-- The references one call adds to the vnode `v`, a `lookup` or `create` operation adding
one reference to its result when it succeeds and none when it fails. -/
def VCall.ref_delta (F : VfsEnv) (O : VfsOps) (v : Nat) : VCall → Int
  | VCall.lookup d n =>
    match F.vn_lookup d with
    | none => 0
    | some op => if 0 ≤ (op n).1 ∧ (op n).2 = some v then 1 else 0
  | VCall.vref u => if u = v then 1 else 0
  | VCall.vput u => if u = v then -1 else 0
  | VCall.create d n =>
    match O.vn_create d with
    | none => 0
    | some op => if 0 ≤ (op n).1 ∧ (op n).2 = some v then 1 else 0
  | VCall.mknod _ _ _ _ => 0

/-- The references a list of calls adds to the vnode `v`. -/
def ref_delta (F : VfsEnv) (O : VfsOps) (calls : List VCall) (v : Nat) : Int :=
  (calls.map (VCall.ref_delta F O v)).sum

/-- The call is one of a `create` operation. -/
def VCall.is_create : VCall → Bool
  | VCall.create _ _ => true
  | _ => false

/-- The call is one of a `lookup` or `mknod` operation. -/
def VCall.is_lookup_or_mknod : VCall → Bool
  | VCall.lookup _ _ => true
  | VCall.mknod _ _ _ _ => true
  | _ => false

/-- The operations beside `lookup` of the example file system: the directories at 1, 2 and 3
can create a file, at address 9, and make a device node. -/
def exOps : VfsOps :=
  { vn_create := fun d => if d = 1 ∨ d = 2 ∨ d = 3 then some (fun _ => (0, some 9)) else none
    vn_mknod := fun d => if d = 1 ∨ d = 2 ∨ d = 3 then some (fun _ _ _ => 0) else none
    O_CREAT := 0x100
    S_ISCHR := fun m => m == 0x2000
    S_ISBLK := fun m => m == 0x6000 }

/-- The example file system with one more entry in `bin`: the name `tmp`, on which the
`lookup` operation fails with the error 5 (an input or output error), not with the error 2
of a name that does not exist. -/
def exVfsIo : VfsEnv :=
  { exVfs with
    vn_lookup := fun d =>
      if d = 3 then
        some (fun n => if n = ['l', 's'] then (0, some 4)
          else if n = ['t', 'm', 'p'] then (-5, none) else (-2, none))
      else exVfs.vn_lookup d }

/-- The example file system with the entry `.` in `bin`, which is `bin` itself. -/
def exVfsDot : VfsEnv :=
  { exVfs with
    vn_lookup := fun d =>
      if d = 3 then
        some (fun n => if n = ['l', 's'] then (0, some 4)
          else if n = ['.'] then (0, some 3) else (-2, none))
      else exVfs.vn_lookup d }

/-- The pathname `/s5fs/bin/tmp`. -/
def exPathTmp : List Char :=
  ['/', 's', '5', 'f', 's', '/', 'b', 'i', 'n', '/', 't', 'm', 'p']

/-- The pathname `/s5fs/bin/.`. -/
def exPathDot : List Char := ['/', 's', '5', 'f', 's', '/', 'b', 'i', 'n', '/', '.']

/-- The pathname `/nodir/x`, whose directory does not exist. -/
def exPathNoDir : List Char := ['/', 'n', 'o', 'd', 'i', 'r', '/', 'x']

/-! ## `do_dup2` of `fs/vfs_syscall.c` -/

/-- The open files of the current process: `p_files fd` is the pointer in slot `fd` of
`curproc->p_files` (`none` being `NULL`), and `f_refcount f` is the reference count of the
file at address `f`. -/
structure FileTable where
  p_files : Int → Option Nat
  f_refcount : Nat → Int

/-- Modelled from the spec: `fget` of `fs/file.c` for a descriptor other than -1: the file
in the slot, which gains a reference, or `NULL` when the descriptor is out of range or the
slot is empty. -/
def FileTable.fget (NFILES : Int) (ft : FileTable) (fd : Int) : Option Nat × FileTable :=
  if fd < 0 ∨ fd ≥ NFILES then (none, ft)
  else
    match ft.p_files fd with
    | none => (none, ft)
    | some f =>
      (some f, { ft with f_refcount := Function.update ft.f_refcount f (ft.f_refcount f + 1) })

/-- Modelled from the spec: `fput` of `fs/file.c`: the file loses a reference. -/
def FileTable.fput (ft : FileTable) (f : Nat) : FileTable :=
  { ft with f_refcount := Function.update ft.f_refcount f (ft.f_refcount f - 1) }

/-- The function `do_dup2`: the returned value and the file table.  The call of `do_close`
on the file in slot `nfd` is commented out in the source. -/
def do_dup2 (NFILES : Int) (EBADF : Nat) (ft : FileTable) (ofd nfd : Int) : Int × FileTable :=
  if ofd < 0 ∨ ofd ≥ NFILES then (-(EBADF : Int), ft)
  else if nfd < 0 ∨ nfd ≥ NFILES then (-(EBADF : Int), ft)
  else
    match (ft.fget NFILES ofd).1 with
    | none => (-(EBADF : Int), (ft.fget NFILES ofd).2)
    | some file =>
      let ft2 : FileTable :=
        { (ft.fget NFILES ofd).2 with
          p_files := Function.update (ft.fget NFILES ofd).2.p_files nfd (some file) }
      if nfd = ofd then (nfd, ft2.fput file) else (nfd, ft2)

/-- A file table with the file at 10 in slot 0 and the file at 11 in slot 1, each with one
reference. -/
def exFiles : FileTable :=
  { p_files := fun fd => if fd = 0 then some 10 else if fd = 1 then some 11 else none
    f_refcount := fun f => if f = 10 ∨ f = 11 then 1 else 0 }

/-! ## What a page of the address space resolves to -/

/-- What page `p` resolves to in the map: the object of the area that contains it, the page
index in that object (as `handle_pagefault` computes it), the protection and the flags; or
nothing when no area contains the page. -/
def page_view (map : vmmap) (p : Nat) : Option (Option Nat × Nat × Nat × Nat) :=
  (vmmap_lookup map p).map fun a =>
    (a.vma_obj, u32add (u32sub p a.vma_start) a.vma_off, a.vma_prot, a.vma_flags)

/-! ## The shape of shadow chains as an invariant of the heap -/

/-- The references that object `o` of the heap holds on object `z`: one when `o` shadows `z`,
and one when `o` shadows an object and has `z` as its bottom object.  An object in `dead`
(torn down, its two references being released) holds none. -/
def links_to (st : VMState) (dead : List Nat) (o z : Nat) : Nat :=
  if o ∈ dead then 0
  else
    match st.objs o with
    | none => 0
    | some ob =>
      (if ob.mmo_shadowed = some z then 1 else 0) +
      (if ob.mmo_shadowed ≠ none ∧ ob.mmo_bottom_obj = some z then 1 else 0)

/-- The number of references that the objects of the heap hold on object `z`. -/
def held (st : VMState) (dead : List Nat) (z : Nat) : Nat :=
  ((List.range st.next_obj).map (fun o => links_to st dead o z)).sum

/-- The invariant of the object heap.  `w x` is the number of references on `x` held from
outside the heap (by the areas bound to `x`), and `dead` the objects that are being torn down.
The addresses from `next_obj` on are free; no reference is held from outside on an address
without an object; the references of an object beside those of its resident pages
(`mmo_refcount - mmo_nrespages`) cover the references held from outside and by the objects of
the heap; no object holds a reference on an object that is being torn down; and every object
heads a chain of `mmo_shadowed` links that ends at an object that shadows nothing, which is
its `mmo_bottom_obj` when it shadows an object. -/
structure ChainInv (st : VMState) (dead : List Nat) (w : Nat → Nat) : Prop where
  fresh : ∀ i, st.next_obj ≤ i → st.objs i = none
  idle : ∀ x, x ∉ dead → st.objs x = none → w x = 0
  count : ∀ x ob, x ∉ dead → st.objs x = some ob →
    (w x : Int) + (held st dead x : Int) ≤ ob.mmo_refcount - ob.mmo_nrespages
  closed : ∀ d ∈ dead, held st dead d = 0
  shape : ∀ x ob, x ∉ dead → st.objs x = some ob →
    ∃ chain b, ShadowChain st x chain b ∧
      (ob.mmo_shadowed ≠ none → ob.mmo_bottom_obj = some b)

/-- What the invariant reads of an object: its operation table, its references beside those
of its resident pages, and its two links. -/
def mmobj.core (ob : mmobj) : mmobj_ops_t × Int × Option Nat × Option Nat :=
  (ob.mmo_ops, ob.mmo_refcount - ob.mmo_nrespages, ob.mmo_shadowed, ob.mmo_bottom_obj)

/-- The heaps `st` and `st1` have the same objects, with the same operation tables, links,
and references beside those of resident pages, and the same next address. -/
def same_core (st st1 : VMState) : Prop :=
  st1.next_obj = st.next_obj ∧ ∀ x, (st1.objs x).map mmobj.core = (st.objs x).map mmobj.core

/-! ## Heaps reached from the empty heap -/

/-- The heaps reached from a heap without objects by the functions that change the object
heap, each with the number `ext x` of references held on each object `x` from outside the
heap, by the areas bound to `x` and by the callers of `ref`.

* `create`: `anon_create`, whose caller holds the reference of the new object.
* `ref`, `put`: the operations of the table; a `put` gives back a reference held from outside.
* `lookuppage`, `fillpage`, `pagefault`: the page operations and `handle_pagefault`.
* `map`: `vmmap_map` of an anonymous mapping into a well-formed map, with 32-bit arguments,
  the references of the areas of the map being among those held from outside; the areas of
  the map it returns hold the references afterwards.
* `map_file`: `vmmap_map` of a file, whose `mmap` operation (defined outside the embedded
  sources) is taken to hand out an object with a reference, in a heap that is reached.
* `fork`: `handle_memory_object`, the reference of the parent area being among those held
  from outside; both areas it returns hold a reference afterwards. -/
inductive HeapReach (K : KParams) : VMState → (Nat → Nat) → Prop where
  | init (next : Nat) (free : List (Nat × Nat)) :
      HeapReach K { objs := fun _ => none, next_obj := next, free_pages := free } (fun _ => 0)
  | create (st : VMState) (ext : Nat → Nat) :
      HeapReach K st ext →
      HeapReach K (anon_create st).2 (fun z => if z = st.next_obj then 1 else ext z)
  | ref (n : Nat) (st st1 : VMState) (ext : Nat → Nat) (x : Nat) :
      HeapReach K st ext → (mmo_ops_at K n).ref st (some x) = Res.ok st1 →
      HeapReach K st1 (fun z => if z = x then ext x + 1 else ext z)
  | put (n : Nat) (st st1 : VMState) (ext : Nat → Nat) (x : Nat) :
      HeapReach K st ext → 0 < ext x → (mmo_ops_at K n).put st (some x) = Res.ok st1 →
      HeapReach K st1 (fun z => if z = x then ext x - 1 else ext z)
  | lookuppage (n : Nat) (st : VMState) (ext : Nat → Nat) (o pagenum : Nat) (forwrite : Int)
      (r : Int × Option pframe × VMState) :
      HeapReach K st ext → (mmo_ops_at K n).lookuppage st o pagenum forwrite = Res.ok r →
      HeapReach K r.2.2 ext
  | fillpage (n : Nat) (st : VMState) (ext : Nat → Nat) (o : Nat) (pf : pframe)
      (r : Int × VMState) :
      HeapReach K st ext → (mmo_ops_at K n).fillpage st o pf = Res.ok r →
      HeapReach K r.2 ext
  | pagefault (P : PfParams) (n : Nat) (virt_to_phys : Nat → Nat) (map : vmmap)
      (st : VMState) (ext : Nat → Nat) (vaddr cause : Nat) (r : PfResult) :
      HeapReach K st ext →
      handle_pagefault K P (mmo_ops_at K n) virt_to_phys map st vaddr cause = Res.ok r →
      HeapReach K r.st ext
  | map (n fuel head_of_empty : Nat) (map : vmmap) (st : VMState) (ext : Nat → Nat)
      (lopage npages prot flags off : Nat) (dir : Int) (r : MapResult) :
      HeapReach K st ext → WellFormed map.vmm_list → lopage < U32 → npages < U32 →
      (∀ x, areas_bound x map.vmm_list ≤ ext x) →
      vmmap_map K (mmo_ops_at K n) fuel head_of_empty map st none lopage npages prot flags off
        dir = Res.ok r →
      HeapReach K r.st
        (fun x => ext x - areas_bound x map.vmm_list + areas_bound x r.map.vmm_list)
  | map_file (n fuel head_of_empty : Nat) (map : vmmap) (st : VMState) (ext : Nat → Nat)
      (mmap : VMState → Int × Option Nat × VMState)
      (lopage npages prot flags off : Nat) (dir : Int) (r : MapResult)
      (v : Int) (map1 : vmmap) (st1 : VMState) (tr : List KCall) (p o : Nat) :
      HeapReach K st ext → WellFormed map.vmm_list → lopage < U32 → npages < U32 →
      (∀ x, areas_bound x map.vmm_list ≤ ext x) →
      vmmap_map_settle K (mmo_ops_at K n) fuel head_of_empty map st lopage npages flags off
        dir = Res.ok (v, map1, st1, tr, p) →
      (mmap st1).2.1 = some o →
      HeapReach K (mmap st1).2.2
        (fun x => ext x - areas_bound x map.vmm_list + areas_bound x map1.vmm_list
          + if x = o then 1 else 0) →
      vmmap_map K (mmo_ops_at K n) fuel head_of_empty map st (some mmap) lopage npages prot
        flags off dir = Res.ok r →
      HeapReach K r.st
        (fun x => ext x - areas_bound x map.vmm_list + areas_bound x r.map.vmm_list)
  | fork (n : Nat) (st st1 : VMState) (ext : Nat → Nat)
      (childVmArea parentVmArea c p : vmarea) :
      HeapReach K st ext → (∀ x, areas_bound x [parentVmArea] ≤ ext x) →
      handle_memory_object K (mmo_ops_at K n) st childVmArea parentVmArea
        = Res.ok (c, p, st1) →
      HeapReach K st1 (fun x => ext x - areas_bound x [parentVmArea] + areas_bound x [c, p])

/-! ## A reached heap -/

/-- A heap without objects, whose allocator hands out address 1 next. -/
def exHeap0 : VMState :=
  { objs := fun _ => none, next_obj := 1, free_pages := [] }

/-- The map at address 7 without areas. -/
def exMap0 : vmmap :=
  { vmm_addr := 7, vmm_list := [], vmm_proc := none }

/-- What `vmmap_map` of the pages [1024, 1027) (private, anonymous) leaves of `exMap0` and
`exHeap0`: the area `exParentArea`, bound to the new shadow object at address 2 over the new
anonymous object at address 1. -/
def exReachMap : MapResult :=
  { ret := 0
    map := { exMap0 with vmm_list := [exParentArea] }
    new := some exParentArea
    st := ((shadow_create (anon_create exHeap0).2).2.set 2 exShadow).set 1 exAnon
    calls := [KCall.ref (some 1)] }

/-- A shadow object over the object at 2 with the object at 1 as bottom object. -/
def exShadow2 : mmobj :=
  { mmo_ops := mmobj_ops_t.shadow_mmobj_ops, mmo_refcount := 1, mmo_nrespages := 0,
    mmo_respages := [], mmo_shadowed := some 2, mmo_bottom_obj := some 1 }

/-- The heap `handle_memory_object` leaves of the heap of `exReachMap` for `exParentArea`:
the shadow objects of the parent and of the child at addresses 3 and 4, over the shadow
object at 2, which has gained one reference; the anonymous object at 1 has gained two. -/
def exReachFork : VMState :=
  ((((((shadow_create ((shadow_create exReachMap.st).2.set 3 exShadow2)).2.set 4
    { exShadow2 with mmo_bottom_obj := none }).set 2
    { exShadow with mmo_refcount := 2 }).set 4 exShadow2).set 1
    { exAnon with mmo_refcount := 3 }).set 1 { exAnon with mmo_refcount := 4 })

/-! ## Arithmetic and list lemmas -/

theorem u32add_eq {a b : Nat} (h : a + b < U32) : u32add a b = a + b := by
  unfold u32add; exact Nat.mod_eq_of_lt h

theorem getElem?_append_length (pre : List vmarea) (cur : vmarea) (rest : List vmarea) :
    (pre ++ cur :: rest)[pre.length]? = some cur := by
  induction pre with
  | nil => simp
  | cons p ps ih => simpa using ih

theorem set_append_length (pre : List vmarea) (cur x : vmarea) (rest : List vmarea) :
    (pre ++ cur :: rest).set pre.length x = pre ++ x :: rest := by
  induction pre with
  | nil => rfl
  | cons p ps ih => simp

theorem eraseIdx_append_length (pre : List vmarea) (cur : vmarea) (rest : List vmarea) :
    (pre ++ cur :: rest).eraseIdx pre.length = pre ++ rest := by
  induction pre with
  | nil => rfl
  | cons p ps ih => simpa using ih

theorem vmmap_insert_pos_append (newvma : vmarea) (xs ys : List vmarea)
    (hxs : ∀ p ∈ xs, p.vma_start < newvma.vma_end)
    (hys : ∀ y ∈ ys.head?, y.vma_start ≥ newvma.vma_end) :
    vmmap_insert_pos newvma (xs ++ ys) = xs.length := by
  induction xs with
  | nil =>
    cases ys with
    | nil => rfl
    | cons y ys => 
      have := hys y (by simp)
      simp [vmmap_insert_pos, this]
  | cons p ps ih =>
    have hp := hxs p (by simp)
    have := ih (fun q hq => hxs q (by simp [hq]))
    simp [vmmap_insert_pos, Nat.not_le.mpr hp, this]

theorem vmmap_insert_list_append (mapaddr : Nat) (newvma : vmarea) (xs ys : List vmarea)
    (hxs : ∀ p ∈ xs, p.vma_start < newvma.vma_end)
    (hys : ∀ y ∈ ys.head?, y.vma_start ≥ newvma.vma_end) :
    vmmap_insert_list mapaddr newvma (xs ++ ys)
      = xs ++ { newvma with vma_vmmap := some mapaddr } :: ys := by
  induction xs with
  | nil =>
    cases ys with
    | nil => rfl
    | cons y ys => 
      have := hys y (by simp)
      simp [vmmap_insert_list, this]
  | cons p ps ih =>
    have hp := hxs p (by simp)
    have := ih (fun q hq => hxs q (by simp [hq]))
    simp [vmmap_insert_list, Nat.not_le.mpr hp, this]

/-! ## The loop of `vmmap_remove` on an ordered list -/

theorem vmmap_remove_loop_step (mapaddr lopage npages : Nat) (hw : lopage + npages < U32)
    (pre rest : List vmarea) (cur : vmarea) (fuel : Nat) (tr : List KCall)
    (hpre : ∀ p ∈ pre, p.vma_start < cur.vma_end)
    (hcur : cur.vma_start < cur.vma_end)
    (hrest : ∀ y ∈ rest.head?, y.vma_start ≥ cur.vma_end) :
    vmmap_remove_loop mapaddr lopage npages (fuel + 1) (pre ++ cur :: rest) pre.length tr
      = vmmap_remove_loop mapaddr lopage npages fuel
          ((pre ++ remove_area mapaddr lopage npages cur) ++ rest)
          (pre ++ remove_area mapaddr lopage npages cur).length
          (tr ++ remove_area_calls lopage npages cur) := by
  rw [vmmap_remove_loop]
  simp only [getElem?_append_length, u32add_eq hw]
  have hnew : (vmmap_remove_newvma lopage npages cur).vma_end = cur.vma_end := rfl
  have hpos : vmmap_insert_pos (vmmap_remove_newvma lopage npages cur) (pre ++ cur :: rest)
      = pre.length + 1 := by
    have := vmmap_insert_pos_append (vmmap_remove_newvma lopage npages cur) (pre ++ [cur]) rest
      (by intro p hp; simp at hp; rcases hp with hp | hp
          · exact hnew ▸ hpre p hp
          · subst hp; exact hnew ▸ hcur)
      (by intro y hy; exact hnew ▸ hrest y hy)
    simpa using this
  have hins : vmmap_insert_list mapaddr (vmmap_remove_newvma lopage npages cur)
      (pre ++ cur :: rest)
      = pre ++ cur :: { vmmap_remove_newvma lopage npages cur with vma_vmmap := some mapaddr }
          :: rest := by
    have := vmmap_insert_list_append mapaddr (vmmap_remove_newvma lopage npages cur)
      (pre ++ [cur]) rest
      (by intro p hp; simp at hp; rcases hp with hp | hp
          · exact hnew ▸ hpre p hp
          · subst hp; exact hnew ▸ hcur)
      (by intro y hy; exact hnew ▸ hrest y hy)
    simpa using this
  rw [hpos, hins]
  have hobj : (vmmap_remove_newvma lopage npages cur).vma_obj = cur.vma_obj := rfl
  rw [hobj]
  have e : ∀ a b : Nat, (a ≤ b) = ¬ (b < a) := fun a b => by simp
  by_cases a1 : cur.vma_start < lopage <;> by_cases a2 : lopage + npages < cur.vma_end <;>
    by_cases a3 : lopage < cur.vma_end <;> by_cases a4 : cur.vma_start < lopage + npages <;>
    first
    | (exfalso; omega)
    | (have a5 : ¬ (lopage + npages < lopage) := by omega
       simp only [remove_area, remove_area_calls, ge_iff_le, gt_iff_lt, e]
       simp [a1, a2, a3, a4, a5, set_append_length, eraseIdx_append_length])

theorem mem_remove_area {mapaddr lopage npages : Nat} (hw : lopage + npages < U32)
    {a x : vmarea} (ha : a.vma_start < a.vma_end)
    (hx : x ∈ remove_area mapaddr lopage npages a) :
    a.vma_start ≤ x.vma_start ∧ x.vma_end ≤ a.vma_end ∧ x.vma_start < x.vma_end ∧
    (x.vma_end ≤ lopage ∨ lopage + npages ≤ x.vma_start) ∧
    x.vma_obj = a.vma_obj ∧ x.vma_prot = a.vma_prot ∧ x.vma_flags = a.vma_flags := by
  unfold remove_area at hx
  split_ifs at hx with c1 c2 c3 c4
  · simp only [List.mem_cons, List.mem_singleton, List.not_mem_nil, or_false] at hx
    rcases hx with rfl | rfl
    · simp; omega
    · simp [vmmap_remove_newvma, u32add_eq hw]; omega
  · simp only [List.mem_singleton] at hx
    subst hx; simp; omega
  · simp only [List.mem_singleton] at hx
    subst hx; simp; omega
  · simp at hx
  · simp only [List.mem_singleton] at hx
    subst hx
    refine ⟨le_refl _, le_refl _, ha, ?_, rfl, rfl, rfl⟩
    omega

theorem mem_remove_areas {mapaddr lopage npages : Nat} {l : List vmarea} {x : vmarea}
    (hx : x ∈ remove_areas mapaddr lopage npages l) :
    ∃ a ∈ l, x ∈ remove_area mapaddr lopage npages a := by
  induction l with
  | nil => simp [remove_areas] at hx
  | cons a rest ih =>
    simp only [remove_areas, List.mem_append] at hx
    rcases hx with hx | hx
    · exact ⟨a, by simp, hx⟩
    · obtain ⟨b, hb, hxb⟩ := ih hx
      exact ⟨b, by simp [hb], hxb⟩

theorem vmmap_remove_loop_eq (mapaddr lopage npages : Nat) (hw : lopage + npages < U32) :
    ∀ (post pre : List vmarea) (fuel : Nat) (tr : List KCall),
      (∀ p ∈ pre, ∀ q ∈ post, p.vma_start < q.vma_end) →
      Ordered post → (∀ q ∈ post, q.vma_start < q.vma_end) →
      vmmap_remove_loop mapaddr lopage npages fuel (pre ++ post) pre.length tr
        = if post.length < fuel then
            some (pre ++ remove_areas mapaddr lopage npages post,
                  tr ++ remove_calls lopage npages post)
          else none := by
  intro post
  induction post with
  | nil =>
    intro pre fuel tr _ _ _
    cases fuel with
    | zero => simp [vmmap_remove_loop]
    | succ n => simp [vmmap_remove_loop, remove_areas, remove_calls]
  | cons cur rest ih =>
    intro pre fuel tr hpre hord hne
    cases fuel with
    | zero => simp [vmmap_remove_loop]
    | succ n =>
      have hcur := hne cur (by simp)
      have hord' := List.pairwise_cons.mp hord
      rw [vmmap_remove_loop_step mapaddr lopage npages hw pre rest cur n tr
        (fun p hp => hpre p hp cur (by simp)) hcur
        (by intro y hy
            have : y ∈ rest := List.mem_of_mem_head? hy
            have := hord'.1 y this
            omega)]
      rw [ih (pre ++ remove_area mapaddr lopage npages cur) n
        (tr ++ remove_area_calls lopage npages cur) ?_ hord'.2
        (fun q hq => hne q (by simp [hq]))]
      · simp [remove_areas, remove_calls]
      · intro p hp q hq
        have hq1 := hord'.1 q hq
        have hq2 := hne q (by simp [hq])
        rcases List.mem_append.mp hp with hp | hp
        · have := hpre p hp cur (by simp); omega
        · have := mem_remove_area hw hcur hp; omega

theorem ranges_intersect_iff (s1 e1 s2 e2 : Nat) :
    ranges_intersect s1 e1 s2 e2 ↔ s1 < e1 ∧ s2 < e2 ∧ s1 < e2 ∧ s2 < e1 := by
  constructor
  · rintro ⟨p, h1, h2, h3, h4⟩; omega
  · intro h
    refine ⟨max s1 s2, ?_, ?_, ?_, ?_⟩ <;> omega

theorem wellFormed_iff (l : List vmarea) :
    WellFormed l ↔ Ordered l ∧ ∀ a ∈ l, a.vma_start < a.vma_end := by
  constructor
  · rintro ⟨hs, hd, hne⟩
    refine ⟨?_, hne⟩
    have := (hs.and hd)
    refine List.Pairwise.imp_of_mem ?_ this
    intro a b ha hb hab
    have h1 := hne a ha
    have h2 := hne b hb
    have h3 := hab.2
    rw [ranges_intersect_iff] at h3
    have := hab.1
    omega
  · rintro ⟨ho, hne⟩
    refine ⟨?_, ?_, hne⟩
    · refine List.Pairwise.imp_of_mem ?_ ho
      intro a b ha _ hab
      have := hne a ha
      omega
    · refine List.Pairwise.imp_of_mem ?_ ho
      intro a b _ _ hab
      rw [ranges_intersect_iff]
      omega

theorem remove_area_ordered {mapaddr lopage npages : Nat} (hw : lopage + npages < U32)
    {a : vmarea} : Ordered (remove_area mapaddr lopage npages a) := by
  unfold remove_area Ordered
  split_ifs with c1 c2 c3 c4
  · simp [vmmap_remove_newvma, u32add_eq hw]
  · simp
  · simp
  · simp
  · simp

theorem remove_areas_ordered {mapaddr lopage npages : Nat} (hw : lopage + npages < U32)
    {l : List vmarea} (ho : Ordered l) (hne : ∀ a ∈ l, a.vma_start < a.vma_end) :
    Ordered (remove_areas mapaddr lopage npages l) := by
  induction l with
  | nil => simp [remove_areas, Ordered]
  | cons a rest ih =>
    have ho' := List.pairwise_cons.mp ho
    simp only [remove_areas, Ordered]
    rw [List.pairwise_append]
    refine ⟨remove_area_ordered hw, ih ho'.2 (fun q hq => hne q (by simp [hq])), ?_⟩
    intro x hx y hy
    obtain ⟨q, hq, hyq⟩ := mem_remove_areas hy
    have h1 := mem_remove_area hw (hne a (by simp)) hx
    have h2 := mem_remove_area hw (hne q (by simp [hq])) hyq
    have := ho'.1 q hq
    omega

theorem remove_areas_wellFormed {mapaddr lopage npages : Nat} (hw : lopage + npages < U32)
    {l : List vmarea} (h : WellFormed l) :
    WellFormed (remove_areas mapaddr lopage npages l) := by
  rw [wellFormed_iff] at h ⊢
  refine ⟨remove_areas_ordered hw h.1 h.2, ?_⟩
  intro x hx
  obtain ⟨q, hq, hxq⟩ := mem_remove_areas hx
  exact (mem_remove_area hw (h.2 q hq) hxq).2.2.1

theorem vmmap_remove_eq_ite (K : KParams) (map : vmmap) (lopage npages : Nat)
    (hw : lopage + npages < U32) (h : WellFormed map.vmm_list) (fuel : Nat) :
    vmmap_remove K fuel map lopage npages
      = if map.vmm_list.length < fuel then
          some (0, { map with vmm_list := remove_areas map.vmm_addr lopage npages map.vmm_list },
            remove_calls lopage npages map.vmm_list ++
              [KCall.tlb_flush_all,
                KCall.pt_unmap_range (PN_TO_ADDR K lopage) (PN_TO_ADDR K (lopage + npages))])
        else none := by
  rw [wellFormed_iff] at h
  have := vmmap_remove_loop_eq map.vmm_addr lopage npages hw map.vmm_list [] fuel []
    (by simp) h.1 h.2
  simp only [List.nil_append, List.length_nil] at this
  unfold vmmap_remove
  rw [this]
  split_ifs <;> simp [u32add_eq hw]

theorem vmmap_remove_eq (K : KParams) (map : vmmap) (lopage npages : Nat)
    (hw : lopage + npages < U32) (h : WellFormed map.vmm_list)
    (fuel : Nat) (hf : map.vmm_list.length < fuel) :
    vmmap_remove K fuel map lopage npages
      = some (0, { map with vmm_list := remove_areas map.vmm_addr lopage npages map.vmm_list },
          remove_calls lopage npages map.vmm_list ++
            [KCall.tlb_flush_all,
              KCall.pt_unmap_range (PN_TO_ADDR K lopage) (PN_TO_ADDR K (lopage + npages))]) := by
  rw [vmmap_remove_eq_ite K map lopage npages hw h fuel, if_pos hf]

theorem vmmap_is_range_empty_loop_eq (startvfn npages : Nat) (l : List vmarea) (record : Int) :
    vmmap_is_range_empty_loop startvfn npages l record
      = if ∃ a ∈ l, a.vma_start < u32add startvfn npages ∧ a.vma_end > startvfn then 0
        else record := by
  induction l generalizing record with
  | nil => simp [vmmap_is_range_empty_loop]
  | cons a rest ih =>
    simp only [vmmap_is_range_empty_loop]
    by_cases c : a.vma_start < u32add startvfn npages ∧ a.vma_end > startvfn
    · rw [if_pos c, ih]
      have : ∃ b ∈ a :: rest, b.vma_start < u32add startvfn npages ∧ b.vma_end > startvfn :=
        ⟨a, by simp, c⟩
      rw [if_pos this]
      split_ifs <;> rfl
    · rw [if_neg c, ih]
      by_cases c' : ∃ b ∈ rest, b.vma_start < u32add startvfn npages ∧ b.vma_end > startvfn
      · have : ∃ b ∈ a :: rest, b.vma_start < u32add startvfn npages ∧ b.vma_end > startvfn := by
          obtain ⟨b, hb, hb'⟩ := c'
          exact ⟨b, by simp [hb], hb'⟩
        rw [if_pos c', if_pos this]
      · have : ¬ ∃ b ∈ a :: rest, b.vma_start < u32add startvfn npages ∧ b.vma_end > startvfn := by
          rintro ⟨b, hb, hb'⟩
          rcases List.mem_cons.mp hb with rfl | hb
          · exact c hb'
          · exact c' ⟨b, hb, hb'⟩
        rw [if_neg c', if_neg this]

theorem ADDR_TO_PN_le (K : KParams) (x : Nat) : ADDR_TO_PN K x ≤ x := Nat.div_le_self _ _

theorem remove_area_untouched (mapaddr lopage npages : Nat) (a : vmarea)
    (ha : a.vma_start < a.vma_end) (h : a.vma_end ≤ lopage ∨ lopage + npages ≤ a.vma_start) :
    remove_area mapaddr lopage npages a = [a] ∧ remove_area_calls lopage npages a = [] := by
  unfold remove_area remove_area_calls
  have c1 : ¬ (a.vma_start < lopage ∧ a.vma_end > lopage + npages) := by omega
  have c2 : ¬ (a.vma_start < lopage ∧ a.vma_end > lopage ∧ a.vma_end ≤ lopage + npages) := by
    omega
  have c3 : ¬ (a.vma_end > lopage + npages ∧ a.vma_start < lopage + npages ∧
      a.vma_start ≥ lopage) := by omega
  have c4 : ¬ (a.vma_start ≥ lopage ∧ a.vma_end ≤ lopage + npages) := by omega
  simp only [if_neg c1, if_neg c2, if_neg c3, if_neg c4, and_self]

theorem remove_areas_untouched (mapaddr lopage npages : Nat) (l : List vmarea)
    (hne : ∀ a ∈ l, a.vma_start < a.vma_end)
    (h : ∀ a ∈ l, a.vma_end ≤ lopage ∨ lopage + npages ≤ a.vma_start) :
    remove_areas mapaddr lopage npages l = l ∧ remove_calls lopage npages l = [] := by
  induction l with
  | nil => simp [remove_areas, remove_calls]
  | cons a rest ih =>
    have h1 := remove_area_untouched mapaddr lopage npages a (hne a (by simp)) (h a (by simp))
    have h2 := ih (fun q hq => hne q (by simp [hq])) (fun q hq => h q (by simp [hq]))
    simp [remove_areas, remove_calls, h1.1, h1.2, h2.1, h2.2]

theorem remove_areas_append (mapaddr lopage npages : Nat) (xs ys : List vmarea) :
    remove_areas mapaddr lopage npages (xs ++ ys)
      = remove_areas mapaddr lopage npages xs ++ remove_areas mapaddr lopage npages ys := by
  induction xs with
  | nil => simp [remove_areas]
  | cons a rest ih => simp [remove_areas, ih]

theorem remove_calls_append (lopage npages : Nat) (xs ys : List vmarea) :
    remove_calls lopage npages (xs ++ ys)
      = remove_calls lopage npages xs ++ remove_calls lopage npages ys := by
  induction xs with
  | nil => simp [remove_calls]
  | cons a rest ih => simp [remove_calls, ih]

theorem u32sub_u32add_eq {off hi s : Nat} (hs : s ≤ hi) (hs' : s < U32)
    (h : off + (hi - s) < U32) : u32sub (u32add off hi) s = off + (hi - s) := by
  unfold u32sub u32add
  unfold U32 at *
  omega

/-- The calls the four cases make are `ref` and `put` calls on the objects of areas of the
list. -/
theorem mem_remove_calls {lopage npages : Nat} {l : List vmarea} {c : KCall}
    (hc : c ∈ remove_calls lopage npages l) :
    ∃ a ∈ l, c = KCall.ref a.vma_obj ∨ c = KCall.put a.vma_obj := by
  induction l with
  | nil => simp [remove_calls] at hc
  | cons a rest ih =>
    simp only [remove_calls, List.mem_append] at hc
    rcases hc with hc | hc
    · refine ⟨a, by simp, ?_⟩
      unfold remove_area_calls at hc
      split_ifs at hc
      · simp only [List.mem_singleton] at hc
        exact Or.inl hc
      · simp at hc
      · simp at hc
      · simp only [List.mem_singleton] at hc
        exact Or.inr hc
      · simp at hc
    · obtain ⟨q, hq, h⟩ := ih hc
      exact ⟨q, by simp [hq], h⟩

/-- On a list whose areas are bound to objects, no call of `vmmap_remove` goes through a null
object pointer. -/
theorem remove_trace_objects (lopage npages : Nat) (l : List vmarea) (rest : List KCall)
    (hobj : ∀ a ∈ l, a.vma_obj ≠ none)
    (hrest : ∀ c ∈ rest, c ≠ KCall.ref none ∧ c ≠ KCall.put none) :
    ∀ c ∈ remove_calls lopage npages l ++ rest, c ≠ KCall.ref none ∧ c ≠ KCall.put none := by
  intro c hc
  rcases List.mem_append.mp hc with hc | hc
  · obtain ⟨a, ha, h⟩ := mem_remove_calls hc
    have := hobj a ha
    rcases h with h | h
    · subst h
      exact ⟨fun e => this (by injection e), fun e => (by cases e)⟩
    · subst h
      exact ⟨fun e => (by cases e), fun e => this (by injection e)⟩
  · exact hrest c hc

/-- The `KASSERT`s of the `vmmap_insert` call of case 1 of `vmmap_remove` hold for an area
inside the user window that the range lies strictly inside of. -/
theorem vmmap_remove_newvma_asserts (K : KParams) (lopage npages : Nat) (a : vmarea)
    (hw : lopage + npages < U32)
    (hwin : ADDR_TO_PN K K.USER_MEM_LOW ≤ a.vma_start ∧
      a.vma_end ≤ ADDR_TO_PN K K.USER_MEM_HIGH)
    (h1 : a.vma_start < lopage) (h2 : a.vma_end > lopage + npages) :
    vmmap_insert_asserts K (vmmap_remove_newvma lopage npages a) := by
  unfold vmmap_insert_asserts vmmap_remove_newvma
  simp only [u32add_eq hw]
  refine ⟨trivial, ?_, ?_, ?_⟩ <;> omega

/-- C2: on a well-formed map inside the user window whose areas are bound to objects, for a
range `[lopage, lopage + npages)` that ends inside the user window (`npages >= 1` and the
lower bound of the window are not needed), `vmmap_remove` returns 0 with any fuel above the
number of areas: the `KASSERT`s of the `vmmap_insert` call of case 1 hold for the area it
inserts, and every `ref` and `put` it calls goes through the object of an area, none through
a null pointer.  Afterwards no area intersects `[lopage, lopage + npages)`, and
`vmmap_is_range_empty` on that range returns 1; the areas of the map may fall into any of the
four cases. -/
theorem vmmap_remove_clears_range (K : KParams) (hK : K.USER_MEM_HIGH < U32) (map : vmmap)
    (lopage npages : Nat) (hwf : WellFormed map.vmm_list) (hwin : InWindow K map.vmm_list)
    (hobj : ∀ a ∈ map.vmm_list, a.vma_obj ≠ none)
    (hhi : lopage + npages ≤ ADDR_TO_PN K K.USER_MEM_HIGH) :
    ∃ map1 tr,
      (∀ fuel, map.vmm_list.length < fuel →
        vmmap_remove K fuel map lopage npages = some (0, map1, tr)) ∧
      (∀ a ∈ map.vmm_list, a.vma_start < lopage → a.vma_end > lopage + npages →
        vmmap_insert_asserts K (vmmap_remove_newvma lopage npages a)) ∧
      (∀ c ∈ tr, c ≠ KCall.ref none ∧ c ≠ KCall.put none) ∧
      (∀ a ∈ map1.vmm_list, ¬ vmarea_intersects a lopage (lopage + npages)) ∧
      vmmap_is_range_empty map1 lopage npages = 1 := by
  have hw : lopage + npages < U32 := by
    have := ADDR_TO_PN_le K K.USER_MEM_HIGH
    omega
  refine ⟨_, _, fun fuel hf => vmmap_remove_eq K map lopage npages hw hwf fuel hf, ?_, ?_, ?_,
    ?_⟩
  · intro a ha h1 h2
    exact vmmap_remove_newvma_asserts K lopage npages a hw (hwin a ha) h1 h2
  · exact remove_trace_objects lopage npages map.vmm_list _ hobj (fun c hc => by
      simp only [List.mem_cons, List.mem_singleton, List.not_mem_nil, or_false] at hc
      rcases hc with rfl | rfl <;> exact ⟨fun e => (by cases e), fun e => (by cases e)⟩)
  · intro a ha
    obtain ⟨q, hq, haq⟩ := mem_remove_areas ha
    have := mem_remove_area hw (((wellFormed_iff _).mp hwf).2 q hq) haq
    unfold vmarea_intersects
    rw [ranges_intersect_iff]
    omega
  · unfold vmmap_is_range_empty
    rw [vmmap_is_range_empty_loop_eq, if_neg]
    rintro ⟨a, ha, h1, h2⟩
    rw [u32add_eq hw] at h1
    obtain ⟨q, hq, haq⟩ := mem_remove_areas ha
    have := mem_remove_area hw (((wellFormed_iff _).mp hwf).2 q hq) haq
    omega

theorem exMap4_wellFormed : WellFormed exMap4.vmm_list := by
  rw [wellFormed_iff]
  simp [exMap4, exArea, Ordered]

theorem exMap4_inWindow : InWindow exK exMap4.vmm_list := by
  intro a ha
  simp only [exMap4, List.mem_cons, List.mem_singleton, List.not_mem_nil, or_false] at ha
  rcases ha with rfl | rfl | rfl | rfl <;> decide

theorem exMap4_objects : ∀ a ∈ exMap4.vmm_list, a.vma_obj ≠ none := by
  intro a ha
  simp only [exMap4, List.mem_cons, List.mem_singleton, List.not_mem_nil, or_false] at ha
  rcases ha with rfl | rfl | rfl | rfl <;> decide

/-- C2 at a map of four areas and the range `[1028, 1043)`, which trims the tail of the
first area, deletes the second and trims the head of the third. -/
theorem vmmap_remove_clears_range_witness :
    exK.USER_MEM_HIGH < U32 ∧ WellFormed exMap4.vmm_list ∧ InWindow exK exMap4.vmm_list ∧
    (∀ a ∈ exMap4.vmm_list, a.vma_obj ≠ none) ∧
    1028 + 15 ≤ ADDR_TO_PN exK exK.USER_MEM_HIGH ∧
    vmmap_remove exK 5 exMap4 1028 15
      = some (0,
          { exMap4 with
            vmm_list := [exArea 1024 1028 0 1, exArea 1043 1050 6 3, exArea 1060 1070 3 4] },
          [KCall.put (some 2), KCall.tlb_flush_all,
            KCall.pt_unmap_range (1028 * 4096) (1043 * 4096)]) ∧
    ∃ map1 tr,
      (∀ fuel, exMap4.vmm_list.length < fuel →
        vmmap_remove exK fuel exMap4 1028 15 = some (0, map1, tr)) ∧
      (∀ a ∈ exMap4.vmm_list, a.vma_start < 1028 → a.vma_end > 1028 + 15 →
        vmmap_insert_asserts exK (vmmap_remove_newvma 1028 15 a)) ∧
      (∀ c ∈ tr, c ≠ KCall.ref none ∧ c ≠ KCall.put none) ∧
      (∀ a ∈ map1.vmm_list, ¬ vmarea_intersects a 1028 (1028 + 15)) ∧
      vmmap_is_range_empty map1 1028 15 = 1 :=
  ⟨by decide, exMap4_wellFormed, exMap4_inWindow, exMap4_objects, by decide, by decide,
    vmmap_remove_clears_range exK (by decide) exMap4 1028 15 exMap4_wellFormed exMap4_inWindow
      exMap4_objects (by decide)⟩

/-- C3: on a well-formed map whose list is `pre ++ a :: rest`, the area `a` lying inside the
user window and bound to the object `X`, a removal range with `a.vma_start < lopage` and
`lopage + npages < a.vma_end` (`npages >= 1`) makes `vmmap_remove` replace `a` by exactly two
adjacent areas, `[a.vma_start, lopage)` with the offset of `a` and
`[lopage + npages, a.vma_end)` with offset `a.vma_off + (lopage + npages - a.vma_start)`,
both with the protection and flags of `a` and bound to `X`; the rest of the list is as before
and the only operation-table call is one `ref` on `X`.  The area given to `vmmap_insert`
passes the `KASSERT`s of `vmmap_insert`.  The new offset is taken to fit in a `uint32_t`. -/
theorem vmmap_remove_split (K : KParams) (hK : K.USER_MEM_HIGH < U32) (map : vmmap)
    (pre rest : List vmarea) (a : vmarea) (X : Nat)
    (lopage npages : Nat) (hl : map.vmm_list = pre ++ a :: rest) (hwf : WellFormed map.vmm_list)
    (hX : a.vma_obj = some X)
    (hwin : ADDR_TO_PN K K.USER_MEM_LOW ≤ a.vma_start ∧
      a.vma_end ≤ ADDR_TO_PN K K.USER_MEM_HIGH)
    (hs : a.vma_start < lopage) (he : lopage + npages < a.vma_end) (hn : 1 ≤ npages)
    (hoff : a.vma_off + (lopage + npages - a.vma_start) < U32)
    (fuel : Nat) (hf : map.vmm_list.length < fuel) :
    vmmap_insert_asserts K (vmmap_remove_newvma lopage npages a) ∧
    vmmap_remove K fuel map lopage npages
      = some (0,
          { map with vmm_list :=
              pre ++
                { a with vma_end := lopage, vma_obj := some X } ::
                { vma_start := lopage + npages, vma_end := a.vma_end,
                  vma_off := a.vma_off + (lopage + npages - a.vma_start),
                  vma_prot := a.vma_prot, vma_flags := a.vma_flags,
                  vma_vmmap := some map.vmm_addr, vma_obj := some X } :: rest },
          [KCall.ref (some X), KCall.tlb_flush_all,
            KCall.pt_unmap_range (PN_TO_ADDR K lopage) (PN_TO_ADDR K (lopage + npages))]) := by
  have hend : a.vma_end < U32 := by
    have := ADDR_TO_PN_le K K.USER_MEM_HIGH
    omega
  have hw : lopage + npages < U32 := by omega
  refine ⟨vmmap_remove_newvma_asserts K lopage npages a hw hwin hs (by omega), ?_⟩
  rw [vmmap_remove_eq K map lopage npages hw hwf fuel hf]
  have hwf' := (wellFormed_iff _).mp hwf
  rw [hl] at hwf'
  have hord := List.pairwise_append.mp hwf'.1
  have hord2 := List.pairwise_cons.mp hord.2.1
  have hpre := remove_areas_untouched map.vmm_addr lopage npages pre (fun q hq => hwf'.2 q (by simp [hq]))
    (fun q hq => by
      have := hord.2.2 q hq a (by simp)
      omega)
  have hrest := remove_areas_untouched map.vmm_addr lopage npages rest (fun q hq => hwf'.2 q (by simp [hq]))
    (fun q hq => by
      have := hord2.1 q hq
      omega)
  have ha : remove_area map.vmm_addr lopage npages a
      = [{ a with vma_end := lopage, vma_obj := some X },
         { vma_start := lopage + npages, vma_end := a.vma_end,
           vma_off := a.vma_off + (lopage + npages - a.vma_start),
           vma_prot := a.vma_prot, vma_flags := a.vma_flags,
           vma_vmmap := some map.vmm_addr, vma_obj := some X }] := by
    unfold remove_area
    rw [if_pos ⟨hs, he⟩]
    simp only [vmmap_remove_newvma, u32add_eq hw, hX]
    rw [u32sub_u32add_eq (by omega) (by omega) hoff]
  have hc : remove_area_calls lopage npages a = [KCall.ref (some X)] := by
    unfold remove_area_calls
    rw [if_pos ⟨hs, he⟩, hX]
  rw [hl, remove_areas_append, remove_calls_append]
  simp only [remove_areas, remove_calls, hpre.1, hpre.2, hrest.1, hrest.2, ha, hc]
  simp

theorem exMap1_wellFormed : WellFormed exMap1.vmm_list := by
  rw [wellFormed_iff]
  simp [exMap1, exArea, Ordered]

/-- C3 at a three-page shared area `[1024, 1027)` with offset 0, bound to object 1, whose
middle page is removed: two one-page areas with offsets 0 and 2 remain, both bound to
object 1, on which `ref` is called once. -/
theorem vmmap_remove_split_witness :
    exK.USER_MEM_HIGH < U32 ∧
    exMap1.vmm_list = [] ++ exArea 1024 1027 0 1 :: [] ∧ WellFormed exMap1.vmm_list ∧
    (exArea 1024 1027 0 1).vma_obj = some 1 ∧
    (ADDR_TO_PN exK exK.USER_MEM_LOW ≤ (exArea 1024 1027 0 1).vma_start ∧
      (exArea 1024 1027 0 1).vma_end ≤ ADDR_TO_PN exK exK.USER_MEM_HIGH) ∧
    (exArea 1024 1027 0 1).vma_start < 1025 ∧ 1025 + 1 < (exArea 1024 1027 0 1).vma_end ∧
    1 ≤ 1 ∧
    (exArea 1024 1027 0 1).vma_off + (1025 + 1 - (exArea 1024 1027 0 1).vma_start) < U32 ∧
    exMap1.vmm_list.length < 2 ∧
    vmmap_remove exK 2 exMap1 1025 1
      = some (0, { exMap1 with vmm_list := [exArea 1024 1025 0 1, exArea 1026 1027 2 1] },
          [KCall.ref (some 1), KCall.tlb_flush_all,
            KCall.pt_unmap_range (1025 * 4096) (1026 * 4096)]) ∧
    vmmap_insert_asserts exK (vmmap_remove_newvma 1025 1 (exArea 1024 1027 0 1)) ∧
    vmmap_remove exK 2 exMap1 1025 1
      = some (0,
          { exMap1 with vmm_list :=
              [] ++
                { exArea 1024 1027 0 1 with vma_end := 1025, vma_obj := some 1 } ::
                { vma_start := 1025 + 1, vma_end := (exArea 1024 1027 0 1).vma_end,
                  vma_off := (exArea 1024 1027 0 1).vma_off
                    + (1025 + 1 - (exArea 1024 1027 0 1).vma_start),
                  vma_prot := (exArea 1024 1027 0 1).vma_prot,
                  vma_flags := (exArea 1024 1027 0 1).vma_flags,
                  vma_vmmap := some exMap1.vmm_addr,
                  vma_obj := some 1 } :: [] },
          [KCall.ref (some 1), KCall.tlb_flush_all,
            KCall.pt_unmap_range (PN_TO_ADDR exK 1025) (PN_TO_ADDR exK (1025 + 1))]) :=
  ⟨by decide, rfl, exMap1_wellFormed, rfl, by decide, by decide, by decide, by decide,
    by decide, by decide, by decide,
    vmmap_remove_split exK (by decide) exMap1 [] [] (exArea 1024 1027 0 1) 1 1025 1 rfl
      exMap1_wellFormed rfl (by decide) (by decide) (by decide) (by decide) (by decide) 2
      (by decide)⟩

/-- The failing input of C4: `do_munmap` with length 0 at the second page of a three-page
area.  The validation accepts it, the page range `[1025, 1025)` is empty, and the call
returns 0, yet the area is split in two at page 1025 and `ref` is called on its object. -/
theorem do_munmap_zero_length_splits :
    validate_munmap_args exK (1025 * 4096) 0 = 0 ∧
    (∀ a ∈ exMap1.vmm_list, ¬ vmarea_intersects a 1025 (1025 + 0)) ∧
    do_munmap exK 2 exMap1 (1025 * 4096) 0
      = some (0,
          { exMap1 with vmm_list := [exArea 1024 1025 0 1, exArea 1025 1027 1 1] },
          [KCall.ref (some 1), KCall.tlb_flush_all, KCall.pt_unmap_range 4198400 4198400,
            KCall.tlb_flush_all]) := by
  refine ⟨by decide, ?_, by decide⟩
  intro a _
  unfold vmarea_intersects
  rw [ranges_intersect_iff]
  omega

/-- For a non-zero length the property of C4 holds: on a well-formed map, if the validation
accepts `addr` and `len > 0` and no area intersects the page range computed from them,
`do_munmap` returns 0, leaves the map as it was and calls neither `ref` nor `put`. -/
theorem do_munmap_unmapped (K : KParams) (hps : 1 ≤ K.PAGE_SHIFT) (map : vmmap)
    (addr len : Nat) (haddr : addr < U32) (hlen : len < U32) (hpos : 0 < len)
    (hv : 0 ≤ validate_munmap_args K addr len) (hwf : WellFormed map.vmm_list)
    (hun : ∀ a ∈ map.vmm_list, ¬ vmarea_intersects a (ADDR_TO_PN K addr)
      (ADDR_TO_PN K addr +
        (if len % PAGE_SIZE K = 0 then len / PAGE_SIZE K else len / PAGE_SIZE K + 1)))
    (fuel : Nat) (hf : map.vmm_list.length < fuel) :
    do_munmap K fuel map addr len
      = some (0, map,
          [KCall.tlb_flush_all,
            KCall.pt_unmap_range (PN_TO_ADDR K (ADDR_TO_PN K addr))
              (PN_TO_ADDR K (ADDR_TO_PN K addr +
                (if len % PAGE_SIZE K = 0 then len / PAGE_SIZE K else len / PAGE_SIZE K + 1))),
            KCall.tlb_flush_all]) := by
  have hPS : 2 ≤ PAGE_SIZE K := by
    unfold PAGE_SIZE
    calc 2 = 2 ^ 1 := rfl
      _ ≤ 2 ^ K.PAGE_SHIFT := Nat.pow_le_pow_right (by decide) hps
  have h1 : ADDR_TO_PN K addr ≤ addr / 2 := Nat.div_le_div_left hPS (by decide)
  have h2 : len / PAGE_SIZE K ≤ len / 2 := Nat.div_le_div_left hPS (by decide)
  have hPS0 : 0 < PAGE_SIZE K := by omega
  generalize hnp : (if len % PAGE_SIZE K = 0 then len / PAGE_SIZE K else len / PAGE_SIZE K + 1)
    = np at hun ⊢
  have hnp1 : 1 ≤ np := by
    subst hnp
    split_ifs with c
    · have := Nat.div_add_mod len (PAGE_SIZE K)
      rw [c] at this
      rcases Nat.eq_zero_or_pos (len / PAGE_SIZE K) with h0 | h0
      · rw [h0] at this; simp at this; omega
      · exact h0
    · exact Nat.le_add_left 1 _
  have hnp2 : np ≤ len / 2 + 1 := by
    subst hnp
    split_ifs
    · exact Nat.le_succ_of_le h2
    · exact Nat.succ_le_succ h2
  have hw : ADDR_TO_PN K addr + np < U32 := by
    unfold U32 at *
    omega
  have hne := ((wellFormed_iff _).mp hwf).2
  have hunt := remove_areas_untouched map.vmm_addr (ADDR_TO_PN K addr) np map.vmm_list hne
    (fun a ha => by
      have := hun a ha
      unfold vmarea_intersects at this
      rw [ranges_intersect_iff] at this
      have := hne a ha
      omega)
  unfold do_munmap
  simp only [not_lt.mpr hv, if_false, hnp]
  rw [vmmap_remove_eq K map _ _ hw hwf fuel hf, hunt.1, hunt.2]
  simp

/-! ## Memory objects: `put` -/

@[simp] theorem Res.bind_ok {α β : Type} (a : α) (f : α → Res β) : (Res.ok a).bind f = f a := rfl
@[simp] theorem Res.bind_panic {α β : Type} (f : α → Res β) :
    (Res.panic : Res α).bind f = Res.panic := rfl
@[simp] theorem Res.bind_nofuel {α β : Type} (f : α → Res β) :
    (Res.nofuel : Res α).bind f = Res.nofuel := rfl

@[simp] theorem VMState.set_objs_same (st : VMState) (o : Nat) (ob : mmobj) :
    (st.set o ob).objs o = some ob := by simp [VMState.set]

theorem VMState.set_objs_ne (st : VMState) (o : Nat) (ob : mmobj) {x : Nat} (h : x ≠ o) :
    (st.set o ob).objs x = st.objs x := by simp [VMState.set, h]

@[simp] theorem VMState.set_free_pages (st : VMState) (o : Nat) (ob : mmobj) :
    (st.set o ob).free_pages = st.free_pages := rfl

@[simp] theorem VMState.set_next_obj (st : VMState) (o : Nat) (ob : mmobj) :
    (st.set o ob).next_obj = st.next_obj := rfl

theorem pframe_update_objs_same (st : VMState) (pf : pframe) (f : pframe → pframe)
    (ob : mmobj) (h : st.objs pf.pf_obj = some ob) :
    (pframe_update st pf f).objs pf.pf_obj
      = some { ob with mmo_respages :=
          ob.mmo_respages.map (fun q => if q.pf_pagenum = pf.pf_pagenum then f q else q) } := by
  simp [pframe_update, h]

theorem pframe_update_objs_ne (st : VMState) (pf : pframe) (f : pframe → pframe)
    {x : Nat} (h : x ≠ pf.pf_obj) : (pframe_update st pf f).objs x = st.objs x := by
  unfold pframe_update
  cases st.objs pf.pf_obj with
  | none => rfl
  | some ob => simp [VMState.set_objs_ne _ _ _ h]

@[simp] theorem pframe_update_free_pages (st : VMState) (pf : pframe) (f : pframe → pframe) :
    (pframe_update st pf f).free_pages = st.free_pages := by
  unfold pframe_update
  cases st.objs pf.pf_obj <;> rfl

@[simp] theorem pframe_update_next_obj (st : VMState) (pf : pframe) (f : pframe → pframe) :
    (pframe_update st pf f).next_obj = st.next_obj := by
  unfold pframe_update
  cases st.objs pf.pf_obj <;> rfl

theorem filter_map_update (l : List pframe) (n : Nat) (f : pframe → pframe)
    (hf : ∀ q, (f q).pf_pagenum = q.pf_pagenum) :
    (l.map (fun q => if q.pf_pagenum = n then f q else q)).filter (fun q => q.pf_pagenum != n)
      = l.filter (fun q => q.pf_pagenum != n) := by
  induction l with
  | nil => rfl
  | cons q rest ih =>
    by_cases h : q.pf_pagenum = n
    · simp [List.filter_cons, h, hf, ih]
    · simp [List.filter_cons, h, ih]

/-- The state of object `a` and of the allocator after the page loop of `put` has run over
the frames `pages` of `a`. -/
theorem put_free_pages_spec (a : Nat) :
    ∀ (pages : List pframe) (st : VMState) (ob : mmobj), st.objs a = some ob →
      (∀ pf ∈ pages, pf.pf_obj = a) →
      (put_free_pages st pages).objs a
        = some { ob with
            mmo_respages :=
              ob.mmo_respages.filter (fun q => decide (q.pf_pagenum ∉ pages.map (·.pf_pagenum)))
            mmo_nrespages := ob.mmo_nrespages - pages.length
            mmo_refcount := ob.mmo_refcount - pages.length } ∧
      (∀ x, x ≠ a → (put_free_pages st pages).objs x = st.objs x) ∧
      (put_free_pages st pages).free_pages
        = (pages.map (fun pf => (pf.pf_addr, pf.pf_data))).reverse ++ st.free_pages ∧
      (put_free_pages st pages).next_obj = st.next_obj := by
  intro pages
  induction pages with
  | nil =>
    intro st ob hob _
    simp [put_free_pages, hob]
  | cons pf rest ih =>
    intro st ob hob hpf
    have hpfa : pf.pf_obj = a := hpf pf (by simp)
    subst hpfa
    simp only [put_free_pages]
    -- the state after the optional unpin
    obtain ⟨R1, hob1, hfilt, hoth1, hfree1, hnext1⟩ :
        ∃ R1, (if pf.pf_pinned = true then pframe_unpin st pf else st).objs pf.pf_obj
            = some { ob with mmo_respages := R1 } ∧
          R1.filter (fun q => q.pf_pagenum != pf.pf_pagenum)
            = ob.mmo_respages.filter (fun q => q.pf_pagenum != pf.pf_pagenum) ∧
          (∀ x, x ≠ pf.pf_obj →
            (if pf.pf_pinned = true then pframe_unpin st pf else st).objs x = st.objs x) ∧
          (if pf.pf_pinned = true then pframe_unpin st pf else st).free_pages = st.free_pages ∧
          (if pf.pf_pinned = true then pframe_unpin st pf else st).next_obj = st.next_obj := by
      by_cases hp : pf.pf_pinned = true
      · refine ⟨ob.mmo_respages.map (fun q =>
            if q.pf_pagenum = pf.pf_pagenum then { q with pf_pinned := false } else q),
          ?_, ?_, ?_, ?_, ?_⟩
        · rw [if_pos hp]; exact pframe_update_objs_same st pf _ ob hob
        · exact filter_map_update _ _ _ (fun q => rfl)
        · intro x hx; rw [if_pos hp]; exact pframe_update_objs_ne st pf _ hx
        · rw [if_pos hp]; simp [pframe_unpin]
        · rw [if_pos hp]; simp [pframe_unpin]
      · exact ⟨ob.mmo_respages, by rw [if_neg hp]; exact hob, rfl, fun x _ => by rw [if_neg hp],
          by rw [if_neg hp], by rw [if_neg hp]⟩
    generalize (if pf.pf_pinned = true then pframe_unpin st pf else st) = st1 at *
    have hfreeobj : (pframe_free st1 pf).objs pf.pf_obj
        = some { ob with
            mmo_respages := ob.mmo_respages.filter (fun q => q.pf_pagenum != pf.pf_pagenum)
            mmo_nrespages := ob.mmo_nrespages - 1
            mmo_refcount := ob.mmo_refcount - 1 } := by
      simp [pframe_free, hob1, hfilt]
    have hfreeoth : ∀ x, x ≠ pf.pf_obj → (pframe_free st1 pf).objs x = st.objs x := by
      intro x hx
      simp [pframe_free, hob1, VMState.set_objs_ne _ _ _ hx, hoth1 x hx]
    have hfreefp : (pframe_free st1 pf).free_pages = (pf.pf_addr, pf.pf_data) :: st.free_pages := by
      simp [pframe_free, hob1, hfree1]
    have hfreenx : (pframe_free st1 pf).next_obj = st.next_obj := by
      simp [pframe_free, hob1, hnext1]
    obtain ⟨h1, h2, h3, h4⟩ := ih (pframe_free st1 pf) _ hfreeobj (fun q hq => hpf q (by simp [hq]))
    refine ⟨?_, ?_, ?_, ?_⟩
    · rw [h1]
      simp only [List.filter_filter, List.map_cons, List.mem_cons, List.length_cons,
        Nat.cast_add, Nat.cast_one, Option.some.injEq, mmobj.mk.injEq, true_and, and_true]
      refine ⟨by omega, by omega, ?_⟩
      apply List.filter_congr
      intro q _
      by_cases hq : q.pf_pagenum = pf.pf_pagenum <;> simp [hq]
    · intro x hx; rw [h2 x hx, hfreeoth x hx]
    · rw [h3, hfreefp]; simp
    · rw [h4, hfreenx]

theorem slab_obj_free_objs_same (st : VMState) (a : Nat) : (slab_obj_free st a).objs a = none := by
  simp [slab_obj_free]

theorem areas_bound_append (X : Nat) (xs ys : List vmarea) :
    areas_bound X (xs ++ ys) = areas_bound X xs + areas_bound X ys := by
  simp [areas_bound, List.countP_append]

theorem ref_calls_append (X : Nat) (xs ys : List KCall) :
    ref_calls X (xs ++ ys) = ref_calls X xs + ref_calls X ys := by
  simp [ref_calls, List.count_append]

theorem put_calls_append (X : Nat) (xs ys : List KCall) :
    put_calls X (xs ++ ys) = put_calls X xs + put_calls X ys := by
  simp [put_calls, List.count_append]

/-- One area: the areas bound to `X` that the four cases leave, and the `ref` and `put`
calls on `X` they make. -/
theorem remove_area_balance (mapaddr lopage npages X : Nat) (a : vmarea) :
    areas_bound X (remove_area mapaddr lopage npages a) + put_calls X (remove_area_calls lopage npages a)
      = areas_bound X [a] + ref_calls X (remove_area_calls lopage npages a) := by
  unfold remove_area remove_area_calls
  split_ifs with c1 c2 c3 c4 <;>
    by_cases hX : a.vma_obj = some X <;>
    simp [areas_bound, ref_calls, put_calls, vmmap_remove_newvma, hX, List.countP_cons,
      List.count_cons, List.count_nil]

theorem remove_areas_balance (mapaddr lopage npages X : Nat) (l : List vmarea) :
    areas_bound X (remove_areas mapaddr lopage npages l) + put_calls X (remove_calls lopage npages l)
      = areas_bound X l + ref_calls X (remove_calls lopage npages l) := by
  induction l with
  | nil => simp [remove_areas, remove_calls, areas_bound, ref_calls, put_calls]
  | cons a rest ih =>
    have h := remove_area_balance mapaddr lopage npages X a
    have e : areas_bound X (a :: rest) = areas_bound X [a] + areas_bound X rest := by
      rw [← areas_bound_append]; rfl
    simp only [remove_areas, remove_calls, areas_bound_append, ref_calls_append,
      put_calls_append, e]
    omega

/-! ## `vmmap_insert` and `vmmap_map` keep the list well-formed -/

theorem mem_vmmap_insert_list {mapaddr : Nat} {v x : vmarea} {l : List vmarea}
    (h : x ∈ vmmap_insert_list mapaddr v l) :
    x = { v with vma_vmmap := some mapaddr } ∨ x ∈ l := by
  induction l with
  | nil => simp [vmmap_insert_list] at h; exact Or.inl h
  | cons a rest ih =>
    simp only [vmmap_insert_list] at h
    split_ifs at h with c
    · rcases List.mem_cons.mp h with h | h
      · exact Or.inl h
      · exact Or.inr h
    · rcases List.mem_cons.mp h with h | h
      · exact Or.inr (by simp [h])
      · rcases ih h with h | h
        · exact Or.inl h
        · exact Or.inr (by simp [h])

theorem vmmap_insert_list_ordered (mapaddr : Nat) (v : vmarea) (l : List vmarea)
    (ho : Ordered l) (hne : ∀ a ∈ l, a.vma_start < a.vma_end)
    (hd : ∀ a ∈ l, a.vma_end ≤ v.vma_start ∨ v.vma_end ≤ a.vma_start) :
    Ordered (vmmap_insert_list mapaddr v l) := by
  induction l with
  | nil => simp [vmmap_insert_list, Ordered]
  | cons a rest ih =>
    have ho' := List.pairwise_cons.mp ho
    simp only [vmmap_insert_list]
    split_ifs with c
    · unfold Ordered
      refine List.pairwise_cons.mpr ⟨?_, ho⟩
      intro b hb
      rcases List.mem_cons.mp hb with rfl | hb
      · exact c
      · have := ho'.1 b hb
        have := hne a (by simp)
        simp only
        omega
    · unfold Ordered
      refine List.pairwise_cons.mpr ⟨?_, ih ho'.2 (fun q hq => hne q (by simp [hq]))
        (fun q hq => hd q (by simp [hq]))⟩
      intro b hb
      rcases mem_vmmap_insert_list hb with rfl | hb
      · have := hd a (by simp)
        simp only
        omega
      · exact ho'.1 b hb

theorem vmmap_insert_list_wellFormed (mapaddr : Nat) (v : vmarea) (l : List vmarea)
    (h : WellFormed l) (hv : v.vma_start < v.vma_end)
    (hd : ∀ a ∈ l, ¬ vmarea_intersects a v.vma_start v.vma_end) :
    WellFormed (vmmap_insert_list mapaddr v l) := by
  rw [wellFormed_iff] at h ⊢
  refine ⟨vmmap_insert_list_ordered mapaddr v l h.1 h.2 ?_, ?_⟩
  · intro a ha
    have h1 := hd a ha
    unfold vmarea_intersects at h1
    rw [ranges_intersect_iff] at h1
    have := h.2 a ha
    omega
  · intro x hx
    rcases mem_vmmap_insert_list hx with rfl | hx
    · exact hv
    · exact h.2 x hx

theorem vmmap_insert_list_set (mapaddr : Nat) (v w : vmarea) (l : List vmarea)
    (he : w.vma_end = v.vma_end) :
    (vmmap_insert_list mapaddr v l).set (vmmap_insert_pos v l) { w with vma_vmmap := some mapaddr }
      = vmmap_insert_list mapaddr w l := by
  induction l with
  | nil => simp [vmmap_insert_list, vmmap_insert_pos]
  | cons a rest ih =>
    simp only [vmmap_insert_list, vmmap_insert_pos]
    rw [← he]
    split_ifs with c
    · simp
    · simp only [List.set_cons_succ, ih]

theorem Res.bind_eq_ok {α β : Type} {r : Res α} {f : α → Res β} {b : β}
    (h : r.bind f = Res.ok b) : ∃ a, r = Res.ok a ∧ f a = Res.ok b := by
  cases r with
  | ok a => exact ⟨a, rfl, h⟩
  | panic => simp [Res.bind] at h
  | nofuel => simp [Res.bind] at h

/-- A call of `vmmap_map` that returns has passed the `KASSERT`s of `vmmap_map` and, at a
non-zero `lopage`, that of `vmmap_is_range_empty`. -/
theorem vmmap_map_ok_asserts (K : KParams) (T : OpsCalls) (fuel head_of_empty : Nat)
    (map : vmmap) (st : VMState) (file : Option (VMState → Int × Option Nat × VMState))
    (lopage npages prot flags off : Nat) (dir : Int) (r : MapResult)
    (h : vmmap_map K T fuel head_of_empty map st file lopage npages prot flags off dir
      = Res.ok r) :
    vmmap_map_asserts K lopage npages flags off ∧
    (lopage ≠ 0 → vmmap_is_range_empty_asserts K lopage npages) := by
  unfold vmmap_map at h
  by_cases ha : vmmap_map_asserts K lopage npages flags off
  · refine ⟨ha, fun h0 => ?_⟩
    rw [if_neg (not_not.mpr ha), if_neg h0] at h
    by_contra hr
    rw [if_pos hr] at h
    cases h
  · rw [if_pos ha] at h
    cases h

/-- The function `vmmap_map` on arguments that pass the `KASSERT`s of `vmmap_map` and, at a
non-zero `lopage`, that of `vmmap_is_range_empty`. -/
theorem vmmap_map_of_asserts (K : KParams) (T : OpsCalls) (fuel head_of_empty : Nat)
    (map : vmmap) (st : VMState) (file : Option (VMState → Int × Option Nat × VMState))
    (lopage npages prot flags off : Nat) (dir : Int)
    (ha : vmmap_map_asserts K lopage npages flags off)
    (hr : lopage ≠ 0 → vmmap_is_range_empty_asserts K lopage npages) :
    vmmap_map K T fuel head_of_empty map st file lopage npages prot flags off dir
      = if lopage = 0 then
          (if vmmap_find_range K head_of_empty map npages dir < 0 then
            Res.ok { ret := vmmap_find_range K head_of_empty map npages dir, map := map,
                     new := none, st := st, calls := [] }
          else vmmap_map_area K T file map st []
            (vmmap_find_range K head_of_empty map npages dir).toNat npages prot flags off)
        else if vmmap_is_range_empty map lopage npages = 0 then
          match vmmap_remove K fuel map lopage npages with
          | none => Res.nofuel
          | some (_, map1, tr) =>
            (run_calls T st tr).bind fun st1 =>
              vmmap_map_area K T file map1 st1 tr lopage npages prot flags off
        else vmmap_map_area K T file map st [] lopage npages prot flags off := by
  unfold vmmap_map
  rw [if_neg (not_not.mpr ha)]
  by_cases h0 : lopage = 0
  · rw [if_pos h0, if_pos h0]
  · rw [if_neg h0, if_neg h0, if_neg (not_not.mpr (hr h0))]

/-- A call of the second half of `vmmap_map` that returns has passed the `KASSERT`s of
`vmmap_insert`. -/
theorem vmmap_map_area_ok_asserts (K : KParams) (T : OpsCalls)
    (file : Option (VMState → Int × Option Nat × VMState)) (map : vmmap) (st : VMState)
    (calls : List KCall) (lopage npages prot flags off : Nat) (r : MapResult)
    (h : vmmap_map_area K T file map st calls lopage npages prot flags off = Res.ok r) :
    vmmap_insert_asserts K
      { vma_start := lopage, vma_end := u32add lopage npages, vma_off := ADDR_TO_PN K off,
        vma_flags := flags, vma_prot := prot, vma_vmmap := none, vma_obj := none } := by
  unfold vmmap_map_area at h
  simp only [] at h
  by_contra hc
  rw [if_pos hc] at h
  cases h

/-- The list `vmmap_map_area` leaves: the new area, bound to some object, inserted in the
list it was given. -/
theorem vmmap_map_area_list (K : KParams) (T : OpsCalls)
    (file : Option (VMState → Int × Option Nat × VMState)) (map : vmmap) (st : VMState)
    (calls : List KCall) (lopage npages prot flags off : Nat) (r : MapResult)
    (h : vmmap_map_area K T file map st calls lopage npages prot flags off = Res.ok r) :
    ∃ x, r.map.vmm_list
        = vmmap_insert_list map.vmm_addr
            { vma_start := lopage, vma_end := u32add lopage npages, vma_off := ADDR_TO_PN K off,
              vma_flags := flags, vma_prot := prot, vma_vmmap := none, vma_obj := some x }
            map.vmm_list ∧
      r.ret = 0 := by
  unfold vmmap_map_area at h
  simp only [] at h
  split at h
  · cases h
  split at h
  · simp at h
  · rename_i o ho
    split at h
    · split at h
      · simp at h
      · obtain ⟨b, _, h⟩ := Res.bind_eq_ok h
        obtain ⟨st2, _, h⟩ := Res.bind_eq_ok h
        simp only [Res.ok.injEq] at h
        subst h
        refine ⟨(shadow_create (match file with
            | some mmap => ((mmap st).2.1, (mmap st).2.2)
            | none => anon_create st).2).1, ?_, rfl⟩
        exact vmmap_insert_list_set map.vmm_addr
          { vma_start := lopage, vma_end := u32add lopage npages, vma_off := ADDR_TO_PN K off,
            vma_flags := flags, vma_prot := prot, vma_vmmap := none, vma_obj := none }
          { vma_start := lopage, vma_end := u32add lopage npages, vma_off := ADDR_TO_PN K off,
            vma_flags := flags, vma_prot := prot, vma_vmmap := none,
            vma_obj := some (shadow_create (match file with
              | some mmap => ((mmap st).2.1, (mmap st).2.2)
              | none => anon_create st).2).1 }
          map.vmm_list rfl
    · simp only [Res.ok.injEq] at h
      subst h
      refine ⟨o, ?_, rfl⟩
      exact vmmap_insert_list_set map.vmm_addr
        { vma_start := lopage, vma_end := u32add lopage npages, vma_off := ADDR_TO_PN K off,
          vma_flags := flags, vma_prot := prot, vma_vmmap := none, vma_obj := none }
        { vma_start := lopage, vma_end := u32add lopage npages, vma_off := ADDR_TO_PN K off,
          vma_flags := flags, vma_prot := prot, vma_vmmap := none, vma_obj := some o }
        map.vmm_list rfl

theorem vmmap_remove_wellFormed (K : KParams) (map map1 : vmmap) (fuel lopage npages : Nat)
    (ret : Int) (tr : List KCall) (hwf : WellFormed map.vmm_list) (hw : lopage + npages < U32)
    (h : vmmap_remove K fuel map lopage npages = some (ret, map1, tr)) :
    WellFormed map1.vmm_list := by
  rw [vmmap_remove_eq_ite K map lopage npages hw hwf fuel] at h
  split_ifs at h
  simp only [Option.some.injEq, Prod.mk.injEq] at h
  rw [← h.2.1]
  exact remove_areas_wellFormed hw hwf

theorem vmmap_insert_wellFormed (map : vmmap) (newvma : vmarea) (hwf : WellFormed map.vmm_list)
    (hv : newvma.vma_start < newvma.vma_end)
    (hd : ∀ a ∈ map.vmm_list, ¬ vmarea_intersects a newvma.vma_start newvma.vma_end) :
    WellFormed (vmmap_insert map newvma).vmm_list :=
  vmmap_insert_list_wellFormed map.vmm_addr newvma map.vmm_list hwf hv hd

theorem vmmap_map_fixed_wellFormed (K : KParams) (T : OpsCalls) (fuel head_of_empty : Nat)
    (map : vmmap) (st : VMState) (file : Option (VMState → Int × Option Nat × VMState))
    (lopage npages prot flags off : Nat) (dir : Int) (r : MapResult)
    (hwf : WellFormed map.vmm_list) (h0 : lopage ≠ 0) (hlo : lopage < U32) (hnp : npages < U32)
    (hrange : vmmap_is_range_empty_asserts K lopage npages)
    (h : vmmap_map K T fuel head_of_empty map st file lopage npages prot flags off dir
      = Res.ok r) :
    WellFormed r.map.vmm_list := by
  have hlt := hrange.1
  have hw : lopage + npages < U32 := by
    unfold u32add at hlt
    unfold U32 at *
    omega
  rw [u32add_eq hw] at hlt
  rw [vmmap_map_of_asserts K T fuel head_of_empty map st file lopage npages prot flags off dir
    (vmmap_map_ok_asserts K T fuel head_of_empty map st file lopage npages prot flags off dir r
      h).1 (fun _ => hrange), if_neg h0] at h
  split_ifs at h with hempty
  · -- some area lies in the range: `vmmap_remove` first
    rw [vmmap_remove_eq_ite K map lopage npages hw hwf fuel] at h
    split_ifs at h with hf
    · simp only [] at h
      obtain ⟨st1, _, h⟩ := Res.bind_eq_ok h
      obtain ⟨x, hx, _⟩ := vmmap_map_area_list K T file _ st1 _ lopage npages prot flags off r h
      rw [hx]
      refine vmmap_insert_list_wellFormed _ _ _ (remove_areas_wellFormed hw hwf) ?_ ?_
      · simpa [u32add_eq hw] using hlt
      · intro a ha
        obtain ⟨q, hq, haq⟩ := mem_remove_areas ha
        have := mem_remove_area hw (((wellFormed_iff _).mp hwf).2 q hq) haq
        unfold vmarea_intersects
        rw [ranges_intersect_iff]
        simp only [u32add_eq hw]
        omega
  · -- the range is empty
    obtain ⟨x, hx, _⟩ := vmmap_map_area_list K T file map st [] lopage npages prot flags off r h
    rw [hx]
    refine vmmap_insert_list_wellFormed _ _ _ hwf ?_ ?_
    · simpa [u32add_eq hw] using hlt
    · intro a ha
      unfold vmmap_is_range_empty at hempty
      rw [vmmap_is_range_empty_loop_eq] at hempty
      split_ifs at hempty with hex
      · exact absurd rfl hempty
      · unfold vmarea_intersects
        rw [ranges_intersect_iff]
        simp only [u32add_eq hw] at hex ⊢
        intro hc
        exact hex ⟨a, ha, by omega, by omega⟩

/-- C1: well-formedness of the area list (sorted ascending by start page, ranges pairwise
disjoint, `vma_start < vma_end` for every area) is kept by `vmmap_remove` (on a page range
that does not wrap around `2 ^ 32`), by `vmmap_insert` of an area with `vma_start < vma_end`
that intersects no area of the map, and by `vmmap_map` at a non-zero `lopage` (32-bit
arguments passing the assertion on the range); so every map reachable from the empty map by
these operations is well-formed. -/
theorem wellFormed_invariant (K : KParams) :
    (∀ (map map1 : vmmap) (fuel lopage npages : Nat) (ret : Int) (tr : List KCall),
      WellFormed map.vmm_list → lopage + npages < U32 →
      vmmap_remove K fuel map lopage npages = some (ret, map1, tr) →
      WellFormed map1.vmm_list) ∧
    (∀ (map : vmmap) (newvma : vmarea),
      WellFormed map.vmm_list → newvma.vma_start < newvma.vma_end →
      (∀ a ∈ map.vmm_list, ¬ vmarea_intersects a newvma.vma_start newvma.vma_end) →
      WellFormed (vmmap_insert map newvma).vmm_list) ∧
    (∀ (T : OpsCalls) (fuel head_of_empty : Nat) (map : vmmap) (st : VMState)
      (file : Option (VMState → Int × Option Nat × VMState))
      (lopage npages prot flags off : Nat) (dir : Int) (r : MapResult),
      WellFormed map.vmm_list → lopage ≠ 0 → lopage < U32 → npages < U32 →
      vmmap_is_range_empty_asserts K lopage npages →
      vmmap_map K T fuel head_of_empty map st file lopage npages prot flags off dir = Res.ok r →
      WellFormed r.map.vmm_list) ∧
    (∀ map : vmmap, Reachable K map → WellFormed map.vmm_list) := by
  refine ⟨fun map map1 fuel lopage npages ret tr hwf hw h =>
      vmmap_remove_wellFormed K map map1 fuel lopage npages ret tr hwf hw h,
    fun map newvma hwf hv hd => vmmap_insert_wellFormed map newvma hwf hv hd,
    fun T fuel hoe map st file lopage npages prot flags off dir r hwf h0 hlo hnp hr h =>
      vmmap_map_fixed_wellFormed K T fuel hoe map st file lopage npages prot flags off dir r
        hwf h0 hlo hnp hr h, ?_⟩
  intro map hreach
  induction hreach with
  | empty addr proc => simp [WellFormed]
  | remove map map1 fuel lopage npages ret tr _ hw h ih =>
    exact vmmap_remove_wellFormed K map map1 fuel lopage npages ret tr ih hw h
  | insert map newvma _ has hd ih => exact vmmap_insert_wellFormed map newvma ih has.2.1 hd
  | map_fixed map T fuel hoe st file lopage npages prot flags off dir r _ h0 hlo hnp hr h ih =>
    exact vmmap_map_fixed_wellFormed K T fuel hoe map st file lopage npages prot flags off dir r
      ih h0 hlo hnp hr h

theorem exMap1_reachable : Reachable exK exMap1 :=
  Reachable.insert { vmm_addr := 7, vmm_list := [], vmm_proc := none }
    { vma_start := 1024, vma_end := 1027, vma_off := 0, vma_prot := 3, vma_flags := 1,
      vma_vmmap := none, vma_obj := some 1 }
    (Reachable.empty 7 none) ⟨rfl, by decide, by decide, by decide⟩
    (fun a ha => by simp at ha)

/-- C1 at the map of one three-page area, reached from the empty map by one `vmmap_insert`. -/
theorem wellFormed_invariant_witness : Reachable exK exMap1 ∧ WellFormed exMap1.vmm_list :=
  ⟨exMap1_reachable, (wellFormed_invariant exK).2.2.2 exMap1 exMap1_reachable⟩

/-! ## Shadow chains and the chain walks -/

theorem pframe_get_resident_pagenum {st : VMState} {o : Option Nat} {pagenum : Nat} {pf : pframe}
    (h : pframe_get_resident st o pagenum = some pf) : pf.pf_pagenum = pagenum := by
  unfold pframe_get_resident at h
  cases o with
  | none => simp at h
  | some a =>
    simp only at h
    cases hob : st.objs a with
    | none => simp [hob] at h
    | some ob =>
      simp only [hob] at h
      have := List.find?_some h
      simpa using this

theorem pframe_get_resident_mem {st : VMState} {a : Nat} {pagenum : Nat} {pf : pframe}
    (h : pframe_get_resident st (some a) pagenum = some pf) :
    ∃ ob, st.objs a = some ob ∧ pf ∈ ob.mmo_respages := by
  unfold pframe_get_resident at h
  simp only at h
  cases hob : st.objs a with
  | none => simp [hob] at h
  | some ob =>
    simp only [hob] at h
    exact ⟨ob, rfl, List.mem_of_find?_eq_some h⟩

theorem first_resident_spec {st : VMState} {pagenum : Nat} {chain : List Nat} {pf : pframe}
    (h : first_resident st pagenum chain = some pf) :
    ∃ s ∈ chain, pframe_get_resident st (some s) pagenum = some pf := by
  induction chain with
  | nil => simp [first_resident] at h
  | cons s rest ih =>
    simp only [first_resident] at h
    cases hs : pframe_get_resident st (some s) pagenum with
    | none =>
      rw [hs] at h
      obtain ⟨t, ht, htp⟩ := ih h
      exact ⟨t, by simp [ht], htp⟩
    | some f =>
      rw [hs] at h
      simp only [Option.some.injEq] at h
      subst h
      exact ⟨s, by simp, hs⟩

/-- The read loop of `shadow_lookuppage` on a chain: with fuel above the length of the chain
it ends, with the resident frame of the first object of the chain that has one. -/
theorem shadow_lookuppage_walk_eq (st : VMState) (pagenum : Nat) :
    ∀ (chain : List Nat) (o b fuel : Nat), ShadowChain st o chain b → chain.length < fuel →
      shadow_lookuppage_walk st pagenum fuel o = Res.ok (first_resident st pagenum chain) := by
  intro chain
  induction chain with
  | nil =>
    intro o b fuel hc hf
    cases hc with
    | bottom _ ob hob hsh =>
      cases fuel with
      | zero => simp at hf
      | succ n => simp [shadow_lookuppage_walk, hob, hsh, first_resident]
  | cons s rest ih =>
    intro o b fuel hc hf
    cases hc with
    | step _ next _ ob _ hob hsh hrest =>
      cases fuel with
      | zero => simp at hf
      | succ n =>
        simp only [shadow_lookuppage_walk, hob, hsh, first_resident]
        cases hs : pframe_get_resident st (some s) pagenum with
        | none => simp only; exact ih next b n hrest (by simpa using hf)
        | some f => rfl

theorem shadowChain_head {st : VMState} {o b : Nat} {chain : List Nat}
    (h : ShadowChain st o chain b) : chain ++ [b] = o :: (chain ++ [b]).tail := by
  cases h with
  | bottom _ ob hob hsh => rfl
  | step _ next _ ob rest hob hsh hrest => rfl

/-- The loop of `shadow_fillpage` on a chain: with fuel above the length of the chain it
ends, with the resident frame of the first strict ancestor (the bottom object included) that
has one. -/
theorem shadow_fillpage_walk_eq (st : VMState) (pagenum : Nat) :
    ∀ (chain : List Nat) (o b fuel : Nat), ShadowChain st o chain b → chain.length < fuel →
      shadow_fillpage_walk st pagenum fuel (some o)
        = Res.ok (first_resident st pagenum (chain ++ [b]).tail) := by
  intro chain
  induction chain with
  | nil =>
    intro o b fuel hc hf
    cases hc with
    | bottom _ ob hob hsh =>
      cases fuel with
      | zero => simp at hf
      | succ n =>
        simp [shadow_fillpage_walk, hob, hsh, pframe_get_resident, first_resident]
  | cons s rest ih =>
    intro o b fuel hc hf
    cases hc with
    | step _ next _ ob _ hob hsh hrest =>
      cases fuel with
      | zero => simp at hf
      | succ n =>
        have hhead := shadowChain_head hrest
        simp only [shadow_fillpage_walk, hob, hsh, List.cons_append, List.tail_cons]
        rw [hhead]
        simp only [first_resident]
        cases hs : pframe_get_resident st (some next) pagenum with
        | none => simp only; exact ih next b n hrest (by simpa using hf)
        | some f => rfl

/-! ## The page-frame service on anonymous objects -/

theorem VMState.ext_fields {s t : VMState} (h1 : s.objs = t.objs) (h2 : s.next_obj = t.next_obj)
    (h3 : s.free_pages = t.free_pages) : s = t := by
  cases s; cases t; simp_all

theorem map_update_id (l : List pframe) (n : Nat) (f : pframe → pframe)
    (h : ∀ q ∈ l, q.pf_pagenum ≠ n) :
    l.map (fun q => if q.pf_pagenum = n then f q else q) = l := by
  induction l with
  | nil => rfl
  | cons q rest ih =>
    simp only [List.map_cons, if_neg (h q (by simp))]
    rw [ih (fun x hx => h x (by simp [hx]))]

theorem pframe_get_resident_none {st : VMState} {a pagenum : Nat} {ob : mmobj}
    (hob : st.objs a = some ob) (h : pframe_get_resident st (some a) pagenum = none) :
    ∀ q ∈ ob.mmo_respages, q.pf_pagenum ≠ pagenum := by
  intro q hq hc
  simp only [pframe_get_resident, hob] at h
  rw [List.find?_eq_none] at h
  have := h q hq
  simp [hc] at this

theorem pframe_get_resident_head {st : VMState} {a pagenum : Nat} {ob : mmobj} {f : pframe}
    {rest : List pframe} (hob : st.objs a = some ob) (hres : ob.mmo_respages = f :: rest)
    (hf : f.pf_pagenum = pagenum) : pframe_get_resident st (some a) pagenum = some f := by
  simp [pframe_get_resident, hob, hres, hf]

/-- The state `pframe_update` leaves when the frame heads the resident pages of its object
and no other resident page has its page number. -/
theorem pframe_update_head (st : VMState) (pf : pframe) (f : pframe → pframe) (ob : mmobj)
    (g : pframe) (rest : List pframe) (hob : st.objs pf.pf_obj = some ob)
    (hres : ob.mmo_respages = g :: rest) (hg : g.pf_pagenum = pf.pf_pagenum)
    (hrest : ∀ q ∈ rest, q.pf_pagenum ≠ pf.pf_pagenum) :
    pframe_update st pf f = st.set pf.pf_obj { ob with mmo_respages := f g :: rest } := by
  simp only [pframe_update, hob, hres, List.map_cons, if_pos hg]
  rw [map_update_id rest _ f hrest]

theorem with_new_frame_objs_same (st : VMState) (o : Nat) (ob : mmobj) (f : pframe)
    (rest : List (Nat × Nat)) :
    (with_new_frame st o ob f rest).objs o
      = some { ob with mmo_respages := f :: ob.mmo_respages
                       mmo_nrespages := ob.mmo_nrespages + 1
                       mmo_refcount := ob.mmo_refcount + 1 } := by
  simp [with_new_frame]

theorem with_new_frame_objs_ne (st : VMState) (o : Nat) (ob : mmobj) (f : pframe)
    (rest : List (Nat × Nat)) {x : Nat} (h : x ≠ o) :
    (with_new_frame st o ob f rest).objs x = st.objs x := by
  simp [with_new_frame, h]

/-- An update of the frame that has just become resident acts on that frame alone. -/
theorem pframe_update_with_new_frame (st : VMState) (o : Nat) (ob : mmobj) (f pf : pframe)
    (rest : List (Nat × Nat)) (g : pframe → pframe) (hobj : pf.pf_obj = o)
    (hpn : f.pf_pagenum = pf.pf_pagenum)
    (hno : ∀ q ∈ ob.mmo_respages, q.pf_pagenum ≠ pf.pf_pagenum) :
    pframe_update (with_new_frame st o ob f rest) pf g = with_new_frame st o ob (g f) rest := by
  subst hobj
  rw [pframe_update_head _ pf g _ f ob.mmo_respages (with_new_frame_objs_same _ _ _ _ _) rfl hpn
    hno]
  apply VMState.ext_fields
  · simp [VMState.set, with_new_frame]
  · rfl
  · rfl

theorem pframe_get_resident_with_new_frame (st : VMState) (o : Nat) (ob : mmobj) (f : pframe)
    (rest : List (Nat × Nat)) (pagenum : Nat) (hf : f.pf_pagenum = pagenum) :
    pframe_get_resident (with_new_frame st o ob f rest) (some o) pagenum = some f :=
  pframe_get_resident_head (with_new_frame_objs_same _ _ _ _ _) rfl hf

theorem pframe_get_resident_with_new_frame_ne (st : VMState) (o : Nat) (ob : mmobj) (f : pframe)
    (rest : List (Nat × Nat)) (pagenum : Nat) {x : Nat} (h : x ≠ o) :
    pframe_get_resident (with_new_frame st o ob f rest) (some x) pagenum
      = pframe_get_resident st (some x) pagenum := by
  simp [pframe_get_resident, with_new_frame_objs_ne _ _ _ _ _ h]

@[simp] theorem pframe_fresh_obj (o pagenum addr bytes : Nat) :
    (pframe_fresh o pagenum addr bytes).pf_obj = o := rfl

@[simp] theorem pframe_fresh_pagenum (o pagenum addr bytes : Nat) :
    (pframe_fresh o pagenum addr bytes).pf_pagenum = pagenum := rfl

@[simp] theorem pframe_fresh_busy (o pagenum addr bytes : Nat) :
    (pframe_fresh o pagenum addr bytes).pf_busy = true := rfl

@[simp] theorem pframe_fresh_pinned (o pagenum addr bytes : Nat) :
    (pframe_fresh o pagenum addr bytes).pf_pinned = false := rfl

/-- The full lookup on an anonymous object, `pframe_get` with the `fillpage` of its table:
the resident frame if there is one; else `-ENOMEM` when no page is free; else a new frame on
the first free page. -/
theorem pframe_get_anon (K : KParams) (n : Nat) (st : VMState) (b pagenum : Nat) (bob : mmobj)
    (hob : st.objs b = some bob) (hops : bob.mmo_ops = mmobj_ops_t.anon_mmobj_ops) :
    pframe_get K (mmo_ops_at K (n + 1)) st b pagenum
      = match pframe_get_resident st (some b) pagenum with
        | some f => Res.ok (0, some f, st)
        | none =>
          match st.free_pages with
          | [] => Res.ok (-(K.ENOMEM : Int), none, st)
          | (addr, _) :: rest =>
            Res.ok (0, some (anon_new_frame b pagenum addr),
              with_new_frame st b bob (anon_new_frame b pagenum addr) rest) := by
  unfold pframe_get
  cases hres : pframe_get_resident st (some b) pagenum with
  | some f => rfl
  | none =>
    have hno := pframe_get_resident_none hob hres
    simp only [hob]
    cases hfree : st.free_pages with
    | nil => rfl
    | cons p rest =>
      obtain ⟨addr, bytes⟩ := p
      simp only [mmo_ops_at, with_new_frame_objs_same, hops, anon_fillpage, pframe_pin,
        pframe_fresh_busy, pframe_fresh_pinned]
      simp only [Bool.not_eq_true, and_self, if_true, Res.bind_ok, pframe_get_filled]
      rw [pframe_update_with_new_frame st b bob (pframe_fresh b pagenum addr bytes)
          (pframe_fresh b pagenum addr bytes) rest _ rfl rfl hno,
        pframe_update_with_new_frame st b bob
          { pframe_fresh b pagenum addr bytes with pf_pinned := true }
          (pframe_fresh b pagenum addr bytes) rest _ rfl rfl hno]
      simp only [Int.lt_irrefl, if_false]
      rw [pframe_update_with_new_frame st b bob
          { pframe_fresh b pagenum addr bytes with pf_pinned := true, pf_data := 0 }
          (pframe_fresh b pagenum addr bytes) rest _ rfl rfl hno,
        pframe_get_resident_with_new_frame st b bob _ rest pagenum rfl]
      rfl

/-! ## `shadow_lookuppage`, read path -/

theorem shadowChain_mem {st : VMState} {o b : Nat} {chain : List Nat}
    (h : ShadowChain st o chain b) :
    ∀ s ∈ chain, ∃ obs, st.objs s = some obs ∧ obs.mmo_shadowed ≠ none := by
  induction h with
  | bottom b ob hob hsh => intro s hs; simp at hs
  | step o next b ob chain hob hsh _ ih =>
    intro s hs
    rcases List.mem_cons.mp hs with rfl | hs
    · exact ⟨ob, hob, by simp [hsh]⟩
    · exact ih s hs

theorem shadowChain_bottom {st : VMState} {o b : Nat} {chain : List Nat}
    (h : ShadowChain st o chain b) : ∃ bob, st.objs b = some bob ∧ bob.mmo_shadowed = none := by
  induction h with
  | bottom b ob hob hsh => exact ⟨ob, hob, hsh⟩
  | step o next b ob chain hob hsh _ ih => exact ih

theorem shadowChain_ne_bottom {st : VMState} {o b : Nat} {chain : List Nat}
    (h : ShadowChain st o chain b) : ∀ s ∈ chain, s ≠ b := by
  intro s hs hsb
  obtain ⟨obs, h1, h2⟩ := shadowChain_mem h s hs
  obtain ⟨bob, h3, h4⟩ := shadowChain_bottom h
  subst hsb
  rw [h1] at h3
  simp only [Option.some.injEq] at h3
  subst h3
  exact h2 h4

/-- The full lookup on an anonymous bottom object through the operation table. -/
theorem lookuppage_anon (K : KParams) (n : Nat) (st : VMState) (b pagenum : Nat) (bob : mmobj)
    (forwrite : Int)
    (hob : st.objs b = some bob) (hops : bob.mmo_ops = mmobj_ops_t.anon_mmobj_ops) :
    (mmo_ops_at K (n + 2)).lookuppage st b pagenum forwrite
      = match pframe_get_resident st (some b) pagenum with
        | some f => Res.ok (0, some f, st)
        | none =>
          match st.free_pages with
          | [] => Res.ok (-(K.ENOMEM : Int), none, st)
          | (addr, _) :: rest =>
            Res.ok (0, some (anon_new_frame b pagenum addr),
              with_new_frame st b bob (anon_new_frame b pagenum addr) rest) := by
  rw [← pframe_get_anon K n st b pagenum bob hob hops]
  simp only [mmo_ops_at, hob, hops, anon_lookuppage]

/-- What the full lookup on an anonymous bottom object returns: it returns; with a negative
code there is no frame; a frame returned comes with code 0, is the resident frame of the
requested page, and is not busy if no resident frame of the object was; and no other object
changes. -/
theorem lookuppage_anon_props (K : KParams) (hE : 0 < K.ENOMEM) (n : Nat) (st : VMState)
    (b pagenum : Nat) (bob : mmobj) (forwrite : Int)
    (hob : st.objs b = some bob) (hops : bob.mmo_ops = mmobj_ops_t.anon_mmobj_ops) :
    ∃ err pf st1, (mmo_ops_at K (n + 2)).lookuppage st b pagenum forwrite = Res.ok (err, pf, st1) ∧
      (err < 0 ∨ err = 0) ∧ (err < 0 → pf = none) ∧
      (err = 0 → ∃ f, pf = some f ∧ f.pf_pagenum = pagenum ∧
        (no_busy_frame st b → f.pf_busy = false) ∧
        pframe_get_resident st1 (some b) pagenum = some f) ∧
      (∀ x, x ≠ b → st1.objs x = st.objs x) := by
  rw [lookuppage_anon K n st b pagenum bob forwrite hob hops]
  cases hres : pframe_get_resident st (some b) pagenum with
  | some f =>
    refine ⟨0, some f, st, rfl, Or.inr rfl, by simp, ?_, fun _ _ => rfl⟩
    intro _
    obtain ⟨ob1, hob1, hmem⟩ := pframe_get_resident_mem hres
    exact ⟨f, rfl, pframe_get_resident_pagenum hres, fun hbusy => hbusy ob1 hob1 f hmem, hres⟩
  | none =>
    cases hfree : st.free_pages with
    | nil =>
      refine ⟨-(K.ENOMEM : Int), none, st, rfl, Or.inl (by omega), fun _ => rfl, ?_,
        fun _ _ => rfl⟩
      intro h; omega
    | cons p rest =>
      obtain ⟨addr, bytes⟩ := p
      refine ⟨0, _, _, rfl, Or.inr rfl, by simp, ?_, ?_⟩
      · intro _
        exact ⟨_, rfl, rfl, fun _ => rfl, pframe_get_resident_with_new_frame _ _ _ _ _ _ rfl⟩
      · intro x hx
        exact with_new_frame_objs_ne _ _ _ _ _ hx

/-- The cases of a read lookup on a shadow object over an anonymous bottom object: an object
of the chain has the page resident, or none has it and the full lookup on the bottom object
decides. -/
theorem shadow_lookuppage_read_cases (K : KParams) (hE : 0 < K.ENOMEM) (n fuel : Nat)
    (st : VMState) (o b pagenum : Nat) (chain : List Nat) (ob bob : mmobj)
    (hchain : ShadowChain st o (o :: chain) b) (hob : st.objs o = some ob)
    (hbot : ob.mmo_bottom_obj = some b) (hbob : st.objs b = some bob)
    (hanon : bob.mmo_ops = mmobj_ops_t.anon_mmobj_ops) (hfuel : chain.length + 1 < fuel)
    (hbusy : ∀ s ∈ o :: chain ++ [b], no_busy_frame st s) :
    (∀ f, first_resident st pagenum (o :: chain) = some f →
      shadow_lookuppage K (mmo_ops_at K (n + 2)) fuel st o pagenum 0 = Res.ok (0, some f, st)) ∧
    (first_resident st pagenum (o :: chain) = none →
      shadow_lookuppage K (mmo_ops_at K (n + 2)) fuel st o pagenum 0
        = (mmo_ops_at K (n + 2)).lookuppage st b pagenum 0) ∧
    (∃ err pf st1,
      shadow_lookuppage K (mmo_ops_at K (n + 2)) fuel st o pagenum 0 = Res.ok (err, pf, st1) ∧
      (err < 0 → pf = none) ∧ (∀ f, pf = some f → err = 0 ∧ f.pf_pagenum = pagenum) ∧
      ∀ s ∈ o :: chain, st1.objs s = st.objs s) := by
  have hwalk := shadow_lookuppage_walk_eq st pagenum (o :: chain) o b fuel hchain
    (by simpa using hfuel)
  have hfound : ∀ f, first_resident st pagenum (o :: chain) = some f →
      shadow_lookuppage K (mmo_ops_at K (n + 2)) fuel st o pagenum 0 = Res.ok (0, some f, st) ∧
      f.pf_pagenum = pagenum := by
    intro f hf
    obtain ⟨s, hs, hsf⟩ := first_resident_spec hf
    have hpn := pframe_get_resident_pagenum hsf
    obtain ⟨obs, hobs, hmem⟩ := pframe_get_resident_mem hsf
    have hnb := hbusy s (by simp at hs ⊢; tauto) obs hobs f hmem
    simp [shadow_lookuppage, hwalk, hf, shadow_lookuppage_return, hpn, hnb]
  obtain ⟨err, pf, st1, hlk, herr, hneg, hzero, hoth⟩ :=
    lookuppage_anon_props K hE n st b pagenum bob 0 hbob hanon
  have hnone : first_resident st pagenum (o :: chain) = none →
      shadow_lookuppage K (mmo_ops_at K (n + 2)) fuel st o pagenum 0
        = (mmo_ops_at K (n + 2)).lookuppage st b pagenum 0 := by
    intro hf
    simp only [shadow_lookuppage, if_true, hwalk, hf, Res.bind_ok, hob, hbot, pframe_lookup, hlk]
    rcases herr with h | h
    · simp [h, hneg h]
    · obtain ⟨f, hpf, hpn, hnb, _⟩ := hzero h
      simp [h, hpf, shadow_lookuppage_return, hpn, hnb (hbusy b (by simp))]
  refine ⟨fun f hf => (hfound f hf).1, hnone, ?_⟩
  cases hfr : first_resident st pagenum (o :: chain) with
  | some f =>
    refine ⟨0, some f, st, (hfound f hfr).1, by simp, ?_, fun _ _ => rfl⟩
    intro g hg
    simp only [Option.some.injEq] at hg
    subst hg
    exact ⟨rfl, (hfound f hfr).2⟩
  | none =>
    refine ⟨err, pf, st1, by rw [hnone hfr, hlk], hneg, ?_, ?_⟩
    · intro f hf
      rcases herr with h | h
      · rw [hneg h] at hf; simp at hf
      · obtain ⟨g, hpf, hpn, _, _⟩ := hzero h
        rw [hpf] at hf
        simp only [Option.some.injEq] at hf
        subst hf
        exact ⟨h, hpn⟩
    · intro s hs
      exact hoth s (shadowChain_ne_bottom hchain s hs)

/-- C5: the read path of `shadow_lookuppage` on a shadow object `o` whose chain of shadow
objects is `o :: chain`, over the anonymous bottom object `b` that `o` names as its bottom
object; no resident frame of these objects is busy, and the fuel exceeds the length of the
chain.  The call returns the frame resident in the first object of the chain that has one,
the heap unchanged; if none has one, it returns what the full lookup on the bottom object
returns, frame or error code; a frame returned is that of the requested page, and no object
of the chain changes, so none gains a resident page. -/
theorem shadow_lookuppage_read (K : KParams) (hE : 0 < K.ENOMEM) (n fuel : Nat)
    (st : VMState) (o b pagenum : Nat) (chain : List Nat) (ob bob : mmobj)
    (hchain : ShadowChain st o (o :: chain) b) (hob : st.objs o = some ob)
    (hbot : ob.mmo_bottom_obj = some b) (hbob : st.objs b = some bob)
    (hanon : bob.mmo_ops = mmobj_ops_t.anon_mmobj_ops) (hfuel : chain.length + 1 < fuel)
    (hbusy : ∀ s ∈ o :: chain ++ [b], no_busy_frame st s) :
    (∀ f, first_resident st pagenum (o :: chain) = some f →
      shadow_lookuppage K (mmo_ops_at K (n + 2)) fuel st o pagenum 0 = Res.ok (0, some f, st)) ∧
    (first_resident st pagenum (o :: chain) = none →
      shadow_lookuppage K (mmo_ops_at K (n + 2)) fuel st o pagenum 0
        = (mmo_ops_at K (n + 2)).lookuppage st b pagenum 0) ∧
    (∃ err pf st1,
      shadow_lookuppage K (mmo_ops_at K (n + 2)) fuel st o pagenum 0 = Res.ok (err, pf, st1) ∧
      (err < 0 → pf = none) ∧ (∀ f, pf = some f → err = 0 ∧ f.pf_pagenum = pagenum) ∧
      ∀ s ∈ o :: chain, st1.objs s = st.objs s) :=
  shadow_lookuppage_read_cases K hE n fuel st o b pagenum chain ob bob hchain hob hbot hbob hanon
    hfuel hbusy

theorem exHeap_chain : ShadowChain exHeap 2 [2] 1 :=
  ShadowChain.step 2 1 1 exShadow [] rfl rfl (ShadowChain.bottom 1 exAnon rfl rfl)

theorem exHeap_no_busy (s : Nat) : no_busy_frame exHeap s := by
  intro ob hob pf hpf
  have h : ob.mmo_respages = [] := by
    simp only [exHeap] at hob
    split_ifs at hob <;> simp only [Option.some.injEq] at hob <;> (subst hob; rfl)
  rw [h] at hpf
  simp at hpf

/-- C5 at the shadow object of `exHeap`, for page 5, which no object has resident. -/
theorem shadow_lookuppage_read_witness :
    0 < exK.ENOMEM ∧ ShadowChain exHeap 2 (2 :: []) 1 ∧ exHeap.objs 2 = some exShadow ∧
    exShadow.mmo_bottom_obj = some 1 ∧ exHeap.objs 1 = some exAnon ∧
    exAnon.mmo_ops = mmobj_ops_t.anon_mmobj_ops ∧ ([] : List Nat).length + 1 < 2 ∧
    (∀ s ∈ 2 :: [] ++ [1], no_busy_frame exHeap s) ∧
    ∃ err pf st1,
      shadow_lookuppage exK (mmo_ops_at exK (0 + 2)) 2 exHeap 2 5 0 = Res.ok (err, pf, st1) ∧
      (err < 0 → pf = none) ∧ (∀ f, pf = some f → err = 0 ∧ f.pf_pagenum = 5) ∧
      ∀ s ∈ 2 :: [], st1.objs s = exHeap.objs s :=
  ⟨by decide, exHeap_chain, rfl, rfl, rfl, rfl, by decide, fun s _ => exHeap_no_busy s,
    (shadow_lookuppage_read exK (by decide) 0 2 exHeap 2 1 5 [] exShadow exAnon exHeap_chain
      rfl rfl rfl rfl (by decide) (fun s _ => exHeap_no_busy s)).2.2⟩

/-! ## `shadow_fillpage` -/

theorem find?_map_update (l : List pframe) (n : Nat) (g : pframe → pframe) (pf : pframe)
    (hg : ∀ q, (g q).pf_pagenum = q.pf_pagenum)
    (h : l.find? (fun q => q.pf_pagenum == n) = some pf) :
    (l.map (fun q => if q.pf_pagenum = n then g q else q)).find? (fun q => q.pf_pagenum == n)
      = some (g pf) := by
  induction l with
  | nil => simp at h
  | cons q rest ih =>
    by_cases hq : q.pf_pagenum = n
    · simp only [List.find?_cons, hq, beq_self_eq_true, Option.some.injEq] at h
      subst h
      simp [List.find?_cons, hq, hg]
    · have hq' : (q.pf_pagenum == n) = false := by simpa using hq
      simp only [List.find?_cons, hq'] at h
      simp only [List.map_cons, if_neg hq, List.find?_cons, hq']
      exact ih h

/-- The frame an update has been applied to is the resident frame afterwards. -/
theorem pframe_get_resident_update_same (st : VMState) (pf : pframe) (g : pframe → pframe)
    (hg : ∀ q, (g q).pf_pagenum = q.pf_pagenum)
    (h : pframe_get_resident st (some pf.pf_obj) pf.pf_pagenum = some pf) :
    pframe_get_resident (pframe_update st pf g) (some pf.pf_obj) pf.pf_pagenum = some (g pf) := by
  obtain ⟨ob, hob, _⟩ := pframe_get_resident_mem h
  simp only [pframe_get_resident, hob] at h
  simp only [pframe_get_resident, pframe_update_objs_same st pf g ob hob]
  exact find?_map_update _ _ g pf hg h

theorem pframe_get_resident_update_ne (st : VMState) (pf : pframe) (g : pframe → pframe)
    (x : Option Nat) (pagenum : Nat) (hx : x ≠ some pf.pf_obj) :
    pframe_get_resident (pframe_update st pf g) x pagenum = pframe_get_resident st x pagenum := by
  cases x with
  | none => rfl
  | some a =>
    have : a ≠ pf.pf_obj := fun h => hx (by rw [h])
    simp only [pframe_get_resident, pframe_update_objs_ne st pf g this]

/-- The frame that `shadow_fillpage` was given, after a copy from `src` and a pin. -/
theorem pframe_get_resident_copy_pin (st : VMState) (pf src : pframe)
    (h : pframe_get_resident st (some pf.pf_obj) pf.pf_pagenum = some pf) :
    pframe_get_resident (pframe_pin (pframe_copy st pf src) pf) (some pf.pf_obj) pf.pf_pagenum
      = some { pf with pf_data := src.pf_data, pf_pinned := true } := by
  have h1 := pframe_get_resident_update_same st pf (fun q => { q with pf_data := src.pf_data })
    (fun _ => rfl) h
  unfold pframe_pin pframe_copy
  -- the second update is looked up through the frame as it was given
  obtain ⟨ob, hob, _⟩ := pframe_get_resident_mem h1
  simp only [pframe_get_resident, hob] at h1
  simp only [pframe_get_resident, pframe_update_objs_same _ pf _ ob hob]
  exact find?_map_update _ _ (fun q => { q with pf_pinned := true }) _ (fun _ => rfl) h1

theorem pframe_get_resident_congr {st st1 : VMState} {a : Nat} (pagenum : Nat)
    (h : st1.objs a = st.objs a) :
    pframe_get_resident st1 (some a) pagenum = pframe_get_resident st (some a) pagenum := by
  simp only [pframe_get_resident, h]

/-- The two cases of `shadow_fillpage` on a shadow object over an anonymous bottom object:
some strict ancestor has the page resident, or none has it and the full lookup on the bottom
object decides. -/
theorem shadow_fillpage_cases (K : KParams) (hE : 0 < K.ENOMEM) (n fuel : Nat) (st : VMState)
    (o b : Nat) (chain : List Nat) (ob bob : mmobj) (pf : pframe)
    (hchain : ShadowChain st o (o :: chain) b) (hob : st.objs o = some ob)
    (hbot : ob.mmo_bottom_obj = some b) (hbob : st.objs b = some bob)
    (hanon : bob.mmo_ops = mmobj_ops_t.anon_mmobj_ops) (hfuel : chain.length + 1 < fuel)
    (hpfo : pf.pf_obj = o) (hres : pframe_get_resident st (some o) pf.pf_pagenum = some pf)
    (hbusy : pf.pf_busy = true) (hpin : pf.pf_pinned = false) :
    (∀ src, first_resident st pf.pf_pagenum (chain ++ [b]) = some src →
      shadow_fillpage (mmo_ops_at K (n + 2)) fuel st o pf
        = Res.ok (0, pframe_pin (pframe_copy st pf src) pf) ∧
      pframe_get_resident (pframe_pin (pframe_copy st pf src) pf) (some o) pf.pf_pagenum
        = some { pf with pf_data := src.pf_data, pf_pinned := true }) ∧
    (first_resident st pf.pf_pagenum (chain ++ [b]) = none →
      ∃ err src st1,
        (mmo_ops_at K (n + 2)).lookuppage st b pf.pf_pagenum 0 = Res.ok (err, src, st1) ∧
        (err < 0 ∨ err = 0) ∧
        (err < 0 →
          shadow_fillpage (mmo_ops_at K (n + 2)) fuel st o pf = Res.ok (err, st1) ∧
          pframe_get_resident st1 (some o) pf.pf_pagenum = some pf) ∧
        (err = 0 → ∃ f, src = some f ∧
          shadow_fillpage (mmo_ops_at K (n + 2)) fuel st o pf
            = Res.ok (0, pframe_pin (pframe_copy st1 pf f) pf) ∧
          pframe_get_resident (pframe_pin (pframe_copy st1 pf f) pf) (some o) pf.pf_pagenum
            = some { pf with pf_data := f.pf_data, pf_pinned := true })) := by
  have hwalk := shadow_fillpage_walk_eq st pf.pf_pagenum (o :: chain) o b fuel hchain
    (by simpa using hfuel)
  simp only [List.cons_append, List.tail_cons] at hwalk
  subst hpfo
  constructor
  · intro src hsrc
    refine ⟨?_, pframe_get_resident_copy_pin st pf src hres⟩
    simp [shadow_fillpage, hbusy, hpin, hwalk, hsrc]
  · intro hnone
    obtain ⟨err, src, st1, hlk, herr, hneg, hzero, hoth⟩ :=
      lookuppage_anon_props K hE n st b pf.pf_pagenum bob 0 hbob hanon
    have hne : pf.pf_obj ≠ b := shadowChain_ne_bottom hchain pf.pf_obj (by simp)
    have hres1 : pframe_get_resident st1 (some pf.pf_obj) pf.pf_pagenum = some pf := by
      rw [pframe_get_resident_congr _ (hoth _ hne)]; exact hres
    refine ⟨err, src, st1, hlk, herr, ?_, ?_⟩
    · intro h
      refine ⟨?_, hres1⟩
      have h' : ¬ (err ≥ 0) := by omega
      simp [shadow_fillpage, hbusy, hpin, hwalk, hnone, hob, hbot, pframe_lookup, hlk, h']
    · intro h
      obtain ⟨f, hf, _, _, _⟩ := hzero h
      refine ⟨f, hf, ?_, pframe_get_resident_copy_pin st1 pf f hres1⟩
      simp [shadow_fillpage, hbusy, hpin, hwalk, hnone, hob, hbot, pframe_lookup, hlk, h, hf]

/-- C8: `shadow_fillpage` on a shadow object `o` with chain `o :: chain` over the anonymous
bottom object `b`, given the busy, unpinned frame `pf` of `o`.  If some strict ancestor (an
object of `chain`, or `b`) has the page resident, the new frame receives the bytes of the
frame of the nearest one, is pinned, and 0 is returned.  If none has it, the full lookup on
the bottom object decides: when it fails, its error code is returned and the frame is as it
was, unpinned with its bytes unchanged; when it succeeds, the new frame receives the bytes of
the frame it returned, is pinned, and 0 is returned. -/
theorem shadow_fillpage_spec (K : KParams) (hE : 0 < K.ENOMEM) (n fuel : Nat) (st : VMState)
    (o b : Nat) (chain : List Nat) (ob bob : mmobj) (pf : pframe)
    (hchain : ShadowChain st o (o :: chain) b) (hob : st.objs o = some ob)
    (hbot : ob.mmo_bottom_obj = some b) (hbob : st.objs b = some bob)
    (hanon : bob.mmo_ops = mmobj_ops_t.anon_mmobj_ops) (hfuel : chain.length + 1 < fuel)
    (hpfo : pf.pf_obj = o) (hres : pframe_get_resident st (some o) pf.pf_pagenum = some pf)
    (hbusy : pf.pf_busy = true) (hpin : pf.pf_pinned = false) :
    (∀ src, first_resident st pf.pf_pagenum (chain ++ [b]) = some src →
      shadow_fillpage (mmo_ops_at K (n + 2)) fuel st o pf
        = Res.ok (0, pframe_pin (pframe_copy st pf src) pf) ∧
      pframe_get_resident (pframe_pin (pframe_copy st pf src) pf) (some o) pf.pf_pagenum
        = some { pf with pf_data := src.pf_data, pf_pinned := true }) ∧
    (first_resident st pf.pf_pagenum (chain ++ [b]) = none →
      ∃ err src st1,
        (mmo_ops_at K (n + 2)).lookuppage st b pf.pf_pagenum 0 = Res.ok (err, src, st1) ∧
        (err < 0 ∨ err = 0) ∧
        (err < 0 →
          shadow_fillpage (mmo_ops_at K (n + 2)) fuel st o pf = Res.ok (err, st1) ∧
          pframe_get_resident st1 (some o) pf.pf_pagenum = some pf) ∧
        (err = 0 → ∃ f, src = some f ∧
          shadow_fillpage (mmo_ops_at K (n + 2)) fuel st o pf
            = Res.ok (0, pframe_pin (pframe_copy st1 pf f) pf) ∧
          pframe_get_resident (pframe_pin (pframe_copy st1 pf f) pf) (some o) pf.pf_pagenum
            = some { pf with pf_data := f.pf_data, pf_pinned := true })) :=
  shadow_fillpage_cases K hE n fuel st o b chain ob bob pf hchain hob hbot hbob hanon hfuel
    hpfo hres hbusy hpin

theorem exHeapFill_chain : ShadowChain exHeapFill 2 [2] 1 :=
  ShadowChain.step 2 1 1
    { exShadow with mmo_respages := [exFrame], mmo_nrespages := 1, mmo_refcount := 2 } []
    rfl rfl (ShadowChain.bottom 1 exAnon rfl rfl)

/-- C8 at the shadow object of `exHeapFill` and its busy frame for page 5; no ancestor has
the page resident, so the bottom object is looked up. -/
theorem shadow_fillpage_spec_witness :
    0 < exK.ENOMEM ∧ ShadowChain exHeapFill 2 (2 :: []) 1 ∧
    exHeapFill.objs 2
      = some { exShadow with mmo_respages := [exFrame], mmo_nrespages := 1, mmo_refcount := 2 } ∧
    exShadow.mmo_bottom_obj = some 1 ∧ exHeapFill.objs 1 = some exAnon ∧
    exAnon.mmo_ops = mmobj_ops_t.anon_mmobj_ops ∧ ([] : List Nat).length + 1 < 2 ∧
    exFrame.pf_obj = 2 ∧ pframe_get_resident exHeapFill (some 2) exFrame.pf_pagenum = some exFrame ∧
    exFrame.pf_busy = true ∧ exFrame.pf_pinned = false ∧
    ∃ err src st1,
      (mmo_ops_at exK (0 + 2)).lookuppage exHeapFill 1 exFrame.pf_pagenum 0
        = Res.ok (err, src, st1) ∧
      (err < 0 ∨ err = 0) ∧
      (err < 0 →
        shadow_fillpage (mmo_ops_at exK (0 + 2)) 2 exHeapFill 2 exFrame = Res.ok (err, st1) ∧
        pframe_get_resident st1 (some 2) exFrame.pf_pagenum = some exFrame) ∧
      (err = 0 → ∃ f, src = some f ∧
        shadow_fillpage (mmo_ops_at exK (0 + 2)) 2 exHeapFill 2 exFrame
          = Res.ok (0, pframe_pin (pframe_copy st1 exFrame f) exFrame) ∧
        pframe_get_resident (pframe_pin (pframe_copy st1 exFrame f) exFrame) (some 2)
            exFrame.pf_pagenum
          = some { exFrame with pf_data := f.pf_data, pf_pinned := true }) :=
  ⟨by decide, exHeapFill_chain, rfl, rfl, rfl, rfl, by decide, rfl, by decide, rfl, rfl,
    (shadow_fillpage_spec exK (by decide) 0 2 exHeapFill 2 1 [] _ exAnon exFrame
      exHeapFill_chain rfl rfl rfl rfl (by decide) rfl (by decide) rfl rfl).2 (by decide)⟩

/-! ## Heaps with the same links -/

theorem same_links_refl (st : VMState) : same_links st st := fun _ => rfl

theorem same_links_trans {a b c : VMState} (h1 : same_links a b) (h2 : same_links b c) :
    same_links a c := fun x => (h2 x).trans (h1 x)

theorem same_links_obj {st st1 : VMState} (h : same_links st st1) {x : Nat} {ob : mmobj}
    (hob : st.objs x = some ob) :
    ∃ ob1, st1.objs x = some ob1 ∧ ob1.mmo_ops = ob.mmo_ops ∧
      ob1.mmo_shadowed = ob.mmo_shadowed ∧ ob1.mmo_bottom_obj = ob.mmo_bottom_obj := by
  have := h x
  rw [hob] at this
  cases h1 : st1.objs x with
  | none => rw [h1] at this; simp at this
  | some ob1 =>
    rw [h1] at this
    simp only [Option.map_some', Option.some.injEq, Prod.mk.injEq] at this
    exact ⟨ob1, rfl, this.1, this.2.1, this.2.2⟩

theorem shadowChain_same_links {st st1 : VMState} (h : same_links st st1) {o b : Nat}
    {chain : List Nat} (hc : ShadowChain st o chain b) : ShadowChain st1 o chain b := by
  induction hc with
  | bottom b ob hob hsh =>
    obtain ⟨ob1, h1, _, h2, _⟩ := same_links_obj h hob
    exact ShadowChain.bottom b ob1 h1 (by rw [h2, hsh])
  | step o next b ob chain hob hsh _ ih =>
    obtain ⟨ob1, h1, _, h2, _⟩ := same_links_obj h hob
    exact ShadowChain.step o next b ob1 chain h1 (by rw [h2, hsh]) ih

theorem shadowChain_unique {st : VMState} {o b1 b2 : Nat} {c1 c2 : List Nat}
    (h1 : ShadowChain st o c1 b1) (h2 : ShadowChain st o c2 b2) : c1 = c2 ∧ b1 = b2 := by
  induction h1 generalizing c2 b2 with
  | bottom b ob hob hsh =>
    cases h2 with
    | bottom _ ob2 hob2 hsh2 => exact ⟨rfl, rfl⟩
    | step _ next _ ob2 chain hob2 hsh2 _ =>
      rw [hob] at hob2
      simp only [Option.some.injEq] at hob2
      subst hob2
      rw [hsh] at hsh2
      simp at hsh2
  | step o next b ob chain hob hsh _ ih =>
    cases h2 with
    | bottom _ ob2 hob2 hsh2 =>
      rw [hob] at hob2
      simp only [Option.some.injEq] at hob2
      subst hob2
      rw [hsh] at hsh2
      simp at hsh2
    | step _ next2 _ ob2 chain2 hob2 hsh2 hrest2 =>
      rw [hob] at hob2
      simp only [Option.some.injEq] at hob2
      subst hob2
      rw [hsh] at hsh2
      simp only [Option.some.injEq] at hsh2
      subst hsh2
      obtain ⟨e1, e2⟩ := ih hrest2
      exact ⟨by rw [e1], e2⟩

/-- The chain below an object does not come back to it. -/
theorem shadowChain_not_mem_tail {st : VMState} {o b : Nat} {chain : List Nat}
    (h : ShadowChain st o (o :: chain) b) : o ∉ chain := by
  intro hmem
  -- the chain from `o` is determined, so a second occurrence would make it longer than itself
  have key : ∀ (c : List Nat) (s : Nat), ShadowChain st s c b → o ∈ c →
      ∃ c1, ShadowChain st o c1 b ∧ c1.length ≤ c.length := by
    intro c
    induction c with
    | nil => intro s _ hm; simp at hm
    | cons t rest ih =>
      intro s hs hm
      cases hs with
      | step _ next _ obs _ hobs hsh hrest =>
        by_cases hto : o = t
        · subst hto
          exact ⟨o :: rest, ShadowChain.step o next b obs rest hobs hsh hrest, le_refl _⟩
        · have : o ∈ rest := by
            rcases List.mem_cons.mp hm with h1 | h1
            · exact absurd h1 hto
            · exact h1
          obtain ⟨c1, hc1, hlen⟩ := ih next hrest this
          exact ⟨c1, hc1, by simp only [List.length_cons]; omega⟩
  cases h with
  | step _ next _ ob _ hob hsh hrest =>
    obtain ⟨c1, hc1, hlen⟩ := key chain next hrest hmem
    have := (shadowChain_unique hc1 (ShadowChain.step o next b ob chain hob hsh hrest)).1
    rw [this] at hlen
    simp at hlen

theorem first_resident_congr {st st1 : VMState} (pagenum : Nat) (l : List Nat)
    (h : ∀ s ∈ l, st1.objs s = st.objs s) :
    first_resident st1 pagenum l = first_resident st pagenum l := by
  induction l with
  | nil => rfl
  | cons s rest ih =>
    simp only [first_resident, pframe_get_resident_congr pagenum (h s (by simp)),
      ih (fun t ht => h t (by simp [ht]))]

theorem pframe_get_resident_update_live (st : VMState) (pf live : pframe) (g : pframe → pframe)
    (hg : ∀ q, (g q).pf_pagenum = q.pf_pagenum)
    (h : pframe_get_resident st (some pf.pf_obj) pf.pf_pagenum = some live) :
    pframe_get_resident (pframe_update st pf g) (some pf.pf_obj) pf.pf_pagenum
      = some (g live) := by
  obtain ⟨ob, hob, _⟩ := pframe_get_resident_mem h
  simp only [pframe_get_resident, hob] at h
  simp only [pframe_get_resident, pframe_update_objs_same st pf g ob hob]
  exact find?_map_update _ _ g live hg h

theorem same_links_set (st : VMState) (o : Nat) (ob ob1 : mmobj) (hob : st.objs o = some ob)
    (h1 : ob1.mmo_ops = ob.mmo_ops) (h2 : ob1.mmo_shadowed = ob.mmo_shadowed)
    (h3 : ob1.mmo_bottom_obj = ob.mmo_bottom_obj) : same_links st (st.set o ob1) := by
  intro x
  by_cases hx : x = o
  · subst hx
    simp [hob, h1, h2, h3]
  · rw [VMState.set_objs_ne _ _ _ hx]

theorem same_links_with_new_frame (st : VMState) (o : Nat) (ob : mmobj) (f : pframe)
    (rest : List (Nat × Nat)) (hob : st.objs o = some ob) :
    same_links st (with_new_frame st o ob f rest) := by
  intro x
  by_cases hx : x = o
  · subst hx
    simp [with_new_frame, hob]
  · rw [with_new_frame_objs_ne _ _ _ _ _ hx]

theorem same_links_pframe_update (st : VMState) (pf : pframe) (g : pframe → pframe) :
    same_links st (pframe_update st pf g) := by
  unfold pframe_update
  cases hob : st.objs pf.pf_obj with
  | none => exact same_links_refl st
  | some ob => exact same_links_set st _ ob _ hob rfl rfl rfl

theorem pframe_free_objs_ne (st : VMState) (pf : pframe) {x : Nat} (h : x ≠ pf.pf_obj) :
    (pframe_free st pf).objs x = st.objs x := by
  unfold pframe_free
  cases st.objs pf.pf_obj with
  | none => rfl
  | some ob => simp [VMState.set_objs_ne _ _ _ h]

theorem same_links_pframe_free (st : VMState) (pf : pframe) :
    same_links st (pframe_free st pf) := by
  intro x
  by_cases hx : x = pf.pf_obj
  · subst hx
    unfold pframe_free
    cases hob : st.objs pf.pf_obj with
    | none => simp [hob]
    | some ob => simp [hob]
  · rw [pframe_free_objs_ne _ _ hx]

theorem pframe_pin_copy_objs_ne (st : VMState) (pf src : pframe) {x : Nat} (h : x ≠ pf.pf_obj) :
    (pframe_pin (pframe_copy st pf src) pf).objs x = st.objs x := by
  unfold pframe_pin pframe_copy
  rw [pframe_update_objs_ne _ _ _ h, pframe_update_objs_ne _ _ _ h]

theorem same_links_pin_copy (st : VMState) (pf src : pframe) :
    same_links st (pframe_pin (pframe_copy st pf src) pf) :=
  same_links_trans (same_links_pframe_update st pf _) (same_links_pframe_update _ pf _)

/-! ## `shadow_lookuppage`, write path -/

theorem lookuppage_anon_same_links (K : KParams) (n : Nat) (st st1 : VMState)
    (b pagenum : Nat) (bob : mmobj) (forwrite err : Int) (pf : Option pframe)
    (hob : st.objs b = some bob) (hops : bob.mmo_ops = mmobj_ops_t.anon_mmobj_ops)
    (h : (mmo_ops_at K (n + 2)).lookuppage st b pagenum forwrite = Res.ok (err, pf, st1)) :
    same_links st st1 := by
  rw [lookuppage_anon K n st b pagenum bob forwrite hob hops] at h
  cases hres : pframe_get_resident st (some b) pagenum with
  | some f =>
    simp only [hres, Res.ok.injEq, Prod.mk.injEq] at h
    rw [← h.2.2]; exact same_links_refl st
  | none =>
    cases hfree : st.free_pages with
    | nil =>
      simp only [hres, hfree, Res.ok.injEq, Prod.mk.injEq] at h
      rw [← h.2.2]; exact same_links_refl st
    | cons p rest =>
      obtain ⟨addr, bytes⟩ := p
      simp only [hres, hfree, Res.ok.injEq, Prod.mk.injEq] at h
      rw [← h.2.2]; exact same_links_with_new_frame st b bob _ rest hob

/-- The acquisition of a new frame for a shadow object: `pframe_get` on a shadow object `o`
that does not have the page resident, the chain of `o` lying over the anonymous bottom object
`b`.  It returns; with a negative code there is no frame; with code 0 the frame is a frame of
`o` for the requested page, not busy, and resident in `o` afterwards. -/
theorem pframe_get_shadow (K : KParams) (hE : 0 < K.ENOMEM) (n : Nat) (st : VMState)
    (o b pagenum : Nat) (chain : List Nat) (ob bob : mmobj)
    (hchain : ShadowChain st o (o :: chain) b) (hob : st.objs o = some ob)
    (hops : ob.mmo_ops = mmobj_ops_t.shadow_mmobj_ops)
    (hbot : ob.mmo_bottom_obj = some b) (hbob : st.objs b = some bob)
    (hanon : bob.mmo_ops = mmobj_ops_t.anon_mmobj_ops) (hfuel : chain.length + 1 < n + 3)
    (hnot : pframe_get_resident st (some o) pagenum = none) :
    ∃ err pf st1,
      pframe_get K (mmo_ops_at K (n + 3)) st o pagenum = Res.ok (err, pf, st1) ∧
      (err < 0 ∨ err = 0) ∧ (err < 0 → pf = none) ∧
      (err = 0 → ∃ f, pf = some f ∧ f.pf_obj = o ∧ f.pf_pagenum = pagenum ∧
        f.pf_busy = false ∧ f.pf_dirty = false ∧
        pframe_get_resident st1 (some o) pagenum = some f) ∧
      same_links st st1 := by
  unfold pframe_get
  simp only [hnot, hob]
  cases hfree : st.free_pages with
  | nil =>
    exact ⟨_, _, _, rfl, Or.inl (by omega), fun _ => rfl, fun h => by omega, same_links_refl st⟩
  | cons p rest =>
    obtain ⟨addr, bytes⟩ := p
    simp only []
    -- the heap with the busy frame in place
    have hl1 := same_links_with_new_frame st o ob (pframe_fresh o pagenum addr bytes) rest hob
    have hchain1 := shadowChain_same_links hl1 hchain
    have hne : o ≠ b := shadowChain_ne_bottom hchain o (by simp)
    have hob1 := with_new_frame_objs_same st o ob (pframe_fresh o pagenum addr bytes) rest
    have hbob1 : (with_new_frame st o ob (pframe_fresh o pagenum addr bytes) rest).objs b
        = some bob := by
      rw [with_new_frame_objs_ne _ _ _ _ _ (Ne.symm hne), hbob]
    have hres1 := pframe_get_resident_with_new_frame st o ob (pframe_fresh o pagenum addr bytes)
      rest pagenum rfl
    have hdisp : (mmo_ops_at K (n + 3)).fillpage
        (with_new_frame st o ob (pframe_fresh o pagenum addr bytes) rest) o
        (pframe_fresh o pagenum addr bytes)
        = shadow_fillpage (mmo_ops_at K (n + 2)) (n + 3)
            (with_new_frame st o ob (pframe_fresh o pagenum addr bytes) rest) o
            (pframe_fresh o pagenum addr bytes) := by
      simp only [mmo_ops_at, hob1, hops]
    rw [hdisp]
    obtain ⟨hfound, hnone⟩ := shadow_fillpage_cases K hE n (n + 3) _ o b chain _ bob
      (pframe_fresh o pagenum addr bytes) hchain1 hob1 hbot hbob1 hanon hfuel rfl hres1 rfl rfl
    cases hfr : first_resident (with_new_frame st o ob (pframe_fresh o pagenum addr bytes) rest)
        pagenum (chain ++ [b]) with
    | some src =>
      obtain ⟨hfill, hlive⟩ := hfound src hfr
      rw [hfill]
      simp only [Res.bind_ok, pframe_get_filled, Int.lt_irrefl, if_false]
      have hlive2 := pframe_get_resident_update_live _ (pframe_fresh o pagenum addr bytes) _
        (fun q => { q with pf_busy := false }) (fun _ => rfl) hlive
      simp only [pframe_fresh_obj, pframe_fresh_pagenum] at hlive2
      rw [hlive2]
      refine ⟨_, _, _, rfl, Or.inr rfl, by simp, fun _ => ⟨_, rfl, rfl, rfl, rfl, rfl, hlive2⟩, ?_⟩
      exact same_links_trans hl1
        (same_links_trans (same_links_pin_copy _ _ _) (same_links_pframe_update _ _ _))
    | none =>
      obtain ⟨err, src, st1, hlk, herr, hneg, hzero⟩ := hnone hfr
      have hl2 := lookuppage_anon_same_links K n _ st1 b pagenum bob 0 err src hbob1 hanon hlk
      rcases herr with h | h
      · obtain ⟨hfill, _⟩ := hneg h
        rw [hfill]
        simp only [Res.bind_ok, pframe_get_filled, h, if_true]
        exact ⟨_, _, _, rfl, Or.inl h, fun _ => rfl, fun h0 => by omega,
          same_links_trans hl1 (same_links_trans hl2 (same_links_pframe_free _ _))⟩
      · obtain ⟨f, _, hfill, hlive⟩ := hzero h
        rw [hfill]
        simp only [Res.bind_ok, pframe_get_filled, Int.lt_irrefl, if_false]
        have hlive2 := pframe_get_resident_update_live _ (pframe_fresh o pagenum addr bytes) _
          (fun q => { q with pf_busy := false }) (fun _ => rfl) hlive
        simp only [pframe_fresh_obj, pframe_fresh_pagenum] at hlive2
        rw [hlive2]
        refine ⟨_, _, _, rfl, Or.inr rfl, by simp,
          fun _ => ⟨_, rfl, rfl, rfl, rfl, rfl, hlive2⟩, ?_⟩
        exact same_links_trans hl1 (same_links_trans hl2
          (same_links_trans (same_links_pin_copy _ _ _) (same_links_pframe_update _ _ _)))

/-- A read lookup on an object that shadows another and has the page resident returns the
resident frame and leaves the heap as it is. -/
theorem shadow_lookuppage_read_own (K : KParams) (T : OpsCalls) (fuel : Nat) (st : VMState)
    (o pagenum next : Nat) (ob : mmobj) (f : pframe) (hfuel : 0 < fuel)
    (hob : st.objs o = some ob) (hsh : ob.mmo_shadowed = some next)
    (hres : pframe_get_resident st (some o) pagenum = some f) (hbusy : f.pf_busy = false) :
    shadow_lookuppage K T fuel st o pagenum 0 = Res.ok (0, some f, st) := by
  cases fuel with
  | zero => simp at hfuel
  | succ m =>
    have hpn := pframe_get_resident_pagenum hres
    simp [shadow_lookuppage, shadow_lookuppage_walk, hob, hsh, hres, shadow_lookuppage_return,
      hpn, hbusy]

/-- C6: the write path of `shadow_lookuppage` on a shadow object `o` with chain `o :: chain`
over the anonymous bottom object `b`.  If `o` has the page resident, that frame is returned
and the heap is unchanged.  Otherwise the call returns what the acquisition `pframe_get`
returns: a negative code and no frame, or code 0 and a new frame that belongs to `o`, is for
the requested page and is marked dirty.  After a successful write lookup the frame is
resident in `o`, and a read lookup on `o` for the same page returns that same frame. -/
theorem shadow_lookuppage_write (K : KParams) (hE : 0 < K.ENOMEM) (n fuel : Nat)
    (st : VMState) (o b pagenum : Nat) (chain : List Nat) (ob bob : mmobj)
    (hchain : ShadowChain st o (o :: chain) b) (hob : st.objs o = some ob)
    (hops : ob.mmo_ops = mmobj_ops_t.shadow_mmobj_ops)
    (hbot : ob.mmo_bottom_obj = some b) (hbob : st.objs b = some bob)
    (hanon : bob.mmo_ops = mmobj_ops_t.anon_mmobj_ops) (hfuel : chain.length + 1 < n + 3)
    (hfuel2 : 0 < fuel) (hbusy : no_busy_frame st o) :
    (∀ f, pframe_get_resident st (some o) pagenum = some f →
      shadow_lookuppage K (mmo_ops_at K (n + 3)) fuel st o pagenum 1 = Res.ok (0, some f, st) ∧
      shadow_lookuppage K (mmo_ops_at K (n + 3)) fuel st o pagenum 0
        = Res.ok (0, some f, st)) ∧
    (pframe_get_resident st (some o) pagenum = none →
      ∃ err pf st1,
        shadow_lookuppage K (mmo_ops_at K (n + 3)) fuel st o pagenum 1 = Res.ok (err, pf, st1) ∧
        (err < 0 ∨ err = 0) ∧
        (err < 0 →
          pf = none ∧ pframe_get K (mmo_ops_at K (n + 3)) st o pagenum = Res.ok (err, none, st1)) ∧
        (err = 0 → ∃ f, pf = some f ∧ f.pf_obj = o ∧ f.pf_pagenum = pagenum ∧
          f.pf_dirty = true ∧ pframe_get_resident st1 (some o) pagenum = some f ∧
          shadow_lookuppage K (mmo_ops_at K (n + 3)) fuel st1 o pagenum 0
            = Res.ok (0, some f, st1))) := by
  obtain ⟨next, hsh⟩ : ∃ next, ob.mmo_shadowed = some next := by
    cases hchain with
    | step _ next _ ob2 _ hob2 hsh2 _ =>
      rw [hob] at hob2
      simp only [Option.some.injEq] at hob2
      subst hob2
      exact ⟨next, hsh2⟩
  constructor
  · intro f hres
    obtain ⟨ob1, hob1, hmem⟩ := pframe_get_resident_mem hres
    have hnb := hbusy ob1 hob1 f hmem
    have hpn := pframe_get_resident_pagenum hres
    refine ⟨?_, shadow_lookuppage_read_own K _ fuel st o pagenum next ob f hfuel2 hob hsh hres hnb⟩
    simp [shadow_lookuppage, hres, shadow_lookuppage_return, hpn, hnb]
  · intro hnot
    obtain ⟨err, pf, st1, hget, herr, hneg, hzero, hlinks⟩ :=
      pframe_get_shadow K hE n st o b pagenum chain ob bob hchain hob hops hbot hbob hanon hfuel
        hnot
    rcases herr with h | h
    · have hpf := hneg h
      subst hpf
      refine ⟨err, none, st1, ?_, Or.inl h, fun _ => ⟨rfl, hget⟩, fun h0 => by omega⟩
      simp [shadow_lookuppage, hnot, hget, h]
    · obtain ⟨f, hpf, hfo, hfpn, hfb, _, hfres⟩ := hzero h
      subst hpf
      subst h
      have hlive : pframe_get_resident (pframe_dirty st1 f) (some o) pagenum
          = some { f with pf_dirty := true } := by
        have := pframe_get_resident_update_live st1 f f (fun q => { q with pf_dirty := true })
          (fun _ => rfl) (by rw [hfo, hfpn]; exact hfres)
        rw [hfo, hfpn] at this
        exact this
      obtain ⟨ob1, hob1, _, hsh1, _⟩ := same_links_obj
        (same_links_trans hlinks (same_links_pframe_update st1 f _)) hob
      refine ⟨0, some { f with pf_dirty := true }, pframe_dirty st1 f, ?_, Or.inr rfl,
        fun h0 => by omega, fun _ => ⟨_, rfl, hfo, hfpn, rfl, hlive, ?_⟩⟩
      · simp [shadow_lookuppage, hnot, hget, shadow_lookuppage_return, hfpn, hfb]
      · exact shadow_lookuppage_read_own K _ fuel _ o pagenum next ob1 _ hfuel2 hob1
          (by rw [hsh1, hsh]) hlive hfb

/-- C6 at the shadow object of `exHeap`, for page 5, which it does not have resident. -/
theorem shadow_lookuppage_write_witness :
    0 < exK.ENOMEM ∧ ShadowChain exHeap 2 (2 :: []) 1 ∧ exHeap.objs 2 = some exShadow ∧
    exShadow.mmo_ops = mmobj_ops_t.shadow_mmobj_ops ∧ exShadow.mmo_bottom_obj = some 1 ∧
    exHeap.objs 1 = some exAnon ∧ exAnon.mmo_ops = mmobj_ops_t.anon_mmobj_ops ∧
    ([] : List Nat).length + 1 < 0 + 3 ∧ 0 < 1 ∧ no_busy_frame exHeap 2 ∧
    ∃ err pf st1,
      shadow_lookuppage exK (mmo_ops_at exK (0 + 3)) 1 exHeap 2 5 1 = Res.ok (err, pf, st1) ∧
      (err < 0 ∨ err = 0) ∧
      (err < 0 →
        pf = none ∧ pframe_get exK (mmo_ops_at exK (0 + 3)) exHeap 2 5 = Res.ok (err, none, st1)) ∧
      (err = 0 → ∃ f, pf = some f ∧ f.pf_obj = 2 ∧ f.pf_pagenum = 5 ∧
        f.pf_dirty = true ∧ pframe_get_resident st1 (some 2) 5 = some f ∧
        shadow_lookuppage exK (mmo_ops_at exK (0 + 3)) 1 st1 2 5 0 = Res.ok (0, some f, st1)) :=
  ⟨by decide, exHeap_chain, rfl, rfl, rfl, rfl, rfl, by decide, by decide, exHeap_no_busy 2,
    (shadow_lookuppage_write exK (by decide) 0 1 exHeap 2 1 5 [] exShadow exAnon exHeap_chain
      rfl rfl rfl rfl rfl (by decide) (by decide) (exHeap_no_busy 2)).2 (by decide)⟩

theorem first_resident_append (st : VMState) (pagenum : Nat) (xs ys : List Nat) :
    first_resident st pagenum (xs ++ ys)
      = match first_resident st pagenum xs with
        | some f => some f
        | none => first_resident st pagenum ys := by
  induction xs with
  | nil => rfl
  | cons s rest ih =>
    simp only [List.cons_append, first_resident]
    cases pframe_get_resident st (some s) pagenum with
    | some f => rfl
    | none => exact ih

theorem first_resident_singleton (st : VMState) (pagenum b : Nat) :
    first_resident st pagenum [b] = pframe_get_resident st (some b) pagenum := by
  simp only [first_resident]
  cases pframe_get_resident st (some b) pagenum <;> rfl

theorem first_resident_not_busy {st : VMState} {pagenum : Nat} {l : List Nat} {f : pframe}
    (hbusy : ∀ s ∈ l, no_busy_frame st s) (h : first_resident st pagenum l = some f) :
    f.pf_busy = false := by
  obtain ⟨s, hs, hsf⟩ := first_resident_spec h
  obtain ⟨obs, hobs, hmem⟩ := pframe_get_resident_mem hsf
  exact hbusy s hs obs hobs f hmem

/-- A read lookup through a shadow object that does not have the page, when the nearest
strict ancestor that has it (the bottom object included) has frame `F`: it returns `F` and
leaves the heap as it is. -/
theorem shadow_lookuppage_read_source (K : KParams) (hE : 0 < K.ENOMEM) (n fuel : Nat)
    (st : VMState) (s b pagenum : Nat) (c : List Nat) (obs bob : mmobj) (F : pframe)
    (hchain : ShadowChain st s (s :: c) b) (hobs : st.objs s = some obs)
    (hbot : obs.mmo_bottom_obj = some b) (hbob : st.objs b = some bob)
    (hanon : bob.mmo_ops = mmobj_ops_t.anon_mmobj_ops) (hfuel : c.length + 1 < fuel)
    (hbusy : ∀ x ∈ s :: c ++ [b], no_busy_frame st x)
    (hnot : pframe_get_resident st (some s) pagenum = none)
    (hsrc : first_resident st pagenum (c ++ [b]) = some F) :
    shadow_lookuppage K (mmo_ops_at K (n + 2)) fuel st s pagenum 0 = Res.ok (0, some F, st) := by
  obtain ⟨hfound, hnone, _⟩ := shadow_lookuppage_read_cases K hE n fuel st s b pagenum c obs bob
    hchain hobs hbot hbob hanon hfuel hbusy
  have hfr : first_resident st pagenum (s :: c) = first_resident st pagenum c := by
    simp only [first_resident, hnot]
  rw [first_resident_append] at hsrc
  cases hc : first_resident st pagenum c with
  | some f =>
    rw [hc] at hsrc
    simp only [Option.some.injEq] at hsrc
    subst hsrc
    exact hfound f (by rw [hfr, hc])
  | none =>
    rw [hc, first_resident_singleton] at hsrc
    have hsrc2 : pframe_get_resident st (some b) pagenum = some F := hsrc
    rw [hnone (by rw [hfr, hc]), lookuppage_anon K n st b pagenum bob 0 hbob hanon, hsrc2]

/-- A write lookup through a shadow object that does not have the page, when the nearest
strict ancestor that has it has frame `F` and a page is free: the new frame is `cow_frame`,
a frame of the shadow object with the bytes of `F`, and it heads the resident pages of the
shadow object; nothing else changes. -/
theorem shadow_lookuppage_write_source (K : KParams) (hE : 0 < K.ENOMEM) (n fuel : Nat)
    (st : VMState) (s b pagenum addr bytes : Nat) (rest : List (Nat × Nat)) (c : List Nat)
    (obs bob : mmobj) (F : pframe)
    (hchain : ShadowChain st s (s :: c) b) (hobs : st.objs s = some obs)
    (hops : obs.mmo_ops = mmobj_ops_t.shadow_mmobj_ops)
    (hbot : obs.mmo_bottom_obj = some b) (hbob : st.objs b = some bob)
    (hanon : bob.mmo_ops = mmobj_ops_t.anon_mmobj_ops) (hfuel : c.length + 1 < n + 3)
    (hnot : pframe_get_resident st (some s) pagenum = none)
    (hsrc : first_resident st pagenum (c ++ [b]) = some F)
    (hfree : st.free_pages = (addr, bytes) :: rest) :
    shadow_lookuppage K (mmo_ops_at K (n + 3)) fuel st s pagenum 1
      = Res.ok (0, some (cow_frame s pagenum addr F),
          with_new_frame st s obs (cow_frame s pagenum addr F) rest) := by
  have hno := pframe_get_resident_none hobs hnot
  have hl1 := same_links_with_new_frame st s obs (pframe_fresh s pagenum addr bytes) rest hobs
  have hchain1 := shadowChain_same_links hl1 hchain
  have hne : s ≠ b := shadowChain_ne_bottom hchain s (by simp)
  have hnc : s ∉ c := shadowChain_not_mem_tail hchain
  have hob1 := with_new_frame_objs_same st s obs (pframe_fresh s pagenum addr bytes) rest
  have hbob1 : (with_new_frame st s obs (pframe_fresh s pagenum addr bytes) rest).objs b
      = some bob := by
    rw [with_new_frame_objs_ne _ _ _ _ _ (Ne.symm hne), hbob]
  have hres1 := pframe_get_resident_with_new_frame st s obs (pframe_fresh s pagenum addr bytes)
    rest pagenum rfl
  have hsrc1 : first_resident (with_new_frame st s obs (pframe_fresh s pagenum addr bytes) rest)
      pagenum (c ++ [b]) = some F := by
    rw [first_resident_congr pagenum (c ++ [b]) (fun x hx => with_new_frame_objs_ne _ _ _ _ _
      (by rintro rfl
          rcases List.mem_append.mp hx with h | h
          · exact hnc h
          · simp at h; exact hne h))]
    exact hsrc
  obtain ⟨hfill, _⟩ := (shadow_fillpage_cases K hE n (n + 3) _ s b c _ bob
    (pframe_fresh s pagenum addr bytes) hchain1 hob1 hbot hbob1 hanon hfuel rfl hres1 rfl rfl).1
    F hsrc1
  have hdisp : (mmo_ops_at K (n + 3)).fillpage
      (with_new_frame st s obs (pframe_fresh s pagenum addr bytes) rest) s
      (pframe_fresh s pagenum addr bytes)
      = shadow_fillpage (mmo_ops_at K (n + 2)) (n + 3)
          (with_new_frame st s obs (pframe_fresh s pagenum addr bytes) rest) s
          (pframe_fresh s pagenum addr bytes) := by
    simp only [mmo_ops_at, hob1, hops]
  have hget : pframe_get K (mmo_ops_at K (n + 3)) st s pagenum
      = Res.ok (0, some { cow_frame s pagenum addr F with pf_dirty := false },
          with_new_frame st s obs { cow_frame s pagenum addr F with pf_dirty := false } rest) := by
    unfold pframe_get
    simp only [hnot, hobs, hfree, hdisp, hfill, Res.bind_ok, pframe_get_filled, Int.lt_irrefl,
      if_false, pframe_pin, pframe_copy]
    rw [pframe_update_with_new_frame st s obs (pframe_fresh s pagenum addr bytes)
        (pframe_fresh s pagenum addr bytes) rest _ rfl rfl hno,
      pframe_update_with_new_frame st s obs
        { pframe_fresh s pagenum addr bytes with pf_data := F.pf_data }
        (pframe_fresh s pagenum addr bytes) rest _ rfl rfl hno,
      pframe_update_with_new_frame st s obs
        { pframe_fresh s pagenum addr bytes with pf_data := F.pf_data, pf_pinned := true }
        (pframe_fresh s pagenum addr bytes) rest _ rfl rfl hno,
      pframe_get_resident_with_new_frame st s obs _ rest pagenum rfl]
    rfl
  simp only [shadow_lookuppage, hnot, hget, Res.bind_ok, pframe_dirty]
  rw [pframe_update_with_new_frame st s obs { cow_frame s pagenum addr F with pf_dirty := false }
    { cow_frame s pagenum addr F with pf_dirty := false } rest _ rfl rfl hno]
  simp [shadow_lookuppage_return, cow_frame]

theorem CowPair.symm {st : VMState} {s1 s2 b : Nat} {c : List Nat} (h : CowPair st s1 s2 b c) :
    CowPair st s2 s1 b c :=
  { ne := fun e => h.ne e.symm
    chain1 := h.chain2
    chain2 := h.chain1
    shadow1 := h.shadow2
    shadow2 := h.shadow1
    anon := h.anon
    busy := fun z hz => h.busy z (by simp at hz ⊢; tauto) }

theorem no_busy_frame_with_new_frame (st : VMState) (o : Nat) (ob : mmobj) (f : pframe)
    (rest : List (Nat × Nat)) (hob : st.objs o = some ob) (hf : f.pf_busy = false) (z : Nat)
    (h : no_busy_frame st z) : no_busy_frame (with_new_frame st o ob f rest) z := by
  intro obz hobz pf hpf
  by_cases hz : z = o
  · subst hz
    rw [with_new_frame_objs_same] at hobz
    simp only [Option.some.injEq] at hobz
    subst hobz
    rcases List.mem_cons.mp hpf with rfl | hmem
    · exact hf
    · exact h ob hob pf hmem
  · rw [with_new_frame_objs_ne _ _ _ _ _ hz] at hobz
    exact h obz hobz pf hpf

/-- A new frame that is not busy, resident in any object, keeps a pair a pair. -/
theorem CowPair.with_new_frame {st : VMState} {s1 s2 b : Nat} {c : List Nat}
    (h : CowPair st s1 s2 b c) (o : Nat) (ob : mmobj) (f : pframe) (rest : List (Nat × Nat))
    (hob : st.objs o = some ob) (hf : f.pf_busy = false) :
    CowPair (Weenix.with_new_frame st o ob f rest) s1 s2 b c := by
  have hl := same_links_with_new_frame st o ob f rest hob
  obtain ⟨ob1, h1, hops1, hbot1⟩ := h.shadow1
  obtain ⟨ob2, h2, hops2, hbot2⟩ := h.shadow2
  obtain ⟨bob, hb, hanon⟩ := h.anon
  obtain ⟨ob1', h1', e1, _, e1b⟩ := same_links_obj hl h1
  obtain ⟨ob2', h2', e2, _, e2b⟩ := same_links_obj hl h2
  obtain ⟨bob', hb', eb, _, _⟩ := same_links_obj hl hb
  exact
    { ne := h.ne
      chain1 := shadowChain_same_links hl h.chain1
      chain2 := shadowChain_same_links hl h.chain2
      shadow1 := ⟨ob1', h1', by rw [e1, hops1], by rw [e1b, hbot1]⟩
      shadow2 := ⟨ob2', h2', by rw [e2, hops2], by rw [e2b, hbot2]⟩
      anon := ⟨bob', hb', by rw [eb, hanon]⟩
      busy := fun z hz => no_busy_frame_with_new_frame st o ob f rest hob hf z (h.busy z hz) }

theorem CowPair.not_mem {st : VMState} {s1 s2 b : Nat} {c : List Nat}
    (h : CowPair st s1 s2 b c) : ∀ z ∈ c ++ [b], z ≠ s1 := by
  intro z hz e
  subst e
  rcases List.mem_append.mp hz with hm | hm
  · exact shadowChain_not_mem_tail h.chain1 hm
  · simp only [List.mem_singleton] at hm
    exact shadowChain_ne_bottom h.chain1 z (by simp) hm

/-- A write lookup on a shadow object that has the page resident returns the resident frame
and leaves the heap as it is. -/
theorem shadow_lookuppage_write_own (K : KParams) (T : OpsCalls) (fuel : Nat) (st : VMState)
    (o pagenum : Nat) (f : pframe)
    (hres : pframe_get_resident st (some o) pagenum = some f) (hbusy : f.pf_busy = false) :
    shadow_lookuppage K T fuel st o pagenum 1 = Res.ok (0, some f, st) := by
  have hpn := pframe_get_resident_pagenum hres
  simp [shadow_lookuppage, hres, shadow_lookuppage_return, hpn, hbusy]

/-- The first read lookup through one shadow object of a pair, neither having the page, with
a page free: it returns a frame `F`, which afterwards is the frame of the nearest common
ancestor that has the page; only the bottom object can have changed. -/
theorem cow_first_read (K : KParams) (hE : 0 < K.ENOMEM) (n fuel : Nat) (st : VMState)
    (x y b pagenum : Nat) (c : List Nat) (hp : CowPair st x y b c)
    (hfuel : c.length + 1 < fuel)
    (hnot : pframe_get_resident st (some x) pagenum = none)
    (hfree : st.free_pages ≠ []) :
    ∃ F st7,
      shadow_lookuppage K (mmo_ops_at K (n + 2)) fuel st x pagenum 0 = Res.ok (0, some F, st7) ∧
      first_resident st7 pagenum (c ++ [b]) = some F ∧ CowPair st7 x y b c ∧
      (∀ z, z ≠ b → st7.objs z = st.objs z) ∧
      st.free_pages.length ≤ st7.free_pages.length + 1 := by
  obtain ⟨obx, hobx, hopsx, hbotx⟩ := hp.shadow1
  obtain ⟨bob, hbob, hanon⟩ := hp.anon
  have hbusy : ∀ z ∈ x :: c ++ [b], no_busy_frame st z :=
    fun z hz => hp.busy z (by simp at hz ⊢; tauto)
  cases hsrc : first_resident st pagenum (c ++ [b]) with
  | some F =>
    exact ⟨F, st, shadow_lookuppage_read_source K hE n fuel st x b pagenum c obx bob F hp.chain1
      hobx hbotx hbob hanon hfuel hbusy hnot hsrc, hsrc, hp, fun _ _ => rfl, Nat.le_succ _⟩
  | none =>
    cases hfr : st.free_pages with
    | nil => exact absurd hfr hfree
    | cons p rest =>
      obtain ⟨addr, bytes⟩ := p
      rw [first_resident_append] at hsrc
      have hc : first_resident st pagenum c = none := by
        cases h : first_resident st pagenum c with
        | none => rfl
        | some f => rw [h] at hsrc; simp at hsrc
      rw [hc, first_resident_singleton] at hsrc
      have hb : pframe_get_resident st (some b) pagenum = none := hsrc
      obtain ⟨_, hnone, _⟩ := shadow_lookuppage_read_cases K hE n fuel st x b pagenum c obx bob
        hp.chain1 hobx hbotx hbob hanon hfuel hbusy
      have hfx : first_resident st pagenum (x :: c) = none := by
        simp only [first_resident, hnot, hc]
      refine ⟨anon_new_frame b pagenum addr,
        with_new_frame st b bob (anon_new_frame b pagenum addr) rest, ?_, ?_,
        hp.with_new_frame b bob _ rest hbob rfl,
        fun z hz => with_new_frame_objs_ne _ _ _ _ _ hz, ?_⟩
      · rw [hnone hfx, lookuppage_anon K n st b pagenum bob 0 hbob hanon, hb, hfr]
      · rw [first_resident_append, first_resident_congr pagenum c
          (fun z hz => with_new_frame_objs_ne _ _ _ _ _ (shadowChain_ne_bottom hp.chain1 z
            (by simp [hz]))), hc, first_resident_singleton]
        exact pframe_get_resident_with_new_frame st b bob _ rest pagenum rfl
      · simp [with_new_frame, hfr]

/-- A pair in a heap where the nearest common ancestor that has the page has frame `F`,
neither shadow object of the pair having the page, and two pages free.  Read lookups through
both return `F`.  A write lookup through `w` returns a new frame `G` of `w`; after it, a write
lookup through `w` returns `G` again, a write lookup through the other object `o` returns a
frame of `o`, which is not `G`, and a read lookup through `o` still returns `F`. -/
theorem cow_after_source (K : KParams) (hE : 0 < K.ENOMEM) (n fuel : Nat) (st : VMState)
    (w o b pagenum : Nat) (c : List Nat) (F : pframe) (hp : CowPair st w o b c)
    (hfuel : c.length + 1 < fuel) (hn : c.length + 1 < n + 3)
    (hsrc : first_resident st pagenum (c ++ [b]) = some F)
    (hnw : pframe_get_resident st (some w) pagenum = none)
    (hno : pframe_get_resident st (some o) pagenum = none)
    (hfree : 2 ≤ st.free_pages.length) :
    shadow_lookuppage K (mmo_ops_at K (n + 3)) fuel st w pagenum 0 = Res.ok (0, some F, st) ∧
    shadow_lookuppage K (mmo_ops_at K (n + 3)) fuel st o pagenum 0 = Res.ok (0, some F, st) ∧
    ∃ G st8,
      shadow_lookuppage K (mmo_ops_at K (n + 3)) fuel st w pagenum 1
        = Res.ok (0, some G, st8) ∧
      G.pf_obj = w ∧
      shadow_lookuppage K (mmo_ops_at K (n + 3)) fuel st8 w pagenum 1
        = Res.ok (0, some G, st8) ∧
      (∃ H st9, shadow_lookuppage K (mmo_ops_at K (n + 3)) fuel st8 o pagenum 1
          = Res.ok (0, some H, st9) ∧ H.pf_obj = o ∧ H ≠ G) ∧
      shadow_lookuppage K (mmo_ops_at K (n + 3)) fuel st8 o pagenum 0
        = Res.ok (0, some F, st8) := by
  obtain ⟨obw, hobw, hopsw, hbotw⟩ := hp.shadow1
  obtain ⟨obo, hobo, hopso, hboto⟩ := hp.shadow2
  obtain ⟨bob, hbob, hanon⟩ := hp.anon
  have hbusyw : ∀ z ∈ w :: c ++ [b], no_busy_frame st z :=
    fun z hz => hp.busy z (by simp at hz ⊢; tauto)
  have hbusyo : ∀ z ∈ o :: c ++ [b], no_busy_frame st z :=
    fun z hz => hp.busy z (by simp at hz ⊢; tauto)
  obtain ⟨a1, b1, a2, b2, rest, hfr⟩ : ∃ a1 b1 a2 b2 rest,
      st.free_pages = (a1, b1) :: (a2, b2) :: rest := by
    cases h : st.free_pages with
    | nil => rw [h] at hfree; simp at hfree
    | cons p l =>
      cases l with
      | nil => rw [h] at hfree; simp at hfree
      | cons q l2 => exact ⟨p.1, p.2, q.1, q.2, l2, rfl⟩
  refine ⟨shadow_lookuppage_read_source K hE (n + 1) fuel st w b pagenum c obw bob F hp.chain1
      hobw hbotw hbob hanon hfuel hbusyw hnw hsrc,
    shadow_lookuppage_read_source K hE (n + 1) fuel st o b pagenum c obo bob F hp.chain2
      hobo hboto hbob hanon hfuel hbusyo hno hsrc,
    cow_frame w pagenum a1 F, with_new_frame st w obw (cow_frame w pagenum a1 F) ((a2, b2) :: rest),
    shadow_lookuppage_write_source K hE n fuel st w b pagenum a1 b1 _ c obw bob F hp.chain1
      hobw hopsw hbotw hbob hanon hn hnw hsrc hfr, rfl, ?_, ?_, ?_⟩
  · exact shadow_lookuppage_write_own K _ fuel _ w pagenum (cow_frame w pagenum a1 F)
      (pframe_get_resident_with_new_frame st w obw _ _ pagenum rfl) rfl
  all_goals
    have hp8 := hp.with_new_frame w obw (cow_frame w pagenum a1 F) ((a2, b2) :: rest) hobw rfl
    have hobo8 : (with_new_frame st w obw (cow_frame w pagenum a1 F) ((a2, b2) :: rest)).objs o
        = some obo := by
      rw [with_new_frame_objs_ne _ _ _ _ _ (Ne.symm hp.ne), hobo]
    have hbne : b ≠ w := hp.not_mem b (by simp)
    have hbob8 : (with_new_frame st w obw (cow_frame w pagenum a1 F) ((a2, b2) :: rest)).objs b
        = some bob := by
      rw [with_new_frame_objs_ne _ _ _ _ _ hbne, hbob]
    have hno8 : pframe_get_resident
        (with_new_frame st w obw (cow_frame w pagenum a1 F) ((a2, b2) :: rest)) (some o) pagenum
        = none := by
      rw [pframe_get_resident_with_new_frame_ne _ _ _ _ _ _ (Ne.symm hp.ne), hno]
    have hsrc8 : first_resident
        (with_new_frame st w obw (cow_frame w pagenum a1 F) ((a2, b2) :: rest)) pagenum
        (c ++ [b]) = some F := by
      rw [first_resident_congr pagenum (c ++ [b])
        (fun z hz => with_new_frame_objs_ne _ _ _ _ _ (hp.not_mem z hz)), hsrc]
  · refine ⟨cow_frame o pagenum a2 F, _,
      shadow_lookuppage_write_source K hE n fuel _ o b pagenum a2 b2 rest c obo bob F hp8.chain2
        hobo8 hopso hboto hbob8 hanon hn hno8 hsrc8 rfl, rfl, ?_⟩
    intro he
    have := congrArg pframe.pf_obj he
    simp only [cow_frame] at this
    exact hp.ne this.symm
  · exact shadow_lookuppage_read_source K hE (n + 1) fuel _ o b pagenum c obo bob F hp8.chain2
      hobo8 hboto hbob8 hanon hfuel (fun z hz => hp8.busy z (by simp at hz ⊢; tauto)) hno8 hsrc8

/-- A `ref` through the operation table on a live object with a positive reference count
adds one to the count. -/
theorem ops_ref_spec (K : KParams) (n : Nat) (st : VMState) (a : Nat) (ob : mmobj)
    (hob : st.objs a = some ob) (hpos : 0 < ob.mmo_refcount) :
    (mmo_ops_at K (n + 1)).ref st (some a)
      = Res.ok (st.set a { ob with mmo_refcount := ob.mmo_refcount + 1 }) := by
  simp only [mmo_ops_at, Option.bind, hob]
  cases hops : ob.mmo_ops <;> simp [anon_ref, shadow_ref, hob, hops, hpos]

/-- A chain is a chain in every heap whose objects on the chain have the same links. -/
theorem shadowChain_congr {st st1 : VMState} {o b : Nat} {chain : List Nat}
    (h : ∀ x ∈ chain ++ [b], (st1.objs x).map (fun ob => ob.mmo_shadowed)
      = (st.objs x).map (fun ob => ob.mmo_shadowed))
    (hc : ShadowChain st o chain b) : ShadowChain st1 o chain b := by
  induction hc with
  | bottom b ob hob hsh =>
    have := h b (by simp)
    rw [hob] at this
    cases h1 : st1.objs b with
    | none => rw [h1] at this; simp at this
    | some ob1 =>
      rw [h1] at this
      simp only [Option.map_some', Option.some.injEq] at this
      exact ShadowChain.bottom b ob1 h1 (by rw [this, hsh])
  | step o next b ob chain hob hsh _ ih =>
    have := h o (by simp)
    rw [hob] at this
    cases h1 : st1.objs o with
    | none => rw [h1] at this; simp at this
    | some ob1 =>
      rw [h1] at this
      simp only [Option.map_some', Option.some.injEq] at this
      exact ShadowChain.step o next b ob1 chain h1 (by rw [this, hsh])
        (ih (fun x hx => h x (by simp at hx ⊢; tauto)))

theorem ops_ref_eq (K : KParams) (n : Nat) (st : VMState) (a : Nat) :
    (mmo_ops_at K (n + 1)).ref st (some a)
      = match st.objs a with
        | none => Res.panic
        | some ob =>
          if 0 < ob.mmo_refcount then
            Res.ok (st.set a { ob with mmo_refcount := ob.mmo_refcount + 1 })
          else Res.panic := by
  cases hob : st.objs a with
  | none => simp [mmo_ops_at, Option.bind, hob]
  | some ob =>
    simp only [mmo_ops_at, Option.bind, hob]
    cases hops : ob.mmo_ops <;> simp [anon_ref, shadow_ref, hob, hops]

theorem VMState.set_objs (st : VMState) (o : Nat) (ob : mmobj) (x : Nat) :
    (st.set o ob).objs x = if x = o then some ob else st.objs x := by
  simp [VMState.set, Function.update_apply]

theorem shadow_create_objs (st : VMState) (x : Nat) :
    (shadow_create st).2.objs x
      = if x = st.next_obj then
          some { mmo_ops := mmobj_ops_t.shadow_mmobj_ops, mmo_refcount := 1, mmo_nrespages := 0,
                 mmo_respages := [], mmo_shadowed := none, mmo_bottom_obj := none }
        else st.objs x := by
  simp [shadow_create, VMState.set, Function.update_apply]

theorem shadow_create_fst (st : VMState) : (shadow_create st).1 = st.next_obj := rfl

theorem shadow_create_next_obj (st : VMState) :
    (shadow_create st).2.next_obj = st.next_obj + 1 := rfl

theorem shadow_create_free_pages (st : VMState) :
    (shadow_create st).2.free_pages = st.free_pages := rfl

/-- The heap `handle_memory_object` leaves for a private area bound to `P`: the two new
shadow objects, at `st.next_obj` for the parent and the next address for the child, shadow
`P` and have its bottom object `b`, with no resident page; every other object is as it was
up to its reference count; the free pages are as they were. -/
theorem handle_memory_object_private (K : KParams) (n : Nat) (st : VMState)
    (childVmArea parentVmArea : vmarea) (P b : Nat) (obP bob : mmobj)
    (hpriv : K.MAP_SHARED ≠ childVmArea.vma_flags &&& K.MAP_TYPE)
    (hP : parentVmArea.vma_obj = some P)
    (hobP : st.objs P = some obP) (hrP : 0 < obP.mmo_refcount)
    (hbotP : mmobj_bottom_obj st P = Res.ok (some b))
    (hbob : st.objs b = some bob) (hrb : 0 < bob.mmo_refcount)
    (hfresh : ∀ i, st.next_obj ≤ i → st.objs i = none) :
    ∃ st6,
      handle_memory_object K (mmo_ops_at K (n + 1)) st childVmArea parentVmArea
        = Res.ok ({ childVmArea with vma_obj := some (st.next_obj + 1) },
            { parentVmArea with vma_obj := some st.next_obj }, st6) ∧
      st6.objs st.next_obj
        = some { mmo_ops := mmobj_ops_t.shadow_mmobj_ops, mmo_refcount := 1, mmo_nrespages := 0,
                 mmo_respages := [], mmo_shadowed := some P, mmo_bottom_obj := some b } ∧
      st6.objs (st.next_obj + 1)
        = some { mmo_ops := mmobj_ops_t.shadow_mmobj_ops, mmo_refcount := 1, mmo_nrespages := 0,
                 mmo_respages := [], mmo_shadowed := some P, mmo_bottom_obj := some b } ∧
      (∀ x, x ≠ st.next_obj → x ≠ st.next_obj + 1 →
        (st6.objs x).map (fun ob => { ob with mmo_refcount := 0 })
          = (st.objs x).map (fun ob => { ob with mmo_refcount := 0 })) ∧
      st6.free_pages = st.free_pages := by
  have hN : st.objs st.next_obj = none := hfresh _ (le_refl _)
  have hN1 : st.objs (st.next_obj + 1) = none := hfresh _ (Nat.le_succ _)
  have hPN : P ≠ st.next_obj := by rintro rfl; rw [hN] at hobP; simp at hobP
  have hPN1 : P ≠ st.next_obj + 1 := by rintro rfl; rw [hN1] at hobP; simp at hobP
  have hbN : b ≠ st.next_obj := by rintro rfl; rw [hN] at hbob; simp at hbob
  have hbN1 : b ≠ st.next_obj + 1 := by rintro rfl; rw [hN1] at hbob; simp at hbob
  have hNN1 : st.next_obj ≠ st.next_obj + 1 := by omega
  have hN1N : st.next_obj + 1 ≠ st.next_obj := by omega
  have hbP : mmobj_bottom_obj st P = Res.ok (some b) := hbotP
  simp only [mmobj_bottom_obj, hobP] at hbotP
  have hNP := Ne.symm hPN
  have hN1P := Ne.symm hPN1
  have hNb := Ne.symm hbN
  have hN1b := Ne.symm hbN1
  have hrP1 : 0 < obP.mmo_refcount + 1 := by omega
  have hrP2 : 0 < obP.mmo_refcount + 1 + 1 := by omega
  have hrb1 : 0 < bob.mmo_refcount + 1 := by omega
  by_cases hPb : P = b
  · subst hPb
    rw [hobP] at hbob
    simp only [Option.some.injEq] at hbob
    subst hbob
    by_cases hsh : obP.mmo_shadowed = none
    · simp [handle_memory_object, hpriv, hP, mmobj_bottom_obj, ops_ref_eq, VMState.set_objs,
        shadow_create_objs, shadow_create_fst, shadow_create_next_obj, shadow_create_free_pages,
        hPN, hPN1, hNN1, hN1N, hobP, hsh, hrP, hNP, hN1P, hrP1, hrP2]
      intro x hx hx1
      by_cases hxP : x = P
      · subst hxP
        simp [hobP, hsh]
      · simp [hxP, hx, hx1]
    · simp only [if_neg hsh, Res.ok.injEq] at hbotP
      simp [handle_memory_object, hpriv, hP, mmobj_bottom_obj, ops_ref_eq, VMState.set_objs,
        shadow_create_objs, shadow_create_fst, shadow_create_next_obj, shadow_create_free_pages,
        hPN, hPN1, hNN1, hN1N, hobP, hsh, hrP, hNP, hN1P, hrP1, hrP2, hbotP]
      intro x hx hx1
      by_cases hxP : x = P
      · subst hxP
        simp [hobP, hbotP]
      · simp [hxP, hx, hx1]
  · have hsh : obP.mmo_shadowed ≠ none := by
      intro h
      simp only [h, if_true, Res.ok.injEq, Option.some.injEq] at hbotP
      exact hPb hbotP
    simp only [if_neg hsh, Res.ok.injEq] at hbotP
    have hbP2 : b ≠ P := Ne.symm hPb
    simp [handle_memory_object, hpriv, hP, mmobj_bottom_obj, ops_ref_eq, VMState.set_objs,
      shadow_create_objs, shadow_create_fst, shadow_create_next_obj, shadow_create_free_pages,
      hPN, hPN1, hNN1, hN1N, hobP, hsh, hrP, hNP, hN1P, hrP1, hrP2, hbotP, hbob, hbN, hbN1, hNb,
      hN1b, hrb, hrb1, hPb, hbP2]
    intro x hx hx1
    by_cases hxP : x = P
    · subst hxP
      simp [hobP, hbotP, hPb, hx, hx1]
    · by_cases hxb : x = b
      · subst hxb
        simp [hbob, hxP]
      · simp [hxP, hx, hx1, hxb]

/-- An object that is the same up to its reference count in two heaps. -/
theorem same_up_to_refcount {st st6 : VMState} {x : Nat} {ob : mmobj}
    (h : (st6.objs x).map (fun ob => { ob with mmo_refcount := 0 })
      = (st.objs x).map (fun ob => { ob with mmo_refcount := 0 }))
    (hob : st.objs x = some ob) :
    ∃ ob6, st6.objs x = some ob6 ∧ ob6.mmo_ops = ob.mmo_ops ∧
      ob6.mmo_respages = ob.mmo_respages ∧ ob6.mmo_shadowed = ob.mmo_shadowed ∧
      ob6.mmo_bottom_obj = ob.mmo_bottom_obj := by
  rw [hob] at h
  cases h6 : st6.objs x with
  | none => rw [h6] at h; simp at h
  | some ob6 =>
    rw [h6] at h
    simp only [Option.map_some', Option.some.injEq, mmobj.mk.injEq] at h
    exact ⟨ob6, rfl, h.1, h.2.2.2.1, h.2.2.2.2.1, h.2.2.2.2.2⟩

/-- C7: copy-on-write sharing after `handle_memory_object`.  The parent area of a private
mapping is bound to the object `P`, whose chain lies over the anonymous bottom object `b`;
three pages are free.  The call returns, binds the parent area to a new shadow object (at
`st.next_obj`) and the child area to another (at the next address), and neither has a page
resident.  For every page index, the read lookup through the parent's shadow object returns
a frame `F`, and the read lookups through the child's and again the parent's shadow object
then return the same frame `F` and leave the heap as it is.  After that, for either side `w`
with the other side `o`: the write lookup through `w` returns a frame `G` owned by `w`; a
write lookup through `w` returns `G` again; a write lookup through `o` returns a frame owned
by `o`, which is not `G`; and the read lookup through `o` still returns `F`. -/
theorem cow_sharing (K : KParams) (hE : 0 < K.ENOMEM) (n fuel : Nat) (st : VMState)
    (childVmArea parentVmArea : vmarea) (P b pagenum : Nat) (cP : List Nat) (obP bob : mmobj)
    (hpriv : K.MAP_SHARED ≠ childVmArea.vma_flags &&& K.MAP_TYPE)
    (hP : parentVmArea.vma_obj = some P) (hchain : ShadowChain st P cP b)
    (hobP : st.objs P = some obP) (hrP : 0 < obP.mmo_refcount)
    (hbotP : mmobj_bottom_obj st P = Res.ok (some b))
    (hbob : st.objs b = some bob) (hanon : bob.mmo_ops = mmobj_ops_t.anon_mmobj_ops)
    (hrb : 0 < bob.mmo_refcount)
    (hfresh : ∀ i, st.next_obj ≤ i → st.objs i = none)
    (hbusy : ∀ z ∈ cP ++ [b], no_busy_frame st z)
    (hfree : 3 ≤ st.free_pages.length)
    (hfuel : cP.length + 1 < fuel) (hn : cP.length + 1 < n + 3) :
    ∃ st6,
      handle_memory_object K (mmo_ops_at K (n + 3)) st childVmArea parentVmArea
        = Res.ok ({ childVmArea with vma_obj := some (st.next_obj + 1) },
            { parentVmArea with vma_obj := some st.next_obj }, st6) ∧
      pframe_get_resident st6 (some st.next_obj) pagenum = none ∧
      pframe_get_resident st6 (some (st.next_obj + 1)) pagenum = none ∧
      ∃ F st7,
        shadow_lookuppage K (mmo_ops_at K (n + 3)) fuel st6 st.next_obj pagenum 0
          = Res.ok (0, some F, st7) ∧
        shadow_lookuppage K (mmo_ops_at K (n + 3)) fuel st7 (st.next_obj + 1) pagenum 0
          = Res.ok (0, some F, st7) ∧
        shadow_lookuppage K (mmo_ops_at K (n + 3)) fuel st7 st.next_obj pagenum 0
          = Res.ok (0, some F, st7) ∧
        ∀ w o, (w = st.next_obj ∧ o = st.next_obj + 1) ∨ (w = st.next_obj + 1 ∧ o = st.next_obj) →
          ∃ G st8,
            shadow_lookuppage K (mmo_ops_at K (n + 3)) fuel st7 w pagenum 1
              = Res.ok (0, some G, st8) ∧
            G.pf_obj = w ∧
            shadow_lookuppage K (mmo_ops_at K (n + 3)) fuel st8 w pagenum 1
              = Res.ok (0, some G, st8) ∧
            (∃ H st9, shadow_lookuppage K (mmo_ops_at K (n + 3)) fuel st8 o pagenum 1
                = Res.ok (0, some H, st9) ∧ H.pf_obj = o ∧ H ≠ G) ∧
            shadow_lookuppage K (mmo_ops_at K (n + 3)) fuel st8 o pagenum 0
              = Res.ok (0, some F, st8) := by
  obtain ⟨st6, hcomp, hN, hN1, hold, hfp⟩ := handle_memory_object_private K (n + 2) st
    childVmArea parentVmArea P b obP bob hpriv hP hobP hrP hbotP hbob hrb hfresh
  have hlive : ∀ x ∈ cP ++ [b], ∃ ob, st.objs x = some ob := by
    intro x hx
    rcases List.mem_append.mp hx with h | h
    · obtain ⟨ob, hob, _⟩ := shadowChain_mem hchain x h
      exact ⟨ob, hob⟩
    · simp only [List.mem_singleton] at h
      subst h
      exact ⟨bob, hbob⟩
  have hne : ∀ x ∈ cP ++ [b], x ≠ st.next_obj ∧ x ≠ st.next_obj + 1 := by
    intro x hx
    obtain ⟨ob, hob⟩ := hlive x hx
    constructor
    · rintro rfl
      rw [hfresh _ (le_refl _)] at hob
      simp at hob
    · rintro rfl
      rw [hfresh _ (Nat.le_succ _)] at hob
      simp at hob
  have hsame : ∀ x ∈ cP ++ [b], ∀ ob, st.objs x = some ob →
      ∃ ob6, st6.objs x = some ob6 ∧ ob6.mmo_ops = ob.mmo_ops ∧
        ob6.mmo_respages = ob.mmo_respages ∧ ob6.mmo_shadowed = ob.mmo_shadowed ∧
        ob6.mmo_bottom_obj = ob.mmo_bottom_obj :=
    fun x hx ob hob => same_up_to_refcount (hold x (hne x hx).1 (hne x hx).2) hob
  have hchain6 : ShadowChain st6 P cP b := by
    refine shadowChain_congr (fun x hx => ?_) hchain
    obtain ⟨ob, hob⟩ := hlive x hx
    obtain ⟨ob6, h6, _, _, hsh, _⟩ := hsame x hx ob hob
    simp [h6, hob, hsh]
  have hbusy6 : ∀ z ∈ cP ++ [b], no_busy_frame st6 z := by
    intro z hz ob6 hob6 pf hpf
    obtain ⟨ob, hob⟩ := hlive z hz
    obtain ⟨ob6', h6, _, hres, _, _⟩ := hsame z hz ob hob
    rw [hob6] at h6
    simp only [Option.some.injEq] at h6
    subst h6
    rw [hres] at hpf
    exact hbusy z hz ob hob pf hpf
  obtain ⟨bob6, hbob6, hanon6, _, _, _⟩ := hsame b (by simp) bob hbob
  have hp : CowPair st6 st.next_obj (st.next_obj + 1) b cP :=
    { ne := by omega
      chain1 := ShadowChain.step _ P b _ cP hN rfl hchain6
      chain2 := ShadowChain.step _ P b _ cP hN1 rfl hchain6
      shadow1 := ⟨_, hN, rfl, rfl⟩
      shadow2 := ⟨_, hN1, rfl, rfl⟩
      anon := ⟨bob6, hbob6, by rw [hanon6, hanon]⟩
      busy := by
        intro z hz
        simp only [List.cons_append, List.mem_cons] at hz
        rcases hz with rfl | rfl | hz
        · intro ob hob pf hpf
          rw [hN] at hob
          simp only [Option.some.injEq] at hob
          subst hob
          simp at hpf
        · intro ob hob pf hpf
          rw [hN1] at hob
          simp only [Option.some.injEq] at hob
          subst hob
          simp at hpf
        · exact hbusy6 z hz }
  have hnotN : pframe_get_resident st6 (some st.next_obj) pagenum = none := by
    simp [pframe_get_resident, hN]
  have hnotN1 : pframe_get_resident st6 (some (st.next_obj + 1)) pagenum = none := by
    simp [pframe_get_resident, hN1]
  obtain ⟨F, st7, hread, hsrc7, hp7, hsame7, hfree7⟩ := cow_first_read K hE (n + 1) fuel st6
    st.next_obj (st.next_obj + 1) b pagenum cP hp hfuel hnotN
    (by rw [hfp]; intro h; rw [h] at hfree; simp at hfree)
  have hbN := (hne b (by simp)).1
  have hbN1 := (hne b (by simp)).2
  have hnotN7 : pframe_get_resident st7 (some st.next_obj) pagenum = none := by
    rw [pframe_get_resident_congr pagenum (hsame7 _ (Ne.symm hbN)), hnotN]
  have hnotN17 : pframe_get_resident st7 (some (st.next_obj + 1)) pagenum = none := by
    rw [pframe_get_resident_congr pagenum (hsame7 _ (Ne.symm hbN1)), hnotN1]
  have hfree72 : 2 ≤ st7.free_pages.length := by rw [hfp] at hfree7; omega
  have hA := cow_after_source K hE n fuel st7 st.next_obj (st.next_obj + 1) b pagenum cP F hp7
    hfuel hn hsrc7 hnotN7 hnotN17 hfree72
  have hB := cow_after_source K hE n fuel st7 (st.next_obj + 1) st.next_obj b pagenum cP F
    hp7.symm hfuel hn hsrc7 hnotN17 hnotN7 hfree72
  refine ⟨st6, hcomp, hnotN, hnotN1, F, st7, hread, hA.2.1, hA.1, ?_⟩
  rintro w o (⟨rfl, rfl⟩ | ⟨rfl, rfl⟩)
  · exact hA.2.2
  · exact hB.2.2

theorem exHeap_fresh (i : Nat) (hi : exHeap.next_obj ≤ i) : exHeap.objs i = none := by
  have h3 : 3 ≤ i := hi
  simp only [exHeap]
  rw [if_neg (by omega), if_neg (by omega)]

/-- C7 at the fork of `exParentArea` in `exHeap`, for page 5: the new shadow objects are at 3
and 4. -/
theorem cow_sharing_witness :
    exK.MAP_SHARED ≠ exChildArea.vma_flags &&& exK.MAP_TYPE ∧
    exParentArea.vma_obj = some 2 ∧ ShadowChain exHeap 2 [2] 1 ∧
    exHeap.objs 2 = some exShadow ∧ 0 < exShadow.mmo_refcount ∧
    mmobj_bottom_obj exHeap 2 = Res.ok (some 1) ∧ exHeap.objs 1 = some exAnon ∧
    exAnon.mmo_ops = mmobj_ops_t.anon_mmobj_ops ∧ 0 < exAnon.mmo_refcount ∧
    (∀ i, exHeap.next_obj ≤ i → exHeap.objs i = none) ∧
    (∀ z ∈ [2] ++ [1], no_busy_frame exHeap z) ∧ 3 ≤ exHeap.free_pages.length ∧
    ∃ st6,
      handle_memory_object exK (mmo_ops_at exK (0 + 3)) exHeap exChildArea exParentArea
        = Res.ok ({ exChildArea with vma_obj := some (exHeap.next_obj + 1) },
            { exParentArea with vma_obj := some exHeap.next_obj }, st6) ∧
      pframe_get_resident st6 (some exHeap.next_obj) 5 = none ∧
      pframe_get_resident st6 (some (exHeap.next_obj + 1)) 5 = none ∧
      ∃ F st7,
        shadow_lookuppage exK (mmo_ops_at exK (0 + 3)) 3 st6 exHeap.next_obj 5 0
          = Res.ok (0, some F, st7) ∧
        shadow_lookuppage exK (mmo_ops_at exK (0 + 3)) 3 st7 (exHeap.next_obj + 1) 5 0
          = Res.ok (0, some F, st7) ∧
        shadow_lookuppage exK (mmo_ops_at exK (0 + 3)) 3 st7 exHeap.next_obj 5 0
          = Res.ok (0, some F, st7) ∧
        ∀ w o, (w = exHeap.next_obj ∧ o = exHeap.next_obj + 1) ∨
            (w = exHeap.next_obj + 1 ∧ o = exHeap.next_obj) →
          ∃ G st8,
            shadow_lookuppage exK (mmo_ops_at exK (0 + 3)) 3 st7 w 5 1
              = Res.ok (0, some G, st8) ∧
            G.pf_obj = w ∧
            shadow_lookuppage exK (mmo_ops_at exK (0 + 3)) 3 st8 w 5 1
              = Res.ok (0, some G, st8) ∧
            (∃ H st9, shadow_lookuppage exK (mmo_ops_at exK (0 + 3)) 3 st8 o 5 1
                = Res.ok (0, some H, st9) ∧ H.pf_obj = o ∧ H ≠ G) ∧
            shadow_lookuppage exK (mmo_ops_at exK (0 + 3)) 3 st8 o 5 0
              = Res.ok (0, some F, st8) :=
  ⟨by decide, rfl, exHeap_chain, rfl, by decide, rfl, rfl, rfl, by decide, exHeap_fresh,
    fun z _ => exHeap_no_busy z, by decide,
    cow_sharing exK (by decide) 0 3 exHeap exChildArea exParentArea 2 1 5 [2] exShadow exAnon
      (by decide) rfl exHeap_chain rfl (by decide) rfl rfl rfl (by decide) exHeap_fresh
      (fun z _ => exHeap_no_busy z) (by decide) (by decide) (by decide)⟩

theorem links_kept_refl (st : VMState) : links_kept st st :=
  fun _ ob h => ⟨ob, h, rfl, rfl, rfl⟩

theorem links_kept_trans {st st1 st2 : VMState} (h1 : links_kept st st1)
    (h2 : links_kept st1 st2) : links_kept st st2 := by
  intro Z ob2 hZ
  obtain ⟨ob1, hob1, a1, a2, a3⟩ := h2 Z ob2 hZ
  obtain ⟨ob, hob, b1, b2, b3⟩ := h1 Z ob1 hob1
  exact ⟨ob, hob, a1.trans b1, a2.trans b2, a3.trans b3⟩

theorem links_kept_live {st st1 : VMState} (h : links_kept st st1) {Z : Nat}
    (hZ : st1.objs Z ≠ none) : st.objs Z ≠ none := by
  cases h1 : st1.objs Z with
  | none => exact absurd h1 hZ
  | some ob1 =>
    obtain ⟨ob, hob, _⟩ := h Z ob1 h1
    rw [hob]
    simp

/-- Shadowers that are live at the end of a run are live at every stage of it. -/
theorem shadowers_live_mid {st sa sb st1 : VMState} {X : Nat} (h0 : links_kept st sa)
    (h2 : links_kept sb st1) (h : shadowers_live st st1 X) : shadowers_live sa sb X := by
  intro W obW hW hl
  obtain ⟨ob, hob, _, e2, e3⟩ := h0 W obW hW
  exact links_kept_live h2 (h W ob hob (by rw [← e2, ← e3]; exact hl))

theorem links_kept_set (st : VMState) (a : Nat) (ob ob1 : mmobj) (hob : st.objs a = some ob)
    (h1 : ob1.mmo_ops = ob.mmo_ops) (h2 : ob1.mmo_shadowed = ob.mmo_shadowed)
    (h3 : ob1.mmo_bottom_obj = ob.mmo_bottom_obj) : links_kept st (st.set a ob1) := by
  intro Z obZ hZ
  rw [VMState.set_objs] at hZ
  split_ifs at hZ with c
  · subst c
    simp only [Option.some.injEq] at hZ
    subst hZ
    exact ⟨ob, hob, h1, h2, h3⟩
  · exact ⟨obZ, hZ, rfl, rfl, rfl⟩

theorem frames_owned_set (st : VMState) (a : Nat) (ob ob1 : mmobj) (hob : st.objs a = some ob)
    (h : ∀ pf ∈ ob1.mmo_respages, pf ∈ ob.mmo_respages) (ho : frames_owned st) :
    frames_owned (st.set a ob1) := by
  intro Z obZ hZ pf hpf
  rw [VMState.set_objs] at hZ
  split_ifs at hZ with c
  · subst c
    simp only [Option.some.injEq] at hZ
    subst hZ
    exact ho Z ob hob pf (h pf hpf)
  · exact ho Z obZ hZ pf hpf

theorem slab_obj_free_objs (st : VMState) (a x : Nat) :
    (slab_obj_free st a).objs x = if x = a then none else st.objs x := by
  simp [slab_obj_free, Function.update_apply]

theorem links_kept_slab_obj_free (st : VMState) (a : Nat) :
    links_kept st (slab_obj_free st a) := by
  intro Z obZ hZ
  rw [slab_obj_free_objs] at hZ
  split_ifs at hZ with c
  exact ⟨obZ, hZ, rfl, rfl, rfl⟩

theorem frames_owned_slab_obj_free (st : VMState) (a : Nat) (ho : frames_owned st) :
    frames_owned (slab_obj_free st a) := by
  intro Z obZ hZ
  rw [slab_obj_free_objs] at hZ
  split_ifs at hZ with c
  exact ho Z obZ hZ

/-- The page loop of `put` on the frames of an object of a heap whose frames are owned:
only that object changes, and it keeps its links. -/
theorem put_free_pages_effect (st : VMState) (a : Nat) (ob : mmobj)
    (hob : st.objs a = some ob) (ho : frames_owned st) :
    (∃ obA, (put_free_pages st ob.mmo_respages).objs a = some obA ∧
      obA.mmo_ops = ob.mmo_ops ∧ obA.mmo_shadowed = ob.mmo_shadowed ∧
      obA.mmo_bottom_obj = ob.mmo_bottom_obj ∧
      ∀ pf ∈ obA.mmo_respages, pf ∈ ob.mmo_respages) ∧
    (∀ x, x ≠ a → (put_free_pages st ob.mmo_respages).objs x = st.objs x) := by
  obtain ⟨h1, h2, _, _⟩ := put_free_pages_spec a ob.mmo_respages st ob hob (ho a ob hob)
  refine ⟨⟨_, h1, rfl, rfl, rfl, ?_⟩, h2⟩
  intro pf hpf
  exact (List.mem_filter.mp hpf).1

/-- The effect of lowering the reference count of one object. -/
theorem put_effect_dec (st : VMState) (a : Nat) (ob : mmobj) (hob : st.objs a = some ob)
    (ho : frames_owned st) :
    links_kept st (st.set a { ob with mmo_refcount := ob.mmo_refcount - 1 }) ∧
    frames_owned (st.set a { ob with mmo_refcount := ob.mmo_refcount - 1 }) ∧
    ∀ X obX1, (st.set a { ob with mmo_refcount := ob.mmo_refcount - 1 }).objs X = some obX1 →
      ∃ obX, st.objs X = some obX ∧
        obX1.mmo_refcount = obX.mmo_refcount - (if some a = some X then 1 else 0) := by
  refine ⟨links_kept_set st a ob _ hob rfl rfl rfl,
    frames_owned_set st a ob _ hob (fun _ h => h) ho, ?_⟩
  intro X obX1 hX
  rw [VMState.set_objs] at hX
  split_ifs at hX with c
  · subst c
    simp only [Option.some.injEq] at hX
    subst hX
    exact ⟨ob, hob, by simp⟩
  · refine ⟨obX1, hX, ?_⟩
    have : ¬ (some a = some X) := by
      intro h
      simp only [Option.some.injEq] at h
      exact c h.symm
    simp [this]

/-- The effect of tearing down an object without a cascade: its pages are freed and it
leaves the heap; every other object is as it was. -/
theorem put_effect_free (st : VMState) (a : Nat) (ob : mmobj) (hob : st.objs a = some ob)
    (ho : frames_owned st) :
    links_kept st (slab_obj_free (put_free_pages st ob.mmo_respages) a) ∧
    frames_owned (slab_obj_free (put_free_pages st ob.mmo_respages) a) ∧
    ∀ X obX1, (slab_obj_free (put_free_pages st ob.mmo_respages) a).objs X = some obX1 →
      ∃ obX, st.objs X = some obX ∧
        obX1.mmo_refcount = obX.mmo_refcount - (if some a = some X then 1 else 0) := by
  obtain ⟨⟨obA, hA, e1, e2, e3, hsub⟩, hoth⟩ := put_free_pages_effect st a ob hob ho
  refine ⟨?_, ?_, ?_⟩
  · intro Z obZ hZ
    rw [slab_obj_free_objs] at hZ
    split_ifs at hZ with c
    rw [hoth Z c] at hZ
    exact ⟨obZ, hZ, rfl, rfl, rfl⟩
  · intro Z obZ hZ
    rw [slab_obj_free_objs] at hZ
    split_ifs at hZ with c
    rw [hoth Z c] at hZ
    exact ho Z obZ hZ
  · intro X obX1 hX
    rw [slab_obj_free_objs] at hX
    split_ifs at hX with c
    rw [hoth X c] at hX
    refine ⟨obX1, hX, ?_⟩
    have : ¬ (some a = some X) := by
      intro h
      simp only [Option.some.injEq] at h
      exact c h.symm
    simp [this]

/-- The effect of a `put` through the operation table that returns, on a heap whose frames
are owned: no object is created and no link changes, and an object `X` that is still in the
heap, none of whose shadowers was torn down, has lost one reference if the `put` was on `X`
and none otherwise. -/
theorem put_effect (K : KParams) :
    ∀ (n : Nat) (st : VMState) (Y : Option Nat) (st1 : VMState), frames_owned st →
      (mmo_ops_at K n).put st Y = Res.ok st1 →
      links_kept st st1 ∧ frames_owned st1 ∧
      ∀ X obX1, st1.objs X = some obX1 → shadowers_live st st1 X →
        ∃ obX, st.objs X = some obX ∧
          obX1.mmo_refcount = obX.mmo_refcount - (if Y = some X then 1 else 0) := by
  intro n
  induction n with
  | zero => intro st Y st1 _ h; simp [mmo_ops_at] at h
  | succ m ih =>
    intro st Y st1 ho h
    cases Y with
    | none => simp [mmo_ops_at] at h
    | some a =>
      cases hob : st.objs a with
      | none => simp [mmo_ops_at, hob] at h
      | some ob =>
        have hdec := put_effect_dec st a ob hob ho
        cases hops : ob.mmo_ops with
        | anon_mmobj_ops =>
          simp only [mmo_ops_at, Option.bind, hob, hops, anon_put] at h
          simp only [hops] at hdec
          split_ifs at h with c1 c2
          · simp only [Res.ok.injEq] at h
            subst h
            obtain ⟨h1, h2, h3⟩ := put_effect_free st a ob hob ho
            exact ⟨h1, h2, fun X obX1 hX _ => h3 X obX1 hX⟩
          · simp only [Res.ok.injEq] at h
            subst h
            exact ⟨hdec.1, hdec.2.1, fun X obX1 hX _ => hdec.2.2 X obX1 hX⟩
        | shadow_mmobj_ops =>
          simp only [mmo_ops_at, Option.bind, hob, hops, shadow_put] at h
          simp only [hops] at hdec
          split_ifs at h with c1 c2
          · simp only [Res.ok.injEq] at h
            subst h
            exact ⟨hdec.1, hdec.2.1, fun X obX1 hX _ => hdec.2.2 X obX1 hX⟩
          · -- the teardown with its two cascaded calls
            obtain ⟨⟨obA, hA, e1, e2, e3, hsub⟩, hoth⟩ := put_free_pages_effect st a ob hob ho
            simp only [hA] at h
            obtain ⟨st3, hput1, h⟩ := Res.bind_eq_ok h
            cases hob3 : st3.objs a with
            | none => simp [hob3] at h
            | some ob3 =>
              simp only [hob3] at h
              obtain ⟨st4, hput2, h⟩ := Res.bind_eq_ok h
              simp only [Res.ok.injEq] at h
              subst h
              -- the heap before the cascade
              have hk2 : links_kept st
                  ((put_free_pages st ob.mmo_respages).set a
                    { obA with mmo_refcount := obA.mmo_refcount - 1 }) := by
                intro Z obZ hZ
                rw [VMState.set_objs] at hZ
                split_ifs at hZ with c
                · subst c
                  simp only [Option.some.injEq] at hZ
                  subst hZ
                  exact ⟨ob, hob, e1, e2, e3⟩
                · rw [hoth Z c] at hZ
                  exact ⟨obZ, hZ, rfl, rfl, rfl⟩
              have ho2 : frames_owned
                  ((put_free_pages st ob.mmo_respages).set a
                    { obA with mmo_refcount := obA.mmo_refcount - 1 }) := by
                intro Z obZ hZ pf hpf
                rw [VMState.set_objs] at hZ
                split_ifs at hZ with c
                · subst c
                  simp only [Option.some.injEq] at hZ
                  subst hZ
                  exact ho Z ob hob pf (hsub pf hpf)
                · rw [hoth Z c] at hZ
                  exact ho Z obZ hZ pf hpf
              obtain ⟨hk3, ho3, hr3⟩ := ih _ _ _ ho2 hput1
              obtain ⟨hk4, ho4, hr4⟩ := ih _ _ _ ho3 hput2
              have hk5 := links_kept_slab_obj_free st4 a
              obtain ⟨ob3', hob3', _, f2, f3⟩ := links_kept_trans hk2 hk3 a ob3 hob3
              rw [hob] at hob3'
              simp only [Option.some.injEq] at hob3'
              subst hob3'
              refine ⟨links_kept_trans (links_kept_trans (links_kept_trans hk2 hk3) hk4) hk5,
                frames_owned_slab_obj_free st4 a ho4, ?_⟩
              intro X obX1 hX hlive
              have hdead : (slab_obj_free st4 a).objs a = none := slab_obj_free_objs_same st4 a
              have hnl : ¬ (ob.mmo_shadowed = some X ∨ ob.mmo_bottom_obj = some X) :=
                fun hl => hlive a ob hob hl hdead
              have hXa : X ≠ a := by
                rintro rfl
                rw [hdead] at hX
                simp at hX
              rw [slab_obj_free_objs, if_neg hXa] at hX
              obtain ⟨obX3, hX3, r4⟩ := hr4 X obX1 hX
                (shadowers_live_mid (links_kept_trans hk2 hk3) hk5 hlive)
              obtain ⟨obX2, hX2, r3⟩ := hr3 X obX3 hX3
                (shadowers_live_mid hk2 (links_kept_trans hk4 hk5) hlive)
              rw [VMState.set_objs, if_neg hXa, hoth X hXa] at hX2
              refine ⟨obX2, hX2, ?_⟩
              have n1 : ¬ (obA.mmo_shadowed = some X) := by
                rw [e2]
                exact fun h => hnl (Or.inl h)
              have n2 : ¬ (ob3.mmo_bottom_obj = some X) := by
                rw [f3]
                exact fun h => hnl (Or.inr h)
              have n3 : ¬ (some a = some X) := by
                intro h
                simp only [Option.some.injEq] at h
                exact hXa h.symm
              rw [if_neg n2] at r4
              rw [if_neg n1] at r3
              rw [if_neg n3, r4, r3]
              omega

/-- The effect of a `ref` through the operation table that returns: no object is created or
destroyed, no link changes, and an object has gained one reference if the `ref` was on it and
none otherwise. -/
theorem ref_effect (K : KParams) (n : Nat) (st : VMState) (Y : Option Nat) (st1 : VMState)
    (ho : frames_owned st) (h : (mmo_ops_at K n).ref st Y = Res.ok st1) :
    links_kept st st1 ∧ frames_owned st1 ∧
    ∀ X obX1, st1.objs X = some obX1 →
      ∃ obX, st.objs X = some obX ∧
        obX1.mmo_refcount = obX.mmo_refcount + (if Y = some X then 1 else 0) := by
  cases n with
  | zero => simp [mmo_ops_at] at h
  | succ m =>
    cases Y with
    | none => simp [mmo_ops_at] at h
    | some a =>
      rw [ops_ref_eq] at h
      cases hob : st.objs a with
      | none => simp [hob] at h
      | some ob =>
        simp only [hob] at h
        split_ifs at h with c
        simp only [Res.ok.injEq] at h
        subst h
        refine ⟨links_kept_set st a ob _ hob rfl rfl rfl,
          frames_owned_set st a ob _ hob (fun _ h => h) ho, ?_⟩
        intro X obX1 hX
        rw [VMState.set_objs] at hX
        split_ifs at hX with c
        · subst c
          simp only [Option.some.injEq] at hX
          subst hX
          exact ⟨ob, hob, by simp⟩
        · refine ⟨obX1, hX, ?_⟩
          have : ¬ (some a = some X) := by
            intro h
            simp only [Option.some.injEq] at h
            exact c h.symm
          simp [this]

theorem ref_calls_cons (X : Nat) (c : KCall) (tr : List KCall) :
    ref_calls X (c :: tr) = ref_calls X tr + (if c = KCall.ref (some X) then 1 else 0) := by
  simp [ref_calls, List.count_cons]

theorem put_calls_cons (X : Nat) (c : KCall) (tr : List KCall) :
    put_calls X (c :: tr) = put_calls X tr + (if c = KCall.put (some X) then 1 else 0) := by
  simp [put_calls, List.count_cons]

/-- The effect of the calls of a trace that run to the end on a heap whose frames are owned:
an object `X` that is still in the heap, none of whose shadowers was torn down, has gained
one reference for each `ref` on it and lost one for each `put` on it. -/
theorem run_calls_effect (K : KParams) (n : Nat) :
    ∀ (tr : List KCall) (st st1 : VMState), frames_owned st →
      run_calls (mmo_ops_at K n) st tr = Res.ok st1 →
      links_kept st st1 ∧ frames_owned st1 ∧
      ∀ X obX1, st1.objs X = some obX1 → shadowers_live st st1 X →
        ∃ obX, st.objs X = some obX ∧
          obX1.mmo_refcount + (put_calls X tr : Int) = obX.mmo_refcount + (ref_calls X tr : Int) := by
  intro tr
  induction tr with
  | nil =>
    intro st st1 ho h
    simp only [run_calls, Res.ok.injEq] at h
    subst h
    exact ⟨links_kept_refl st, ho, fun X obX1 hX _ => ⟨obX1, hX, by simp [put_calls, ref_calls]⟩⟩
  | cons c rest ih =>
    intro st st1 ho h
    cases c with
    | ref o =>
      simp only [run_calls] at h
      obtain ⟨sa, hstep, hrest⟩ := Res.bind_eq_ok h
      obtain ⟨k1, o1, r1⟩ := ref_effect K n st o sa ho hstep
      obtain ⟨k2, o2, r2⟩ := ih sa st1 o1 hrest
      refine ⟨links_kept_trans k1 k2, o2, ?_⟩
      intro X obX1 hX hlive
      obtain ⟨obXa, hXa, e2⟩ := r2 X obX1 hX (shadowers_live_mid k1 (links_kept_refl st1) hlive)
      obtain ⟨obX, hX0, e1⟩ := r1 X obXa hXa
      refine ⟨obX, hX0, ?_⟩
      rw [ref_calls_cons, put_calls_cons]
      by_cases c : o = some X
      · simp [c] at e1 ⊢
        omega
      · simp [c] at e1 ⊢
        omega
    | put o =>
      simp only [run_calls] at h
      obtain ⟨sa, hstep, hrest⟩ := Res.bind_eq_ok h
      obtain ⟨k1, o1, r1⟩ := put_effect K n st o sa ho hstep
      obtain ⟨k2, o2, r2⟩ := ih sa st1 o1 hrest
      refine ⟨links_kept_trans k1 k2, o2, ?_⟩
      intro X obX1 hX hlive
      obtain ⟨obXa, hXa, e2⟩ := r2 X obX1 hX (shadowers_live_mid k1 (links_kept_refl st1) hlive)
      obtain ⟨obX, hX0, e1⟩ := r1 X obXa hXa
        (shadowers_live_mid (links_kept_refl st) k2 hlive)
      refine ⟨obX, hX0, ?_⟩
      rw [ref_calls_cons, put_calls_cons]
      by_cases c : o = some X
      · simp [c] at e1 ⊢
        omega
      · simp [c] at e1 ⊢
        omega
    | tlb_flush_all =>
      simp only [run_calls] at h
      obtain ⟨k, o, r⟩ := ih st st1 ho h
      refine ⟨k, o, fun X obX1 hX hlive => ?_⟩
      obtain ⟨obX, hX0, e⟩ := r X obX1 hX hlive
      exact ⟨obX, hX0, by simpa [ref_calls_cons, put_calls_cons] using e⟩
    | pt_unmap_range lo hi =>
      simp only [run_calls] at h
      obtain ⟨k, o, r⟩ := ih st st1 ho h
      refine ⟨k, o, fun X obX1 hX hlive => ?_⟩
      obtain ⟨obX, hX0, e⟩ := r X obX1 hX hlive
      exact ⟨obX, hX0, by simpa [ref_calls_cons, put_calls_cons] using e⟩

/-- C10 as stated fails: `vmmap_remove` of pages [1024, 1027) on the well-formed map
`exMapFork`, whose area is bound to the shadow object 3, makes one `put` on object 3; run on
`exHeapFork` it tears object 3 down, and the teardown puts the shadowed object 2.  Object 2
is still in the heap and no area is bound to it before or after, but its reference count
has gone from 2 to 1. -/
theorem vmmap_remove_refcount_counterexample :
    WellFormed exMapFork.vmm_list ∧ frames_owned exHeapFork ∧
    vmmap_remove exK 2 exMapFork 1024 3
      = some (0, { exMapFork with vmm_list := [] },
          [KCall.put (some 3), KCall.tlb_flush_all,
            KCall.pt_unmap_range (1024 * 4096) (1027 * 4096)]) ∧
    refcount_of (Res.ok exHeapFork) 2 = some 2 ∧
    refcount_of (run_calls (mmo_ops_at exK 3) exHeapFork
      [KCall.put (some 3), KCall.tlb_flush_all,
        KCall.pt_unmap_range (1024 * 4096) (1027 * 4096)]) 2 = some 1 ∧
    refcount_of (run_calls (mmo_ops_at exK 3) exHeapFork
      [KCall.put (some 3), KCall.tlb_flush_all,
        KCall.pt_unmap_range (1024 * 4096) (1027 * 4096)]) 3 = none ∧
    areas_bound 2 exMapFork.vmm_list = 0 ∧ areas_bound 2 ([] : List vmarea) = 0 := by
  refine ⟨?_, ?_, by decide, by decide, by decide, by decide, by decide, by decide⟩
  · rw [wellFormed_iff]
    simp [exMapFork, Ordered]
  · intro Z ob hZ pf hpf
    have h : ob.mmo_respages = [] := by
      simp only [exHeapFork] at hZ
      split_ifs at hZ <;> simp only [Option.some.injEq] at hZ <;> (subst hZ; rfl)
    rw [h] at hpf
    simp at hpf

/-- C10, amended: a `vmmap_remove` call on a well-formed map (the page range not wrapping
around `2 ^ 32`) that returns the map `map1` and the calls `tr`.  For every object `X`, the
areas bound to `X` afterwards plus the `put` calls on `X` are the areas bound to `X` before
plus the `ref` calls on `X`.  When the calls run to the end on a heap whose frames are owned,
every object `X` that is still in the heap, and that no torn-down object shadowed or had as
its bottom object, has the same reference count less the number of areas bound to it before
and after the call. -/
theorem vmmap_remove_refcount_balance (K : KParams) (n fuel : Nat) (map map1 : vmmap)
    (lopage npages X : Nat) (ret : Int) (tr : List KCall) (st st1 : VMState) (ob1 : mmobj)
    (hwf : WellFormed map.vmm_list) (hw : lopage + npages < U32)
    (hrem : vmmap_remove K fuel map lopage npages = some (ret, map1, tr))
    (ho : frames_owned st) (hrun : run_calls (mmo_ops_at K n) st tr = Res.ok st1)
    (hX1 : st1.objs X = some ob1) (hlive : shadowers_live st st1 X) :
    areas_bound X map1.vmm_list + put_calls X tr
      = areas_bound X map.vmm_list + ref_calls X tr ∧
    ∃ ob, st.objs X = some ob ∧
      ob1.mmo_refcount - (areas_bound X map1.vmm_list : Int)
        = ob.mmo_refcount - (areas_bound X map.vmm_list : Int) := by
  have hbal := remove_areas_balance map.vmm_addr lopage npages X map.vmm_list
  have hcalls : ∀ (l : List KCall) (a b : Nat),
      put_calls X (l ++ [KCall.tlb_flush_all, KCall.pt_unmap_range a b]) = put_calls X l ∧
      ref_calls X (l ++ [KCall.tlb_flush_all, KCall.pt_unmap_range a b]) = ref_calls X l := by
    intro l a b
    simp [put_calls, ref_calls, List.count_append, List.count_cons]
  rw [vmmap_remove_eq_ite K map lopage npages hw hwf fuel] at hrem
  split_ifs at hrem with hf
  simp only [Option.some.injEq, Prod.mk.injEq] at hrem
  obtain ⟨_, hm, ht⟩ := hrem
  subst hm
  subst ht
  obtain ⟨_, _, r⟩ := run_calls_effect K n _ st st1 ho hrun
  obtain ⟨ob, hX, e⟩ := r X ob1 hX1 hlive
  rw [(hcalls _ _ _).1, (hcalls _ _ _).2] at e ⊢
  refine ⟨hbal, ob, hX, ?_⟩
  simp only []
  omega

theorem exHeap_frames_owned : frames_owned exHeap := by
  intro Z ob hZ pf hpf
  have h : ob.mmo_respages = [] := by
    simp only [exHeap] at hZ
    split_ifs at hZ <;> simp only [Option.some.injEq] at hZ <;> (subst hZ; rfl)
  rw [h] at hpf
  simp at hpf

/-- C10, amended, at the split of the area of `exMap1`, bound to the anonymous object 1 of
`exHeap`: one area and one reference more. -/
theorem vmmap_remove_refcount_balance_witness :
    WellFormed exMap1.vmm_list ∧ 1025 + 1 < U32 ∧
    vmmap_remove exK 2 exMap1 1025 1
      = some (0, { exMap1 with vmm_list := [exArea 1024 1025 0 1, exArea 1026 1027 2 1] },
          [KCall.ref (some 1), KCall.tlb_flush_all,
            KCall.pt_unmap_range (1025 * 4096) (1026 * 4096)]) ∧
    frames_owned exHeap ∧
    run_calls (mmo_ops_at exK 1) exHeap
      [KCall.ref (some 1), KCall.tlb_flush_all, KCall.pt_unmap_range (1025 * 4096) (1026 * 4096)]
      = Res.ok (exHeap.set 1 { exAnon with mmo_refcount := 3 }) ∧
    (exHeap.set 1 { exAnon with mmo_refcount := 3 }).objs 1
      = some { exAnon with mmo_refcount := 3 } ∧
    shadowers_live exHeap (exHeap.set 1 { exAnon with mmo_refcount := 3 }) 1 ∧
    areas_bound 1 [exArea 1024 1025 0 1, exArea 1026 1027 2 1]
        + put_calls 1 [KCall.ref (some 1), KCall.tlb_flush_all,
            KCall.pt_unmap_range (1025 * 4096) (1026 * 4096)]
      = areas_bound 1 exMap1.vmm_list
        + ref_calls 1 [KCall.ref (some 1), KCall.tlb_flush_all,
            KCall.pt_unmap_range (1025 * 4096) (1026 * 4096)] ∧
    ∃ ob, exHeap.objs 1 = some ob ∧
      (3 : Int) - (areas_bound 1 [exArea 1024 1025 0 1, exArea 1026 1027 2 1] : Int)
        = ob.mmo_refcount - (areas_bound 1 exMap1.vmm_list : Int) :=
  have hlive : shadowers_live exHeap (exHeap.set 1 { exAnon with mmo_refcount := 3 }) 1 := by
    intro W obW hW _
    rw [VMState.set_objs]
    split_ifs
    · simp
    · rw [hW]; simp
  ⟨exMap1_wellFormed, by decide, by decide, exHeap_frames_owned, rfl,
    VMState.set_objs_same _ _ _, hlive,
    vmmap_remove_refcount_balance exK 1 2 exMap1
      { exMap1 with vmm_list := [exArea 1024 1025 0 1, exArea 1026 1027 2 1] } 1025 1 1 0
      [KCall.ref (some 1), KCall.tlb_flush_all, KCall.pt_unmap_range (1025 * 4096) (1026 * 4096)]
      exHeap (exHeap.set 1 { exAnon with mmo_refcount := 3 }) { exAnon with mmo_refcount := 3 }
      exMap1_wellFormed (by decide) (by decide) exHeap_frames_owned rfl
      (VMState.set_objs_same _ _ _) hlive⟩

/-! ## `vmmap_lookup`, `vmmap_is_range_empty`, `vmmap_clone` -/

theorem vmmap_lookup_loop_some (vfn : Nat) (l : List vmarea) (r : vmarea) :
    vmmap_lookup_loop vfn l (some r) = some r := by
  induction l with
  | nil => rfl
  | cons a rest ih => simp [vmmap_lookup_loop, ih]

/-- The loop of `vmmap_lookup` returns the first area of the list that contains the page. -/
theorem vmmap_lookup_loop_eq (vfn : Nat) (l : List vmarea) :
    vmmap_lookup_loop vfn l none
      = l.find? (fun a => decide (a.vma_start ≤ vfn ∧ a.vma_end > vfn)) := by
  induction l with
  | nil => rfl
  | cons a rest ih =>
    simp only [vmmap_lookup_loop, true_and, List.find?_cons]
    by_cases c : a.vma_start ≤ vfn ∧ a.vma_end > vfn
    · rw [if_pos c, vmmap_lookup_loop_some]
      simp [c]
    · rw [if_neg c, ih]
      simp [c]

/-- What `vmmap_lookup` returns: an area that contains the page when there is one, the only
one on a well-formed map, and nothing otherwise. -/
theorem vmmap_lookup_cases (map : vmmap) (vfn : Nat) :
    ((∃ a ∈ map.vmm_list, a.vma_start ≤ vfn ∧ vfn < a.vma_end) →
      ∃ a, vmmap_lookup map vfn = some a ∧ a ∈ map.vmm_list ∧
        a.vma_start ≤ vfn ∧ vfn < a.vma_end) ∧
    ((¬ ∃ a ∈ map.vmm_list, a.vma_start ≤ vfn ∧ vfn < a.vma_end) →
      vmmap_lookup map vfn = none) ∧
    (WellFormed map.vmm_list → ∀ a, vmmap_lookup map vfn = some a →
      ∀ b ∈ map.vmm_list, b.vma_start ≤ vfn → vfn < b.vma_end → b = a) := by
  unfold vmmap_lookup
  rw [vmmap_lookup_loop_eq]
  refine ⟨?_, ?_, ?_⟩
  · rintro ⟨a, ha, h1, h2⟩
    cases hf : map.vmm_list.find? (fun a => decide (a.vma_start ≤ vfn ∧ a.vma_end > vfn)) with
    | none =>
      rw [List.find?_eq_none] at hf
      have := hf a ha
      simp at this
      omega
    | some b =>
      have hb := List.find?_some hf
      simp only [decide_eq_true_eq] at hb
      exact ⟨b, rfl, List.mem_of_find?_eq_some hf, hb.1, hb.2⟩
  · intro h
    rw [List.find?_eq_none]
    intro a ha
    simp only [decide_eq_true_eq]
    intro hc
    exact h ⟨a, ha, hc.1, hc.2⟩
  · intro hwf a hf b hb h1 h2
    have ha := List.mem_of_find?_eq_some hf
    have hc := List.find?_some hf
    simp only [decide_eq_true_eq] at hc
    by_contra hne
    rw [wellFormed_iff] at hwf
    have hp : map.vmm_list.Pairwise
        (fun x y => x.vma_end ≤ y.vma_start ∨ y.vma_end ≤ x.vma_start) :=
      List.Pairwise.imp (fun h => Or.inl h) hwf.1
    have := List.Pairwise.forall (fun x y h => Or.symm h) hp hb ha hne
    omega

/-- C15: `vmmap_lookup` returns an area of the map with `vma_start <= vfn < vma_end` whenever
the map has one, and `NULL` otherwise; on a well-formed map the area returned is the only
area that contains `vfn`.  The function reads the map and writes nothing. -/
theorem vmmap_lookup_spec (map : vmmap) (vfn : Nat) :
    ((∃ a ∈ map.vmm_list, a.vma_start ≤ vfn ∧ vfn < a.vma_end) →
      ∃ a, vmmap_lookup map vfn = some a ∧ a ∈ map.vmm_list ∧
        a.vma_start ≤ vfn ∧ vfn < a.vma_end) ∧
    ((¬ ∃ a ∈ map.vmm_list, a.vma_start ≤ vfn ∧ vfn < a.vma_end) →
      vmmap_lookup map vfn = none) ∧
    (WellFormed map.vmm_list → ∀ a, vmmap_lookup map vfn = some a →
      ∀ b ∈ map.vmm_list, b.vma_start ≤ vfn → vfn < b.vma_end → b = a) :=
  vmmap_lookup_cases map vfn

/-- C16: `vmmap_is_range_empty` on a map whose areas have `vma_start < vma_end`, for 32-bit
`startvfn` and `npages` that pass its assertion (the range is non-empty and inside the user
window): it returns 1 or 0, and 1 exactly when no area of the map intersects
`[startvfn, startvfn + npages)`. -/
theorem vmmap_is_range_empty_spec (K : KParams) (map : vmmap) (startvfn npages : Nat)
    (hne : ∀ a ∈ map.vmm_list, a.vma_start < a.vma_end)
    (hs : startvfn < U32) (hn : npages < U32)
    (hassert : vmmap_is_range_empty_asserts K startvfn npages) :
    (vmmap_is_range_empty map startvfn npages = 1 ∨
      vmmap_is_range_empty map startvfn npages = 0) ∧
    (vmmap_is_range_empty map startvfn npages = 1 ↔
      ∀ a ∈ map.vmm_list, ¬ vmarea_intersects a startvfn (startvfn + npages)) := by
  have hlt := hassert.1
  have hw : startvfn + npages < U32 := by
    unfold u32add at hlt
    unfold U32 at *
    omega
  rw [u32add_eq hw] at hlt
  unfold vmmap_is_range_empty
  rw [vmmap_is_range_empty_loop_eq, u32add_eq hw]
  have hiff : (∃ a ∈ map.vmm_list, a.vma_start < startvfn + npages ∧ a.vma_end > startvfn) ↔
      ¬ ∀ a ∈ map.vmm_list, ¬ vmarea_intersects a startvfn (startvfn + npages) := by
    constructor
    · rintro ⟨a, ha, h1, h2⟩ hall
      apply hall a ha
      unfold vmarea_intersects
      rw [ranges_intersect_iff]
      have := hne a ha
      omega
    · intro h
      by_contra hc
      apply h
      intro a ha hi
      unfold vmarea_intersects at hi
      rw [ranges_intersect_iff] at hi
      exact hc ⟨a, ha, by omega, by omega⟩
  by_cases c : ∃ a ∈ map.vmm_list, a.vma_start < startvfn + npages ∧ a.vma_end > startvfn
  · rw [if_pos c]
    refine ⟨Or.inr rfl, ?_⟩
    constructor
    · intro h; simp at h
    · intro h; exact absurd h (hiff.mp c)
  · rw [if_neg c]
    refine ⟨Or.inl rfl, ?_⟩
    constructor
    · intro _
      by_contra h
      exact c (hiff.mpr h)
    · intro _; rfl

/-- C16 on the map with the single area [10, 20), the user window being pages [0, 40): the
range [5, 10) gives 1 and the range [15, 25) gives 0. -/
theorem vmmap_is_range_empty_spec_witness :
    (∀ a ∈ exMapOne.vmm_list, a.vma_start < a.vma_end) ∧ 5 < U32 ∧
    vmmap_is_range_empty_asserts exKSmall 5 5 ∧
    vmmap_is_range_empty exMapOne 5 5 = 1 ∧ vmmap_is_range_empty exMapOne 15 10 = 0 ∧
    (vmmap_is_range_empty exMapOne 5 5 = 1 ↔
      ∀ a ∈ exMapOne.vmm_list, ¬ vmarea_intersects a 5 (5 + 5)) :=
  ⟨by decide, by decide, ⟨by decide, by decide, by decide⟩, by decide, by decide,
    (vmmap_is_range_empty_spec exKSmall exMapOne 5 5 (by decide) (by decide) (by decide)
      ⟨by decide, by decide, by decide⟩).2⟩

theorem vmmap_clone_loop_eq (newaddr : Nat) (l newlist : List vmarea) :
    vmmap_clone_loop newaddr l newlist = newlist ++ l.map (vmmap_clone_area newaddr) := by
  induction l generalizing newlist with
  | nil => simp [vmmap_clone_loop]
  | cons a rest ih => simp [vmmap_clone_loop, ih]

/-- C17: `vmmap_clone` returns a new map, at the address `slab_obj_alloc` gave, for the same
process; its area list has the length of the source list, and the area at each position has
the start, end, offset, flags and protection of the source area at that position, belongs to
the new map and is bound to no memory object.  The function writes to the new map and the new
areas only. -/
theorem vmmap_clone_spec (newaddr : Nat) (map : vmmap) :
    (vmmap_clone newaddr map).vmm_addr = newaddr ∧
    (vmmap_clone newaddr map).vmm_proc = map.vmm_proc ∧
    (vmmap_clone newaddr map).vmm_list.length = map.vmm_list.length ∧
    ∀ (i : Nat) (a : vmarea), map.vmm_list[i]? = some a →
      ∃ b : vmarea, (vmmap_clone newaddr map).vmm_list[i]? = some b ∧
        b.vma_start = a.vma_start ∧ b.vma_end = a.vma_end ∧ b.vma_off = a.vma_off ∧
        b.vma_flags = a.vma_flags ∧ b.vma_prot = a.vma_prot ∧
        b.vma_vmmap = some newaddr ∧ b.vma_obj = none := by
  have h : (vmmap_clone newaddr map).vmm_list = map.vmm_list.map (vmmap_clone_area newaddr) := by
    simp [vmmap_clone, vmmap_clone_loop_eq]
  refine ⟨rfl, rfl, by rw [h, List.length_map], ?_⟩
  intro i a ha
  refine ⟨vmmap_clone_area newaddr a, ?_, rfl, rfl, rfl, rfl, rfl, rfl, rfl⟩
  rw [h, List.getElem?_map, ha]
  rfl

/-! ## `vmmap_insert` and the order of the list -/

theorem vmmap_insert_list_perm (mapaddr : Nat) (v : vmarea) (l : List vmarea) :
    List.Perm ({ v with vma_vmmap := some mapaddr } :: l) (vmmap_insert_list mapaddr v l) := by
  induction l with
  | nil => simp [vmmap_insert_list]
  | cons a rest ih =>
    simp only [vmmap_insert_list]
    split_ifs with c
    · exact List.Perm.refl _
    · exact (List.Perm.swap a _ rest).trans (List.Perm.cons a ih)

/-- The list `vmmap_insert` leaves of a sorted list is sorted exactly when no area of the
list starts strictly inside the range of the new area. -/
theorem vmmap_insert_list_sorted_iff (mapaddr : Nat) (v : vmarea) (l : List vmarea)
    (hv : v.vma_start < v.vma_end) (hs : SortedByStart l) :
    SortedByStart (vmmap_insert_list mapaddr v l) ↔
      ∀ a ∈ l, ¬ (v.vma_start < a.vma_start ∧ a.vma_start < v.vma_end) := by
  unfold SortedByStart at *
  induction l with
  | nil => simp [vmmap_insert_list]
  | cons a rest ih =>
    have hs' := List.pairwise_cons.mp hs
    simp only [vmmap_insert_list]
    split_ifs with c
    · constructor
      · intro _ x hx
        have : a.vma_start ≤ x.vma_start := by
          rcases List.mem_cons.mp hx with rfl | hx
          · exact le_refl _
          · exact hs'.1 x hx
        omega
      · intro _
        refine List.pairwise_cons.mpr ⟨?_, hs⟩
        intro x hx
        have : a.vma_start ≤ x.vma_start := by
          rcases List.mem_cons.mp hx with rfl | hx
          · exact le_refl _
          · exact hs'.1 x hx
        show v.vma_start ≤ x.vma_start
        omega
    · rw [List.pairwise_cons, ih hs'.2]
      constructor
      · rintro ⟨h1, h2⟩ x hx
        rcases List.mem_cons.mp hx with rfl | hx
        · have := h1 _ ((vmmap_insert_list_perm mapaddr v rest).subset (List.mem_cons_self _ _))
          have e : ({ v with vma_vmmap := some mapaddr } : vmarea).vma_start = v.vma_start := rfl
          omega
        · exact h2 x hx
      · intro h
        refine ⟨?_, fun x hx => h x (List.mem_cons_of_mem _ hx)⟩
        intro x hx
        rcases mem_vmmap_insert_list hx with rfl | hx
        · have := h a (List.mem_cons_self _ _)
          show a.vma_start ≤ v.vma_start
          omega
        · exact hs'.1 x hx

/-- C14 as stated fails: the list of `exMapTwo` is sorted (and well-formed), the area
`exNewArea` over [1035, 1050) passes the assertions of `vmmap_insert`, and the list after the
call, [1024, 1030), [1040, 1060), [1035, 1050), is not sorted by start page. -/
theorem vmmap_insert_sorted_counterexample :
    SortedByStart exMapTwo.vmm_list ∧ WellFormed exMapTwo.vmm_list ∧
    vmmap_insert_asserts exK exNewArea ∧
    (vmmap_insert exMapTwo exNewArea).vmm_list
      = [exArea 1024 1030 0 1, exArea 1040 1060 0 2,
          { exNewArea with vma_vmmap := some 7 }] ∧
    ¬ SortedByStart (vmmap_insert exMapTwo exNewArea).vmm_list := by
  refine ⟨?_, ?_, ⟨by decide, by decide, by decide, by decide⟩, by decide, ?_⟩
  · simp [SortedByStart, exMapTwo, exArea]
  · rw [wellFormed_iff]
    simp [Ordered, exMapTwo, exArea]
  · have e : (vmmap_insert exMapTwo exNewArea).vmm_list
        = [exArea 1024 1030 0 1, exArea 1040 1060 0 2,
            { exNewArea with vma_vmmap := some 7 }] := by decide
    rw [e]
    simp [SortedByStart, exArea, exNewArea]

/-- C14, amended: `vmmap_insert` of an area that passes its assertions into a map whose list
is sorted by start page.  The list afterwards is the old list plus the new area with its
`vma_vmmap` set to the map, nothing else added or removed; and it is sorted by start page
exactly when no area of the map starts strictly inside the range of the new area, which is
so whenever the new area intersects no area of the map. -/
theorem vmmap_insert_sorted (K : KParams) (map : vmmap) (newvma : vmarea)
    (hs : SortedByStart map.vmm_list) (hassert : vmmap_insert_asserts K newvma) :
    List.Perm ({ newvma with vma_vmmap := some map.vmm_addr } :: map.vmm_list)
      (vmmap_insert map newvma).vmm_list ∧
    (SortedByStart (vmmap_insert map newvma).vmm_list ↔
      ∀ a ∈ map.vmm_list,
        ¬ (newvma.vma_start < a.vma_start ∧ a.vma_start < newvma.vma_end)) ∧
    ((∀ a ∈ map.vmm_list, a.vma_start < a.vma_end) →
      (∀ a ∈ map.vmm_list, ¬ vmarea_intersects a newvma.vma_start newvma.vma_end) →
      SortedByStart (vmmap_insert map newvma).vmm_list) := by
  have hiff := vmmap_insert_list_sorted_iff map.vmm_addr newvma map.vmm_list hassert.2.1 hs
  refine ⟨vmmap_insert_list_perm map.vmm_addr newvma map.vmm_list, hiff, ?_⟩
  intro hne hd
  apply hiff.mpr
  intro a ha hc
  apply hd a ha
  unfold vmarea_intersects
  rw [ranges_intersect_iff]
  have := hne a ha
  omega

/-- C14, amended, at the insertion of the area [1030, 1040) between the two areas of
`exMapTwo`. -/
theorem vmmap_insert_sorted_witness :
    SortedByStart exMapTwo.vmm_list ∧
    vmmap_insert_asserts exK { exNewArea with vma_start := 1030, vma_end := 1040 } ∧
    (vmmap_insert exMapTwo { exNewArea with vma_start := 1030, vma_end := 1040 }).vmm_list
      = [exArea 1024 1030 0 1,
          { exNewArea with vma_start := 1030, vma_end := 1040, vma_vmmap := some 7 },
          exArea 1040 1060 0 2] ∧
    (SortedByStart
        (vmmap_insert exMapTwo { exNewArea with vma_start := 1030, vma_end := 1040 }).vmm_list ↔
      ∀ a ∈ exMapTwo.vmm_list, ¬ ((1030 : Nat) < a.vma_start ∧ a.vma_start < 1040)) :=
  have hs : SortedByStart exMapTwo.vmm_list := by simp [SortedByStart, exMapTwo, exArea]
  ⟨hs, ⟨by decide, by decide, by decide, by decide⟩, by decide,
    (vmmap_insert_sorted exK exMapTwo { exNewArea with vma_start := 1030, vma_end := 1040 } hs
      ⟨by decide, by decide, by decide, by decide⟩).2.1⟩

/-! ## `vmmap_find_range` -/

theorem u32sub_eq {a b : Nat} (hb : b ≤ a) (ha : a < U32) : u32sub a b = a - b := by
  unfold u32sub
  unfold U32 at *
  omega

theorem u32_to_int_eq {x : Nat} (h : x < 2147483648) : u32_to_int x = (x : Int) := by
  unfold u32_to_int
  unfold U32
  have e : x % 4294967296 = x := Nat.mod_eq_of_lt (by omega)
  rw [e, if_pos h]

/-- Once a result is recorded the loop of `vmmap_find_range` keeps it. -/
theorem vmmap_find_range_loop_some (npages : Nat) (rev : List vmarea) (s p : Nat) :
    (vmmap_find_range_loop npages rev (some s) p).1 = some s := by
  induction rev generalizing p with
  | nil => rfl
  | cons a rest ih => simp [vmmap_find_range_loop, ih]

/-- The value of `pre_start` after the loop of `vmmap_find_range`: the start of the last
area visited. -/
theorem vmmap_find_range_loop_snd (npages : Nat) (a : vmarea) (rev : List vmarea)
    (r : Option Nat) (p : Nat) :
    (vmmap_find_range_loop npages (rev ++ [a]) r p).2 = a.vma_start := by
  induction rev generalizing r p with
  | nil =>
    simp only [List.nil_append, vmmap_find_range_loop]
    split_ifs <;> rfl
  | cons b rest ih =>
    simp only [List.cons_append, vmmap_find_range_loop]
    split_ifs <;> exact ih _ _

/-- The loop of `vmmap_find_range` over areas in descending order, all below `hi`, with
nothing recorded yet and `npages > 0`: a recorded result is the highest page below `hi` at
which `npages` pages fit above some area and clear of all areas; with no result, no run of
`npages` pages fits between the lowest area and `hi`. -/
theorem vmmap_find_range_loop_spec (npages : Nat) (hn : 0 < npages) :
    ∀ (rev : List vmarea) (hi : Nat), hi < U32 →
      rev.Pairwise (fun a b => b.vma_end ≤ a.vma_start) →
      (∀ a ∈ rev, a.vma_start < a.vma_end ∧ a.vma_end ≤ hi) →
      (∀ s, (vmmap_find_range_loop npages rev none hi).1 = some s →
        s + npages ≤ hi ∧ (∀ a ∈ rev, a.vma_end ≤ s ∨ s + npages ≤ a.vma_start) ∧
        (∃ a ∈ rev, a.vma_end ≤ s) ∧
        ∀ s', s < s' → s' + npages ≤ hi →
          ∃ a ∈ rev, a.vma_start < s' + npages ∧ s' < a.vma_end) ∧
      ((vmmap_find_range_loop npages rev none hi).1 = none →
        ∀ s', (vmmap_find_range_loop npages rev none hi).2 ≤ s' → s' + npages ≤ hi →
          ∃ a ∈ rev, a.vma_start < s' + npages ∧ s' < a.vma_end) := by
  intro rev
  induction rev with
  | nil =>
    intro hi _ _ _
    refine ⟨fun s h => by simp [vmmap_find_range_loop] at h, ?_⟩
    intro _ s' h1 h2
    simp only [vmmap_find_range_loop] at h1
    omega
  | cons tmp rest ih =>
    intro hi hhi hp hall
    have hp' := List.pairwise_cons.mp hp
    have htmp := hall tmp (List.mem_cons_self _ _)
    have hsub : u32sub hi tmp.vma_end = hi - tmp.vma_end := u32sub_eq htmp.2 hhi
    have hrest : ∀ a ∈ rest, a.vma_start < a.vma_end ∧ a.vma_end ≤ tmp.vma_start :=
      fun a ha => ⟨(hall a (List.mem_cons_of_mem _ ha)).1, hp'.1 a ha⟩
    simp only [vmmap_find_range_loop, true_and, hsub]
    by_cases c : hi - tmp.vma_end ≥ npages
    · rw [if_pos c, vmmap_find_range_loop_some]
      have hs : u32sub hi npages = hi - npages := u32sub_eq (by omega) hhi
      rw [hs]
      refine ⟨?_, fun h => by simp at h⟩
      intro s h
      simp only [Option.some.injEq] at h
      subst h
      refine ⟨by omega, ?_, ⟨tmp, List.mem_cons_self _ _, by omega⟩, ?_⟩
      · intro a ha
        left
        rcases List.mem_cons.mp ha with rfl | ha
        · omega
        · have := hrest a ha
          omega
      · intro s' h1 h2
        omega
    · rw [if_neg c]
      obtain ⟨ih1, ih2⟩ := ih tmp.vma_start (by omega) hp'.2 hrest
      constructor
      · intro s h
        obtain ⟨a1, a2, ⟨x, hx, hxs⟩, a4⟩ := ih1 s h
        refine ⟨by omega, ?_, ⟨x, List.mem_cons_of_mem _ hx, hxs⟩, ?_⟩
        · intro a ha
          rcases List.mem_cons.mp ha with rfl | ha
          · right; exact a1
          · exact a2 a ha
        · intro s' h1 h2
          by_cases c2 : s' + npages ≤ tmp.vma_start
          · obtain ⟨y, hy, hy2⟩ := a4 s' h1 c2
            exact ⟨y, List.mem_cons_of_mem _ hy, hy2⟩
          · exact ⟨tmp, List.mem_cons_self _ _, by omega, by omega⟩
      · intro h s' h1 h2
        by_cases c2 : s' + npages ≤ tmp.vma_start
        · obtain ⟨y, hy, hy2⟩ := ih2 h s' h1 c2
          exact ⟨y, List.mem_cons_of_mem _ hy, hy2⟩
        · exact ⟨tmp, List.mem_cons_self _ _, by omega, by omega⟩

/-- On a non-empty well-formed map inside the user window, `vmmap_find_range` returns -1 and
no free run exists, or it returns the start of the highest free run. -/
theorem vmmap_find_range_cases (K : KParams) (head_of_empty : Nat) (map : vmmap) (npages : Nat)
    (dir : Int) (hne : map.vmm_list ≠ []) (hwf : WellFormed map.vmm_list)
    (hwin : InWindow K map.vmm_list)
    (hhigh : ADDR_TO_PN K K.USER_MEM_HIGH < 2147483648) :
    (vmmap_find_range K head_of_empty map npages dir = -1 ∧
      ¬ ∃ s, free_run K map npages s) ∨
    ∃ s : Nat, vmmap_find_range K head_of_empty map npages dir = (s : Int) ∧
      free_run K map npages s ∧ ∀ s', free_run K map npages s' → s' ≤ s := by
  rw [wellFormed_iff] at hwf
  obtain ⟨hord, hpos⟩ := hwf
  have hU : ADDR_TO_PN K K.USER_MEM_HIGH < U32 := by unfold U32; omega
  -- the head of the list and the reversed list
  obtain ⟨head, tl, hl⟩ : ∃ head tl, map.vmm_list = head :: tl := by
    cases h : map.vmm_list with
    | nil => exact absurd h hne
    | cons a b => exact ⟨a, b, rfl⟩
  have hhead : head ∈ map.vmm_list := by rw [hl]; exact List.mem_cons_self _ _
  have hge : ∀ a ∈ map.vmm_list, head.vma_start ≤ a.vma_start := by
    intro a ha
    rw [hl] at ha hord
    rcases List.mem_cons.mp ha with rfl | ha
    · exact le_refl _
    · have := (List.pairwise_cons.mp hord).1 a ha
      have := hpos head hhead
      omega
  have hrev : map.vmm_list.reverse = tl.reverse ++ [head] := by rw [hl]; simp
  have hdesc : map.vmm_list.reverse.Pairwise (fun a b => b.vma_end ≤ a.vma_start) :=
    List.pairwise_reverse.mpr hord
  have hall : ∀ a ∈ map.vmm_list.reverse,
      a.vma_start < a.vma_end ∧ a.vma_end ≤ ADDR_TO_PN K K.USER_MEM_HIGH :=
    fun a ha => ⟨hpos a (List.mem_reverse.mp ha), (hwin a (List.mem_reverse.mp ha)).2⟩
  have hLh := (hwin head hhead).1
  have hhH := (hwin head hhead).2
  have hhp := hpos head hhead
  -- intersection with a non-empty range, in terms of the bounds
  have hint : 0 < npages → ∀ a ∈ map.vmm_list, ∀ s,
      (vmarea_intersects a s (s + npages) ↔ a.vma_start < s + npages ∧ s < a.vma_end) := by
    intro hn a ha s
    unfold vmarea_intersects
    rw [ranges_intersect_iff]
    have := hpos a ha
    constructor <;> intro h <;> omega
  by_cases hn : npages = 0
  · -- every gap takes zero pages: the first one visited is recorded
    subst hn
    right
    refine ⟨ADDR_TO_PN K K.USER_MEM_HIGH, ?_, ⟨by omega, by omega, ?_⟩, ?_⟩
    · obtain ⟨last, rest, hlr⟩ : ∃ last rest, map.vmm_list.reverse = last :: rest := by
        cases h : map.vmm_list.reverse with
        | nil => rw [hrev] at h; simp at h
        | cons a b => exact ⟨a, b, rfl⟩
      have h1 : (vmmap_find_range_loop 0 map.vmm_list.reverse none
          (ADDR_TO_PN K K.USER_MEM_HIGH)).1 = some (ADDR_TO_PN K K.USER_MEM_HIGH) := by
        rw [hlr]
        simp only [vmmap_find_range_loop, ge_iff_le, Nat.zero_le, and_self, if_true]
        rw [vmmap_find_range_loop_some, u32sub_eq (Nat.zero_le _) hU]
        rfl
      simp only [vmmap_find_range, h1]
      exact u32_to_int_eq hhigh
    · intro a _ hi
      unfold vmarea_intersects at hi
      rw [ranges_intersect_iff] at hi
      omega
    · intro s' hs'
      have := hs'.2.1
      omega
  · have hn0 : 0 < npages := Nat.pos_of_ne_zero hn
    obtain ⟨hsome, hnone⟩ := vmmap_find_range_loop_spec npages hn0 map.vmm_list.reverse
      (ADDR_TO_PN K K.USER_MEM_HIGH) hU hdesc hall
    have hsnd : (vmmap_find_range_loop npages map.vmm_list.reverse none
        (ADDR_TO_PN K K.USER_MEM_HIGH)).2 = head.vma_start := by
      rw [hrev]
      exact vmmap_find_range_loop_snd npages head tl.reverse _ _
    cases hr : (vmmap_find_range_loop npages map.vmm_list.reverse none
        (ADDR_TO_PN K K.USER_MEM_HIGH)).1 with
    | some s0 =>
      obtain ⟨a1, a2, ⟨x, hx, hxs⟩, a4⟩ := hsome s0 hr
      right
      refine ⟨s0, ?_, ⟨?_, a1, ?_⟩, ?_⟩
      · simp only [vmmap_find_range, hr]
        exact u32_to_int_eq (by omega)
      · have := (hwin x (List.mem_reverse.mp hx)).1
        have := hpos x (List.mem_reverse.mp hx)
        omega
      · intro a ha
        rw [hint hn0 a ha]
        have := a2 a (List.mem_reverse.mpr ha)
        omega
      · intro s' hs'
        by_contra hc
        obtain ⟨y, hy, hy2⟩ := a4 s' (by omega) hs'.2.1
        exact hs'.2.2 y (List.mem_reverse.mp hy)
          ((hint hn0 y (List.mem_reverse.mp hy) s').mpr hy2)
    | none =>
      have hblock : ∀ s', free_run K map npages s' → s' + npages ≤ head.vma_start := by
        intro s' hs'
        by_contra hc
        by_cases c2 : head.vma_start ≤ s'
        · obtain ⟨y, hy, hy2⟩ := hnone hr s' (by rw [hsnd]; exact c2) hs'.2.1
          exact hs'.2.2 y (List.mem_reverse.mp hy)
            ((hint hn0 y (List.mem_reverse.mp hy) s').mpr hy2)
        · exact hs'.2.2 head hhead ((hint hn0 head hhead s').mpr ⟨by omega, by omega⟩)
      have hsubL : u32sub head.vma_start (ADDR_TO_PN K K.USER_MEM_LOW)
          = head.vma_start - ADDR_TO_PN K K.USER_MEM_LOW := u32sub_eq hLh (by omega)
      simp only [vmmap_find_range, hr]
      simp only [hl, hsubL]
      by_cases c : head.vma_start - ADDR_TO_PN K K.USER_MEM_LOW ≥ npages
      · rw [if_pos c]
        right
        refine ⟨head.vma_start - npages, ?_, ⟨by omega, by omega, ?_⟩, ?_⟩
        · rw [u32sub_eq (by omega) (by omega)]
          exact u32_to_int_eq (by omega)
        · intro a ha
          rw [hint hn0 a ha]
          have := hge a ha
          omega
        · intro s' hs'
          have := hblock s' hs'
          omega
      · rw [if_neg c]
        left
        refine ⟨rfl, ?_⟩
        rintro ⟨s', hs'⟩
        have := hblock s' hs'
        have := hs'.1
        omega

/-- C11: `vmmap_find_range` on a non-empty well-formed map inside the user window (the page
number of `USER_MEM_HIGH` fitting in an `int`), whatever `dir` is, and so for the high-first
direction.  It returns `s` exactly when `s` is the largest page with `LOW <= s`,
`s + npages <= HIGH` and no area intersecting `[s, s + npages)`; it returns -1 exactly when
there is no such page; and it returns nothing else.  The function has no write to the map. -/
theorem vmmap_find_range_hilo (K : KParams) (head_of_empty : Nat) (map : vmmap) (npages : Nat)
    (dir : Int) (hne : map.vmm_list ≠ []) (hwf : WellFormed map.vmm_list)
    (hwin : InWindow K map.vmm_list)
    (hhigh : ADDR_TO_PN K K.USER_MEM_HIGH < 2147483648) :
    (∀ s : Nat, vmmap_find_range K head_of_empty map npages dir = (s : Int) ↔
      (free_run K map npages s ∧ ∀ s', free_run K map npages s' → s' ≤ s)) ∧
    (vmmap_find_range K head_of_empty map npages dir = -1 ↔
      ¬ ∃ s, free_run K map npages s) ∧
    (vmmap_find_range K head_of_empty map npages dir = -1 ∨
      ∃ s : Nat, vmmap_find_range K head_of_empty map npages dir = (s : Int)) := by
  rcases vmmap_find_range_cases K head_of_empty map npages dir hne hwf hwin hhigh with
    ⟨h1, h2⟩ | ⟨s0, h1, h2, h3⟩
  · refine ⟨?_, ?_, Or.inl h1⟩
    · intro s
      constructor
      · intro h
        rw [h1] at h
        omega
      · intro h
        exact absurd ⟨s, h.1⟩ h2
    · exact ⟨fun _ => h2, fun _ => h1⟩
  · refine ⟨?_, ?_, Or.inr ⟨s0, h1⟩⟩
    · intro s
      constructor
      · intro h
        rw [h1] at h
        have e : s0 = s := by omega
        subst e
        exact ⟨h2, h3⟩
      · intro h
        have e : s0 = s := Nat.le_antisymm (h.2 s0 h2) (h3 s h.1)
        rw [h1, e]
    · constructor
      · intro h
        rw [h1] at h
        omega
      · intro h
        exact absurd ⟨s0, h2⟩ h

theorem exMapGap_wellFormed : WellFormed exMapGap.vmm_list := by
  rw [wellFormed_iff]
  simp [Ordered, exMapGap, exArea]

theorem exMapGap_inWindow : InWindow exKSmall exMapGap.vmm_list := by
  intro a ha
  simp only [exMapGap, List.mem_cons, List.mem_singleton, List.not_mem_nil, or_false] at ha
  rcases ha with rfl | rfl <;> decide

/-- C11 on the map with the areas [10, 20) and [30, 40), the user window being pages [0, 40),
for 5 pages: the result is 25, the page five below 30. -/
theorem vmmap_find_range_hilo_witness :
    exMapGap.vmm_list ≠ [] ∧ WellFormed exMapGap.vmm_list ∧
    InWindow exKSmall exMapGap.vmm_list ∧
    ADDR_TO_PN exKSmall exKSmall.USER_MEM_HIGH < 2147483648 ∧
    vmmap_find_range exKSmall 0 exMapGap 5 0 = 25 ∧
    free_run exKSmall exMapGap 5 25 ∧ ∀ s', free_run exKSmall exMapGap 5 s' → s' ≤ 25 :=
  have h := (vmmap_find_range_hilo exKSmall 0 exMapGap 5 0 (by decide) exMapGap_wellFormed
    exMapGap_inWindow (by decide)).1 25
  ⟨by decide, exMapGap_wellFormed, exMapGap_inWindow, by decide, by decide,
    h.mp (by decide)⟩

/-- C12 fails: `vmmap_find_range` does not read `dir` (the low-first branch is commented
out).  On the map with the areas [10, 20) and [30, 40), the user window being pages [0, 40),
for 5 pages and every `dir`, the low-first direction included, it returns 25, the highest
free run, while page 0 starts a free run and is the lowest. -/
theorem vmmap_find_range_lohi_returns_highest :
    (∀ (K : KParams) (h : Nat) (map : vmmap) (npages : Nat) (dir1 dir2 : Int),
      vmmap_find_range K h map npages dir1 = vmmap_find_range K h map npages dir2) ∧
    (∀ dir : Int, vmmap_find_range exKSmall 0 exMapGap 5 dir = 25) ∧
    WellFormed exMapGap.vmm_list ∧ free_run exKSmall exMapGap 5 0 := by
  refine ⟨fun _ _ _ _ _ _ => rfl, fun dir => ?_, exMapGap_wellFormed, by decide, by decide, ?_⟩
  · have e : vmmap_find_range exKSmall 0 exMapGap 5 dir
        = vmmap_find_range exKSmall 0 exMapGap 5 0 := rfl
    rw [e]
    decide
  · intro a ha hi
    unfold vmarea_intersects at hi
    rw [ranges_intersect_iff] at hi
    simp only [exMapGap, List.mem_cons, List.mem_singleton, List.not_mem_nil, or_false] at ha
    rcases ha with rfl | rfl <;> simp [exArea] at hi

/-- C13 fails: on a map without areas the loop of `vmmap_find_range` does not run, and the
function then reads `vma_start` of `list_head` of the empty list, a word `w` that is in no
area.  The result is computed from `w` and not from `USER_MEM_HIGH`: for one page it is
`HIGH - 1` only if `w` happens to be the page number of `USER_MEM_HIGH`; the user window has
at least one page. -/
theorem vmmap_find_range_empty_map (K : KParams) (w addr : Nat) (proc : Option Nat) (dir : Int)
    (hhigh : ADDR_TO_PN K K.USER_MEM_HIGH < 2147483648)
    (hwin : ADDR_TO_PN K K.USER_MEM_LOW + 1 ≤ ADDR_TO_PN K K.USER_MEM_HIGH) (hw : w < U32)
    (hne : w ≠ ADDR_TO_PN K K.USER_MEM_HIGH) :
    (∀ npages, vmmap_find_range K w { vmm_addr := addr, vmm_list := [], vmm_proc := proc }
        npages dir
      = if u32sub w (ADDR_TO_PN K K.USER_MEM_LOW) ≥ npages then u32_to_int (u32sub w npages)
        else -1) ∧
    vmmap_find_range K w { vmm_addr := addr, vmm_list := [], vmm_proc := proc } 1 dir
      ≠ (ADDR_TO_PN K K.USER_MEM_HIGH : Int) - 1 := by
  refine ⟨fun _ => rfl, ?_⟩
  simp only [vmmap_find_range, List.reverse_nil, vmmap_find_range_loop]
  have hx : u32sub w 1 < U32 ∧ (u32sub w 1 + 1 = w ∨ (w = 0 ∧ u32sub w 1 = 4294967295)) := by
    unfold u32sub
    unfold U32 at *
    omega
  have hy : u32_to_int (u32sub w 1) = (u32sub w 1 : Int) ∨ u32_to_int (u32sub w 1) < 0 := by
    unfold u32_to_int
    have e : u32sub w 1 % U32 = u32sub w 1 := Nat.mod_eq_of_lt hx.1
    rw [e]
    unfold U32 at *
    split_ifs
    · exact Or.inl rfl
    · right; omega
  unfold U32 at hw hx
  split_ifs
  · omega
  · omega

/-- C13 at the constants of the build, the word read through `list_head` being 0: the result
for one page is -1, where the whole user window is free. -/
theorem vmmap_find_range_empty_map_witness :
    ADDR_TO_PN exK exK.USER_MEM_HIGH < 2147483648 ∧
    ADDR_TO_PN exK exK.USER_MEM_LOW + 1 ≤ ADDR_TO_PN exK exK.USER_MEM_HIGH ∧ 0 < U32 ∧
    0 ≠ ADDR_TO_PN exK exK.USER_MEM_HIGH ∧
    vmmap_find_range exK 0 { vmm_addr := 7, vmm_list := [], vmm_proc := none } 1 0 = -1 ∧
    vmmap_find_range exK 0 { vmm_addr := 7, vmm_list := [], vmm_proc := none } 1 0
      ≠ (ADDR_TO_PN exK exK.USER_MEM_HIGH : Int) - 1 :=
  ⟨by decide, by decide, by decide, by decide, by decide,
    (vmmap_find_range_empty_map exK 0 7 none 0 (by decide) (by decide) (by decide)
      (by decide)).2⟩

/-! ## The postcondition of `vmmap_map` -/

/-- The second half of `vmmap_map`, when it returns: the value is 0, the new area has the
given range, offset, flags and protection, belongs to the map and is bound to an object, and
the list is the old list with the new area inserted. -/
theorem vmmap_map_area_new (K : KParams) (T : OpsCalls)
    (file : Option (VMState → Int × Option Nat × VMState)) (map : vmmap) (st : VMState)
    (calls : List KCall) (lopage npages prot flags off : Nat) (r : MapResult)
    (h : vmmap_map_area K T file map st calls lopage npages prot flags off = Res.ok r) :
    ∃ x, r.new = some
          { vma_start := lopage, vma_end := u32add lopage npages, vma_off := ADDR_TO_PN K off,
            vma_flags := flags, vma_prot := prot, vma_vmmap := some map.vmm_addr,
            vma_obj := some x } ∧
      r.map.vmm_list
        = vmmap_insert_list map.vmm_addr
            { vma_start := lopage, vma_end := u32add lopage npages, vma_off := ADDR_TO_PN K off,
              vma_flags := flags, vma_prot := prot, vma_vmmap := none, vma_obj := some x }
            map.vmm_list ∧
      r.ret = 0 ∧ r.map.vmm_addr = map.vmm_addr := by
  unfold vmmap_map_area at h
  simp only [] at h
  split at h
  · cases h
  split at h
  · simp at h
  · rename_i o ho
    split at h
    · split at h
      · simp at h
      · obtain ⟨b, _, h⟩ := Res.bind_eq_ok h
        obtain ⟨st2, _, h⟩ := Res.bind_eq_ok h
        simp only [Res.ok.injEq] at h
        subst h
        refine ⟨(shadow_create (match file with
            | some mmap => ((mmap st).2.1, (mmap st).2.2)
            | none => anon_create st).2).1, rfl, ?_, rfl, rfl⟩
        exact vmmap_insert_list_set map.vmm_addr
          { vma_start := lopage, vma_end := u32add lopage npages, vma_off := ADDR_TO_PN K off,
            vma_flags := flags, vma_prot := prot, vma_vmmap := none, vma_obj := none }
          { vma_start := lopage, vma_end := u32add lopage npages, vma_off := ADDR_TO_PN K off,
            vma_flags := flags, vma_prot := prot, vma_vmmap := none,
            vma_obj := some (shadow_create (match file with
              | some mmap => ((mmap st).2.1, (mmap st).2.2)
              | none => anon_create st).2).1 }
          map.vmm_list rfl
    · simp only [Res.ok.injEq] at h
      subst h
      refine ⟨o, rfl, ?_, rfl, rfl⟩
      exact vmmap_insert_list_set map.vmm_addr
        { vma_start := lopage, vma_end := u32add lopage npages, vma_off := ADDR_TO_PN K off,
          vma_flags := flags, vma_prot := prot, vma_vmmap := none, vma_obj := none }
        { vma_start := lopage, vma_end := u32add lopage npages, vma_off := ADDR_TO_PN K off,
          vma_flags := flags, vma_prot := prot, vma_vmmap := none, vma_obj := some o }
        map.vmm_list rfl

/-- The new area in the list after its insertion into a well-formed list that is clear of its
range: the list is well-formed, `vmmap_lookup` of every page of the range returns the new
area, and no other area intersects the range. -/
theorem vmmap_insert_list_lookup (mapaddr : Nat) (v : vmarea) (m : vmmap)
    (l : List vmarea) (hl : m.vmm_list = vmmap_insert_list mapaddr v l)
    (hwf : WellFormed l) (hv : v.vma_start < v.vma_end)
    (hd : ∀ a ∈ l, ¬ vmarea_intersects a v.vma_start v.vma_end) :
    WellFormed m.vmm_list ∧ { v with vma_vmmap := some mapaddr } ∈ m.vmm_list ∧
    (∀ vfn, v.vma_start ≤ vfn → vfn < v.vma_end →
      vmmap_lookup m vfn = some { v with vma_vmmap := some mapaddr }) ∧
    (∀ a ∈ m.vmm_list, a ≠ { v with vma_vmmap := some mapaddr } →
      ¬ vmarea_intersects a v.vma_start v.vma_end) := by
  have hwf2 : WellFormed m.vmm_list := by
    rw [hl]; exact vmmap_insert_list_wellFormed mapaddr v l hwf hv hd
  have hmem : { v with vma_vmmap := some mapaddr } ∈ m.vmm_list := by
    rw [hl]
    exact (vmmap_insert_list_perm mapaddr v l).subset (List.mem_cons_self _ _)
  refine ⟨hwf2, hmem, ?_, ?_⟩
  · intro vfn h1 h2
    obtain ⟨hex, _, huniq⟩ := vmmap_lookup_cases m vfn
    obtain ⟨a, ha, _, _, _⟩ := hex ⟨_, hmem, h1, h2⟩
    rw [ha, huniq hwf2 a ha _ hmem h1 h2]
  · intro a ha hne
    rw [hl] at ha
    rcases mem_vmmap_insert_list ha with rfl | ha
    · exact absurd rfl hne
    · exact hd a ha

/-- C18: the postcondition of `vmmap_map` on a well-formed map inside the user window, for
32-bit arguments that pass its assertions and, at a non-zero `lopage`, the assertion of
`vmmap_is_range_empty`; with `lopage` zero the map has an area.  When the call returns 0 the
area stored through `new` is in the map and covers `[p, p + npages)`, with `p = lopage` when
`lopage` is non-zero and `p` the value of `vmmap_find_range` otherwise; it has the given
protection and flags, `vma_off = off / PAGE_SIZE`, and belongs to the map.  `vmmap_lookup` of
every page of the range returns it, no other area of the map intersects the range, the list
is well-formed, and with `lopage` zero the list is the old list plus the new area. -/
theorem vmmap_map_postcondition (K : KParams) (T : OpsCalls) (fuel head_of_empty : Nat)
    (map : vmmap) (st : VMState) (file : Option (VMState → Int × Option Nat × VMState))
    (lopage npages prot flags off : Nat) (dir : Int) (r : MapResult)
    (hwf : WellFormed map.vmm_list) (hwin : InWindow K map.vmm_list)
    (hhigh : ADDR_TO_PN K K.USER_MEM_HIGH < 2147483648)
    (hlo : lopage < U32) (hnp : npages < U32)
    (hassert : vmmap_map_asserts K lopage npages flags off)
    (hrange : lopage ≠ 0 → vmmap_is_range_empty_asserts K lopage npages)
    (hne : lopage = 0 → map.vmm_list ≠ [])
    (hrun : vmmap_map K T fuel head_of_empty map st file lopage npages prot flags off dir
      = Res.ok r)
    (hret : r.ret = 0) :
    ∃ (p : Nat) (new : vmarea),
      (lopage ≠ 0 → p = lopage) ∧
      (lopage = 0 → vmmap_find_range K head_of_empty map npages dir = (p : Int)) ∧
      r.new = some new ∧ new ∈ r.map.vmm_list ∧
      new.vma_start = p ∧ new.vma_end = p + npages ∧ new.vma_prot = prot ∧
      new.vma_flags = flags ∧ new.vma_off = off / PAGE_SIZE K ∧
      new.vma_vmmap = some map.vmm_addr ∧
      (∀ vfn, p ≤ vfn → vfn < p + npages → vmmap_lookup r.map vfn = some new) ∧
      (∀ a ∈ r.map.vmm_list, a ≠ new → ¬ vmarea_intersects a p (p + npages)) ∧
      WellFormed r.map.vmm_list ∧
      (lopage = 0 → List.Perm (new :: map.vmm_list) r.map.vmm_list) := by
  have hn0 : 0 < npages := hassert.1
  -- the second half, run at page `p` on a list `l` that is clear of the range
  have second : ∀ (m : vmmap) (s : VMState) (tr : List KCall) (p : Nat),
      p + npages < U32 → WellFormed m.vmm_list → m.vmm_addr = map.vmm_addr →
      (∀ a ∈ m.vmm_list, ¬ vmarea_intersects a p (p + npages)) →
      vmmap_map_area K T file m s tr p npages prot flags off = Res.ok r →
      ∃ new : vmarea, r.new = some new ∧ new ∈ r.map.vmm_list ∧
        new.vma_start = p ∧ new.vma_end = p + npages ∧ new.vma_prot = prot ∧
        new.vma_flags = flags ∧ new.vma_off = off / PAGE_SIZE K ∧
        new.vma_vmmap = some map.vmm_addr ∧
        (∀ vfn, p ≤ vfn → vfn < p + npages → vmmap_lookup r.map vfn = some new) ∧
        (∀ a ∈ r.map.vmm_list, a ≠ new → ¬ vmarea_intersects a p (p + npages)) ∧
        WellFormed r.map.vmm_list ∧ List.Perm (new :: m.vmm_list) r.map.vmm_list := by
    intro m s tr p hw hwfm haddr hclear h
    obtain ⟨x, hnew, hlist, _, _⟩ := vmmap_map_area_new K T file m s tr p npages prot flags off r h
    rw [u32add_eq hw] at hnew hlist
    obtain ⟨w1, w2, w3, w4⟩ := vmmap_insert_list_lookup m.vmm_addr
      { vma_start := p, vma_end := p + npages, vma_off := ADDR_TO_PN K off,
        vma_flags := flags, vma_prot := prot, vma_vmmap := none, vma_obj := some x }
      r.map m.vmm_list hlist hwfm (by simp only []; omega) hclear
    refine ⟨_, hnew, w2, rfl, rfl, rfl, rfl, rfl, by rw [haddr], w3, w4, w1, ?_⟩
    rw [hlist]
    exact vmmap_insert_list_perm m.vmm_addr
      { vma_start := p, vma_end := p + npages, vma_off := ADDR_TO_PN K off,
        vma_flags := flags, vma_prot := prot, vma_vmmap := none, vma_obj := some x }
      m.vmm_list
  rw [vmmap_map_of_asserts K T fuel head_of_empty map st file lopage npages prot flags off dir
    hassert hrange] at hrun
  by_cases h0 : lopage = 0
  · rw [if_pos h0] at hrun
    split_ifs at hrun with hneg
    · simp only [Res.ok.injEq] at hrun
      subst hrun
      simp only [] at hret
      omega
    · rcases vmmap_find_range_cases K head_of_empty map npages dir (hne h0) hwf hwin hhigh with
        ⟨h1, _⟩ | ⟨s0, h1, h2, _⟩
      · rw [h1] at hneg
        exact absurd (by decide) hneg
      · rw [h1] at hrun
        simp only [Int.toNat_ofNat] at hrun
        obtain ⟨new, a1, a2, a3, a4, a5, a6, a7, a8, a9, a10, a11, a12⟩ :=
          second map st [] s0 (by have := h2.2.1; unfold U32; omega) hwf rfl h2.2.2 hrun
        exact ⟨s0, new, fun h => absurd h0 h, fun _ => h1, a1, a2, a3, a4, a5, a6, a7, a8, a9,
          a10, a11, fun _ => a12⟩
  · rw [if_neg h0] at hrun
    have hlt := (hrange h0).1
    have hw : lopage + npages < U32 := by
      unfold u32add at hlt
      unfold U32 at *
      omega
    split_ifs at hrun with hempty
    · rw [vmmap_remove_eq_ite K map lopage npages hw hwf fuel] at hrun
      split_ifs at hrun with hf
      · simp only [] at hrun
        obtain ⟨st1, _, hrun⟩ := Res.bind_eq_ok hrun
        obtain ⟨new, a1, a2, a3, a4, a5, a6, a7, a8, a9, a10, a11, _⟩ :=
          second { map with vmm_list := remove_areas map.vmm_addr lopage npages map.vmm_list }
            st1 _ lopage hw (remove_areas_wellFormed hw hwf) rfl (by
            intro a ha
            obtain ⟨q, hq, haq⟩ := mem_remove_areas ha
            have := mem_remove_area hw (((wellFormed_iff _).mp hwf).2 q hq) haq
            unfold vmarea_intersects
            rw [ranges_intersect_iff]
            omega) hrun
        exact ⟨lopage, new, fun _ => rfl, fun h => absurd h h0, a1, a2, a3, a4, a5, a6, a7,
          a8, a9, a10, a11, fun h => absurd h h0⟩
    · obtain ⟨new, a1, a2, a3, a4, a5, a6, a7, a8, a9, a10, a11, _⟩ :=
        second map st [] lopage hw hwf rfl (by
          intro a ha
          unfold vmmap_is_range_empty at hempty
          rw [vmmap_is_range_empty_loop_eq] at hempty
          split_ifs at hempty with hex
          · exact absurd rfl hempty
          · unfold vmarea_intersects
            rw [ranges_intersect_iff]
            simp only [u32add_eq hw] at hex
            intro hc
            exact hex ⟨a, ha, by omega, by omega⟩) hrun
      exact ⟨lopage, new, fun _ => rfl, fun h => absurd h h0, a1, a2, a3, a4, a5, a6, a7,
        a8, a9, a10, a11, fun h => absurd h h0⟩

theorem exMap1_inWindow : InWindow exK exMap1.vmm_list := by
  intro a ha
  simp only [exMap1, List.mem_singleton] at ha
  subst ha
  decide

theorem exMap1_map_run :
    vmmap_map exK (mmo_ops_at exK 1) 2 0 exMap1 exHeap none 1025 1 3 1 0 0
      = Res.ok exMapResult := rfl

/-- C18 at the shared anonymous mapping of page 1025 into `exMap1`, whose area [1024, 1027)
covers that page. -/
theorem vmmap_map_postcondition_witness :
    WellFormed exMap1.vmm_list ∧ InWindow exK exMap1.vmm_list ∧
    ADDR_TO_PN exK exK.USER_MEM_HIGH < 2147483648 ∧ 1025 < U32 ∧ 1 < U32 ∧
    vmmap_map_asserts exK 1025 1 1 0 ∧ vmmap_is_range_empty_asserts exK 1025 1 ∧
    vmmap_map exK (mmo_ops_at exK 1) 2 0 exMap1 exHeap none 1025 1 3 1 0 0
      = Res.ok exMapResult ∧
    exMapResult.ret = 0 ∧
    ∃ (p : Nat) (new : vmarea),
      ((1025 : Nat) ≠ 0 → p = 1025) ∧
      ((1025 : Nat) = 0 → vmmap_find_range exK 0 exMap1 1 0 = (p : Int)) ∧
      exMapResult.new = some new ∧ new ∈ exMapResult.map.vmm_list ∧
      new.vma_start = p ∧ new.vma_end = p + 1 ∧ new.vma_prot = 3 ∧
      new.vma_flags = 1 ∧ new.vma_off = 0 / PAGE_SIZE exK ∧
      new.vma_vmmap = some exMap1.vmm_addr ∧
      (∀ vfn, p ≤ vfn → vfn < p + 1 → vmmap_lookup exMapResult.map vfn = some new) ∧
      (∀ a ∈ exMapResult.map.vmm_list, a ≠ new → ¬ vmarea_intersects a p (p + 1)) ∧
      WellFormed exMapResult.map.vmm_list ∧
      ((1025 : Nat) = 0 → List.Perm (new :: exMap1.vmm_list) exMapResult.map.vmm_list) :=
  ⟨exMap1_wellFormed, exMap1_inWindow, by decide, by decide, by decide,
    ⟨by decide, by decide, by decide, by decide, by decide⟩,
    ⟨by decide, by decide, by decide⟩, exMap1_map_run, rfl,
    vmmap_map_postcondition exK (mmo_ops_at exK 1) 2 0 exMap1 exHeap none 1025 1 3 1 0 0
      exMapResult exMap1_wellFormed exMap1_inWindow (by decide) (by decide) (by decide)
      ⟨by decide, by decide, by decide, by decide, by decide⟩
      (fun _ => ⟨by decide, by decide, by decide⟩) (fun h => absurd h (by decide))
      exMap1_map_run rfl⟩

/-! ## The object of a new mapping -/

/-- The function `vmmap_map` is its first half followed by its second half. -/
theorem vmmap_map_eq_settle (K : KParams) (T : OpsCalls) (fuel head_of_empty : Nat)
    (map : vmmap) (st : VMState) (file : Option (VMState → Int × Option Nat × VMState))
    (lopage npages prot flags off : Nat) (dir : Int) :
    vmmap_map K T fuel head_of_empty map st file lopage npages prot flags off dir
      = (vmmap_map_settle K T fuel head_of_empty map st lopage npages flags off dir).bind
          fun x =>
          if x.1 < 0 then Res.ok { ret := x.1, map := map, new := none, st := st, calls := [] }
          else vmmap_map_area K T file x.2.1 x.2.2.1 x.2.2.2.1 x.2.2.2.2 npages prot flags off := by
  unfold vmmap_map vmmap_map_settle
  by_cases ha : vmmap_map_asserts K lopage npages flags off
  swap
  · rw [if_pos ha, if_pos ha]
    rfl
  rw [if_neg (not_not.mpr ha), if_neg (not_not.mpr ha)]
  by_cases h0 : lopage = 0
  · simp only [if_pos h0]
    split_ifs with c
    · simp [c]
    · simp
  · simp only [if_neg h0]
    by_cases hre : vmmap_is_range_empty_asserts K lopage npages
    swap
    · rw [if_pos hre, if_pos hre]
      rfl
    rw [if_neg (not_not.mpr hre), if_neg (not_not.mpr hre)]
    split_ifs with c
    · cases hr : vmmap_remove K fuel map lopage npages with
      | none => rfl
      | some x =>
        obtain ⟨ret, map1, tr⟩ := x
        simp only []
        cases hc : run_calls T st tr with
        | ok st1 => simp
        | panic => rfl
        | nofuel => rfl
    · simp

/-- The new area of the second half of `vmmap_map` is in the list it leaves. -/
theorem vmmap_map_area_mem (K : KParams) (T : OpsCalls)
    (file : Option (VMState → Int × Option Nat × VMState)) (map : vmmap) (st : VMState)
    (calls : List KCall) (lopage npages prot flags off : Nat) (r : MapResult) (new : vmarea)
    (h : vmmap_map_area K T file map st calls lopage npages prot flags off = Res.ok r)
    (hnew : r.new = some new) : new ∈ r.map.vmm_list := by
  obtain ⟨x, h1, h2, _, _⟩ := vmmap_map_area_new K T file map st calls lopage npages prot flags
    off r h
  rw [h1] at hnew
  simp only [Option.some.injEq] at hnew
  subst hnew
  rw [h2]
  exact (vmmap_insert_list_perm map.vmm_addr
    { vma_start := lopage, vma_end := u32add lopage npages, vma_off := ADDR_TO_PN K off,
      vma_flags := flags, vma_prot := prot, vma_vmmap := none, vma_obj := some x }
    map.vmm_list).subset (List.mem_cons_self _ _)

/-- The second half of `vmmap_map` for a private mapping over the object `o` of the heap
`st0`, whose bottom object `b` has a positive reference count, the next address of the
allocator being free. -/
theorem vmmap_map_area_private (K : KParams) (n : Nat)
    (file : Option (VMState → Int × Option Nat × VMState)) (map : vmmap) (st st0 : VMState)
    (calls : List KCall) (lopage npages prot flags off o b : Nat) (bob : mmobj)
    (hins : vmmap_insert_asserts K
      { vma_start := lopage, vma_end := u32add lopage npages, vma_off := ADDR_TO_PN K off,
        vma_flags := flags, vma_prot := prot, vma_vmmap := none, vma_obj := none })
    (hpriv : flags &&& K.MAP_PRIVATE ≠ 0)
    (hcreated : (match file with
      | some mmap => ((mmap st).2.1, (mmap st).2.2)
      | none => anon_create st) = (some o, st0))
    (hfresh : st0.objs st0.next_obj = none)
    (hbot : mmobj_bottom_obj st0 o = Res.ok (some b))
    (hb : st0.objs b = some bob) (hrb : 0 < bob.mmo_refcount) :
    ∃ r new, vmmap_map_area K (mmo_ops_at K (n + 1)) file map st calls lopage npages prot flags
        off = Res.ok r ∧
      r.ret = 0 ∧ r.new = some new ∧ new.vma_obj = some st0.next_obj ∧
      r.st.objs st0.next_obj
        = some { mmo_ops := mmobj_ops_t.shadow_mmobj_ops, mmo_refcount := 1, mmo_nrespages := 0,
                 mmo_respages := [], mmo_shadowed := some o, mmo_bottom_obj := some b } ∧
      r.st.objs b = some { bob with mmo_refcount := bob.mmo_refcount + 1 } ∧
      (∀ x, x ≠ st0.next_obj → x ≠ b → r.st.objs x = st0.objs x) ∧
      r.calls = calls ++ [KCall.ref (some b)] := by
  have hoN : o ≠ st0.next_obj := by
    rintro rfl
    simp [mmobj_bottom_obj, hfresh] at hbot
  have hbN : b ≠ st0.next_obj := by
    rintro rfl
    rw [hfresh] at hb
    simp at hb
  have hbot1 : mmobj_bottom_obj (shadow_create st0).2 o = Res.ok (some b) := by
    have : (shadow_create st0).2.objs o = st0.objs o := by
      rw [shadow_create_objs, if_neg hoN]
    simp only [mmobj_bottom_obj, this]
    exact hbot
  have hrb1 : 0 < bob.mmo_refcount + 1 := by omega
  have hcomp : vmmap_map_area K (mmo_ops_at K (n + 1)) file map st calls lopage npages prot
      flags off
      = Res.ok
          { ret := 0
            map := { vmmap_insert map
                { vma_start := lopage, vma_end := u32add lopage npages,
                  vma_off := ADDR_TO_PN K off, vma_flags := flags, vma_prot := prot,
                  vma_vmmap := none, vma_obj := none } with
              vmm_list := (vmmap_insert map
                { vma_start := lopage, vma_end := u32add lopage npages,
                  vma_off := ADDR_TO_PN K off, vma_flags := flags, vma_prot := prot,
                  vma_vmmap := none, vma_obj := none }).vmm_list.set
                (vmmap_insert_pos
                  { vma_start := lopage, vma_end := u32add lopage npages,
                    vma_off := ADDR_TO_PN K off, vma_flags := flags, vma_prot := prot,
                    vma_vmmap := none, vma_obj := none } map.vmm_list)
                { vma_start := lopage, vma_end := u32add lopage npages,
                  vma_off := ADDR_TO_PN K off, vma_flags := flags, vma_prot := prot,
                  vma_vmmap := some map.vmm_addr, vma_obj := some st0.next_obj } }
            new := some
              { vma_start := lopage, vma_end := u32add lopage npages,
                vma_off := ADDR_TO_PN K off, vma_flags := flags, vma_prot := prot,
                vma_vmmap := some map.vmm_addr, vma_obj := some st0.next_obj }
            st := ((shadow_create st0).2.set st0.next_obj
                { mmo_ops := mmobj_ops_t.shadow_mmobj_ops, mmo_refcount := 1,
                  mmo_nrespages := 0, mmo_respages := [], mmo_shadowed := some o,
                  mmo_bottom_obj := some b }).set b
                { bob with mmo_refcount := bob.mmo_refcount + 1 }
            calls := calls ++ [KCall.ref (some b)] } := by
    unfold vmmap_map_area
    simp only [if_neg (not_not.mpr hins)]
    simp only [hcreated, if_pos hpriv, shadow_create_objs, shadow_create_fst, if_true, hbot1,
      Res.bind_ok, ops_ref_eq, VMState.set_objs, if_neg hbN, hb, if_pos hrb]
  refine ⟨_, _, hcomp, rfl, rfl, rfl, ?_, ?_, ?_, rfl⟩
  · simp [VMState.set_objs, Ne.symm hbN]
  · simp [VMState.set_objs]
  · intro x h1 h2
    simp [VMState.set_objs, shadow_create_objs, h1, h2]

/-- The area `[p, p + npages)` at the start page `p` that the first half of `vmmap_map`
settles, on a well-formed map inside the user window (with an area when `lopage` is zero) and
arguments that pass the `KASSERT`s of `vmmap_map` and of `vmmap_is_range_empty`, passes the
`KASSERT`s of `vmmap_insert`. -/
theorem vmmap_map_settle_asserts (K : KParams) (T : OpsCalls) (fuel head_of_empty : Nat)
    (map map1 : vmmap) (st st1 : VMState) (lopage npages flags off p : Nat) (dir : Int)
    (tr : List KCall) (v : vmarea)
    (ha : vmmap_map_asserts K lopage npages flags off)
    (hr : lopage ≠ 0 → vmmap_is_range_empty_asserts K lopage npages)
    (hwf : WellFormed map.vmm_list) (hwin : InWindow K map.vmm_list)
    (hhigh : ADDR_TO_PN K K.USER_MEM_HIGH < 2147483648)
    (hne : lopage = 0 → map.vmm_list ≠ [])
    (hsettle : vmmap_map_settle K T fuel head_of_empty map st lopage npages flags off dir
      = Res.ok (0, map1, st1, tr, p))
    (hv : v.vma_vmmap = none ∧ v.vma_start = p ∧ v.vma_end = u32add p npages) :
    vmmap_insert_asserts K v := by
  unfold vmmap_map_settle at hsettle
  rw [if_neg (not_not.mpr ha)] at hsettle
  have hn0 : 0 < npages := ha.1
  unfold vmmap_insert_asserts
  rw [hv.1, hv.2.1, hv.2.2]
  by_cases h0 : lopage = 0
  · refine ⟨rfl, ?_⟩
    rw [if_pos h0] at hsettle
    simp only [] at hsettle
    rcases vmmap_find_range_cases K head_of_empty map npages dir (hne h0) hwf hwin hhigh with
      ⟨h1, _⟩ | ⟨s0, h1, h2, _⟩
    · rw [h1] at hsettle
      simp at hsettle
    · rw [h1] at hsettle
      have hnn : ¬ ((s0 : Int) < 0) := by omega
      rw [if_neg hnn] at hsettle
      simp only [Int.toNat_ofNat, Res.ok.injEq, Prod.mk.injEq] at hsettle
      obtain ⟨-, -, -, -, hp⟩ := hsettle
      subst hp
      obtain ⟨f1, f2, -⟩ := h2
      have hw : s0 + npages < U32 := by unfold U32; omega
      rw [u32add_eq hw]
      omega
  · rw [if_neg h0] at hsettle
    have hre := hr h0
    rw [if_neg (not_not.mpr hre)] at hsettle
    have hp : p = lopage := by
      split_ifs at hsettle with c
      · cases hr : vmmap_remove K fuel map lopage npages with
        | none => rw [hr] at hsettle; cases hsettle
        | some x =>
          rw [hr] at hsettle
          obtain ⟨ret, m, t⟩ := x
          simp only [] at hsettle
          obtain ⟨s2, -, hs2⟩ := Res.bind_eq_ok hsettle
          simp only [Res.ok.injEq, Prod.mk.injEq] at hs2
          exact hs2.2.2.2.2.symm
      · simp only [Res.ok.injEq, Prod.mk.injEq] at hsettle
        exact hsettle.2.2.2.2.symm
    subst hp
    exact ⟨rfl, hre.1, hre.2.1, hre.2.2⟩

/-- C19: `vmmap_map` on a well-formed map inside the user window, with arguments that pass
its `KASSERT`s, whose first half has settled the start page `p`, leaving the map `map1`, the
heap `st1` and the calls `tr`, and whose underlying object (the object the `mmap` operation
of the file gives, or a new anonymous object) is `o`, in the heap `st0`; `o` has the bottom
object `b`, with a positive reference count, and the next address of the allocator is free.
The area `[p, p + npages)` passes the `KASSERT`s of `vmmap_insert`.  With `MAP_PRIVATE` the
call returns 0, the new area is bound to a new shadow object at that address, with reference
count 1, no resident page, shadowed object `o` and bottom object `b`; the only call after the
first half is one `ref` on `b`, which gains one reference, and no other object changes.  With
`MAP_SHARED` and not `MAP_PRIVATE` the call returns 0, the new area is bound to `o`, the heap
is `st0` (no shadow object is created) and no call is made after the first half. -/
theorem vmmap_map_private_shadow (K : KParams) (n fuel head_of_empty : Nat)
    (map map1 : vmmap) (st st1 st0 : VMState)
    (file : Option (VMState → Int × Option Nat × VMState))
    (lopage npages prot flags off p o b : Nat) (dir : Int) (tr : List KCall) (bob : mmobj)
    (hassert : vmmap_map_asserts K lopage npages flags off)
    (hrange : lopage ≠ 0 → vmmap_is_range_empty_asserts K lopage npages)
    (hwf : WellFormed map.vmm_list) (hwin : InWindow K map.vmm_list)
    (hhigh : ADDR_TO_PN K K.USER_MEM_HIGH < 2147483648)
    (hne : lopage = 0 → map.vmm_list ≠ [])
    (hsettle : vmmap_map_settle K (mmo_ops_at K (n + 1)) fuel head_of_empty map st lopage
      npages flags off dir = Res.ok (0, map1, st1, tr, p))
    (hcreated : (match file with
      | some mmap => ((mmap st1).2.1, (mmap st1).2.2)
      | none => anon_create st1) = (some o, st0))
    (hfresh : st0.objs st0.next_obj = none)
    (hbot : mmobj_bottom_obj st0 o = Res.ok (some b))
    (hb : st0.objs b = some bob) (hrb : 0 < bob.mmo_refcount) :
    vmmap_insert_asserts K
      { vma_start := p, vma_end := u32add p npages, vma_off := ADDR_TO_PN K off,
        vma_flags := flags, vma_prot := prot, vma_vmmap := none, vma_obj := none } ∧
    (flags &&& K.MAP_PRIVATE ≠ 0 →
      ∃ r new, vmmap_map K (mmo_ops_at K (n + 1)) fuel head_of_empty map st file lopage npages
          prot flags off dir = Res.ok r ∧
        r.ret = 0 ∧ r.new = some new ∧ new ∈ r.map.vmm_list ∧
        new.vma_obj = some st0.next_obj ∧
        r.st.objs st0.next_obj
          = some { mmo_ops := mmobj_ops_t.shadow_mmobj_ops, mmo_refcount := 1,
                   mmo_nrespages := 0, mmo_respages := [], mmo_shadowed := some o,
                   mmo_bottom_obj := some b } ∧
        r.st.objs b = some { bob with mmo_refcount := bob.mmo_refcount + 1 } ∧
        (∀ x, x ≠ st0.next_obj → x ≠ b → r.st.objs x = st0.objs x) ∧
        r.calls = tr ++ [KCall.ref (some b)]) ∧
    (K.MAP_SHARED &&& flags ≠ 0 → flags &&& K.MAP_PRIVATE = 0 →
      ∃ r new, vmmap_map K (mmo_ops_at K (n + 1)) fuel head_of_empty map st file lopage npages
          prot flags off dir = Res.ok r ∧
        r.ret = 0 ∧ r.new = some new ∧ new ∈ r.map.vmm_list ∧ new.vma_obj = some o ∧
        r.st = st0 ∧ r.calls = tr) := by
  have hins := (vmmap_map_settle_asserts K (mmo_ops_at K (n + 1)) fuel head_of_empty map map1
    st st1 lopage npages flags off p dir tr
    { vma_start := p, vma_end := u32add p npages, vma_off := ADDR_TO_PN K off,
      vma_flags := flags, vma_prot := prot, vma_vmmap := none, vma_obj := none }
    hassert hrange hwf hwin hhigh hne hsettle ⟨rfl, rfl, rfl⟩)
  have heq : vmmap_map K (mmo_ops_at K (n + 1)) fuel head_of_empty map st file lopage npages
      prot flags off dir
      = vmmap_map_area K (mmo_ops_at K (n + 1)) file map1 st1 tr p npages prot flags off := by
    rw [vmmap_map_eq_settle, hsettle]
    simp
  rw [heq]
  refine ⟨hins, ?_, ?_⟩
  · intro hpriv
    obtain ⟨r, new, h1, h2, h3, h4, h5, h6, h7, h8⟩ := vmmap_map_area_private K n file map1 st1
      st0 tr p npages prot flags off o b bob hins hpriv hcreated hfresh hbot hb hrb
    exact ⟨r, new, h1, h2, h3, vmmap_map_area_mem _ _ _ _ _ _ _ _ _ _ _ r new h1 h3, h4, h5, h6,
      h7, h8⟩
  · intro _ hshared
    have hcomp : vmmap_map_area K (mmo_ops_at K (n + 1)) file map1 st1 tr p npages prot flags off
        = Res.ok
            { ret := 0
              map := { vmmap_insert map1
                  { vma_start := p, vma_end := u32add p npages,
                    vma_off := ADDR_TO_PN K off, vma_flags := flags, vma_prot := prot,
                    vma_vmmap := none, vma_obj := none } with
                vmm_list := (vmmap_insert map1
                  { vma_start := p, vma_end := u32add p npages,
                    vma_off := ADDR_TO_PN K off, vma_flags := flags, vma_prot := prot,
                    vma_vmmap := none, vma_obj := none }).vmm_list.set
                  (vmmap_insert_pos
                    { vma_start := p, vma_end := u32add p npages,
                      vma_off := ADDR_TO_PN K off, vma_flags := flags, vma_prot := prot,
                      vma_vmmap := none, vma_obj := none } map1.vmm_list)
                  { vma_start := p, vma_end := u32add p npages,
                    vma_off := ADDR_TO_PN K off, vma_flags := flags, vma_prot := prot,
                    vma_vmmap := some map1.vmm_addr, vma_obj := some o } }
              new := some
                { vma_start := p, vma_end := u32add p npages,
                  vma_off := ADDR_TO_PN K off, vma_flags := flags, vma_prot := prot,
                  vma_vmmap := some map1.vmm_addr, vma_obj := some o }
              st := st0
              calls := tr } := by
      unfold vmmap_map_area
      simp only [if_neg (not_not.mpr hins)]
      simp only [hcreated, hshared, ne_eq, not_true_eq_false, if_false]
    exact ⟨_, _, hcomp, rfl, rfl, vmmap_map_area_mem _ _ _ _ _ _ _ _ _ _ _ _ _ hcomp rfl, rfl,
      rfl, rfl⟩

theorem exMap1_ne_nil : exMap1.vmm_list ≠ [] := by
  simp [exMap1]

/-- C19 at a private anonymous mapping of one page into `exMap1`, the start page found by
`vmmap_find_range`: the new anonymous object is at address 3 and the shadow object at 4. -/
theorem vmmap_map_private_shadow_witness :
    vmmap_map_asserts exK 0 1 2 0 ∧
    ((0 : Nat) ≠ 0 → vmmap_is_range_empty_asserts exK 0 1) ∧
    WellFormed exMap1.vmm_list ∧ InWindow exK exMap1.vmm_list ∧
    ADDR_TO_PN exK exK.USER_MEM_HIGH < 2147483648 ∧
    ((0 : Nat) = 0 → exMap1.vmm_list ≠ []) ∧
    vmmap_map_settle exK (mmo_ops_at exK (0 + 1)) 2 0 exMap1 exHeap 0 1 2 0 0
      = Res.ok (0, exMap1, exHeap, [], 786431) ∧
    anon_create exHeap = (some 3, (anon_create exHeap).2) ∧
    (anon_create exHeap).2.objs (anon_create exHeap).2.next_obj = none ∧
    mmobj_bottom_obj (anon_create exHeap).2 3 = Res.ok (some 3) ∧
    (anon_create exHeap).2.objs 3
      = some { mmo_ops := mmobj_ops_t.anon_mmobj_ops, mmo_refcount := 1, mmo_nrespages := 0,
               mmo_respages := [], mmo_shadowed := none, mmo_bottom_obj := none } ∧
    ∃ r new, vmmap_map exK (mmo_ops_at exK (0 + 1)) 2 0 exMap1 exHeap none 0 1 3 2 0 0
        = Res.ok r ∧
      r.ret = 0 ∧ r.new = some new ∧ new ∈ r.map.vmm_list ∧
      new.vma_obj = some (anon_create exHeap).2.next_obj ∧
      r.st.objs (anon_create exHeap).2.next_obj
        = some { mmo_ops := mmobj_ops_t.shadow_mmobj_ops, mmo_refcount := 1,
                 mmo_nrespages := 0, mmo_respages := [], mmo_shadowed := some 3,
                 mmo_bottom_obj := some 3 } ∧
      r.st.objs 3
        = some { mmo_ops := mmobj_ops_t.anon_mmobj_ops, mmo_refcount := 1 + 1,
                 mmo_nrespages := 0, mmo_respages := [], mmo_shadowed := none,
                 mmo_bottom_obj := none } ∧
      (∀ x, x ≠ (anon_create exHeap).2.next_obj → x ≠ 3 →
        r.st.objs x = (anon_create exHeap).2.objs x) ∧
      r.calls = [] ++ [KCall.ref (some 3)] :=
  ⟨by decide, fun h => absurd rfl h, exMap1_wellFormed, exMap1_inWindow, by decide,
    fun _ => exMap1_ne_nil, rfl, rfl, rfl, rfl, rfl,
    (vmmap_map_private_shadow exK 0 2 0 exMap1 exMap1 exHeap exHeap (anon_create exHeap).2 none
      0 1 3 2 0 786431 3 3 0 []
      { mmo_ops := mmobj_ops_t.anon_mmobj_ops, mmo_refcount := 1, mmo_nrespages := 0,
        mmo_respages := [], mmo_shadowed := none, mmo_bottom_obj := none }
      (by decide) (fun h => absurd rfl h) exMap1_wellFormed exMap1_inWindow (by decide)
      (fun _ => exMap1_ne_nil) rfl rfl rfl rfl rfl (by decide)).2.1 (by decide)⟩

/-! ## `do_mmap` and its argument validation -/

/-- C20 fails: `do_mmap` stores the values of `validate_mmap_args` and of
`handle_file_related_tasks` in `err` and does not read them (the tests are commented out).
Whatever they are, `do_mmap` returns 0 or the negative value of `vmmap_map`.  With
`MAP_FIXED` and a null address `validate_mmap_args` gives `-EINVAL`, and with descriptor -1
and no `MAP_ANON` `handle_file_related_tasks` gives `-EBADF`; in both cases `do_mmap` on
`exMap1` returns 0 and has added an area at page 786431 to the map. -/
theorem do_mmap_ignores_validation :
    (∀ (K : KParams) (M : MmapParams) (T : OpsCalls) (fuel w : Nat)
        (vn_mmap : Nat → VMState → Int × Option Nat × VMState) (map : vmmap) (st : VMState)
        (files : Int → Option file_t) (addr len prot flags : Nat) (fd : Int) (off : Nat)
        (r : MmapResult),
      do_mmap K M T fuel w vn_mmap map st files addr len prot flags fd off = Res.ok r →
      r.ret = 0 ∨
        ∃ m, vmmap_map K T fuel w map st
            ((handle_file_related_tasks K M files fd flags prot).2.2.1.map vn_mmap)
            (if addr = 0 then 0 else ADDR_TO_PN K addr)
            ((len / PAGE_SIZE K + (if len % PAGE_SIZE K ≠ 0 then 1 else 0)) % U32)
            prot flags off M.VMMAP_DIR_HILO = Res.ok m ∧ m.ret < 0 ∧ r.ret = m.ret) ∧
    validate_mmap_args exK exM 0 4096 3 14 0 = -(exK.EINVAL : Int) ∧
    (∃ r, do_mmap exK exM (mmo_ops_at exK 1) 2 0 (fun _ s => (0, none, s)) exMap1 exHeap
        exNoFiles 0 4096 3 14 (-1) 0 = Res.ok r ∧
      r.ret = 0 ∧
      r.map.vmm_list = [exArea 1024 1027 0 1,
        { vma_start := 786431, vma_end := 786432, vma_off := 0, vma_prot := 3,
          vma_flags := 14, vma_vmmap := some 7, vma_obj := some 4 }]) ∧
    (handle_file_related_tasks exK exM exNoFiles (-1) 2 3).1 = -(exM.EBADF : Int) ∧
    (∃ r, do_mmap exK exM (mmo_ops_at exK 1) 2 0 (fun _ s => (0, none, s)) exMap1 exHeap
        exNoFiles 0 4096 3 2 (-1) 0 = Res.ok r ∧
      r.ret = 0 ∧
      r.map.vmm_list = [exArea 1024 1027 0 1,
        { vma_start := 786431, vma_end := 786432, vma_off := 0, vma_prot := 3,
          vma_flags := 2, vma_vmmap := some 7, vma_obj := some 4 }]) := by
  refine ⟨?_, by decide, ⟨_, rfl, rfl, rfl⟩, by decide, ⟨_, rfl, rfl, rfl⟩⟩
  intro K M T fuel w vn_mmap map st files addr len prot flags fd off r h
  unfold do_mmap at h
  simp only [] at h
  obtain ⟨m, hm, h⟩ := Res.bind_eq_ok h
  split_ifs at h with c
  · simp only [Res.ok.injEq] at h
    subst h
    exact Or.inr ⟨m, hm, c.1, rfl⟩
  · split at h
    · simp at h
    · simp only [Res.ok.injEq] at h
      subst h
      exact Or.inl rfl

/-! ## `validate_mmap_args` -/

/-- The flags test of `validate_mmap_args`, for arguments that pass the other tests (offset
page-aligned, length not zero, no `MAP_FIXED` with a null address, address null or
page-aligned, `addr + len` in 32 bits at most `USER_MEM_HIGH`): `-EINVAL` when neither
`MAP_SHARED` nor `MAP_PRIVATE` is set, 0 when at least one is. -/
theorem validate_mmap_args_flags_cases (K : KParams) (M : MmapParams)
    (addr len prot flags off : Nat)
    (h1 : PAGE_ALIGNED K off = true) (h2 : len ≠ 0)
    (h3 : ¬ (flags &&& M.MAP_FIXED ≠ 0 ∧ addr = 0))
    (h4 : addr = 0 ∨ PAGE_ALIGNED K addr = true)
    (h5 : u32add addr len ≤ K.USER_MEM_HIGH) :
    (flags &&& K.MAP_PRIVATE = 0 ∧ flags &&& K.MAP_SHARED = 0 →
      validate_mmap_args K M addr len prot flags off = -(K.EINVAL : Int)) ∧
    (flags &&& K.MAP_PRIVATE ≠ 0 ∨ flags &&& K.MAP_SHARED ≠ 0 →
      validate_mmap_args K M addr len prot flags off = 0) := by
  have c1 : ¬ ¬ (PAGE_ALIGNED K off = true) := not_not.mpr h1
  have c4 : ¬ (addr ≠ 0 ∧ ¬ PAGE_ALIGNED K addr = true) := by
    rintro ⟨a, b⟩
    rcases h4 with h | h
    · exact a h
    · exact b h
  have c5 : ¬ (u32add addr len > K.USER_MEM_HIGH) := by omega
  unfold validate_mmap_args
  rw [if_neg c1, if_neg h2, if_neg h3, if_neg c4, if_neg c5]
  constructor
  · rintro ⟨a, b⟩
    rw [if_pos ⟨by simp [a], by simp [b]⟩]
  · intro h
    rw [if_neg]
    rintro ⟨a, b⟩
    rcases h with h | h
    · exact a h
    · exact b h

/-- C21 fails: `validate_mmap_args` accepts a flags value with both `MAP_SHARED` and
`MAP_PRIVATE` set.  Its test is `!(flags & MAP_PRIVATE) && !(flags & MAP_SHARED)`, which
rejects the flags with neither bit only: for arguments that pass the other tests the function
returns `-EINVAL` when neither bit is set and 0 when at least one is, so with both set it
returns 0.  At the constants of the build a one-page request at a null address with flags 3
(both bits) is accepted, as flags 1 and flags 2 are, and flags 0 are rejected. -/
theorem validate_mmap_args_accepts_both :
    (∀ (K : KParams) (M : MmapParams) (addr len prot flags off : Nat),
      PAGE_ALIGNED K off = true → len ≠ 0 → ¬ (flags &&& M.MAP_FIXED ≠ 0 ∧ addr = 0) →
      (addr = 0 ∨ PAGE_ALIGNED K addr = true) → u32add addr len ≤ K.USER_MEM_HIGH →
      (flags &&& K.MAP_PRIVATE = 0 ∧ flags &&& K.MAP_SHARED = 0 →
        validate_mmap_args K M addr len prot flags off = -(K.EINVAL : Int)) ∧
      (flags &&& K.MAP_PRIVATE ≠ 0 ∧ flags &&& K.MAP_SHARED ≠ 0 →
        validate_mmap_args K M addr len prot flags off = 0) ∧
      (flags &&& K.MAP_PRIVATE ≠ 0 ∨ flags &&& K.MAP_SHARED ≠ 0 →
        validate_mmap_args K M addr len prot flags off = 0)) ∧
    3 &&& exK.MAP_SHARED ≠ 0 ∧ 3 &&& exK.MAP_PRIVATE ≠ 0 ∧
    PAGE_ALIGNED exK 0 = true ∧ (4096 : Nat) ≠ 0 ∧ 3 &&& exM.MAP_FIXED = 0 ∧
    u32add 0 4096 ≤ exK.USER_MEM_HIGH ∧
    validate_mmap_args exK exM 0 4096 3 3 0 = 0 ∧
    validate_mmap_args exK exM 0 4096 3 1 0 = 0 ∧
    validate_mmap_args exK exM 0 4096 3 2 0 = 0 ∧
    validate_mmap_args exK exM 0 4096 3 0 0 = -(exK.EINVAL : Int) := by
  refine ⟨?_, by decide, by decide, by decide, by decide, by decide, by decide, by decide,
    by decide, by decide, by decide⟩
  intro K M addr len prot flags off h1 h2 h3 h4 h5
  have h := validate_mmap_args_flags_cases K M addr len prot flags off h1 h2 h3 h4 h5
  exact ⟨h.1, fun hb => h.2 (Or.inl hb.1), h.2⟩

/-- C22 fails: `validate_mmap_args` adds `addr` and `len` in 32 bits, and the sum wraps.
With `addr = 0xfffff000` (page-aligned, above `USER_MEM_HIGH`) and `len = 0x2000` the sum in
32 bits is `0x1000`, the function returns 0, and `addr + len` as integers is above
`USER_MEM_HIGH`.  In general the function returns 0 only if the wrapped sum is at most
`USER_MEM_HIGH`. -/
theorem validate_mmap_args_range_wraps :
    (∀ (K : KParams) (M : MmapParams) (addr len prot flags off : Nat),
      validate_mmap_args K M addr len prot flags off = 0 → 0 < K.EINVAL →
      (addr + len) % U32 ≤ K.USER_MEM_HIGH) ∧
    0xfffff000 < U32 ∧ 0x2000 < U32 ∧ PAGE_ALIGNED exK 0xfffff000 = true ∧
    validate_mmap_args exK exM 0xfffff000 0x2000 3 2 0 = 0 ∧
    0xfffff000 + 0x2000 > exK.USER_MEM_HIGH := by
  refine ⟨?_, by decide, by decide, by decide, by decide, by decide⟩
  intro K M addr len prot flags off h hE
  unfold validate_mmap_args at h
  have hne : -(K.EINVAL : Int) ≠ 0 := by omega
  split_ifs at h with a b c d e f
  all_goals first
    | exact absurd h hne
    | (unfold u32add at e; omega)

/-! ## `vmmap_map` and failure -/

/-- C23 fails for the `mmap` operation of the file: `vmmap_map` does not read the value the
operation returns (the test is commented out), and it calls the operation after
`vmmap_remove` and `vmmap_insert`.  The only negative value `vmmap_map` returns is that of
`vmmap_find_range`, and then map, heap and calls are as they were.  With an operation that
returns -12, on `exMap1` and the shared mapping of page 1025: when the word left in `o` is
the address of object 1 the call returns 0, the area [1024, 1027) has been split and the new
area bound to that word; when it is `NULL` the kernel panics. -/
theorem vmmap_map_file_error :
    (∀ (K : KParams) (T : OpsCalls) (fuel w : Nat) (map : vmmap) (st : VMState)
        (file : Option (VMState → Int × Option Nat × VMState))
        (lopage npages prot flags off : Nat) (dir : Int) (r : MapResult),
      vmmap_map K T fuel w map st file lopage npages prot flags off dir = Res.ok r →
      r.ret < 0 →
      lopage = 0 ∧ r.ret = vmmap_find_range K w map npages dir ∧ r.map = map ∧ r.st = st ∧
        r.calls = [] ∧ r.new = none) ∧
    (∃ r, vmmap_map exK (mmo_ops_at exK 1) 2 0 exMap1 exHeap (some (fun s => (-12, some 1, s)))
        1025 1 3 1 0 0 = Res.ok r ∧
      r.ret = 0 ∧
      r.map.vmm_list = [exArea 1024 1025 0 1,
        { vma_start := 1025, vma_end := 1026, vma_off := 0, vma_prot := 3, vma_flags := 1,
          vma_vmmap := some 7, vma_obj := some 1 },
        exArea 1026 1027 2 1]) ∧
    vmmap_map exK (mmo_ops_at exK 1) 2 0 exMap1 exHeap (some (fun s => (-12, none, s)))
      1025 1 3 1 0 0 = Res.panic := by
  refine ⟨?_, ⟨_, rfl, rfl, rfl⟩, rfl⟩
  intro K T fuel w map st file lopage npages prot flags off dir r h hneg
  rw [vmmap_map_eq_settle] at h
  obtain ⟨x, hs, h⟩ := Res.bind_eq_ok h
  obtain ⟨ret, map1, st1, tr, p⟩ := x
  simp only [] at h
  split_ifs at h with c
  · simp only [Res.ok.injEq] at h
    subst h
    -- the first half returned a negative value: it came from `vmmap_find_range`
    unfold vmmap_map_settle at hs
    by_cases ha : vmmap_map_asserts K lopage npages flags off
    swap
    · rw [if_pos ha] at hs
      cases hs
    rw [if_neg (not_not.mpr ha)] at hs
    by_cases h0 : lopage = 0
    · rw [if_pos h0] at hs
      simp only [] at hs
      by_cases h1 : vmmap_find_range K w map npages dir < 0
      · rw [if_pos h1] at hs
        simp only [Res.ok.injEq, Prod.mk.injEq] at hs
        exact ⟨h0, hs.1.symm, rfl, rfl, rfl, rfl⟩
      · rw [if_neg h1] at hs
        simp only [Res.ok.injEq, Prod.mk.injEq] at hs
        omega
    · rw [if_neg h0] at hs
      by_cases hre : vmmap_is_range_empty_asserts K lopage npages
      swap
      · rw [if_pos hre] at hs
        cases hs
      rw [if_neg (not_not.mpr hre)] at hs
      by_cases h2 : vmmap_is_range_empty map lopage npages = 0
      · rw [if_pos h2] at hs
        split at hs
        · simp at hs
        · obtain ⟨y, _, hs⟩ := Res.bind_eq_ok hs
          simp only [Res.ok.injEq, Prod.mk.injEq] at hs
          omega
      · rw [if_neg h2] at hs
        simp only [Res.ok.injEq, Prod.mk.injEq] at hs
        omega
  · obtain ⟨_, _, _, h0, _⟩ := vmmap_map_area_new K T file map1 st1 tr p npages prot flags off r h
    omega

/-- The test of `handle_pagefault` on the cause and the protection, case by case. -/
theorem pagefault_denied_iff (P : PfParams) (cause prot : Nat) :
    pagefault_denied P cause prot ↔
      ((cause &&& P.FAULT_WRITE ≠ 0 ∧ prot &&& P.PROT_WRITE = 0) ∨
       (cause &&& P.FAULT_EXEC ≠ 0 ∧ prot &&& P.PROT_EXEC = 0) ∨
       (cause &&& P.FAULT_WRITE = 0 ∧ cause &&& P.FAULT_EXEC = 0 ∧
          prot &&& P.PROT_READ = 0)) := by
  unfold pagefault_denied
  by_cases h1 : cause &&& P.FAULT_WRITE = 0 <;> by_cases h2 : cause &&& P.FAULT_EXEC = 0 <;>
    by_cases h3 : prot &&& P.PROT_WRITE = 0 <;> by_cases h4 : prot &&& P.PROT_EXEC = 0 <;>
    by_cases h5 : prot &&& P.PROT_READ = 0 <;> simp [h1, h2, h3, h4, h5]

/-- A flag word of `pt_map` has the write bit exactly when the access is a write. -/
theorem write_bit_iff (A W : Nat) (w : Prop) [Decidable w] (hW : W ≠ 0) (hA : A &&& W = 0) :
    ((A ||| (if w then W else 0)) &&& W ≠ 0 ↔ w) := by
  by_cases h : w
  · simp only [h, if_true, iff_true]
    rw [Nat.and_distrib_right, hA, Nat.and_self, Nat.zero_or]
    exact hW
  · simp only [h, if_false, iff_false, Nat.or_zero, not_not]
    exact hA

/-- C24 holds for `handle_pagefault`: the fault ends in `do_exit(EFAULT)` with no call of
`pframe_lookup` and no `pt_map` if and only if no area contains the faulting page, or the
cause has `FAULT_WRITE` and the area has no `PROT_WRITE`, or the cause has `FAULT_EXEC` and
the area has no `PROT_EXEC`, or the cause has neither and the area has no `PROT_READ`; the
heap is then unchanged; and when `pframe_lookup` returns an error the fault ends in
`do_exit(EFAULT)` as well. -/
theorem handle_pagefault_efault (K : KParams) (P : PfParams) (T : OpsCalls)
    (virt_to_phys : Nat → Nat) (map : vmmap) (st : VMState) (vaddr cause : Nat) :
    ((∃ r, handle_pagefault K P T virt_to_phys map st vaddr cause = Res.ok r ∧
        r.outcome = PfOutcome.exited P.EFAULT ∧ r.lookups = []) ↔
      ((∀ a ∈ map.vmm_list, ¬ (a.vma_start ≤ ADDR_TO_PN K vaddr ∧
          ADDR_TO_PN K vaddr < a.vma_end)) ∨
       ∃ a, vmmap_lookup map (ADDR_TO_PN K vaddr) = some a ∧
        ((cause &&& P.FAULT_WRITE ≠ 0 ∧ a.vma_prot &&& P.PROT_WRITE = 0) ∨
         (cause &&& P.FAULT_EXEC ≠ 0 ∧ a.vma_prot &&& P.PROT_EXEC = 0) ∨
         (cause &&& P.FAULT_WRITE = 0 ∧ cause &&& P.FAULT_EXEC = 0 ∧
            a.vma_prot &&& P.PROT_READ = 0)))) ∧
    (∀ r, handle_pagefault K P T virt_to_phys map st vaddr cause = Res.ok r →
      r.lookups = [] → r.outcome = PfOutcome.exited P.EFAULT ∧ r.st = st) ∧
    (∀ a, vmmap_lookup map (ADDR_TO_PN K vaddr) = some a →
      ¬ pagefault_denied P cause a.vma_prot →
      ∀ x, pframe_lookup T st a.vma_obj
          (u32add (u32sub (ADDR_TO_PN K vaddr) a.vma_start) a.vma_off)
          (if cause &&& P.FAULT_WRITE ≠ 0 then 1 else 0) = Res.ok x → x.1 < 0 →
        ∃ r, handle_pagefault K P T virt_to_phys map st vaddr cause = Res.ok r ∧
          r.outcome = PfOutcome.exited P.EFAULT ∧ r.st = x.2.2) := by
  have hL := vmmap_lookup_cases map (ADDR_TO_PN K vaddr)
  have key : ∀ r, handle_pagefault K P T virt_to_phys map st vaddr cause = Res.ok r →
      r.lookups = [] →
      (vmmap_lookup map (ADDR_TO_PN K vaddr) = none ∨
        ∃ a, vmmap_lookup map (ADDR_TO_PN K vaddr) = some a ∧
          pagefault_denied P cause a.vma_prot) ∧
      r.outcome = PfOutcome.exited P.EFAULT ∧ r.st = st := by
    intro r hr hl
    unfold handle_pagefault at hr
    cases hlk : vmmap_lookup map (ADDR_TO_PN K vaddr) with
    | none =>
      rw [hlk] at hr
      simp only [Res.ok.injEq] at hr
      subst hr
      exact ⟨Or.inl rfl, rfl, rfl⟩
    | some a =>
      rw [hlk] at hr
      simp only at hr
      by_cases hd : pagefault_denied P cause a.vma_prot
      · rw [if_pos hd] at hr
        simp only [Res.ok.injEq] at hr
        subst hr
        exact ⟨Or.inr ⟨a, rfl, hd⟩, rfl, rfl⟩
      · rw [if_neg hd] at hr
        exfalso
        obtain ⟨x, -, hx⟩ := Res.bind_eq_ok hr
        by_cases hneg : x.1 < 0
        · rw [if_pos hneg] at hx
          simp only [Res.ok.injEq] at hx
          subst hx
          simp at hl
        · rw [if_neg hneg] at hx
          cases hpf : x.2.1 with
          | none => rw [hpf] at hx; cases hx
          | some pf =>
            rw [hpf] at hx
            simp only at hx
            by_cases h0 : pf.pf_addr = 0
            · rw [if_pos h0] at hx; cases hx
            · rw [if_neg h0] at hx
              simp only [Res.ok.injEq] at hx
              subst hx
              simp at hl
  refine ⟨⟨?_, ?_⟩, ?_, ?_⟩
  · rintro ⟨r, hr, -, hl⟩
    rcases (key r hr hl).1 with hn | ⟨a, ha, hd⟩
    · left
      intro a ha hin
      obtain ⟨b, hb, -⟩ := hL.1 ⟨a, ha, hin⟩
      rw [hn] at hb
      cases hb
    · right
      exact ⟨a, ha, (pagefault_denied_iff P cause a.vma_prot).mp hd⟩
  · rintro (hno | ⟨a, ha, hd⟩)
    · have hn : vmmap_lookup map (ADDR_TO_PN K vaddr) = none := by
        apply hL.2.1
        rintro ⟨a, ha, hin⟩
        exact hno a ha hin
      refine ⟨{ outcome := PfOutcome.exited P.EFAULT, lookups := [], st := st }, ?_, rfl, rfl⟩
      unfold handle_pagefault
      rw [hn]
    · refine ⟨{ outcome := PfOutcome.exited P.EFAULT, lookups := [], st := st }, ?_, rfl, rfl⟩
      unfold handle_pagefault
      rw [ha]
      simp only
      rw [if_pos ((pagefault_denied_iff P cause a.vma_prot).mpr hd)]
  · intro r hr hl
    exact (key r hr hl).2
  · intro a ha hd x hx hneg
    refine ⟨{ outcome := PfOutcome.exited P.EFAULT,
              lookups := [(a.vma_obj,
                u32add (u32sub (ADDR_TO_PN K vaddr) a.vma_start) a.vma_off,
                if cause &&& P.FAULT_WRITE ≠ 0 then 1 else 0)],
              st := x.2.2 }, ?_, rfl, rfl⟩
    unfold handle_pagefault
    rw [ha]
    simp only
    rw [if_neg hd, hx]
    simp only [Res.bind]
    rw [if_pos hneg]

/-- C25 holds for `handle_pagefault`: on a permitted fault it calls `pframe_lookup` once, on
the object of the area, with page index `(ADDR_TO_PN(vaddr) - vma_start) + vma_off` and
`forwrite` the `FAULT_WRITE` bit of the cause; when that returns a frame, the translation
goes from the page-aligned address to the physical address of the frame, the write bits of
both flag words are set exactly on a write fault, and the frame is pinned, dirtied and
unpinned on a write fault and left as the lookup returned it otherwise. -/
theorem handle_pagefault_maps (K : KParams) (P : PfParams) (T : OpsCalls)
    (virt_to_phys : Nat → Nat) (map : vmmap) (st st1 : VMState) (vaddr cause : Nat)
    (a : vmarea) (rc : Int) (pf : pframe)
    (harea : vmmap_lookup map (ADDR_TO_PN K vaddr) = some a)
    (hperm : ¬ pagefault_denied P cause a.vma_prot)
    (hlook : pframe_lookup T st a.vma_obj
        (u32add (u32sub (ADDR_TO_PN K vaddr) a.vma_start) a.vma_off)
        (if cause &&& P.FAULT_WRITE ≠ 0 then 1 else 0) = Res.ok (rc, some pf, st1))
    (hrc : 0 ≤ rc) (haddr : pf.pf_addr ≠ 0)
    (hPD : P.PD_WRITE ≠ 0 ∧ (P.PD_PRESENT ||| P.PD_USER) &&& P.PD_WRITE = 0)
    (hPT : P.PT_WRITE ≠ 0 ∧ (P.PT_PRESENT ||| P.PT_USER) &&& P.PT_WRITE = 0) :
    ∃ pdflags ptflags,
      handle_pagefault K P T virt_to_phys map st vaddr cause =
        Res.ok
          { outcome := PfOutcome.mapped (PAGE_ALIGN_DOWN K vaddr) (virt_to_phys pf.pf_addr)
              pdflags ptflags
            lookups := [(a.vma_obj, u32add (u32sub (ADDR_TO_PN K vaddr) a.vma_start) a.vma_off,
              if cause &&& P.FAULT_WRITE ≠ 0 then 1 else 0)]
            st := if cause &&& P.FAULT_WRITE ≠ 0
              then pframe_unpin (pframe_dirty (pframe_pin st1 pf) pf) pf else st1 } ∧
      pdflags = (P.PD_PRESENT ||| P.PD_USER |||
        (if cause &&& P.FAULT_WRITE ≠ 0 then P.PD_WRITE else 0)) ∧
      ptflags = (P.PT_PRESENT ||| P.PT_USER |||
        (if cause &&& P.FAULT_WRITE ≠ 0 then P.PT_WRITE else 0)) ∧
      (pdflags &&& P.PD_WRITE ≠ 0 ↔ cause &&& P.FAULT_WRITE ≠ 0) ∧
      (ptflags &&& P.PT_WRITE ≠ 0 ↔ cause &&& P.FAULT_WRITE ≠ 0) := by
  refine ⟨_, _, ?_, rfl, rfl, write_bit_iff _ _ _ hPD.1 hPD.2, write_bit_iff _ _ _ hPT.1 hPT.2⟩
  unfold handle_pagefault
  rw [harea]
  simp only
  rw [if_neg hperm, hlook]
  simp only [Res.bind]
  rw [if_neg (not_lt.mpr hrc), if_neg haddr]
  by_cases hw : cause &&& P.FAULT_WRITE = 0
  · simp [hw]
  · simp [hw]

/-- A write fault and a read fault at page 1025 of `exMap1`, in the heap `exHeap`. -/
theorem handle_pagefault_maps_witness :
    (∃ pdflags ptflags,
      handle_pagefault exK exP (mmo_ops_at exK 2) id exMap1 exHeap 4198405 2 =
        Res.ok
          { outcome := PfOutcome.mapped 4198400 100 pdflags ptflags
            lookups := [(some 1, 1, 1)]
            st := pframe_unpin (pframe_dirty (pframe_pin exFaultHeap exFaultFrame)
              exFaultFrame) exFaultFrame } ∧
      pdflags = 7 ∧ ptflags = 7 ∧
      (pdflags &&& 2 ≠ 0 ↔ 2 &&& 2 ≠ 0) ∧ (ptflags &&& 2 ≠ 0 ↔ 2 &&& 2 ≠ 0)) ∧
    (∃ pdflags ptflags,
      handle_pagefault exK exP (mmo_ops_at exK 2) id exMap1 exHeap 4198405 0 =
        Res.ok
          { outcome := PfOutcome.mapped 4198400 100 pdflags ptflags
            lookups := [(some 1, 1, 0)]
            st := exFaultHeap } ∧
      pdflags = 5 ∧ ptflags = 5 ∧
      (pdflags &&& 2 ≠ 0 ↔ 0 &&& 2 ≠ 0) ∧ (ptflags &&& 2 ≠ 0 ↔ 0 &&& 2 ≠ 0)) :=
  ⟨handle_pagefault_maps exK exP (mmo_ops_at exK 2) id exMap1 exHeap exFaultHeap 4198405 2
      (exArea 1024 1027 0 1) 0 exFaultFrame rfl (by decide) rfl (by decide) (by decide)
      (by decide) (by decide),
   handle_pagefault_maps exK exP (mmo_ops_at exK 2) id exMap1 exHeap exFaultHeap 4198405 0
      (exArea 1024 1027 0 1) 0 exFaultFrame rfl (by decide) rfl (by decide) (by decide)
      (by decide) (by decide)⟩

theorem PAGE_SIZE_pos (K : KParams) : 0 < PAGE_SIZE K := by
  unfold PAGE_SIZE
  exact Nat.pos_pow_of_pos _ (by decide)

/-- The page of an address rounded up, when the rounding stays within 32 bits. -/
theorem ADDR_TO_PN_PAGE_ALIGN_UP (K : KParams) (x : Nat)
    (h : x + PAGE_SIZE K ≤ U32) :
    ADDR_TO_PN K (PAGE_ALIGN_UP K x) = (x + (PAGE_SIZE K - 1)) / PAGE_SIZE K := by
  have hp := PAGE_SIZE_pos K
  unfold ADDR_TO_PN PAGE_ALIGN_UP
  rw [Nat.mod_eq_of_lt (by omega), Nat.mul_div_cancel _ hp]

theorem ADDR_TO_PN_PAGE_ALIGN_UP_ge (K : KParams) (x : Nat) (h : x + PAGE_SIZE K ≤ U32) :
    ADDR_TO_PN K x ≤ ADDR_TO_PN K (PAGE_ALIGN_UP K x) := by
  rw [ADDR_TO_PN_PAGE_ALIGN_UP K x h]
  unfold ADDR_TO_PN
  exact Nat.div_le_div_right (by omega)

theorem ADDR_TO_PN_mono (K : KParams) {x y : Nat} (h : x ≤ y) :
    ADDR_TO_PN K x ≤ ADDR_TO_PN K y := Nat.div_le_div_right h

theorem ADDR_TO_PN_PAGE_ALIGN_UP_lt (K : KParams) (x : Nat) :
    ADDR_TO_PN K (PAGE_ALIGN_UP K x) < U32 := by
  have hp := PAGE_SIZE_pos K
  unfold ADDR_TO_PN PAGE_ALIGN_UP
  rw [Nat.mul_div_cancel _ hp]
  exact lt_of_le_of_lt (Nat.div_le_self _ _) (Nat.mod_lt _ (by decide))

/-- On a well-formed list `vmmap_lookup` finds the area that contains the page. -/
theorem vmmap_lookup_mid (map : vmmap) (pre post : List vmarea) (vma : vmarea) (vfn : Nat)
    (hwf : WellFormed map.vmm_list) (hl : map.vmm_list = pre ++ vma :: post)
    (hin : vma.vma_start ≤ vfn ∧ vfn < vma.vma_end) :
    vmmap_lookup map vfn = some vma := by
  have hL := vmmap_lookup_cases map vfn
  have hmem : vma ∈ map.vmm_list := by rw [hl]; simp
  obtain ⟨a, ha, -⟩ := hL.1 ⟨vma, hmem, hin⟩
  rw [ha, hL.2.2 hwf a ha vma hmem hin.1 hin.2]

/-- The areas before and after an area of a well-formed list lie below and above it. -/
theorem wellFormed_mid {pre post : List vmarea} {vma : vmarea}
    (hwf : WellFormed (pre ++ vma :: post)) :
    (∀ a ∈ pre, a.vma_start < a.vma_end ∧ a.vma_end ≤ vma.vma_start) ∧
    (∀ a ∈ post, a.vma_start < a.vma_end ∧ vma.vma_end ≤ a.vma_start) ∧
    vma.vma_start < vma.vma_end := by
  rw [wellFormed_iff] at hwf
  obtain ⟨ho, hne⟩ := hwf
  unfold Ordered at ho
  rw [List.pairwise_append] at ho
  obtain ⟨-, h2, h3⟩ := ho
  rw [List.pairwise_cons] at h2
  refine ⟨fun a ha => ⟨hne a (by simp [ha]), h3 a ha vma (by simp)⟩,
    fun a ha => ⟨hne a (by simp [ha]), h2.1 a ha⟩, hne vma (by simp)⟩

theorem vma_set_end_mid (vfn cur_end : Nat) (pre post : List vmarea) (vma : vmarea)
    (hpre : ∀ a ∈ pre, ¬ (a.vma_start ≤ vfn ∧ a.vma_end > vfn))
    (hin : vma.vma_start ≤ vfn ∧ vma.vma_end > vfn) :
    vma_set_end vfn cur_end (pre ++ vma :: post)
      = pre ++ { vma with vma_end := cur_end } :: post := by
  induction pre with
  | nil => simp [vma_set_end, hin]
  | cons a rest ih =>
    have ha := hpre a (by simp)
    have e := ih (fun q hq => hpre q (by simp [hq]))
    simp only [List.cons_append, vma_set_end, if_neg ha]
    exact congrArg _ e

theorem page_mapped_append (xs ys : List vmarea) (p : Nat) :
    page_mapped (xs ++ ys) p ↔ page_mapped xs p ∨ page_mapped ys p := by
  unfold page_mapped
  constructor
  · rintro ⟨a, ha, h⟩
    rcases List.mem_append.mp ha with h1 | h1
    · exact Or.inl ⟨a, h1, h⟩
    · exact Or.inr ⟨a, h1, h⟩
  · rintro (⟨a, ha, h⟩ | ⟨a, ha, h⟩)
    · exact ⟨a, List.mem_append.mpr (Or.inl ha), h⟩
    · exact ⟨a, List.mem_append.mpr (Or.inr ha), h⟩

theorem page_mapped_cons (a : vmarea) (ys : List vmarea) (p : Nat) :
    page_mapped (a :: ys) p ↔ (a.vma_start ≤ p ∧ p < a.vma_end) ∨ page_mapped ys p := by
  unfold page_mapped
  simp

/-- The pages mapped after the end of one area of a well-formed list moved to `ce`, the
area being removed when `ce` is its start. -/
theorem page_mapped_moved_end (pre post : List vmarea) (vma : vmarea) (ce p : Nat)
    (hwf : WellFormed (pre ++ vma :: post)) (hce : vma.vma_start ≤ ce) :
    page_mapped (if vma.vma_start < ce then pre ++ { vma with vma_end := ce } :: post
        else pre ++ post) p ↔
      (page_mapped (pre ++ vma :: post) p ∧ ¬ (ce ≤ p ∧ p < vma.vma_end)) ∨
      (vma.vma_end ≤ p ∧ p < ce) := by
  obtain ⟨hpre, hpost, hv⟩ := wellFormed_mid hwf
  have hA : page_mapped pre p → p < vma.vma_start := by
    rintro ⟨a, ha, h1, h2⟩
    have := hpre a ha
    omega
  have hB : page_mapped post p → vma.vma_end ≤ p := by
    rintro ⟨a, ha, h1, h2⟩
    have := hpost a ha
    omega
  by_cases hs : vma.vma_start < ce
  · rw [if_pos hs]
    simp only [page_mapped_append, page_mapped_cons]
    constructor
    · rintro (h | h | h)
      · left
        exact ⟨Or.inl h, by have := hA h; omega⟩
      · by_cases hp : p < vma.vma_end
        · left
          exact ⟨Or.inr (Or.inl ⟨h.1, hp⟩), by omega⟩
        · right
          omega
      · left
        exact ⟨Or.inr (Or.inr h), by have := hB h; omega⟩
    · rintro (⟨h | h | h, hn⟩ | h)
      · exact Or.inl h
      · right; left
        omega
      · exact Or.inr (Or.inr h)
      · right; left
        omega
  · rw [if_neg hs]
    simp only [page_mapped_append, page_mapped_cons]
    constructor
    · rintro (h | h)
      · left
        exact ⟨Or.inl h, by have := hA h; omega⟩
      · left
        exact ⟨Or.inr (Or.inr h), by have := hB h; omega⟩
    · rintro (⟨h | h | h, hn⟩ | h)
      · exact Or.inl h
      · omega
      · exact Or.inr h
      · omega

/-- What `vmmap_remove` leaves of a well-formed list when the range is the tail
`[ce, vma_end)` of one of its areas. -/
theorem remove_areas_tail (mapaddr ce : Nat) (pre post : List vmarea) (vma : vmarea)
    (hwf : WellFormed (pre ++ vma :: post)) (hce : vma.vma_start ≤ ce)
    (hlt : ce < vma.vma_end) :
    remove_areas mapaddr ce (vma.vma_end - ce) (pre ++ vma :: post)
      = (if vma.vma_start < ce then pre ++ { vma with vma_end := ce } :: post
          else pre ++ post) ∧
    remove_calls ce (vma.vma_end - ce) (pre ++ vma :: post)
      = (if vma.vma_start < ce then [] else [KCall.put vma.vma_obj]) := by
  obtain ⟨hpre, hpost, hv⟩ := wellFormed_mid hwf
  have e : ce + (vma.vma_end - ce) = vma.vma_end := by omega
  have h1 := remove_areas_untouched mapaddr ce (vma.vma_end - ce) pre
    (fun a ha => (hpre a ha).1) (fun a ha => Or.inl (by have := hpre a ha; omega))
  have h2 := remove_areas_untouched mapaddr ce (vma.vma_end - ce) post
    (fun a ha => (hpost a ha).1) (fun a ha => Or.inr (by have := hpost a ha; omega))
  have e2 : pre ++ vma :: post = pre ++ ([vma] ++ post) := by simp
  rw [e2, remove_areas_append, remove_areas_append, remove_calls_append, remove_calls_append,
    h1.1, h1.2, h2.1, h2.2]
  simp only [remove_areas, remove_calls, remove_area, remove_area_calls, e, List.append_nil,
    List.nil_append]
  by_cases hs : vma.vma_start < ce
  · simp [hs, hlt]
  · have hle : ce ≤ vma.vma_start := by omega
    simp [hs, hle]

/-- C26 holds for `do_brk`: for a non-null `addr` below `p_start_brk` or above
`USER_MEM_HIGH`, and for a valid `addr` whose new end page lies above the end of the break
area while some area of the map holds a page between the two, `do_brk` returns `-ENOMEM`,
writes nothing to `*ret`, makes no call and leaves `p_brk` and the map, with the end of the
break area, as they were. -/
theorem do_brk_failure_atomic (K : KParams) (fuel : Nat) (proc : BrkProc) (addr : Nat)
    (hE : 0 < K.ENOMEM) (hnz : addr ≠ 0) :
    ((addr < proc.p_start_brk ∨ addr > K.USER_MEM_HIGH) →
      do_brk K fuel proc addr =
        Res.ok { ret := -(K.ENOMEM : Int), brk_out := none, proc := proc, calls := [] }) ∧
    (∀ vma, vmmap_lookup proc.p_vmmap (ADDR_TO_PN K proc.p_start_brk) = some vma →
      vma.vma_end < U32 →
      ¬ (addr < proc.p_start_brk ∨ addr > K.USER_MEM_HIGH) →
      (∃ b ∈ proc.p_vmmap.vmm_list, ∃ p, vma.vma_end ≤ p ∧
        p < ADDR_TO_PN K (PAGE_ALIGN_UP K addr) ∧ b.vma_start ≤ p ∧ p < b.vma_end) →
      do_brk K fuel proc addr =
        Res.ok { ret := -(K.ENOMEM : Int), brk_out := none, proc := proc, calls := [] }) := by
  have hneg : -(K.ENOMEM : Int) < 0 := by omega
  constructor
  · intro hbad
    unfold do_brk validate_brk_addr
    rw [if_neg hnz]
    simp only [if_pos hbad, hneg, if_true]
  · rintro vma hvma hend hgood ⟨b, hb, p, hp1, hp2, hp3, hp4⟩
    have hce := ADDR_TO_PN_PAGE_ALIGN_UP_lt K addr
    have hgrow : vma.vma_end < ADDR_TO_PN K (PAGE_ALIGN_UP K addr) := by omega
    have hsum : u32add vma.vma_end (u32sub (ADDR_TO_PN K (PAGE_ALIGN_UP K addr)) vma.vma_end)
        = ADDR_TO_PN K (PAGE_ALIGN_UP K addr) := by
      unfold u32add u32sub
      unfold U32 at *
      omega
    have hfull : vmmap_is_range_empty proc.p_vmmap vma.vma_end
        (u32sub (ADDR_TO_PN K (PAGE_ALIGN_UP K addr)) vma.vma_end) = 0 := by
      unfold vmmap_is_range_empty
      rw [vmmap_is_range_empty_loop_eq, hsum, if_pos]
      exact ⟨b, hb, by omega, by omega⟩
    unfold do_brk validate_brk_addr
    rw [if_neg hnz]
    simp only [if_neg hgood, lt_self_iff_false, if_false, hvma]
    rw [if_pos hgrow]
    simp only [expand_brk, hfull, if_true, hneg]

/-- A break below `p_start_brk`, and a break that would grow the area `[1024, 1030)` over
the area `[1040, 1060)`. -/
theorem do_brk_failure_atomic_witness :
    do_brk exK 5 exBrkProc 0x3ff000 =
      Res.ok { ret := -12, brk_out := none, proc := exBrkProc, calls := [] } ∧
    do_brk exK 5 exBrkProcTwo 0x411000 =
      Res.ok { ret := -12, brk_out := none, proc := exBrkProcTwo, calls := [] } :=
  ⟨(do_brk_failure_atomic exK 5 exBrkProc 0x3ff000 (by decide) (by decide)).1 (by decide),
   (do_brk_failure_atomic exK 5 exBrkProcTwo 0x411000 (by decide) (by decide)).2
      { vma_start := 1024, vma_end := 1030, vma_off := 0, vma_prot := 3, vma_flags := 1,
        vma_vmmap := some 7, vma_obj := some 1 } rfl (by decide) (by decide)
      ⟨{ vma_start := 1040, vma_end := 1060, vma_off := 0, vma_prot := 3, vma_flags := 1,
         vma_vmmap := some 7, vma_obj := some 2 }, by decide, 1040, by decide, by decide,
        by decide, by decide⟩⟩

/-- C27 fails when `addr` is `p_start_brk` and that is the first address of the break area:
`do_brk` returns 0 and removes the area `[1024, 1027)` from the map, so that no area
contains the page of `p_start_brk` any more. -/
theorem do_brk_removes_break_area :
    do_brk exK 5 exBrkProc 0x400000 =
      Res.ok
        { ret := 0, brk_out := some 0x400000
          proc := { p_brk := 0x400000, p_start_brk := 0x400000,
                    p_vmmap := { vmm_addr := 7, vmm_list := [], vmm_proc := none } }
          calls := [KCall.put (some 1), KCall.tlb_flush_all,
            KCall.pt_unmap_range 0x400000 0x403000] } ∧
    vmmap_lookup exBrkProc.p_vmmap (ADDR_TO_PN exK exBrkProc.p_start_brk) =
      some (exArea 1024 1027 0 1) ∧
    ADDR_TO_PN exK (PAGE_ALIGN_UP exK 0x400000) = 1024 := by
  refine ⟨by rfl, by rfl, by rfl⟩

/-- C27 amended: on a well-formed map whose area `vma` contains the page of `p_start_brk`,
for a non-null `addr` in `[p_start_brk, USER_MEM_HIGH]`, `do_brk` returns, with 0 or with
`-ENOMEM`; when it returns 0, `p_brk` and `*ret` are `addr`, the new end page
`ADDR_TO_PN(PAGE_ALIGN_UP(addr))` is not below the start of `vma`, the area `vma` ends at the
new end page when its start is below that page and is removed from the list when its start
is that page, the other areas are as they were, and the mapped pages are the pages mapped
before without those from the new end up to the old end, and with those from the old end up
to the new end. -/
theorem do_brk_success (K : KParams) (fuel : Nat) (proc : BrkProc) (addr : Nat)
    (pre post : List vmarea) (vma : vmarea)
    (hK : K.USER_MEM_HIGH + PAGE_SIZE K ≤ U32) (hE : 0 < K.ENOMEM)
    (hnz : addr ≠ 0) (hlo : proc.p_start_brk ≤ addr) (hhi : addr ≤ K.USER_MEM_HIGH)
    (hwf : WellFormed proc.p_vmmap.vmm_list)
    (hl : proc.p_vmmap.vmm_list = pre ++ vma :: post)
    (hin : vma.vma_start ≤ ADDR_TO_PN K proc.p_start_brk ∧
      ADDR_TO_PN K proc.p_start_brk < vma.vma_end)
    (hend : vma.vma_end < U32) (hf : proc.p_vmmap.vmm_list.length < fuel) :
    ∃ r, do_brk K fuel proc addr = Res.ok r ∧
      (r.ret = 0 ∨ (r.ret = -(K.ENOMEM : Int) ∧ r.proc = proc)) ∧
      (r.ret = 0 →
        r.brk_out = some addr ∧ r.proc.p_brk = addr ∧
        r.proc.p_start_brk = proc.p_start_brk ∧
        vma.vma_start ≤ ADDR_TO_PN K (PAGE_ALIGN_UP K addr) ∧
        r.proc.p_vmmap.vmm_list =
          (if vma.vma_start < ADDR_TO_PN K (PAGE_ALIGN_UP K addr) then
            pre ++ { vma with vma_end := ADDR_TO_PN K (PAGE_ALIGN_UP K addr) } :: post
           else pre ++ post) ∧
        ∀ p, page_mapped r.proc.p_vmmap.vmm_list p ↔
          (page_mapped proc.p_vmmap.vmm_list p ∧
            ¬ (ADDR_TO_PN K (PAGE_ALIGN_UP K addr) ≤ p ∧ p < vma.vma_end)) ∨
          (vma.vma_end ≤ p ∧ p < ADDR_TO_PN K (PAGE_ALIGN_UP K addr))) := by
  have hvma := vmmap_lookup_mid proc.p_vmmap pre post vma _ hwf hl hin
  have hce := ADDR_TO_PN_PAGE_ALIGN_UP_lt K addr
  have hge : vma.vma_start ≤ ADDR_TO_PN K (PAGE_ALIGN_UP K addr) := by
    have h1 := ADDR_TO_PN_PAGE_ALIGN_UP_ge K addr (by omega)
    have h2 := ADDR_TO_PN_mono K hlo
    omega
  have hwf2 : WellFormed (pre ++ vma :: post) := hl ▸ hwf
  obtain ⟨hpre, hpost, hv⟩ := wellFormed_mid hwf2
  have hgood : ¬ (addr < proc.p_start_brk ∨ addr > K.USER_MEM_HIGH) := by omega
  generalize hcedef : ADDR_TO_PN K (PAGE_ALIGN_UP K addr) = ce at hce hge
  have hpages := fun p => page_mapped_moved_end pre post vma ce p hwf2 hge
  have hstart : do_brk K fuel proc addr =
      if vma.vma_end < ce then
        (if (expand_brk K proc.p_vmmap (ADDR_TO_PN K proc.p_start_brk) vma.vma_end ce
              (u32sub ce vma.vma_end)).1 < 0 then
          Res.ok { ret := (expand_brk K proc.p_vmmap (ADDR_TO_PN K proc.p_start_brk)
                      vma.vma_end ce (u32sub ce vma.vma_end)).1,
                   brk_out := none, proc := proc, calls := [] }
        else
          Res.ok { ret := 0, brk_out := some addr,
                   proc := { proc with p_brk := addr, p_vmmap :=
                     (expand_brk K proc.p_vmmap (ADDR_TO_PN K proc.p_start_brk)
                      vma.vma_end ce (u32sub ce vma.vma_end)).2 }, calls := [] })
      else if vma.vma_end > ce then
        match vmmap_remove K fuel proc.p_vmmap ce (u32sub 0 (u32sub ce vma.vma_end)) with
        | none => Res.nofuel
        | some x =>
          Res.ok { ret := 0, brk_out := some addr,
                   proc := { proc with p_brk := addr, p_vmmap := x.2.1 }, calls := x.2.2 }
      else
        Res.ok { ret := 0, brk_out := some addr,
                 proc := { proc with p_brk := addr }, calls := [] } := by
    unfold do_brk validate_brk_addr
    rw [if_neg hnz]
    simp only [if_neg hgood, lt_self_iff_false, if_false, hvma, hcedef]
  rw [hstart]
  by_cases hgrow : vma.vma_end < ce
  · rw [if_pos hgrow]
    unfold expand_brk
    by_cases hfull : vmmap_is_range_empty proc.p_vmmap vma.vma_end (u32sub ce vma.vma_end) = 0
    · simp only [hfull, if_true]
      have hneg : -(K.ENOMEM : Int) < 0 := by omega
      rw [if_pos hneg]
      refine ⟨_, rfl, Or.inr ⟨rfl, rfl⟩, ?_⟩
      intro h0
      simp only at h0
      omega
    · simp only [hfull, if_false, lt_self_iff_false]
      refine ⟨_, rfl, Or.inl rfl, fun _ => ⟨rfl, rfl, rfl, hge, ?_, ?_⟩⟩
      · simp only
        rw [hl, vma_set_end_mid _ _ pre post vma
          (fun a ha => by have := hpre a ha; omega) ⟨hin.1, hin.2⟩, if_pos (by omega)]
      · intro p
        simp only
        rw [hl, vma_set_end_mid _ _ pre post vma
          (fun a ha => by have := hpre a ha; omega) ⟨hin.1, hin.2⟩]
        have := hpages p
        rw [if_pos (by omega)] at this
        exact this
  · rw [if_neg hgrow]
    by_cases hshrink : vma.vma_end > ce
    · rw [if_pos hshrink]
      have hn : u32sub 0 (u32sub ce vma.vma_end) = vma.vma_end - ce := by
        unfold u32sub
        unfold U32 at *
        omega
      have hrem := vmmap_remove_eq K proc.p_vmmap ce (vma.vma_end - ce) (by omega) hwf fuel hf
      have htail := remove_areas_tail proc.p_vmmap.vmm_addr ce pre post vma hwf2 hge hshrink
      rw [hn, hrem]
      refine ⟨_, rfl, Or.inl rfl, fun _ => ⟨rfl, rfl, rfl, hge, ?_, ?_⟩⟩
      · simp only
        rw [hl, htail.1]
      · intro p
        simp only
        rw [hl, htail.1]
        exact hpages p
    · rw [if_neg hshrink]
      have heq : vma.vma_end = ce := by omega
      have hsame : ({ vma with vma_end := ce } : vmarea) = vma := by
        rw [← heq]
      refine ⟨_, rfl, Or.inl rfl, fun _ => ⟨rfl, rfl, rfl, hge, ?_, ?_⟩⟩
      · simp only
        rw [hl, if_pos (by omega), hsame]
      · intro p
        simp only
        have := hpages p
        rw [if_pos (by omega), hsame] at this
        rw [hl]
        exact this

/-- The break of `exBrkProc` lowered from the end of page 1026 into page 1025: the area
`[1024, 1027)` ends at page 1026 afterwards. -/
theorem do_brk_success_witness :
    do_brk exK 5 exBrkProc 0x401800 =
      Res.ok
        { ret := 0, brk_out := some 0x401800
          proc := { p_brk := 0x401800, p_start_brk := 0x400000,
                    p_vmmap := { vmm_addr := 7, vmm_list := [exArea 1024 1026 0 1],
                                 vmm_proc := none } }
          calls := [KCall.tlb_flush_all, KCall.pt_unmap_range 0x402000 0x403000] } ∧
    ∃ r, do_brk exK 5 exBrkProc 0x401800 = Res.ok r ∧
      (r.ret = 0 ∨ (r.ret = -(exK.ENOMEM : Int) ∧ r.proc = exBrkProc)) ∧
      (r.ret = 0 →
        r.brk_out = some 0x401800 ∧ r.proc.p_brk = 0x401800 ∧
        r.proc.p_start_brk = exBrkProc.p_start_brk ∧
        (exArea 1024 1027 0 1).vma_start ≤ ADDR_TO_PN exK (PAGE_ALIGN_UP exK 0x401800) ∧
        r.proc.p_vmmap.vmm_list =
          (if (exArea 1024 1027 0 1).vma_start < ADDR_TO_PN exK (PAGE_ALIGN_UP exK 0x401800)
           then
            [] ++ { exArea 1024 1027 0 1 with
                    vma_end := ADDR_TO_PN exK (PAGE_ALIGN_UP exK 0x401800) } :: []
           else [] ++ []) ∧
        ∀ p, page_mapped r.proc.p_vmmap.vmm_list p ↔
          (page_mapped exBrkProc.p_vmmap.vmm_list p ∧
            ¬ (ADDR_TO_PN exK (PAGE_ALIGN_UP exK 0x401800) ≤ p ∧
              p < (exArea 1024 1027 0 1).vma_end)) ∨
          ((exArea 1024 1027 0 1).vma_end ≤ p ∧
            p < ADDR_TO_PN exK (PAGE_ALIGN_UP exK 0x401800))) :=
  ⟨by rfl,
   do_brk_success exK 5 exBrkProc 0x401800 [] [] (exArea 1024 1027 0 1) (by decide) (by decide)
    (by decide) (by decide) (by decide)
    (by rw [wellFormed_iff]; exact ⟨by simp [Ordered, exBrkProc, exMap1], by decide⟩)
    rfl (by decide) (by decide) (by decide)⟩

/-- C28 fails for a directory without a `lookup` operation: the test the documentation of
`lookup` describes ("If dir has no lookup(), return -ENOTDIR") is commented out, so `lookup`
calls through the `NULL` entry instead of returning `-ENOTDIR`; for a directory with the
operation it makes that one call and returns what the operation returns, with what the
operation stored in `*result`. -/
theorem lookup_missing_operation (F : VfsEnv) (d : Nat) (name : List Char) (len : Nat) :
    (F.vn_lookup d = none → lookup F (some d) name len = Res.panic) ∧
    (∀ op, F.vn_lookup d = some op →
      lookup F (some d) name len =
        Res.ok ((op (name.take len)).1, (op (name.take len)).2,
          [VCall.lookup d (name.take len)])) ∧
    lookup exVfs (some 4) ['x'] 1 = Res.panic ∧
    (∀ r, lookup exVfs (some 4) ['x'] 1 ≠ Res.ok (-(exVfs.ENOTDIR : Int), r)) := by
  refine ⟨?_, ?_, rfl, ?_⟩
  · intro h
    unfold lookup
    simp only [h]
  · intro op h
    unfold lookup
    simp only [h]
  · intro r h
    have e : lookup exVfs (some 4) ['x'] 1 = Res.panic := rfl
    rw [e] at h
    cases h

/-! ### The loops of `dir_namev` -/

theorem drop_takeWhile_length (p : Char → Bool) (l : List Char) :
    l.drop (l.takeWhile p).length = l.dropWhile p := by
  induction l with
  | nil => simp
  | cons a rest ih =>
    by_cases h : p a = true
    · rw [List.takeWhile_cons_of_pos h, List.dropWhile_cons_of_pos h]
      simpa using ih
    · rw [List.takeWhile_cons_of_neg h, List.dropWhile_cons_of_neg h]
      simp

theorem take_takeWhile_length (p : Char → Bool) (l : List Char) :
    l.take (l.takeWhile p).length = l.takeWhile p := by
  induction l with
  | nil => simp
  | cons a rest ih =>
    by_cases h : p a = true
    · rw [List.takeWhile_cons_of_pos h]
      simpa using ih
    · rw [List.takeWhile_cons_of_neg h]
      simp

/-- A pathname has no slash, or splits at its last slash. -/
theorem path_split (path : List Char) :
    (∀ c ∈ path, c ≠ '/') ∨
    ∃ pre suffix, path = pre ++ '/' :: suffix ∧ ∀ c ∈ suffix, c ≠ '/' := by
  induction path with
  | nil => left; simp
  | cons a rest ih =>
    rcases ih with h | ⟨pre, suffix, h1, h2⟩
    · by_cases ha : a = '/'
      · right
        exact ⟨[], rest, by simp [ha], h⟩
      · left
        intro c hc
        rcases List.mem_cons.mp hc with rfl | hc
        · exact ha
        · exact h c hc
    · right
      exact ⟨a :: pre, suffix, by simp [h1], h2⟩

theorem dir_index_limit_loop_none (path : List Char) (h : ∀ c ∈ path, c ≠ '/') (n : Nat) :
    dir_index_limit_loop path n = -1 := by
  induction n with
  | zero => rfl
  | succ n ih =>
    unfold dir_index_limit_loop
    have hc : path[n]? ≠ some '/' := by
      intro e
      exact h _ (List.getElem?_mem e) rfl
    rw [if_pos hc, ih]

theorem dir_index_limit_loop_split (pre suffix : List Char) (h : ∀ c ∈ suffix, c ≠ '/')
    (k : Nat) (hk : k ≤ suffix.length) :
    dir_index_limit_loop (pre ++ '/' :: suffix) (pre.length + 1 + k) = (pre.length : Int) := by
  induction k with
  | zero =>
    show dir_index_limit_loop (pre ++ '/' :: suffix) (pre.length + 1) = _
    unfold dir_index_limit_loop
    have e : (pre ++ '/' :: suffix)[pre.length]? = some '/' := by
      rw [List.getElem?_append_right (le_refl _)]
      simp
    simp [e]
  | succ k ih =>
    show dir_index_limit_loop (pre ++ '/' :: suffix) (pre.length + 1 + k + 1) = _
    unfold dir_index_limit_loop
    have hc : (pre ++ '/' :: suffix)[pre.length + 1 + k]? ≠ some '/' := by
      rw [List.getElem?_append_right (by omega)]
      have e1 : pre.length + 1 + k - pre.length = k + 1 := by omega
      rw [e1]
      simp only [List.getElem?_cons_succ]
      intro e
      exact h _ (List.getElem?_mem e) rfl
    rw [if_pos hc]
    exact ih (by omega)

theorem path_basename_none (path : List Char) (h : ∀ c ∈ path, c ≠ '/') :
    path_basename path = path ∧ path_dirname path = [] := by
  have hp : ∀ x ∈ path.reverse, (fun x => decide (x ≠ '/')) x = true := by
    intro x hx
    simpa using h x (List.mem_reverse.mp hx)
  unfold path_basename path_dirname
  rw [List.takeWhile_eq_self_iff.mpr hp, List.dropWhile_eq_nil_iff.mpr hp]
  simp

theorem path_basename_split (pre suffix : List Char) (h : ∀ c ∈ suffix, c ≠ '/') :
    path_basename (pre ++ '/' :: suffix) = suffix ∧
    path_dirname (pre ++ '/' :: suffix) = pre := by
  have hp : ∀ x ∈ suffix.reverse, (fun x => decide (x ≠ '/')) x = true := by
    intro x hx
    simpa using h x (List.mem_reverse.mp hx)
  have e : (pre ++ '/' :: suffix).reverse = suffix.reverse ++ '/' :: pre.reverse := by simp
  unfold path_basename path_dirname
  rw [e, List.takeWhile_append_of_pos hp, List.dropWhile_append_of_pos hp]
  simp

theorem skip_slash_eq (pre rest : List Char) (steps i : Nat) (hi : i ≤ pre.length)
    (hs : pre.length - i ≤ steps) :
    skip_slash (pre ++ rest) (pre.length : Int) steps i
      = i + ((pre.drop i).takeWhile (fun x => x = '/')).length := by
  induction steps generalizing i with
  | zero =>
    have e : pre.drop i = [] := List.drop_eq_nil_of_le (by omega)
    simp [skip_slash, e]
  | succ steps ih =>
    unfold skip_slash
    by_cases hlt : i < pre.length
    · have hd := List.drop_eq_getElem_cons hlt
      have hg : (pre ++ rest)[i]? = some pre[i] := by
        rw [List.getElem?_append_left hlt, List.getElem?_eq_getElem hlt]
      by_cases hc : pre[i] = '/'
      · have hcond : ((i : Int) < (pre.length : Int) ∧ (pre ++ rest)[i]? = some '/') := by
          refine ⟨by omega, ?_⟩
          rw [hg, hc]
        rw [if_pos hcond, ih (i + 1) (by omega) (by omega), hd,
          List.takeWhile_cons_of_pos (by simpa using hc)]
        simp only [List.length_cons]
        omega
      · have hcond : ¬ ((i : Int) < (pre.length : Int) ∧ (pre ++ rest)[i]? = some '/') := by
          rintro ⟨-, e⟩
          rw [hg] at e
          exact hc (Option.some.inj e)
        rw [if_neg hcond, hd, List.takeWhile_cons_of_neg (by simpa using hc)]
        simp
    · have hcond : ¬ ((i : Int) < (pre.length : Int) ∧ (pre ++ rest)[i]? = some '/') := by
        rintro ⟨e, -⟩
        omega
      have e : pre.drop i = [] := List.drop_eq_nil_of_le (by omega)
      rw [if_neg hcond, e]
      simp

theorem scan_name_eq (pre rest : List Char) (steps i : Nat) (hi : i ≤ pre.length)
    (hs : pre.length - i ≤ steps) :
    scan_name (pre ++ rest) (pre.length : Int) steps i
      = i + ((pre.drop i).takeWhile (fun x => x ≠ '/')).length := by
  induction steps generalizing i with
  | zero =>
    have e : pre.drop i = [] := List.drop_eq_nil_of_le (by omega)
    simp [scan_name, e]
  | succ steps ih =>
    unfold scan_name
    by_cases hlt : i < pre.length
    · have hd := List.drop_eq_getElem_cons hlt
      have hg : (pre ++ rest)[i]? = some pre[i] := by
        rw [List.getElem?_append_left hlt, List.getElem?_eq_getElem hlt]
      by_cases hc : pre[i] = '/'
      · have hcond : ¬ ((i : Int) < (pre.length : Int) ∧ (pre ++ rest)[i]? ≠ some '/') := by
          rintro ⟨-, e⟩
          rw [hg, hc] at e
          exact e rfl
        rw [if_neg hcond, hd, List.takeWhile_cons_of_neg (by simpa using hc)]
        simp
      · have hcond : ((i : Int) < (pre.length : Int) ∧ (pre ++ rest)[i]? ≠ some '/') := by
          refine ⟨by omega, ?_⟩
          rw [hg]
          intro e
          exact hc (Option.some.inj e)
        rw [if_pos hcond, ih (i + 1) (by omega) (by omega), hd,
          List.takeWhile_cons_of_pos (by simpa using hc)]
        simp only [List.length_cons]
        omega
    · have hcond : ¬ ((i : Int) < (pre.length : Int) ∧ (pre ++ rest)[i]? ≠ some '/') := by
        rintro ⟨e, -⟩
        omega
      have e : pre.drop i = [] := List.drop_eq_nil_of_le (by omega)
      rw [if_neg hcond, e]
      simp

theorem path_components_nil : path_components [] = [] := by
  rw [path_components]

theorem path_components_slash (s : List Char) :
    path_components ('/' :: s) = path_components s := by
  rw [path_components]
  simp

theorem path_components_name (c : Char) (s : List Char) (hc : c ≠ '/') :
    path_components (c :: s) =
      (c :: s.takeWhile (fun x => x ≠ '/')) ::
        path_components (s.dropWhile (fun x => x ≠ '/')) := by
  rw [path_components]
  simp [hc]

/-- Slashes at the head of a directory path do not change its components. -/
theorem path_components_dropWhile (s : List Char) :
    path_components (s.dropWhile (fun x => x = '/')) = path_components s := by
  induction s with
  | nil => simp
  | cons a rest ih =>
    by_cases ha : a = '/'
    · rw [List.dropWhile_cons_of_pos (by simpa using ha), ih, ha, path_components_slash]
    · rw [List.dropWhile_cons_of_neg (by simpa using ha)]

/-- A run of two slashes separates as one slash does. -/
theorem path_components_double_slash (xs ys : List Char) :
    path_components (xs ++ '/' :: '/' :: ys) = path_components (xs ++ '/' :: ys) := by
  suffices H : ∀ n (xs : List Char), xs.length = n →
      path_components (xs ++ '/' :: '/' :: ys) = path_components (xs ++ '/' :: ys) from
    H xs.length xs rfl
  intro n
  induction n using Nat.strong_induction_on with
  | _ n ih =>
    intro xs hn
    cases xs with
    | nil =>
      simp only [List.nil_append]
      rw [path_components_slash]
    | cons c cs =>
      simp only [List.cons_append]
      by_cases hc : c = '/'
      · rw [hc, path_components_slash, path_components_slash]
        exact ih cs.length (by simp at hn; omega) cs rfl
      · rw [path_components_name c _ hc, path_components_name c _ hc]
        by_cases hall : ∀ a ∈ cs, (fun x => decide (x ≠ '/')) a = true
        · rw [List.takeWhile_append_of_pos hall, List.takeWhile_append_of_pos hall,
            List.dropWhile_append_of_pos hall, List.dropWhile_append_of_pos hall]
          simp [path_components_slash]
        · have hne : ¬ ((cs.dropWhile (fun x => decide (x ≠ '/'))).isEmpty = true) := by
            rw [List.isEmpty_iff, List.dropWhile_eq_nil_iff]
            exact hall
          have hlen : ¬ ((cs.takeWhile (fun x => decide (x ≠ '/'))).length = cs.length) := by
            intro e
            apply hall
            rw [← List.takeWhile_eq_self_iff]
            have := List.takeWhile_append_dropWhile (fun x => decide (x ≠ '/')) cs
            have hd : (cs.dropWhile (fun x => decide (x ≠ '/'))).length = 0 := by
              have := congrArg List.length this
              simp only [List.length_append] at this
              omega
            rw [List.length_eq_zero] at hd
            rw [hd, List.append_nil] at this
            exact this
          simp only [List.takeWhile_append, List.dropWhile_append, if_neg hne, if_neg hlen]
          have hshort : (cs.dropWhile (fun x => decide (x ≠ '/'))).length < n := by
            have := (List.dropWhile_sublist (l := cs) (fun x => decide (x ≠ '/'))).length_le
            simp at hn
            omega
          rw [ih _ hshort _ rfl]

/-- The function `lookup` reads the `len` characters at `name` only. -/
theorem lookup_take (F : VfsEnv) (dir : Option Nat) (name : List Char) (len : Nat) :
    lookup F dir name len = lookup F dir (name.take len) (name.take len).length := by
  unfold lookup
  simp only [List.take_length]

theorem resolve_components_nil (F : VfsEnv) (cb cn pv : Option Nat) :
    resolve_components F cb cn pv [] =
      Res.ok { returned := none, cur_base := cb, cur_node := cn, calls := [] } := rfl

theorem resolve_components_cons (F : VfsEnv) (cb cn pv : Option Nat) (n : List Char)
    (ns : List (List Char)) :
    resolve_components F cb cn pv (n :: ns) =
      (lookup F cb n n.length).bind fun x =>
        if x.1 < 0 then
          Res.ok { returned := some x.1, cur_base := cb, cur_node := x.2.1,
                   calls := x.2.2 ++
                     (match pv with
                      | none => []
                      | some p => [VCall.vput p]) }
        else
          (resolve_components F x.2.1 x.2.1 x.2.1 ns).bind fun y =>
            Res.ok { y with calls := (x.2.2 ++
                     (match pv with
                      | none => []
                      | some p => [VCall.vput p])) ++ y.calls } := rfl

/-- The component loop of `dir_namev` resolves the components of the directory path from
`next_pos` on, one after the other. -/
theorem dir_namev_loop_eq (F : VfsEnv) (pre rest : List Char) :
    ∀ (fuel i : Nat) (cb cn : Option Nat) (tr : List VCall),
      i ≤ pre.length → (pre.drop i).head? ≠ some '/' → (pre.drop i).length < fuel →
      dir_namev_loop F (pre ++ rest) (pre.length : Int) fuel i cb cn cn tr =
        (resolve_components F cb cn cn (path_components (pre.drop i))).bind
          (fun y => Res.ok { y with calls := tr ++ y.calls }) := by
  intro fuel
  induction fuel with
  | zero =>
    intro i cb cn tr _ _ hf
    omega
  | succ fuel ih =>
    intro i cb cn tr hi hhead hfuel
    unfold dir_namev_loop
    by_cases hlt : i < pre.length
    · have hd := List.drop_eq_getElem_cons hlt
      have hc : pre[i] ≠ '/' := by
        intro e
        rw [hd] at hhead
        simp [e] at hhead
      have hpc : (fun x => decide (x ≠ '/')) pre[i] = true := by simpa using hc
      have hscan := scan_name_eq pre rest (pre ++ rest).length i hi
        (by simp only [List.length_append]; omega)
      have htw : (pre.drop i).takeWhile (fun x => decide (x ≠ '/'))
          = pre[i] :: (pre.drop (i + 1)).takeWhile (fun x => decide (x ≠ '/')) := by
        rw [hd]
        exact List.takeWhile_cons_of_pos (p := fun x => decide (x ≠ '/')) hpc
      have hdw : (pre.drop i).dropWhile (fun x => decide (x ≠ '/'))
          = (pre.drop (i + 1)).dropWhile (fun x => decide (x ≠ '/')) := by
        rw [hd]
        exact List.dropWhile_cons_of_pos (p := fun x => decide (x ≠ '/')) hpc
      have hle : ((pre.drop i).takeWhile (fun x => decide (x ≠ '/'))).length
          ≤ (pre.drop i).length :=
        (List.takeWhile_sublist (l := pre.drop i) (fun x => decide (x ≠ '/'))).length_le
      have hlen_drop : (pre.drop i).length = pre.length - i := List.length_drop i pre
      have hname : ((pre ++ rest).drop i).take
          (((pre.drop i).takeWhile (fun x => decide (x ≠ '/'))).length)
          = (pre.drop i).takeWhile (fun x => decide (x ≠ '/')) := by
        rw [List.drop_append_of_le_length hi, List.take_append_of_le_length hle,
          take_takeWhile_length]
      have hj : i + ((pre.drop i).takeWhile (fun x => decide (x ≠ '/'))).length ≤ pre.length := by
        omega
      have hskip := skip_slash_eq pre rest (pre ++ rest).length
        (i + ((pre.drop i).takeWhile (fun x => decide (x ≠ '/'))).length) hj
        (by simp only [List.length_append]; omega)
      have hdrop1 : pre.drop (i + ((pre.drop i).takeWhile (fun x => decide (x ≠ '/'))).length)
          = (pre.drop i).dropWhile (fun x => decide (x ≠ '/')) := by
        rw [← List.drop_drop, drop_takeWhile_length]
      have hdrop2 : pre.drop (skip_slash (pre ++ rest) (pre.length : Int) (pre ++ rest).length
            (i + ((pre.drop i).takeWhile (fun x => decide (x ≠ '/'))).length))
          = ((pre.drop i).dropWhile (fun x => decide (x ≠ '/'))).dropWhile
              (fun x => decide (x = '/')) := by
        rw [hskip, ← List.drop_drop, hdrop1, drop_takeWhile_length]
      have hcomps : path_components (pre.drop i)
          = (pre.drop i).takeWhile (fun x => decide (x ≠ '/')) ::
            path_components (((pre.drop i).dropWhile (fun x => decide (x ≠ '/'))).dropWhile
              (fun x => decide (x = '/'))) := by
        rw [path_components_dropWhile, htw, hdw]
        conv_lhs => rw [hd]
        exact path_components_name _ _ hc
      have hlen2 : (pre.drop (skip_slash (pre ++ rest) (pre.length : Int)
          (pre ++ rest).length (i + ((pre.drop i).takeWhile (fun x => decide (x ≠ '/'))).length))).length < fuel := by
        rw [hdrop2]
        have h1 := (List.dropWhile_sublist
          (l := (pre.drop i).dropWhile (fun x => decide (x ≠ '/')))
          (fun x => decide (x = '/'))).length_le
        have h2 := (List.dropWhile_sublist (l := pre.drop (i + 1))
          (fun x => decide (x ≠ '/'))).length_le
        rw [hdw] at h1 ⊢
        have h3 : (pre.drop (i + 1)).length = pre.length - (i + 1) := List.length_drop _ _
        omega
      have hhead2 : (pre.drop (skip_slash (pre ++ rest) (pre.length : Int)
          (pre ++ rest).length (i + ((pre.drop i).takeWhile (fun x => decide (x ≠ '/'))).length))).head? ≠ some '/' := by
        rw [hdrop2]
        have := List.head?_dropWhile_not (fun x => decide (x = '/'))
          ((pre.drop i).dropWhile (fun x => decide (x ≠ '/')))
        intro e
        rw [e] at this
        simp at this
      have hskip_le : skip_slash (pre ++ rest) (pre.length : Int) (pre ++ rest).length
          (i + ((pre.drop i).takeWhile (fun x => decide (x ≠ '/'))).length) ≤ pre.length := by
        rw [hskip]
        have h1 := (List.takeWhile_sublist
          (l := pre.drop (i + ((pre.drop i).takeWhile (fun x => decide (x ≠ '/'))).length)) (fun x => decide (x = '/'))).length_le
        have h3 : (pre.drop (i + ((pre.drop i).takeWhile (fun x => decide (x ≠ '/'))).length)).length = pre.length - (i + ((pre.drop i).takeWhile (fun x => decide (x ≠ '/'))).length) :=
          List.length_drop _ _
        omega
      have hcond : (i : Int) < (pre.length : Int) := by omega
      rw [if_pos hcond]
      simp only
      rw [hscan, Nat.add_sub_cancel_left, lookup_take, hname, hcomps]
      generalize hcomp : (pre.drop i).takeWhile (fun x => decide (x ≠ '/')) = comp at *
      rw [resolve_components_cons]
      cases hlk : lookup F cb comp comp.length with
      | panic => rfl
      | nofuel => rfl
      | ok x =>
        simp only [Res.bind]
        by_cases hneg : x.1 < 0
        · simp only [if_pos hneg, List.append_assoc]
        · simp only [if_neg hneg]
          rw [ih _ x.2.1 x.2.1 _ hskip_le hhead2 hlen2, hdrop2]
          cases hres : resolve_components F x.2.1 x.2.1 x.2.1
              (path_components (((pre.drop i).dropWhile (fun x => decide (x ≠ '/'))).dropWhile
                (fun x => decide (x = '/')))) with
          | panic => rfl
          | nofuel => rfl
          | ok y => simp only [Res.bind, List.append_assoc]
    · have hcond : ¬ ((i : Int) < (pre.length : Int)) := by omega
      have e : pre.drop i = [] := List.drop_eq_nil_of_le (by omega)
      rw [if_neg hcond, e, path_components_nil, resolve_components_nil]
      simp [Res.bind]

/-- The index the first loop of `dir_namev` stops at, with the two parts of the
pathname. -/
theorem dir_index_limit_cases (path : List Char) :
    (dir_index_limit_loop path path.length = -1 ∧ path_basename path = path ∧
      path_dirname path = [] ∧ ∀ c ∈ path, c ≠ '/') ∨
    (∃ pre suffix, path = pre ++ '/' :: suffix ∧
      dir_index_limit_loop path path.length = (pre.length : Int) ∧
      path_basename path = suffix ∧ path_dirname path = pre ∧ ∀ c ∈ suffix, c ≠ '/') := by
  rcases path_split path with h | ⟨pre, suffix, h1, h2⟩
  · left
    exact ⟨dir_index_limit_loop_none path h _, (path_basename_none path h).1,
      (path_basename_none path h).2, h⟩
  · right
    refine ⟨pre, suffix, h1, ?_, ?_, ?_, h2⟩
    · have := dir_index_limit_loop_split pre suffix h2 suffix.length (le_refl _)
      rw [h1]
      have e : (pre ++ '/' :: suffix).length = pre.length + 1 + suffix.length := by
        simp only [List.length_append, List.length_cons]
        omega
      rw [e]
      exact this
    · rw [h1]
      exact (path_basename_split pre suffix h2).1
    · rw [h1]
      exact (path_basename_split pre suffix h2).2

theorem dir_namev_name_len (path : List Char) :
    ((path.length : Int) - (dir_index_limit_loop path path.length + 1)).toNat
      = (path_basename path).length := by
  rcases dir_index_limit_cases path with ⟨h1, h2, -, -⟩ | ⟨pre, suffix, h1, h2, h3, -, -⟩
  · rw [h1, h2]
    simp
  · rw [h2, h3]
    have e : (path.length : Int) = pre.length + 1 + suffix.length := by
      rw [h1]
      simp only [List.length_append, List.length_cons]
      push_cast
      omega
    rw [e]
    omega

theorem dir_namev_name (path : List Char) :
    (if (path_basename path).length > 0 then
        (if dir_index_limit_loop path path.length ≥ 0 then
          some ((dir_index_limit_loop path path.length).toNat + 1) else some 0)
      else none)
      = (if path_basename path = [] then none
          else some (path.length - (path_basename path).length)) := by
  rcases dir_index_limit_cases path with ⟨h1, h2, -, -⟩ | ⟨pre, suffix, h1, h2, h3, -, -⟩
  · rw [h1, h2]
    cases path with
    | nil => simp
    | cons a rest => simp
  · rw [h2, h3]
    have e : path.length = pre.length + 1 + suffix.length := by
      rw [h1]
      simp only [List.length_append, List.length_cons]
      omega
    rw [e]
    cases suffix with
    | nil => simp
    | cons a rest =>
      simp only [List.length_cons, gt_iff_lt, Nat.zero_lt_succ, if_true, ge_iff_le,
        Int.natCast_nonneg, Int.toNat_ofNat, reduceCtorEq, if_false]
      congr 1
      omega

theorem dir_namev_start (F : VfsEnv) (path : List Char) (base : Option Nat) :
    (if path[0]? = some '/' then F.vfs_root_vn else (if base = none then F.p_cwd else base))
      = start_dir F path base := by
  unfold start_dir
  rw [List.head?_eq_getElem?]
  cases base <;> simp

/-- The function `dir_namev` with the values of its first part named. -/
theorem dir_namev_unfold (F : VfsEnv) (fuel : Nat) (path : List Char) (base : Option Nat) :
    dir_namev F fuel path base =
      if (path_basename path).length > F.NAME_LEN then
        Res.ok { ret := -(F.ENAMETOOLONG : Int), name_len := (path_basename path).length,
                 name := none, res_vnode := none, calls := [] }
      else
        (dir_namev_loop F path (dir_index_limit_loop path path.length) fuel
            (skip_slash path (dir_index_limit_loop path path.length) path.length 0)
            (start_dir F path base) none none []).bind
          (dir_namev_finish F (path_basename path).length
            (if path_basename path = [] then none
              else some (path.length - (path_basename path).length))) := by
  unfold dir_namev
  simp only [dir_namev_name_len, dir_namev_name, dir_namev_start]
  by_cases h : (path_basename path).length > F.NAME_LEN
  · have h2 : (path_basename path).length > 0 ∧ (path_basename path).length > F.NAME_LEN :=
      ⟨by omega, h⟩
    rw [if_pos h, if_pos h2]
  · have h2 : ¬ ((path_basename path).length > 0 ∧ (path_basename path).length > F.NAME_LEN) :=
      fun e => h e.2
    rw [if_neg h, if_neg h2]

theorem Res.bind_calls_nil (r : Res WalkEnd) :
    (r.bind fun y => Res.ok { y with calls := [] ++ y.calls }) = r := by
  cases r <;> simp [Res.bind]

/-- With fuel for the components, `dir_namev` does what its documentation says. -/
theorem dir_namev_eq_spec (F : VfsEnv) (fuel : Nat) (path : List Char) (base : Option Nat)
    (hf : path.length < fuel) :
    dir_namev F fuel path base = dir_namev_spec F path base := by
  rw [dir_namev_unfold]
  unfold dir_namev_spec
  simp only
  by_cases h : (path_basename path).length > F.NAME_LEN
  · rw [if_pos h, if_pos h]
  · rw [if_neg h, if_neg h]
    congr 1
    rcases dir_index_limit_cases path with ⟨h1, -, h3, -⟩ | ⟨pre, suffix, h1, h2, -, h4, -⟩
    · rw [h1, h3, path_components_nil, resolve_components_nil]
      have hs : ∀ steps, skip_slash path (-1) steps 0 = 0 := by
        intro steps
        cases steps with
        | zero => rfl
        | succ n =>
          unfold skip_slash
          rw [if_neg]
          rintro ⟨e, -⟩
          omega
      rw [hs]
      cases fuel with
      | zero => omega
      | succ n =>
        unfold dir_namev_loop
        rw [if_neg (by omega)]
    · rw [h2, h4]
      have hlen : path.length = pre.length + 1 + suffix.length := by
        rw [h1]
        simp only [List.length_append, List.length_cons]
        omega
      have hskip := skip_slash_eq pre ('/' :: suffix) path.length 0 (Nat.zero_le _) (by omega)
      rw [← h1] at hskip
      have hdrop : pre.drop (skip_slash path (pre.length : Int) path.length 0)
          = pre.dropWhile (fun x => decide (x = '/')) := by
        rw [hskip]
        simpa using drop_takeWhile_length (fun x => decide (x = '/')) pre
      have hhead : (pre.drop (skip_slash path (pre.length : Int) path.length 0)).head?
          ≠ some '/' := by
        rw [hdrop]
        have := List.head?_dropWhile_not (fun x => decide (x = '/')) pre
        intro e
        rw [e] at this
        simp at this
      have hle : skip_slash path (pre.length : Int) path.length 0 ≤ pre.length := by
        rw [hskip]
        have := (List.takeWhile_sublist (l := pre) (fun x => decide (x = '/'))).length_le
        simpa using this
      have hfuel : (pre.drop (skip_slash path (pre.length : Int) path.length 0)).length
          < fuel := by
        rw [List.length_drop]
        omega
      have hloop := dir_namev_loop_eq F pre ('/' :: suffix) fuel
        (skip_slash path (pre.length : Int) path.length 0) (start_dir F path base) none []
        hle hhead hfuel
      rw [← h1] at hloop
      rw [hloop, hdrop, path_components_dropWhile, Res.bind_calls_nil]

/-- A slash at the end of a directory path does not change its components. -/
theorem path_components_trailing_slash (xs : List Char) :
    path_components (xs ++ ['/']) = path_components xs := by
  suffices H : ∀ n (xs : List Char), xs.length = n →
      path_components (xs ++ ['/']) = path_components xs from H xs.length xs rfl
  intro n
  induction n using Nat.strong_induction_on with
  | _ n ih =>
    intro xs hn
    cases xs with
    | nil =>
      simp only [List.nil_append]
      rw [path_components_slash]
    | cons c cs =>
      simp only [List.cons_append]
      by_cases hc : c = '/'
      · rw [hc, path_components_slash, path_components_slash]
        exact ih cs.length (by simp at hn; omega) cs rfl
      · rw [path_components_name c _ hc, path_components_name c _ hc]
        by_cases hall : ∀ a ∈ cs, (fun x => decide (x ≠ '/')) a = true
        · rw [List.takeWhile_append_of_pos hall, List.dropWhile_append_of_pos hall,
            List.takeWhile_eq_self_iff.mpr hall, List.dropWhile_eq_nil_iff.mpr hall]
          simp [path_components_slash, path_components_nil]
        · have hne : ¬ ((cs.dropWhile (fun x => decide (x ≠ '/'))).isEmpty = true) := by
            rw [List.isEmpty_iff, List.dropWhile_eq_nil_iff]
            exact hall
          have hlen : ¬ ((cs.takeWhile (fun x => decide (x ≠ '/'))).length = cs.length) := by
            intro e
            apply hall
            rw [← List.takeWhile_eq_self_iff]
            have := List.takeWhile_append_dropWhile (fun x => decide (x ≠ '/')) cs
            have hd : (cs.dropWhile (fun x => decide (x ≠ '/'))).length = 0 := by
              have := congrArg List.length this
              simp only [List.length_append] at this
              omega
            rw [List.length_eq_zero] at hd
            rw [hd, List.append_nil] at this
            exact this
          simp only [List.takeWhile_append, List.dropWhile_append, if_neg hne, if_neg hlen]
          have hshort : (cs.dropWhile (fun x => decide (x ≠ '/'))).length < n := by
            have := (List.dropWhile_sublist (l := cs) (fun x => decide (x ≠ '/'))).length_le
            simp at hn
            omega
          rw [ih _ hshort _ rfl]

/-- The end of `dir_namev` passes `*name_len` and `*name` on as they are. -/
theorem dir_namev_finish_fields (F : VfsEnv) (nl : Nat) (nm nm2 : Option Nat) (w : WalkEnd)
    (r : NamevResult) (h : dir_namev_finish F nl nm w = Res.ok r) :
    r.name_len = nl ∧ r.name = nm ∧
    dir_namev_finish F nl nm2 w = Res.ok { r with name := nm2 } := by
  unfold dir_namev_finish at h ⊢
  cases hret : w.returned with
  | some res =>
    rw [hret] at h
    simp only [Res.ok.injEq] at h
    subst h
    exact ⟨rfl, rfl, rfl⟩
  | none =>
    rw [hret] at h
    simp only at h ⊢
    cases hn : w.cur_node with
    | some n =>
      rw [hn] at h
      simp only at h ⊢
      cases hb : w.cur_base with
      | none => rw [hb] at h; cases h
      | some b =>
        rw [hb] at h
        simp only at h ⊢
        by_cases hl : (F.vn_lookup b).isNone = true
        · rw [if_pos hl] at h ⊢
          simp only [Res.ok.injEq] at h
          subst h
          exact ⟨rfl, rfl, rfl⟩
        · rw [if_neg hl] at h ⊢
          simp only [Res.ok.injEq] at h
          subst h
          exact ⟨rfl, rfl, rfl⟩
    | none =>
      rw [hn] at h
      simp only at h ⊢
      cases hb : w.cur_base with
      | none => rw [hb] at h; cases h
      | some b =>
        rw [hb] at h
        simp only [Res.ok.injEq] at h
        subst h
        exact ⟨rfl, rfl, rfl⟩

theorem dir_namev_finish_panic (F : VfsEnv) (nl : Nat) (nm nm2 : Option Nat) (w : WalkEnd)
    (h : dir_namev_finish F nl nm w = Res.panic) :
    dir_namev_finish F nl nm2 w = Res.panic := by
  unfold dir_namev_finish at h ⊢
  cases hret : w.returned with
  | some res => rw [hret] at h; cases h
  | none =>
    rw [hret] at h
    simp only at h ⊢
    cases hn : w.cur_node with
    | some n =>
      rw [hn] at h
      simp only at h ⊢
      cases hb : w.cur_base with
      | none => rfl
      | some b =>
        rw [hb] at h
        simp only at h
        by_cases hl : (F.vn_lookup b).isNone = true
        · rw [if_pos hl] at h; cases h
        · rw [if_neg hl] at h; cases h
    | none =>
      rw [hn] at h
      simp only at h ⊢
      cases hb : w.cur_base with
      | none => rfl
      | some b => rw [hb] at h; cases h

/-- The two parts of a pathname and of the pathname with one more slash in a run. -/
theorem path_parts_double_slash (xs ys : List Char) :
    path_basename (xs ++ '/' :: '/' :: ys) = path_basename (xs ++ '/' :: ys) ∧
    path_components (path_dirname (xs ++ '/' :: '/' :: ys))
      = path_components (path_dirname (xs ++ '/' :: ys)) ∧
    (path_basename (xs ++ '/' :: ys)).length ≤ (xs ++ '/' :: ys).length := by
  rcases path_split ys with h | ⟨ypre, ysuf, h1, h2⟩
  · have e2 : xs ++ '/' :: '/' :: ys = (xs ++ ['/']) ++ '/' :: ys := by simp
    have a1 := path_basename_split xs ys h
    have a2 := path_basename_split (xs ++ ['/']) ys h
    rw [← e2] at a2
    rw [a1.1, a1.2, a2.1, a2.2, path_components_trailing_slash]
    refine ⟨rfl, rfl, ?_⟩
    simp only [List.length_append, List.length_cons]
    omega
  · have e1 : xs ++ '/' :: ys = (xs ++ '/' :: ypre) ++ '/' :: ysuf := by simp [h1]
    have e2 : xs ++ '/' :: '/' :: ys = (xs ++ '/' :: '/' :: ypre) ++ '/' :: ysuf := by
      simp [h1]
    have a1 := path_basename_split (xs ++ '/' :: ypre) ysuf h2
    have a2 := path_basename_split (xs ++ '/' :: '/' :: ypre) ysuf h2
    rw [← e1] at a1
    rw [← e2] at a2
    rw [a1.1, a1.2, a2.1, a2.2, path_components_double_slash]
    refine ⟨rfl, rfl, ?_⟩
    rw [e1]
    simp only [List.length_append, List.length_cons]
    omega

/-- One more slash in a run of slashes changes nothing in what the documented behaviour
gives but the offset of the name. -/
theorem dir_namev_spec_double_slash (F : VfsEnv) (xs ys : List Char) (base : Option Nat) :
    (∀ r, dir_namev_spec F (xs ++ '/' :: ys) base = Res.ok r →
      dir_namev_spec F (xs ++ '/' :: '/' :: ys) base
        = Res.ok { r with name := r.name.map (fun off => off + 1) }) ∧
    (dir_namev_spec F (xs ++ '/' :: ys) base = Res.panic →
      dir_namev_spec F (xs ++ '/' :: '/' :: ys) base = Res.panic) := by
  obtain ⟨hb, hc, hle⟩ := path_parts_double_slash xs ys
  have hs : start_dir F (xs ++ '/' :: '/' :: ys) base = start_dir F (xs ++ '/' :: ys) base := by
    unfold start_dir
    cases xs <;> simp
  have hlen : (xs ++ '/' :: '/' :: ys).length = (xs ++ '/' :: ys).length + 1 := by
    simp only [List.length_append, List.length_cons]
    omega
  unfold dir_namev_spec
  simp only [hb, hc, hs, hlen]
  generalize path_basename (xs ++ '/' :: ys) = bn at hle ⊢
  by_cases h : bn.length > F.NAME_LEN
  · simp only [if_pos h]
    constructor
    · intro r hr
      simp only [Res.ok.injEq] at hr
      subst hr
      rfl
    · intro hr
      cases hr
  · simp only [if_neg h]
    have hnm : (if bn = [] then none else some ((xs ++ '/' :: ys).length + 1 - bn.length))
        = Option.map (fun off => off + 1)
            (if bn = [] then none else some ((xs ++ '/' :: ys).length - bn.length)) := by
      by_cases hbn : bn = []
      · simp [hbn]
      · simp only [if_neg hbn, Option.map_some']
        congr 1
        omega
    cases hres : resolve_components F (start_dir F (xs ++ '/' :: ys) base) none none
        (path_components (path_dirname (xs ++ '/' :: ys))) with
    | panic =>
      constructor
      · intro r hr
        cases hr
      · intro _
        rfl
    | nofuel =>
      constructor
      · intro r hr
        cases hr
      · intro hr
        cases hr
    | ok w =>
      simp only [Res.bind]
      constructor
      · intro r hr
        obtain ⟨-, h2, h3⟩ := dir_namev_finish_fields F _ _
          (if bn = [] then none else some ((xs ++ '/' :: ys).length + 1 - bn.length)) w r hr
        rw [h3, hnm, h2]
      · intro hr
        exact dir_namev_finish_panic F _ _ _ w hr

/-- The first call of the resolution of components is the `lookup` operation of the
directory it starts at. -/
theorem resolve_components_first_call (F : VfsEnv) (cb cn pv : Option Nat)
    (comps : List (List Char)) (w : WalkEnd)
    (h : resolve_components F cb cn pv comps = Res.ok w) :
    (w.calls = [] ∧ w.returned = none ∧ w.cur_base = cb ∧ w.cur_node = cn) ∨
    (∃ d n, cb = some d ∧ w.calls.head? = some (VCall.lookup d n)) := by
  cases comps with
  | nil =>
    rw [resolve_components_nil] at h
    simp only [Res.ok.injEq] at h
    subst h
    exact Or.inl ⟨rfl, rfl, rfl, rfl⟩
  | cons n ns =>
    right
    rw [resolve_components_cons] at h
    obtain ⟨x, hx, hrest⟩ := Res.bind_eq_ok h
    unfold lookup at hx
    cases cb with
    | none => cases hx
    | some d =>
      simp only at hx
      cases hop : F.vn_lookup d with
      | none => rw [hop] at hx; cases hx
      | some op =>
        rw [hop] at hx
        simp only [Res.ok.injEq] at hx
        subst hx
        refine ⟨d, n.take n.length, rfl, ?_⟩
        by_cases hneg : (op (n.take n.length)).1 < 0
        · rw [if_pos hneg] at hrest
          simp only [Res.ok.injEq] at hrest
          subst hrest
          rfl
        · rw [if_neg hneg] at hrest
          obtain ⟨y, -, hy⟩ := Res.bind_eq_ok hrest
          simp only [Res.ok.injEq] at hy
          subst hy
          rfl

/-- The calls of `dir_namev` after the component loop come after those of the loop; without
a component the one call is `vref` on the directory the loop started at. -/
theorem dir_namev_finish_calls (F : VfsEnv) (nl : Nat) (nm : Option Nat) (w : WalkEnd)
    (r : NamevResult) (h : dir_namev_finish F nl nm w = Res.ok r) :
    ∃ extra, r.calls = w.calls ++ extra ∧
      (w.returned = none → w.cur_node = none →
        ∃ b, w.cur_base = some b ∧ extra = [VCall.vref b] ∧ r.res_vnode = some b ∧
          r.ret = 0) := by
  unfold dir_namev_finish at h
  cases hret : w.returned with
  | some res =>
    rw [hret] at h
    simp only [Res.ok.injEq] at h
    subst h
    exact ⟨[], by simp, fun e => by cases e⟩
  | none =>
    rw [hret] at h
    simp only at h
    cases hn : w.cur_node with
    | some n =>
      rw [hn] at h
      simp only at h
      cases hb : w.cur_base with
      | none => rw [hb] at h; cases h
      | some b =>
        rw [hb] at h
        simp only at h
        by_cases hl : (F.vn_lookup b).isNone = true
        · rw [if_pos hl] at h
          simp only [Res.ok.injEq] at h
          subst h
          exact ⟨[VCall.vput n], rfl, fun _ e => by cases e⟩
        · rw [if_neg hl] at h
          simp only [Res.ok.injEq] at h
          subst h
          exact ⟨[], by simp, fun _ e => by cases e⟩
    | none =>
      rw [hn] at h
      simp only at h
      cases hb : w.cur_base with
      | none => rw [hb] at h; cases h
      | some b =>
        rw [hb] at h
        simp only [Res.ok.injEq] at h
        subst h
        exact ⟨[VCall.vref b], rfl, fun _ _ => ⟨b, rfl, rfl, rfl, rfl⟩⟩

/-- The first call the documented behaviour makes is on the start directory. -/
theorem dir_namev_spec_first_call (F : VfsEnv) (pathname : List Char) (base : Option Nat)
    (r : NamevResult) (h : dir_namev_spec F pathname base = Res.ok r) :
    r.calls = [] ∨
    ∃ s, start_dir F pathname base = some s ∧
      (r.calls.head? = some (VCall.vref s) ∨ ∃ n, r.calls.head? = some (VCall.lookup s n)) := by
  unfold dir_namev_spec at h
  simp only at h
  by_cases hlen : (path_basename pathname).length > F.NAME_LEN
  · rw [if_pos hlen] at h
    simp only [Res.ok.injEq] at h
    subst h
    exact Or.inl rfl
  · rw [if_neg hlen] at h
    obtain ⟨w, hw, hfin⟩ := Res.bind_eq_ok h
    obtain ⟨extra, hcalls, hextra⟩ := dir_namev_finish_calls F _ _ w r hfin
    right
    rcases resolve_components_first_call F _ _ _ _ w hw with ⟨h1, h2, h3, h4⟩ | ⟨d, n, h1, h2⟩
    · obtain ⟨b, hb, he, -, -⟩ := hextra h2 h4
      refine ⟨b, by rw [← h3, hb], Or.inl ?_⟩
      rw [hcalls, h1, he]
      rfl
    · refine ⟨d, h1, Or.inr ⟨n, ?_⟩⟩
      rw [hcalls]
      cases hc : w.calls with
      | nil => rw [hc] at h2; cases h2
      | cons c cs =>
        rw [hc] at h2
        simpa using h2

/-- The name outputs of `dir_namev` when it returns 0: `*name_len` is the number of characters
after the last slash of the pathname (of all its characters when it has no slash), these
characters hold no slash, and `*name` points to them in the pathname when there is one at
least; when there is none (the pathname is empty or ends in a slash) `*name` is not
written. -/
theorem dir_namev_name_cases (F : VfsEnv) (fuel : Nat) (pathname : List Char)
    (base : Option Nat) (r : NamevResult) (hE : 0 < F.ENAMETOOLONG)
    (hr : dir_namev F fuel pathname base = Res.ok r) (h0 : r.ret = 0) :
    ∃ suffix : List Char,
      (∀ c ∈ suffix, c ≠ '/') ∧
      ((pathname = suffix) ∨ ∃ pre, pathname = pre ++ '/' :: suffix) ∧
      r.name_len = suffix.length ∧
      (suffix ≠ [] → ∃ off, r.name = some off ∧ pathname.drop off = suffix) ∧
      (suffix = [] → r.name = none) := by
  rw [dir_namev_unfold] at hr
  by_cases hlen : (path_basename pathname).length > F.NAME_LEN
  · rw [if_pos hlen] at hr
    simp only [Res.ok.injEq] at hr
    subst hr
    simp only at h0
    omega
  · rw [if_neg hlen] at hr
    obtain ⟨w, -, hfin⟩ := Res.bind_eq_ok hr
    obtain ⟨h1, h2, -⟩ := dir_namev_finish_fields F _ _ none w r hfin
    refine ⟨path_basename pathname, ?_, ?_, h1, ?_, ?_⟩
    · rcases dir_index_limit_cases pathname with ⟨-, e, -, h⟩ | ⟨pre, suffix, -, -, e, -, h⟩
      · rw [e]; exact h
      · rw [e]; exact h
    · rcases dir_index_limit_cases pathname with ⟨-, e, -, -⟩ | ⟨pre, suffix, e1, -, e, -, -⟩
      · left; rw [e]
      · right
        exact ⟨pre, by rw [e]; exact e1⟩
    · intro hne
      refine ⟨pathname.length - (path_basename pathname).length, ?_, ?_⟩
      · rw [h2, if_neg hne]
      · rcases dir_index_limit_cases pathname with ⟨-, e, -, -⟩ | ⟨pre, suffix, e1, -, e, -, -⟩
        · rw [e]
          simp
        · rw [e]
          have hl : pathname.length - suffix.length = pre.length + 1 := by
            rw [e1]
            simp only [List.length_append, List.length_cons]
            omega
          rw [hl]
          conv_lhs => rw [e1]
          have e3 : pre ++ '/' :: suffix = (pre ++ ['/']) ++ suffix := by simp
          rw [e3]
          have e4 : pre.length + 1 = (pre ++ ['/']).length := by simp
          rw [e4, List.drop_left]
    · intro hnil
      rw [h2, if_pos hnil]

/-- C29 fails for a pathname that ends in a slash (or is empty): `dir_namev` assigns `*name`
only inside `if (*name_len > 0)`, so that it succeeds with 0 in `*name_len` and `*name` not
written, although its documentation promises the basename in `name` on success and its
callers assert `NULL != name`.  On `/s5fs//bin/` it returns 0 with the vnode of `/s5fs/bin`
in `*res_vnode`, 0 in `*name_len`, and no write to `*name`.  In general, when `dir_namev`
returns 0, `*name_len` is the number of characters after the last slash (of all characters
when there is no slash), and `*name` is written, pointing to these characters, exactly when
there is one at least; for `/s5fs/bin/ls` it points to `ls`. -/
theorem dir_namev_name_unwritten :
    dir_namev exVfs 5 exPathDir none =
      Res.ok { ret := 0, name_len := 0, name := none, res_vnode := some 3,
               calls := [VCall.lookup 1 ['s', '5', 'f', 's'], VCall.lookup 2 ['b', 'i', 'n'],
                 VCall.vput 2] } ∧
    (∀ (F : VfsEnv) (fuel : Nat) (pathname : List Char) (base : Option Nat) (r : NamevResult),
      0 < F.ENAMETOOLONG → dir_namev F fuel pathname base = Res.ok r → r.ret = 0 →
      (pathname = [] ∨ ∃ pre, pathname = pre ++ ['/']) →
      r.name_len = 0 ∧ r.name = none) ∧
    (∀ (F : VfsEnv) (fuel : Nat) (pathname : List Char) (base : Option Nat) (r : NamevResult),
      0 < F.ENAMETOOLONG → dir_namev F fuel pathname base = Res.ok r → r.ret = 0 →
      ∃ suffix : List Char,
        (∀ c ∈ suffix, c ≠ '/') ∧
        ((pathname = suffix) ∨ ∃ pre, pathname = pre ++ '/' :: suffix) ∧
        r.name_len = suffix.length ∧
        (suffix ≠ [] → ∃ off, r.name = some off ∧ pathname.drop off = suffix) ∧
        (suffix = [] → r.name = none)) ∧
    dir_namev exVfs 5 exPath none =
      Res.ok { ret := 0, name_len := 2, name := some 10, res_vnode := some 3,
               calls := [VCall.lookup 1 ['s', '5', 'f', 's'], VCall.lookup 2 ['b', 'i', 'n'],
                 VCall.vput 2] } ∧
    exPath.drop 10 = ['l', 's'] := by
  refine ⟨by decide, ?_, ?_, by decide, by decide⟩
  · intro F fuel pathname base r hE hr h0 hp
    obtain ⟨suffix, h1, h2, h3, -, h5⟩ := dir_namev_name_cases F fuel pathname base r hE hr h0
    have hnil : suffix = [] := by
      rcases hp with hp | ⟨pre, hp⟩
      · rcases h2 with h2 | ⟨q, h2⟩
        · rw [← h2, hp]
        · rw [hp] at h2
          exact absurd h2 (by simp)
      · rcases List.eq_nil_or_concat suffix with hs | ⟨init, c, hs⟩
        · exact hs
        · exfalso
          rw [List.concat_eq_append] at hs
          have hc : c ≠ '/' := h1 c (by rw [hs]; simp)
          have hlast : pathname.getLast? = some '/' := by rw [hp]; simp
          rcases h2 with h2 | ⟨q, h2⟩
          · rw [h2, hs] at hlast
            simp at hlast
            exact hc hlast
          · rw [h2, hs] at hlast
            have e : q ++ '/' :: (init ++ [c]) = (q ++ '/' :: init) ++ [c] := by simp
            rw [e, List.getLast?_concat] at hlast
            exact hc (Option.some.inj hlast)
    exact ⟨by rw [h3, hnil]; rfl, h5 hnil⟩
  · intro F fuel pathname base r hE hr h0
    exact dir_namev_name_cases F fuel pathname base r hE hr h0

/-- C30 holds for `dir_namev`: with fuel for the components it does what its documentation
says, resolving the components before the last slash from the start directory; the start
directory is the root for a pathname that begins with a slash, whatever `base` is, so that
the result is the same for every `base`, and else it is `base`, or `curproc->p_cwd` when
`base` is `NULL`; the first call made is on the start directory; and one more slash in a run
of slashes changes nothing in the result but the offset of the name. -/
theorem dir_namev_start_directory (F : VfsEnv) (fuel : Nat) (pathname : List Char)
    (base : Option Nat) (hf : pathname.length + 1 < fuel) :
    dir_namev F fuel pathname base = dir_namev_spec F pathname base ∧
    (pathname.head? = some '/' →
      start_dir F pathname base = F.vfs_root_vn ∧
      ∀ base2, dir_namev F fuel pathname base2 = dir_namev F fuel pathname base) ∧
    (pathname.head? ≠ some '/' →
      (∀ b, base = some b → start_dir F pathname base = some b) ∧
      (base = none → start_dir F pathname base = F.p_cwd)) ∧
    (∀ r, dir_namev F fuel pathname base = Res.ok r →
      r.calls = [] ∨
      ∃ s, start_dir F pathname base = some s ∧
        (r.calls.head? = some (VCall.vref s) ∨
          ∃ n, r.calls.head? = some (VCall.lookup s n))) ∧
    (∀ xs ys, pathname = xs ++ '/' :: ys →
      (∀ r, dir_namev F fuel pathname base = Res.ok r →
        dir_namev F fuel (xs ++ '/' :: '/' :: ys) base
          = Res.ok { r with name := r.name.map (fun off => off + 1) }) ∧
      (dir_namev F fuel pathname base = Res.panic →
        dir_namev F fuel (xs ++ '/' :: '/' :: ys) base = Res.panic)) := by
  have hspec := dir_namev_eq_spec F fuel pathname base (by omega)
  refine ⟨hspec, ?_, ?_, ?_, ?_⟩
  · intro hh
    refine ⟨by unfold start_dir; rw [if_pos hh], ?_⟩
    intro base2
    rw [hspec, dir_namev_eq_spec F fuel pathname base2 (by omega)]
    unfold dir_namev_spec start_dir
    simp only [if_pos hh]
  · intro hh
    refine ⟨?_, ?_⟩
    · intro b hb
      unfold start_dir
      rw [if_neg hh, hb]
    · intro hb
      unfold start_dir
      rw [if_neg hh, hb]
  · intro r hr
    rw [hspec] at hr
    exact dir_namev_spec_first_call F pathname base r hr
  · intro xs ys hp
    have hlen : (xs ++ '/' :: '/' :: ys).length < fuel := by
      have : pathname.length = xs.length + (ys.length + 1) := by
        rw [hp]
        simp only [List.length_append, List.length_cons]
      simp only [List.length_append, List.length_cons]
      omega
    rw [hspec, dir_namev_eq_spec F fuel _ base hlen, hp]
    exact dir_namev_spec_double_slash F xs ys base

/-- The pathname `/s5fs/bin/ls` resolved with `base` the vnode at 3. -/
theorem dir_namev_start_directory_witness :
    dir_namev exVfs 14 exPath (some 3) = dir_namev_spec exVfs exPath (some 3) ∧
    (exPath.head? = some '/' →
      start_dir exVfs exPath (some 3) = exVfs.vfs_root_vn ∧
      ∀ base2, dir_namev exVfs 14 exPath base2 = dir_namev exVfs 14 exPath (some 3)) ∧
    dir_namev exVfs 14 exPath (some 3) =
      Res.ok { ret := 0, name_len := 2, name := some 10, res_vnode := some 3,
               calls := [VCall.lookup 1 ['s', '5', 'f', 's'], VCall.lookup 2 ['b', 'i', 'n'],
                 VCall.vput 2] } :=
  ⟨(dir_namev_start_directory exVfs 14 exPath (some 3) (by decide)).1,
   (dir_namev_start_directory exVfs 14 exPath (some 3) (by decide)).2.1, by decide⟩

/-! ### References and calls of `dir_namev` -/

theorem ref_delta_nil (F : VfsEnv) (O : VfsOps) (v : Nat) : ref_delta F O [] v = 0 := rfl

theorem ref_delta_cons (F : VfsEnv) (O : VfsOps) (c : VCall) (cs : List VCall) (v : Nat) :
    ref_delta F O (c :: cs) v = VCall.ref_delta F O v c + ref_delta F O cs v := by
  simp [ref_delta]

theorem ref_delta_append (F : VfsEnv) (O : VfsOps) (xs ys : List VCall) (v : Nat) :
    ref_delta F O (xs ++ ys) v = ref_delta F O xs v + ref_delta F O ys v := by
  simp [ref_delta]

/-- The `vput` of the vnode of the previous `lookup`, if there is one, takes one reference
from it. -/
theorem ref_delta_vput_prev (F : VfsEnv) (O : VfsOps) (pv : Option Nat) (v : Nat) :
    ref_delta F O
      (match pv with
       | none => []
       | some p => [VCall.vput p]) v
      = -(if pv = some v then 1 else 0) := by
  cases pv with
  | none => simp [ref_delta]
  | some p =>
    by_cases h : p = v
    · simp [ref_delta, VCall.ref_delta, h]
    · simp [ref_delta, VCall.ref_delta, h]

/-- When `lookup` returns it has made the one call of the operation. -/
theorem lookup_eq_ok {F : VfsEnv} {dir : Option Nat} {name : List Char} {len : Nat}
    {x : Int × Option Nat × List VCall} (h : lookup F dir name len = Res.ok x) :
    ∃ d op, dir = some d ∧ F.vn_lookup d = some op ∧
      x = ((op (name.take len)).1, (op (name.take len)).2, [VCall.lookup d (name.take len)]) := by
  unfold lookup at h
  cases dir with
  | none => cases h
  | some d =>
    simp only at h
    cases hop : F.vn_lookup d with
    | none => rw [hop] at h; cases h
    | some op =>
      rw [hop] at h
      simp only [Res.ok.injEq] at h
      exact ⟨d, op, rfl, hop, h.symm⟩

/-- The calls of the component loop of `dir_namev` and the references they add: the vnode
the loop ends at holds one reference, the vnode of the previous `lookup` has lost its
reference, and a value returned from inside the loop is the negative value of a `lookup` the
loop made. -/
theorem dir_namev_loop_refs (F : VfsEnv) (O : VfsOps) (path : List Char) (lim : Int) :
    ∀ (fuel np : Nat) (cb pv : Option Nat) (tr : List VCall) (w : WalkEnd),
      dir_namev_loop F path lim fuel np cb pv pv tr = Res.ok w →
      ∃ calls, w.calls = tr ++ calls ∧
        (∀ v, ref_delta F O calls v + (if pv = some v then 1 else 0)
          = (if w.returned = none ∧ w.cur_node = some v then 1 else 0)) ∧
        (∀ res, w.returned = some res → res < 0 ∧
          ∃ d op n, VCall.lookup d n ∈ calls ∧ F.vn_lookup d = some op ∧ (op n).1 = res) ∧
        (∀ c ∈ calls, (∃ d n, c = VCall.lookup d n) ∨ (∃ u, c = VCall.vput u)) := by
  intro fuel
  induction fuel with
  | zero =>
    intro np cb pv tr w h
    unfold dir_namev_loop at h
    by_cases hlt : (np : Int) < lim
    · rw [if_pos hlt] at h; cases h
    · rw [if_neg hlt] at h
      simp only [Res.ok.injEq] at h
      subst h
      refine ⟨[], by simp, ?_, ?_, ?_⟩
      · intro v
        simp [ref_delta_nil]
      · intro res hres
        cases hres
      · intro c hc
        cases hc
  | succ fuel ih =>
    intro np cb pv tr w h
    unfold dir_namev_loop at h
    by_cases hlt : (np : Int) < lim
    · rw [if_pos hlt] at h
      simp only at h
      obtain ⟨x, hx, hrest⟩ := Res.bind_eq_ok h
      obtain ⟨d, op, hcb, hop, hxeq⟩ := lookup_eq_ok hx
      generalize hnm : (path.drop np).take
        (scan_name path lim path.length np - np) = nm at hxeq
      subst hxeq
      simp only at hrest
      have hvp := ref_delta_vput_prev F O pv
      generalize hvpd : (match pv with
        | none => ([] : List VCall)
        | some p => [VCall.vput p]) = vp at hrest hvp
      have hvpc : ∀ c ∈ vp, (∃ d n, c = VCall.lookup d n) ∨ (∃ u, c = VCall.vput u) := by
        intro c hc
        rw [← hvpd] at hc
        cases pv with
        | none => cases hc
        | some p =>
          simp only [List.mem_singleton] at hc
          exact Or.inr ⟨p, hc⟩
      by_cases hneg : (op nm).1 < 0
      · rw [if_pos hneg] at hrest
        simp only [Res.ok.injEq] at hrest
        subst hrest
        refine ⟨[VCall.lookup d nm] ++ vp, by simp, ?_, ?_, ?_⟩
        · intro v
          have hnot : ¬ (0 ≤ (op nm).1 ∧ (op nm).2 = some v) := by
            rintro ⟨a, -⟩
            omega
          rw [ref_delta_append, hvp, ref_delta_cons, ref_delta_nil]
          simp only [VCall.ref_delta, hop, if_neg hnot]
          simp
        · intro res hres
          simp only [Option.some.injEq] at hres
          subst hres
          exact ⟨hneg, d, op, nm, by simp, hop, rfl⟩
        · intro c hc
          rcases List.mem_append.mp hc with hc | hc
          · simp only [List.mem_singleton] at hc
            exact Or.inl ⟨d, nm, hc⟩
          · exact hvpc c hc
      · rw [if_neg hneg] at hrest
        obtain ⟨calls2, hc2, hd2, hr2, hk2⟩ := ih _ _ _ _ _ hrest
        refine ⟨[VCall.lookup d nm] ++ vp ++ calls2, by rw [hc2]; simp, ?_, ?_, ?_⟩
        · intro v
          have := hd2 v
          rw [ref_delta_append, ref_delta_append, hvp, ref_delta_cons, ref_delta_nil]
          simp only [VCall.ref_delta, hop]
          by_cases hv : (op nm).2 = some v
          · have hyes : 0 ≤ (op nm).1 ∧ (op nm).2 = some v := ⟨by omega, hv⟩
            rw [if_pos hyes]
            rw [if_pos hv] at this
            omega
          · have hnot : ¬ (0 ≤ (op nm).1 ∧ (op nm).2 = some v) := fun e => hv e.2
            rw [if_neg hnot]
            rw [if_neg hv] at this
            omega
        · intro res hres
          obtain ⟨h1, d2, op2, n2, h2, h3, h4⟩ := hr2 res hres
          exact ⟨h1, d2, op2, n2, List.mem_append.mpr (Or.inr h2), h3, h4⟩
        · intro c hc
          rcases List.mem_append.mp hc with hc | hc
          · rcases List.mem_append.mp hc with hc | hc
            · simp only [List.mem_singleton] at hc
              exact Or.inl ⟨d, nm, hc⟩
            · exact hvpc c hc
          · exact hk2 c hc
    · rw [if_neg hlt] at h
      simp only [Res.ok.injEq] at h
      subst h
      refine ⟨[], by simp, ?_, ?_, ?_⟩
      · intro v
        simp [ref_delta_nil]
      · intro res hres
        cases hres
      · intro c hc
        cases hc

/-- The end of `dir_namev` case by case. -/
theorem dir_namev_finish_cases (F : VfsEnv) (O : VfsOps) (nl : Nat) (nm : Option Nat)
    (w : WalkEnd) (r : NamevResult) (h : dir_namev_finish F nl nm w = Res.ok r) :
    (∃ res, w.returned = some res ∧ r.ret = res ∧ r.res_vnode = none ∧ r.calls = w.calls) ∨
    (w.returned = none ∧ r.ret = 0 ∧
      ∃ p extra, r.res_vnode = some p ∧ r.calls = w.calls ++ extra ∧
        (∀ c ∈ extra, ∃ u, c = VCall.vref u) ∧
        ∀ v, ref_delta F O extra v + (if w.cur_node = some v then 1 else 0)
          = (if v = p then 1 else 0)) ∨
    (w.returned = none ∧ r.ret = -(F.ENOTDIR : Int) ∧ r.res_vnode = none ∧
      ∃ n, w.cur_node = some n ∧ r.calls = w.calls ++ [VCall.vput n]) := by
  unfold dir_namev_finish at h
  cases hret : w.returned with
  | some res =>
    rw [hret] at h
    simp only [Res.ok.injEq] at h
    subst h
    exact Or.inl ⟨res, rfl, rfl, rfl, rfl⟩
  | none =>
    rw [hret] at h
    simp only at h
    right
    cases hn : w.cur_node with
    | some n =>
      rw [hn] at h
      simp only at h
      cases hb : w.cur_base with
      | none => rw [hb] at h; cases h
      | some b =>
        rw [hb] at h
        simp only at h
        by_cases hl : (F.vn_lookup b).isNone = true
        · rw [if_pos hl] at h
          simp only [Res.ok.injEq] at h
          subst h
          exact Or.inr ⟨rfl, rfl, rfl, n, rfl, rfl⟩
        · rw [if_neg hl] at h
          simp only [Res.ok.injEq] at h
          subst h
          refine Or.inl ⟨rfl, rfl, n, [], rfl, by simp, by simp, ?_⟩
          intro v
          by_cases hv : v = n
          · simp [ref_delta_nil, hv]
          · have : n ≠ v := fun e => hv e.symm
            simp [ref_delta_nil, hv, this]
    | none =>
      rw [hn] at h
      simp only at h
      cases hb : w.cur_base with
      | none => rw [hb] at h; cases h
      | some b =>
        rw [hb] at h
        simp only [Res.ok.injEq] at h
        subst h
        refine Or.inl ⟨rfl, rfl, b, [VCall.vref b], rfl, rfl, ?_, ?_⟩
        · intro c hc
          simp only [List.mem_singleton] at hc
          exact ⟨b, hc⟩
        · intro v
          by_cases hv : v = b
          · simp [ref_delta, VCall.ref_delta, hv]
          · have : b ≠ v := fun e => hv e.symm
            simp [ref_delta, VCall.ref_delta, hv, this]

/-- What `dir_namev` returns, case by case, with the references its calls add: the name is
too long and nothing is called; or it returns 0, `*res_vnode` is written and holds the one
reference added; or it returns `-ENOTDIR` or the negative value of a `lookup` it made,
`*res_vnode` is not written and no reference is added.  The calls are `lookup`, `vput` and
`vref` calls. -/
theorem dir_namev_cases (F : VfsEnv) (O : VfsOps) (fuel : Nat) (path : List Char)
    (base : Option Nat) (r : NamevResult) (h : dir_namev F fuel path base = Res.ok r) :
    ((path_basename path).length > F.NAME_LEN ∧
      r = { ret := -(F.ENAMETOOLONG : Int), name_len := (path_basename path).length,
            name := none, res_vnode := none, calls := [] }) ∨
    ((path_basename path).length ≤ F.NAME_LEN ∧
      r.name_len = (path_basename path).length ∧
      r.name = (if path_basename path = [] then none
        else some (path.length - (path_basename path).length)) ∧
      (∀ c ∈ r.calls, (∃ d n, c = VCall.lookup d n) ∨ (∃ u, c = VCall.vput u) ∨
        (∃ u, c = VCall.vref u)) ∧
      ((r.ret = 0 ∧ ∃ p, r.res_vnode = some p ∧
          ∀ v, ref_delta F O r.calls v = (if v = p then 1 else 0)) ∨
       (r.ret = -(F.ENOTDIR : Int) ∧ r.res_vnode = none ∧ ∀ v, ref_delta F O r.calls v = 0) ∨
       (r.ret < 0 ∧ r.res_vnode = none ∧ (∀ v, ref_delta F O r.calls v = 0) ∧
          ∃ d op n, VCall.lookup d n ∈ r.calls ∧ F.vn_lookup d = some op ∧
            (op n).1 = r.ret))) := by
  rw [dir_namev_unfold] at h
  by_cases hlen : (path_basename path).length > F.NAME_LEN
  · rw [if_pos hlen] at h
    simp only [Res.ok.injEq] at h
    exact Or.inl ⟨hlen, h.symm⟩
  · rw [if_neg hlen] at h
    right
    obtain ⟨w, hw, hfin⟩ := Res.bind_eq_ok h
    obtain ⟨hnl, hnm, -⟩ := dir_namev_finish_fields F _ _ none w r hfin
    obtain ⟨calls, hc, hd, hr, hk⟩ := dir_namev_loop_refs F O path _ fuel _ _ none [] w hw
    simp only [List.nil_append] at hc
    simp only [reduceCtorEq, if_false, add_zero] at hd
    refine ⟨by omega, hnl, hnm, ?_, ?_⟩
    · rcases dir_namev_finish_cases F O _ _ w r hfin with
        ⟨res, -, -, -, h4⟩ | ⟨-, -, p, extra, -, h4, h5, -⟩ | ⟨-, -, -, n, -, h4⟩
      · intro c hc2
        rw [h4, hc] at hc2
        rcases hk c hc2 with e | e
        · exact Or.inl e
        · exact Or.inr (Or.inl e)
      · intro c hc2
        rw [h4, hc] at hc2
        rcases List.mem_append.mp hc2 with hc2 | hc2
        · rcases hk c hc2 with e | e
          · exact Or.inl e
          · exact Or.inr (Or.inl e)
        · exact Or.inr (Or.inr (h5 c hc2))
      · intro c hc2
        rw [h4, hc] at hc2
        rcases List.mem_append.mp hc2 with hc2 | hc2
        · rcases hk c hc2 with e | e
          · exact Or.inl e
          · exact Or.inr (Or.inl e)
        · simp only [List.mem_singleton] at hc2
          exact Or.inr (Or.inl ⟨n, hc2⟩)
    · rcases dir_namev_finish_cases F O _ _ w r hfin with
        ⟨res, h1, h2, h3, h4⟩ | ⟨h1, h2, p, extra, h3, h4, -, h6⟩ | ⟨h1, h2, h3, n, h4, h5⟩
      · right; right
        obtain ⟨hneg, d, op, n, hm, hop, hv⟩ := hr res h1
        refine ⟨by omega, h3, ?_, d, op, n, by rw [h4, hc]; exact hm, hop, by omega⟩
        intro v
        have := hd v
        rw [h4, hc, this, h1]
        simp
      · left
        refine ⟨h2, p, h3, ?_⟩
        intro v
        have e1 := hd v
        have e2 := h6 v
        rw [h4, hc, ref_delta_append, e1]
        simp only [h1, true_and]
        omega
      · right; left
        refine ⟨h2, h3, ?_⟩
        intro v
        have e1 := hd v
        rw [h5, hc, ref_delta_append, e1]
        simp only [h1, true_and, h4, Option.some.injEq]
        by_cases hv : n = v
        · simp [ref_delta, VCall.ref_delta, hv]
        · simp [ref_delta, VCall.ref_delta, hv]

/-- C31 holds for `dir_namev`, the error codes being positive and distinct: when the
characters after the last slash are more than `NAME_LEN` it returns `-ENAMETOOLONG` with no
call made (no `lookup`, no `vref`, no `vput`), whatever the fuel; and when every `lookup` it
makes succeeds, it returns `-ENAMETOOLONG` only in that case. -/
theorem dir_namev_name_too_long (F : VfsEnv) (fuel : Nat) (pathname : List Char)
    (base : Option Nat) (hE : 0 < F.ENAMETOOLONG) (hD : F.ENOTDIR ≠ F.ENAMETOOLONG) :
    ((path_basename pathname).length > F.NAME_LEN →
      dir_namev F fuel pathname base =
        Res.ok { ret := -(F.ENAMETOOLONG : Int), name_len := (path_basename pathname).length,
                 name := none, res_vnode := none, calls := [] }) ∧
    (∀ r, dir_namev F fuel pathname base = Res.ok r →
      (∀ d n op, VCall.lookup d n ∈ r.calls → F.vn_lookup d = some op → 0 ≤ (op n).1) →
      (r.ret = -(F.ENAMETOOLONG : Int) ↔ (path_basename pathname).length > F.NAME_LEN)) := by
  constructor
  · intro hlen
    rw [dir_namev_unfold, if_pos hlen]
  · intro r hr hok
    rcases dir_namev_cases F exOps fuel pathname base r hr with ⟨h1, h2⟩ | ⟨h1, -, -, -, h5⟩
    · constructor
      · intro _
        exact h1
      · intro _
        rw [h2]
    · constructor
      · intro hret
        exfalso
        rcases h5 with ⟨h, -⟩ | ⟨h, -⟩ | ⟨h, -, -, d, op, n, hm, hop, hv⟩
        · omega
        · omega
        · have := hok d n op hm hop
          omega
      · intro hlen
        omega

/-- A name of more than 28 characters after `/s5fs/`: `-ENAMETOOLONG` and no call. -/
theorem dir_namev_name_too_long_witness :
    dir_namev exVfs 5 (['/', 's', '5', 'f', 's', '/'] ++ List.replicate 29 'a') none =
      Res.ok { ret := -36, name_len := 29, name := none, res_vnode := none, calls := [] } ∧
    (∀ r, dir_namev exVfs 5 exPath none = Res.ok r →
      (∀ d n op, VCall.lookup d n ∈ r.calls → exVfs.vn_lookup d = some op → 0 ≤ (op n).1) →
      (r.ret = -(exVfs.ENAMETOOLONG : Int) ↔ (path_basename exPath).length > exVfs.NAME_LEN)) :=
  ⟨by decide, (dir_namev_name_too_long exVfs 5 exPath none (by decide) (by decide)).2⟩

/-- C32 holds for `dir_namev`, with positive error codes, a `lookup` operation adding one
reference to its result when it succeeds and none when it fails: the value returned is 0 or
negative; with 0 the vnode in `*res_vnode` has gained exactly one reference and every other
vnode none; with a negative value `*res_vnode` is not written and no vnode has gained or
lost a reference. -/
theorem dir_namev_reference_balance (F : VfsEnv) (O : VfsOps) (fuel : Nat)
    (pathname : List Char) (base : Option Nat) (r : NamevResult)
    (hE : 0 < F.ENAMETOOLONG) (hD : 0 < F.ENOTDIR)
    (hr : dir_namev F fuel pathname base = Res.ok r) :
    (r.ret = 0 ∨ r.ret < 0) ∧
    (r.ret = 0 → ∃ p, r.res_vnode = some p ∧
      ∀ v, ref_delta F O r.calls v = (if v = p then 1 else 0)) ∧
    (r.ret < 0 → r.res_vnode = none ∧ ∀ v, ref_delta F O r.calls v = 0) := by
  rcases dir_namev_cases F O fuel pathname base r hr with ⟨-, h2⟩ | ⟨-, -, -, -, h5⟩
  · subst h2
    refine ⟨Or.inr (by simp only; omega), ?_, ?_⟩
    · intro h
      simp only at h
      omega
    · intro _
      exact ⟨rfl, fun v => rfl⟩
  · rcases h5 with ⟨h, p, hp, hd⟩ | ⟨h, hn, hd⟩ | ⟨h, hn, hd, -⟩
    · exact ⟨Or.inl h, fun _ => ⟨p, hp, hd⟩, fun e => by omega⟩
    · exact ⟨Or.inr (by omega), fun e => by omega, fun _ => ⟨hn, hd⟩⟩
    · exact ⟨Or.inr h, fun e => by omega, fun _ => ⟨hn, hd⟩⟩

/-- For `/s5fs/bin/ls` the vnode of `/s5fs/bin` gains one reference, that of `/s5fs` gains
one and loses it again. -/
theorem dir_namev_reference_balance_witness :
    dir_namev exVfs 5 exPath none =
      Res.ok { ret := 0, name_len := 2, name := some 10, res_vnode := some 3,
               calls := [VCall.lookup 1 ['s', '5', 'f', 's'], VCall.lookup 2 ['b', 'i', 'n'],
                 VCall.vput 2] } ∧
    ((0 : Int) = 0 → ∃ p, some 3 = some p ∧
      ∀ v, ref_delta exVfs exOps [VCall.lookup 1 ['s', '5', 'f', 's'],
        VCall.lookup 2 ['b', 'i', 'n'], VCall.vput 2] v = (if v = p then 1 else 0)) :=
  ⟨by decide,
   (dir_namev_reference_balance exVfs exOps 5 exPath none
    { ret := 0, name_len := 2, name := some 10, res_vnode := some 3,
      calls := [VCall.lookup 1 ['s', '5', 'f', 's'], VCall.lookup 2 ['b', 'i', 'n'],
        VCall.vput 2] } (by decide) (by decide) (by decide)).2.1⟩

/-- The characters `*name` points to are those after the last slash. -/
theorem path_drop_basename (path : List Char) :
    path.drop (path.length - (path_basename path).length) = path_basename path := by
  rcases dir_index_limit_cases path with ⟨-, e, -, -⟩ | ⟨pre, suffix, e1, -, e, -, -⟩
  · rw [e]
    simp
  · rw [e]
    have hl : path.length - suffix.length = (pre ++ ['/']).length := by
      rw [e1]
      simp only [List.length_append, List.length_cons, List.length_nil]
      omega
    rw [hl]
    conv_lhs => rw [e1]
    have e3 : pre ++ '/' :: suffix = (pre ++ ['/']) ++ suffix := by simp
    rw [e3, List.drop_left]

theorem filter_is_create_nil (l : List VCall)
    (h : ∀ c ∈ l, (∃ d n, c = VCall.lookup d n) ∨ (∃ u, c = VCall.vput u) ∨
      (∃ u, c = VCall.vref u)) :
    l.filter VCall.is_create = [] := by
  rw [List.filter_eq_nil_iff]
  intro c hc
  rcases h c hc with ⟨d, n, rfl⟩ | ⟨u, rfl⟩ | ⟨u, rfl⟩ <;> simp [VCall.is_create]

/-- What `open_namev` returns, case by case. -/
theorem open_namev_cases (F : VfsEnv) (O : VfsOps) (fuel : Nat) (pathname : List Char)
    (flag : Nat) (base : Option Nat) (r : OpenResult)
    (h : open_namev F O fuel pathname flag base = Res.ok r) :
    ∃ d, dir_namev F fuel pathname base = Res.ok d ∧
      ((d.ret < 0 ∧ r = { ret := d.ret, res_vnode := none, calls := d.calls }) ∨
       (0 ≤ d.ret ∧ path_basename pathname = [] ∧
          r = { ret := 0, res_vnode := d.res_vnode, calls := d.calls }) ∨
       (0 ≤ d.ret ∧ path_basename pathname ≠ [] ∧
          ∃ dn op, d.res_vnode = some dn ∧ F.vn_lookup dn = some op ∧
            ((0 ≤ (op (path_basename pathname)).1 ∧
                r = { ret := 0, res_vnode := (op (path_basename pathname)).2,
                      calls := d.calls ++ [VCall.lookup dn (path_basename pathname),
                        VCall.vput dn] }) ∨
             ((op (path_basename pathname)).1 < 0 ∧ flag &&& O.O_CREAT = 0 ∧
                r = { ret := (op (path_basename pathname)).1,
                      res_vnode := (op (path_basename pathname)).2,
                      calls := d.calls ++ [VCall.lookup dn (path_basename pathname),
                        VCall.vput dn] }) ∨
             ((op (path_basename pathname)).1 < 0 ∧ flag &&& O.O_CREAT ≠ 0 ∧
                ∃ cr, O.vn_create dn = some cr ∧
                  r = { ret := (cr (path_basename pathname)).1,
                        res_vnode := (cr (path_basename pathname)).2,
                        calls := d.calls ++ [VCall.lookup dn (path_basename pathname),
                          VCall.create dn (path_basename pathname), VCall.vput dn] })))) := by
  unfold open_namev at h
  obtain ⟨d, hd, hrest⟩ := Res.bind_eq_ok h
  refine ⟨d, hd, ?_⟩
  by_cases hneg : d.ret < 0
  · rw [if_pos hneg] at hrest
    simp only [Res.ok.injEq] at hrest
    exact Or.inl ⟨hneg, hrest.symm⟩
  · rw [if_neg hneg] at hrest
    right
    have hnl : d.name_len = (path_basename pathname).length ∧
        (d.name_len ≠ 0 → d.name = some (pathname.length - (path_basename pathname).length) ∨
          d.name = none) := by
      rcases dir_namev_cases F O fuel pathname base d hd with ⟨-, h2⟩ | ⟨-, h2, h3, -, -⟩
      · subst h2
        exact ⟨rfl, fun _ => Or.inr rfl⟩
      · refine ⟨h2, fun hne => Or.inl ?_⟩
        rw [h3, if_neg]
        intro e
        rw [h2, e] at hne
        exact hne rfl
    by_cases hz : d.name_len = 0
    · rw [if_pos hz] at hrest
      simp only [Res.ok.injEq] at hrest
      left
      refine ⟨by omega, ?_, hrest.symm⟩
      rw [hnl.1] at hz
      exact List.length_eq_zero.mp hz
    · rw [if_neg hz] at hrest
      right
      have hbn : path_basename pathname ≠ [] := by
        intro e
        rw [hnl.1, e] at hz
        exact hz rfl
      refine ⟨by omega, hbn, ?_⟩
      rcases hnl.2 hz with hname | hname
      · rw [hname] at hrest
        simp only at hrest
        obtain ⟨x, hx, hrest⟩ := Res.bind_eq_ok hrest
        obtain ⟨dn, op, hdn, hop, hxeq⟩ := lookup_eq_ok hx
        rw [hnl.1, path_drop_basename, List.take_length] at hxeq
        rw [hnl.1, path_drop_basename, List.take_length] at hrest
        subst hxeq
        rw [hdn] at hrest
        simp only at hrest
        refine ⟨dn, op, hdn, hop, ?_⟩
        by_cases hl : (op (path_basename pathname)).1 < 0
        · rw [if_pos hl] at hrest
          right
          by_cases hc : flag &&& O.O_CREAT ≠ 0
          · rw [if_pos hc] at hrest
            right
            cases hcr : O.vn_create dn with
            | none => rw [hcr] at hrest; cases hrest
            | some cr =>
              rw [hcr] at hrest
              simp only [Res.ok.injEq] at hrest
              refine ⟨hl, hc, cr, rfl, ?_⟩
              rw [← hrest]
              simp
          · rw [if_neg hc] at hrest
            simp only [Res.ok.injEq] at hrest
            left
            refine ⟨hl, by simpa using hc, ?_⟩
            rw [← hrest]
            simp
        · rw [if_neg hl] at hrest
          simp only [Res.ok.injEq] at hrest
          left
          refine ⟨by omega, ?_⟩
          rw [← hrest]
          simp
      · rw [hname] at hrest
        cases hrest

/-- The references the calls of `dir_namev` add when it returns a value that is not
negative and has written `*res_vnode`. -/
theorem dir_namev_parent_delta (F : VfsEnv) (O : VfsOps) (fuel : Nat) (path : List Char)
    (base : Option Nat) (d : NamevResult) (h : dir_namev F fuel path base = Res.ok d) :
    (∀ c ∈ d.calls, (∃ a n, c = VCall.lookup a n) ∨ (∃ u, c = VCall.vput u) ∨
        (∃ u, c = VCall.vref u)) ∧
    (∀ dn, d.res_vnode = some dn → ∀ v, ref_delta F O d.calls v = (if v = dn then 1 else 0)) ∧
    (d.res_vnode = none → ∀ v, ref_delta F O d.calls v = 0) := by
  rcases dir_namev_cases F O fuel path base d h with ⟨-, h2⟩ | ⟨-, -, -, h4, h5⟩
  · subst h2
    refine ⟨fun c hc => (by cases hc), fun dn e => (by cases e), fun _ v => rfl⟩
  · refine ⟨h4, ?_, ?_⟩
    · intro dn hdn
      rcases h5 with ⟨-, p, hp, hd⟩ | ⟨-, hn, -⟩ | ⟨-, hn, -⟩
      · rw [hp] at hdn
        simp only [Option.some.injEq] at hdn
        subst hdn
        exact hd
      · rw [hn] at hdn; cases hdn
      · rw [hn] at hdn; cases hdn
    · intro hnone
      rcases h5 with ⟨-, p, hp, -⟩ | ⟨-, -, hd⟩ | ⟨-, -, hd, -⟩
      · rw [hp] at hnone; cases hnone
      · exact hd
      · exact hd

/-- C33 fails for a `lookup` that fails with another error than that of a missing name:
with `O_CREAT`, `open_namev` of `/s5fs/bin/tmp` calls `create` on `bin` although the
`lookup` operation of `bin` returned -5 for `tmp`, not -2. -/
theorem open_namev_create_after_error :
    open_namev exVfsIo exOps 5 exPathTmp 0x100 none =
      Res.ok { ret := 0, res_vnode := some 9,
               calls := [VCall.lookup 1 ['s', '5', 'f', 's'], VCall.lookup 2 ['b', 'i', 'n'],
                 VCall.vput 2, VCall.lookup 3 ['t', 'm', 'p'],
                 VCall.create 3 ['t', 'm', 'p'], VCall.vput 3] } ∧
    (exVfsIo.vn_lookup 3).map (fun op => op ['t', 'm', 'p']) = some (-5, none) := by
  decide

/-- C33 amended: `open_namev` calls a `create` operation only when `O_CREAT` is set,
`dir_namev` did not fail, the characters after the last slash are not none and the `lookup`
of them in the directory `dir_namev` gave failed, with whatever error; it then calls it
once, on that directory, with these characters.  When `dir_namev` fails `open_namev` returns
its value and makes no other call; without `O_CREAT` it calls no `create`, and returns the
error of the `lookup` when that fails. -/
theorem open_namev_create_once (F : VfsEnv) (O : VfsOps) (fuel : Nat) (pathname : List Char)
    (flag : Nat) (base : Option Nat) (r : OpenResult)
    (hr : open_namev F O fuel pathname flag base = Res.ok r) :
    ∃ d, dir_namev F fuel pathname base = Res.ok d ∧
      (d.ret < 0 → r.ret = d.ret ∧ r.calls = d.calls ∧
        r.calls.filter VCall.is_create = []) ∧
      (flag &&& O.O_CREAT = 0 → r.calls.filter VCall.is_create = [] ∧
        ∀ dn op, 0 ≤ d.ret → path_basename pathname ≠ [] → d.res_vnode = some dn →
          F.vn_lookup dn = some op → (op (path_basename pathname)).1 < 0 →
          r.ret = (op (path_basename pathname)).1) ∧
      (r.calls.filter VCall.is_create = [] ∨
        ∃ dn op, r.calls.filter VCall.is_create
            = [VCall.create dn (path_basename pathname)] ∧
          flag &&& O.O_CREAT ≠ 0 ∧ 0 ≤ d.ret ∧ d.res_vnode = some dn ∧
          path_basename pathname ≠ [] ∧ F.vn_lookup dn = some op ∧
          (op (path_basename pathname)).1 < 0) := by
  obtain ⟨d, hd, hcases⟩ := open_namev_cases F O fuel pathname flag base r hr
  have hnc := filter_is_create_nil d.calls (dir_namev_parent_delta F O fuel pathname base d hd).1
  refine ⟨d, hd, ?_, ?_, ?_⟩
  · intro hneg
    rcases hcases with ⟨-, e⟩ | ⟨h0, -⟩ | ⟨h0, -⟩
    · subst e
      exact ⟨rfl, rfl, hnc⟩
    · omega
    · omega
  · intro hflag
    rcases hcases with ⟨hneg, e⟩ | ⟨h0, hb, e⟩ | ⟨h0, hb, dn, op, hdn, hop, hc⟩
    · subst e
      exact ⟨hnc, fun dn op h0 => by omega⟩
    · subst e
      exact ⟨hnc, fun dn op _ hne => absurd hb hne⟩
    · rcases hc with ⟨hl, e⟩ | ⟨hl, -, e⟩ | ⟨-, hf, -⟩
      · subst e
        refine ⟨by simp [List.filter_append, hnc, VCall.is_create], ?_⟩
        intro dn2 op2 _ _ hdn2 hop2 hl2
        rw [hdn] at hdn2
        simp only [Option.some.injEq] at hdn2
        subst hdn2
        rw [hop] at hop2
        simp only [Option.some.injEq] at hop2
        subst hop2
        omega
      · subst e
        refine ⟨by simp [List.filter_append, hnc, VCall.is_create], ?_⟩
        intro dn2 op2 _ _ hdn2 hop2 _
        rw [hdn] at hdn2
        simp only [Option.some.injEq] at hdn2
        subst hdn2
        rw [hop] at hop2
        simp only [Option.some.injEq] at hop2
        subst hop2
        rfl
      · exact absurd hflag hf
  · rcases hcases with ⟨hneg, e⟩ | ⟨h0, hb, e⟩ | ⟨h0, hb, dn, op, hdn, hop, hc⟩
    · subst e
      exact Or.inl hnc
    · subst e
      exact Or.inl hnc
    · rcases hc with ⟨hl, e⟩ | ⟨hl, -, e⟩ | ⟨hl, hf, cr, -, e⟩
      · subst e
        exact Or.inl (by simp [List.filter_append, hnc, VCall.is_create])
      · subst e
        exact Or.inl (by simp [List.filter_append, hnc, VCall.is_create])
      · subst e
        right
        exact ⟨dn, op, by simp [List.filter_append, hnc, VCall.is_create], hf, h0, hdn, hb,
          hop, hl⟩

/-- The file `/s5fs/bin/tmp` created with `O_CREAT`, `/s5fs/bin/ls` being there and `tmp`
not: one `create`, on `bin`, with the name `tmp`; and `/nodir/x`, where `nodir` does not
exist: the error of the `lookup`, and no `create`. -/
theorem open_namev_create_once_witness :
    open_namev exVfs exOps 5 exPathTmp 0x100 none =
      Res.ok { ret := 0, res_vnode := some 9,
               calls := [VCall.lookup 1 ['s', '5', 'f', 's'], VCall.lookup 2 ['b', 'i', 'n'],
                 VCall.vput 2, VCall.lookup 3 ['t', 'm', 'p'],
                 VCall.create 3 ['t', 'm', 'p'], VCall.vput 3] } ∧
    open_namev exVfs exOps 5 exPathNoDir 0x100 none =
      Res.ok { ret := -2, res_vnode := none,
               calls := [VCall.lookup 1 ['n', 'o', 'd', 'i', 'r']] } ∧
    ∃ d, dir_namev exVfs 5 exPathTmp none = Res.ok d ∧
      (d.ret < 0 → (0 : Int) = d.ret ∧
        [VCall.lookup 1 ['s', '5', 'f', 's'], VCall.lookup 2 ['b', 'i', 'n'],
          VCall.vput 2, VCall.lookup 3 ['t', 'm', 'p'],
          VCall.create 3 ['t', 'm', 'p'], VCall.vput 3] = d.calls ∧
        [VCall.lookup 1 ['s', '5', 'f', 's'], VCall.lookup 2 ['b', 'i', 'n'],
          VCall.vput 2, VCall.lookup 3 ['t', 'm', 'p'],
          VCall.create 3 ['t', 'm', 'p'], VCall.vput 3].filter VCall.is_create = []) :=
  ⟨by decide, by decide,
   (open_namev_create_once exVfs exOps 5 exPathTmp 0x100 none
      { ret := 0, res_vnode := some 9,
        calls := [VCall.lookup 1 ['s', '5', 'f', 's'], VCall.lookup 2 ['b', 'i', 'n'],
          VCall.vput 2, VCall.lookup 3 ['t', 'm', 'p'],
          VCall.create 3 ['t', 'm', 'p'], VCall.vput 3] } (by decide)).imp
     (fun _ h => ⟨h.1, h.2.1⟩)⟩

/-- C34 fails when the vnode found is the parent itself: `open_namev` of `/s5fs/bin/.`
returns the vnode of `bin`, which is also the parent `dir_namev` gave, and that vnode has
one reference more than before the call. -/
theorem open_namev_dot_parent_reference :
    open_namev exVfsDot exOps 5 exPathDot 0 none =
      Res.ok { ret := 0, res_vnode := some 3,
               calls := [VCall.lookup 1 ['s', '5', 'f', 's'], VCall.lookup 2 ['b', 'i', 'n'],
                 VCall.vput 2, VCall.lookup 3 ['.'], VCall.vput 3] } ∧
    (∃ d, dir_namev exVfsDot 5 exPathDot none = Res.ok d ∧ d.res_vnode = some 3 ∧
      d.name_len = 1) ∧
    ref_delta exVfsDot exOps
      [VCall.lookup 1 ['s', '5', 'f', 's'], VCall.lookup 2 ['b', 'i', 'n'],
        VCall.vput 2, VCall.lookup 3 ['.'], VCall.vput 3] 3 = 1 := by
  refine ⟨by decide, ⟨_, rfl, by decide, by decide⟩, by decide⟩

/-- C34 amended: a `lookup` or `create` operation adding one reference to its result when
it succeeds and none when it fails, the calls of `open_namev` add one reference to the vnode
it returns when the value returned is not negative, and add or take no reference otherwise;
so the reference `dir_namev` added to the parent is released on every path but that of an
empty final component, and the parent has its count of before unless it is the vnode
returned.  When the characters after the last slash are none and `dir_namev` did not fail,
`open_namev` returns 0 and the vnode `dir_namev` gave, with the calls of `dir_namev`
only. -/
theorem open_namev_reference_balance (F : VfsEnv) (O : VfsOps) (fuel : Nat)
    (pathname : List Char) (flag : Nat) (base : Option Nat) (r : OpenResult)
    (hr : open_namev F O fuel pathname flag base = Res.ok r) :
    (∀ v, ref_delta F O r.calls v = (if 0 ≤ r.ret ∧ r.res_vnode = some v then 1 else 0)) ∧
    (∃ d, dir_namev F fuel pathname base = Res.ok d ∧
      (path_basename pathname = [] → 0 ≤ d.ret →
        r.ret = 0 ∧ r.res_vnode = d.res_vnode ∧ r.calls = d.calls) ∧
      (∀ dn, d.res_vnode = some dn → path_basename pathname ≠ [] → r.res_vnode ≠ some dn →
        ref_delta F O r.calls dn = 0)) := by
  obtain ⟨d, hd, hcases⟩ := open_namev_cases F O fuel pathname flag base r hr
  obtain ⟨-, hsome, hnone⟩ := dir_namev_parent_delta F O fuel pathname base d hd
  have hdelta : ∀ v, ref_delta F O r.calls v
      = (if 0 ≤ r.ret ∧ r.res_vnode = some v then 1 else 0) := by
    intro v
    rcases hcases with ⟨hneg, e⟩ | ⟨h0, hb, e⟩ | ⟨h0, hb, dn, op, hdn, hop, hc⟩
    · subst e
      simp only
      have hd0 : ref_delta F O d.calls v = 0 := by
        rcases dir_namev_cases F O fuel pathname base d hd with ⟨-, h2⟩ | ⟨-, -, -, -, h5⟩
        · subst h2
          rfl
        · rcases h5 with ⟨h, -⟩ | ⟨-, -, hz⟩ | ⟨-, -, hz, -⟩
          · omega
          · exact hz v
          · exact hz v
      rw [hd0, if_neg]
      rintro ⟨a, -⟩
      omega
    · subst e
      simp only
      cases hrv : d.res_vnode with
      | none =>
        rw [hnone hrv v]
        simp
      | some p =>
        rw [hsome p hrv v]
        by_cases hv : v = p
        · simp [hv]
        · have : p ≠ v := fun e => hv e.symm
          simp [hv, this]
    · have hdv := hsome dn hdn v
      have hput : VCall.ref_delta F O v (VCall.vput dn) = -(if v = dn then 1 else 0) := by
        by_cases hv : v = dn
        · simp [VCall.ref_delta, hv]
        · have : dn ≠ v := fun e => hv e.symm
          simp [VCall.ref_delta, hv, this]
      rcases hc with ⟨hl, e⟩ | ⟨hl, -, e⟩ | ⟨hl, hf, cr, hcr, e⟩
      · subst e
        simp only [ref_delta_append, ref_delta_cons, ref_delta_nil, hdv, hput]
        simp only [VCall.ref_delta, hop]
        by_cases hv : (op (path_basename pathname)).2 = some v
        · simp [hv, hl]
        · simp [hv]
      · subst e
        simp only [ref_delta_append, ref_delta_cons, ref_delta_nil, hdv, hput]
        simp only [VCall.ref_delta, hop]
        by_cases hv : v = dn
        · simp [hv]
        · simp [hv]
      · subst e
        simp only [ref_delta_append, ref_delta_cons, ref_delta_nil, hdv, hput]
        simp only [VCall.ref_delta, hop, hcr]
        have h1 : ¬ (0 ≤ (op (path_basename pathname)).1 ∧
            (op (path_basename pathname)).2 = some v) := by
          rintro ⟨a, -⟩
          omega
        rw [if_neg h1]
        split_ifs <;> omega
  refine ⟨hdelta, d, hd, ?_, ?_⟩
  · intro hb h0
    rcases hcases with ⟨hneg, -⟩ | ⟨-, -, e⟩ | ⟨-, hne, -⟩
    · omega
    · subst e
      exact ⟨rfl, rfl, rfl⟩
    · exact absurd hb hne
  · intro dn _ _ hne
    rw [hdelta dn, if_neg]
    rintro ⟨-, e⟩
    exact hne e

/-- The file `/s5fs/bin/ls` opened: the vnode of `ls` gains one reference, the parent
`bin` none. -/
theorem open_namev_reference_balance_witness :
    open_namev exVfs exOps 5 exPath 0 none =
      Res.ok { ret := 0, res_vnode := some 4,
               calls := [VCall.lookup 1 ['s', '5', 'f', 's'], VCall.lookup 2 ['b', 'i', 'n'],
                 VCall.vput 2, VCall.lookup 3 ['l', 's'], VCall.vput 3] } ∧
    ∀ v, ref_delta exVfs exOps
        [VCall.lookup 1 ['s', '5', 'f', 's'], VCall.lookup 2 ['b', 'i', 'n'],
          VCall.vput 2, VCall.lookup 3 ['l', 's'], VCall.vput 3] v
      = (if (0 : Int) ≤ 0 ∧ some 4 = some v then 1 else 0) :=
  ⟨by decide,
   (open_namev_reference_balance exVfs exOps 5 exPath 0 none
      { ret := 0, res_vnode := some 4,
        calls := [VCall.lookup 1 ['s', '5', 'f', 's'], VCall.lookup 2 ['b', 'i', 'n'],
          VCall.vput 2, VCall.lookup 3 ['l', 's'], VCall.vput 3] } (by decide)).1⟩

/-- C35 fails for a slot `nfd` that holds another open file: the documentation of `do_dup2`
says "If nfd is in use (and not the same as ofd) do_close() it first", but the call of
`do_close` is commented out.  For `ofd` open and `nfd` in range and not `ofd`, `do_dup2`
returns `nfd`, puts the file of `ofd` in slot `nfd` and adds one reference to it, and leaves
the count of every other file, that of the file slot `nfd` held included, as it was; on
`exFiles` the file at 11 of slot 1 keeps its one reference and is in no slot any more.  With
`nfd` equal to `ofd` slots and counts are as before, and with `ofd` or `nfd` out of range or
`ofd` not open the value is `-EBADF` and slots and counts are as before. -/
theorem do_dup2_keeps_prior_file (NFILES : Int) (EBADF : Nat) (ft : FileTable)
    (ofd nfd : Int) :
    (∀ f, 0 ≤ ofd → ofd < NFILES → 0 ≤ nfd → nfd < NFILES → ft.p_files ofd = some f →
      nfd ≠ ofd →
      (do_dup2 NFILES EBADF ft ofd nfd).1 = nfd ∧
      (do_dup2 NFILES EBADF ft ofd nfd).2.p_files = Function.update ft.p_files nfd (some f) ∧
      (do_dup2 NFILES EBADF ft ofd nfd).2.f_refcount
        = Function.update ft.f_refcount f (ft.f_refcount f + 1)) ∧
    (∀ f, 0 ≤ ofd → ofd < NFILES → ft.p_files ofd = some f → nfd = ofd →
      (do_dup2 NFILES EBADF ft ofd nfd).1 = nfd ∧
      (∀ fd, (do_dup2 NFILES EBADF ft ofd nfd).2.p_files fd = ft.p_files fd) ∧
      (∀ g, (do_dup2 NFILES EBADF ft ofd nfd).2.f_refcount g = ft.f_refcount g)) ∧
    (ofd < 0 ∨ NFILES ≤ ofd ∨ nfd < 0 ∨ NFILES ≤ nfd ∨ ft.p_files ofd = none →
      (do_dup2 NFILES EBADF ft ofd nfd).1 = -(EBADF : Int) ∧
      (do_dup2 NFILES EBADF ft ofd nfd).2.p_files = ft.p_files ∧
      (do_dup2 NFILES EBADF ft ofd nfd).2.f_refcount = ft.f_refcount) ∧
    ((do_dup2 20 9 exFiles 0 1).1 = 1 ∧
      (do_dup2 20 9 exFiles 0 1).2.p_files 1 = some 10 ∧
      (do_dup2 20 9 exFiles 0 1).2.f_refcount 10 = 2 ∧
      exFiles.p_files 1 = some 11 ∧ exFiles.f_refcount 11 = 1 ∧
      (do_dup2 20 9 exFiles 0 1).2.f_refcount 11 = 1 ∧
      ∀ fd, (do_dup2 20 9 exFiles 0 1).2.p_files fd ≠ some 11) := by
  refine ⟨?_, ?_, ?_, ?_⟩
  · intro f h1 h2 h3 h4 hf hne
    have c1 : ¬ (ofd < 0 ∨ ofd ≥ NFILES) := by omega
    have c2 : ¬ (nfd < 0 ∨ nfd ≥ NFILES) := by omega
    simp only [do_dup2, FileTable.fget, if_neg c1, if_neg c2, hf, if_neg hne]
    exact ⟨trivial, trivial, trivial⟩
  · intro f h1 h2 hf heq
    subst heq
    have c1 : ¬ (nfd < 0 ∨ nfd ≥ NFILES) := by omega
    simp only [do_dup2, FileTable.fget, if_neg c1, hf, if_true, FileTable.fput]
    refine ⟨trivial, ?_, ?_⟩
    · intro fd
      by_cases h : fd = nfd
      · subst h
        simp [hf]
      · simp [Function.update, h]
    · intro g
      by_cases h : g = f
      · subst h
        simp
      · simp [Function.update, h]
  · intro h
    by_cases c1 : ofd < 0 ∨ ofd ≥ NFILES
    · simp only [do_dup2, if_pos c1]
      exact ⟨trivial, trivial, trivial⟩
    · by_cases c2 : nfd < 0 ∨ nfd ≥ NFILES
      · simp only [do_dup2, if_neg c1, if_pos c2]
        exact ⟨trivial, trivial, trivial⟩
      · have hf : ft.p_files ofd = none := by
          rcases h with h | h | h | h | h
          · omega
          · omega
          · omega
          · omega
          · exact h
        simp only [do_dup2, FileTable.fget, if_neg c1, if_neg c2, hf]
        exact ⟨trivial, trivial, trivial⟩
  · refine ⟨by decide, by decide, by decide, by decide, by decide, by decide, ?_⟩
    intro fd
    have c1 : ¬ ((0 : Int) < 0 ∨ (0 : Int) ≥ 20) := by omega
    have c2 : ¬ ((1 : Int) < 0 ∨ (1 : Int) ≥ 20) := by omega
    simp only [do_dup2, FileTable.fget, if_neg c1, if_neg c2, exFiles]
    by_cases h1 : fd = 1
    · subst h1
      simp
    · by_cases h0 : fd = 0
      · subst h0
        simp
      · simp [Function.update, h1, h0]

/-- When `dir_namev` returns a negative value it has not written `*res_vnode`. -/
theorem dir_namev_failed_vnode (F : VfsEnv) (fuel : Nat) (path : List Char)
    (base : Option Nat) (d : NamevResult) (h : dir_namev F fuel path base = Res.ok d)
    (hneg : d.ret < 0) : d.res_vnode = none := by
  rcases dir_namev_cases F exOps fuel path base d h with ⟨-, h2⟩ | ⟨-, -, -, -, h5⟩
  · subst h2
    rfl
  · rcases h5 with ⟨h0, -⟩ | ⟨-, hn, -⟩ | ⟨-, hn, -⟩
    · omega
    · exact hn
    · exact hn

/-- C36 fails: the test of the value of `dir_namev` is commented out in `do_mknod`, although
its documentation lists `ENOENT`, `ENOTDIR` and `ENAMETOOLONG` among the errors to handle.
Whenever `dir_namev` fails, `dir_vnode` is still `NULL` and `do_mknod` fails the assertion
`KASSERT(NULL != dir_vnode)` instead of returning the error, as for `/nodir/x`.  And the
value of `lookup` is not read: when the path exists `do_mknod` calls the `mknod` operation
all the same and returns its value, and the reference `lookup` added to the vnode found is
not released; for `/s5fs/bin/ls` it returns 0, not `-EEXIST`, and the vnode of `ls` has one
reference more. -/
theorem do_mknod_unchecked_parent (F : VfsEnv) (O : VfsOps) (fuel : Nat) (path : List Char)
    (mode devid : Nat) :
    (∀ d, O.S_ISCHR mode = true ∨ O.S_ISBLK mode = true →
      dir_namev F fuel path none = Res.ok d → d.ret < 0 →
      do_mknod F O fuel path mode devid = Res.panic) ∧
    (∀ d dn op mk, O.S_ISCHR mode = true ∨ O.S_ISBLK mode = true →
      dir_namev F fuel path none = Res.ok d → d.ret = 0 → path_basename path ≠ [] →
      d.res_vnode = some dn → F.vn_lookup dn = some op → O.vn_mknod dn = some mk →
      do_mknod F O fuel path mode devid =
        Res.ok (mk (path_basename path) mode devid,
          d.calls ++ [VCall.lookup dn (path_basename path),
            VCall.mknod dn (path_basename path) mode devid, VCall.vput dn])) ∧
    do_mknod exVfs exOps 5 exPathNoDir 0x2000 0 = Res.panic ∧
    dir_namev exVfs 5 exPathNoDir none =
      Res.ok { ret := -2, name_len := 1, name := some 7, res_vnode := none,
               calls := [VCall.lookup 1 ['n', 'o', 'd', 'i', 'r']] } ∧
    do_mknod exVfs exOps 5 exPath 0x2000 0 =
      Res.ok (0, [VCall.lookup 1 ['s', '5', 'f', 's'], VCall.lookup 2 ['b', 'i', 'n'],
        VCall.vput 2, VCall.lookup 3 ['l', 's'], VCall.mknod 3 ['l', 's'] 0x2000 0,
        VCall.vput 3]) ∧
    ref_delta exVfs exOps [VCall.lookup 1 ['s', '5', 'f', 's'], VCall.lookup 2 ['b', 'i', 'n'],
        VCall.vput 2, VCall.lookup 3 ['l', 's'], VCall.mknod 3 ['l', 's'] 0x2000 0,
        VCall.vput 3] 4 = 1 := by
  refine ⟨?_, ?_, by decide, by decide, by decide, by decide⟩
  · intro d hmode hd hneg
    have hn := dir_namev_failed_vnode F fuel path none d hd hneg
    unfold do_mknod
    rw [if_pos hmode, hd]
    simp only [Res.bind, hn]
  · intro d dn op mk hmode hd h0 hbn hdn hop hmk
    have hnames : d.name_len = (path_basename path).length ∧
        d.name = some (path.length - (path_basename path).length) := by
      rcases dir_namev_cases F O fuel path none d hd with ⟨-, h2⟩ | ⟨-, h2, h3, -, -⟩
      · subst h2
        cases hdn
      · exact ⟨h2, by rw [h3, if_neg hbn]⟩
    unfold do_mknod
    rw [if_pos hmode, hd]
    simp only [Res.bind, hdn, hnames.1, hnames.2, path_drop_basename, List.take_length, lookup,
      hop, hmk]
    simp

/-- C40 fails: `do_brk` does not keep an area over the page of `p_start_brk`, and does not
test the area `vmmap_lookup` returns.  On `exBrkProc`, where `p_start_brk` is the first
address of the area `[1024, 1027)`, the call with `addr = p_start_brk` passes the validation,
returns 0 and removes the area; the next call, with an address the validation accepts, reads
`vma->vma_end` through `NULL`.  In general a call with a valid non-null address on a map
without an area over the page of `p_start_brk` does so. -/
theorem do_brk_loses_break_area :
    vmmap_lookup exBrkProc.p_vmmap (ADDR_TO_PN exK exBrkProc.p_start_brk)
      = some (exArea 1024 1027 0 1) ∧
    validate_brk_addr exK exBrkProc 0x400000 = 0 ∧
    do_brk exK 5 exBrkProc 0x400000 =
      Res.ok
        { ret := 0, brk_out := some 0x400000
          proc := { p_brk := 0x400000, p_start_brk := 0x400000,
                    p_vmmap := { vmm_addr := 7, vmm_list := [], vmm_proc := none } }
          calls := [KCall.put (some 1), KCall.tlb_flush_all,
            KCall.pt_unmap_range 0x400000 0x403000] } ∧
    vmmap_lookup { vmm_addr := 7, vmm_list := [], vmm_proc := none }
      (ADDR_TO_PN exK 0x400000) = none ∧
    validate_brk_addr exK
      { p_brk := 0x400000, p_start_brk := 0x400000,
        p_vmmap := { vmm_addr := 7, vmm_list := [], vmm_proc := none } } 0x401000 = 0 ∧
    do_brk exK 5
      { p_brk := 0x400000, p_start_brk := 0x400000,
        p_vmmap := { vmm_addr := 7, vmm_list := [], vmm_proc := none } } 0x401000
      = Res.panic ∧
    (∀ (K : KParams) (fuel : Nat) (proc : BrkProc) (addr : Nat), addr ≠ 0 →
      proc.p_start_brk ≤ addr → addr ≤ K.USER_MEM_HIGH →
      vmmap_lookup proc.p_vmmap (ADDR_TO_PN K proc.p_start_brk) = none →
      do_brk K fuel proc addr = Res.panic) := by
  refine ⟨by rfl, by decide, by rfl, by rfl, by decide, by rfl, ?_⟩
  intro K fuel proc addr hnz hlo hhi hnone
  have hgood : ¬ (addr < proc.p_start_brk ∨ addr > K.USER_MEM_HIGH) := by omega
  unfold do_brk validate_brk_addr
  rw [if_neg hnz]
  simp only [if_neg hgood, lt_self_iff_false, if_false, hnone]

/-! ### Pages outside the range of `vmmap_remove` -/

theorem mem_remove_areas_of_mem {mapaddr lopage npages : Nat} {l : List vmarea}
    {a x : vmarea} (ha : a ∈ l) (hx : x ∈ remove_area mapaddr lopage npages a) :
    x ∈ remove_areas mapaddr lopage npages l := by
  induction l with
  | nil => cases ha
  | cons b rest ih =>
    simp only [remove_areas, List.mem_append]
    rcases List.mem_cons.mp ha with rfl | ha
    · exact Or.inl hx
    · exact Or.inr (ih ha)

/-- What the four cases of `vmmap_remove` leave of one area maps a page outside the range
as the area did. -/
theorem remove_area_view (mapaddr : Nat) {lopage npages : Nat} (hw : lopage + npages < U32)
    {a : vmarea} (ha : a.vma_start < a.vma_end) (p : Nat)
    (hp : ¬ (lopage ≤ p ∧ p < lopage + npages)) :
    (a.vma_start ≤ p ∧ p < a.vma_end →
      ∃ x ∈ remove_area mapaddr lopage npages a, x.vma_start ≤ p ∧ p < x.vma_end) ∧
    (∀ x ∈ remove_area mapaddr lopage npages a, x.vma_start ≤ p → p < x.vma_end →
      a.vma_start ≤ p ∧ p < a.vma_end ∧ x.vma_obj = a.vma_obj ∧
      u32add (u32sub p x.vma_start) x.vma_off = u32add (u32sub p a.vma_start) a.vma_off ∧
      x.vma_prot = a.vma_prot ∧ x.vma_flags = a.vma_flags) := by
  have hsum := u32add_eq hw
  unfold remove_area
  split_ifs with c1 c2 c3 c4
  · constructor
    · intro hin
      by_cases hlo : p < lopage
      · exact ⟨_, List.mem_cons_self _ _, hin.1, hlo⟩
      · refine ⟨_, List.mem_cons_of_mem _ (List.mem_singleton.mpr rfl), ?_, ?_⟩
        · simp only [vmmap_remove_newvma, hsum]
          omega
        · simp only [vmmap_remove_newvma]
          exact hin.2
    · intro x hx h1 h2
      simp only [List.mem_cons, List.mem_singleton, List.not_mem_nil, or_false] at hx
      rcases hx with rfl | rfl
      · simp only at h1 h2
        exact ⟨h1, by omega, rfl, rfl, rfl, rfl⟩
      · simp only [vmmap_remove_newvma, hsum] at h1 h2
        refine ⟨by omega, h2, rfl, ?_, rfl, rfl⟩
        simp only [vmmap_remove_newvma, hsum]
        unfold u32add u32sub
        unfold U32 at *
        omega
  · constructor
    · intro hin
      exact ⟨_, List.mem_singleton.mpr rfl, hin.1, by simp only; omega⟩
    · intro x hx h1 h2
      simp only [List.mem_singleton] at hx
      subst hx
      simp only at h1 h2
      exact ⟨h1, by omega, rfl, rfl, rfl, rfl⟩
  · constructor
    · intro hin
      exact ⟨_, List.mem_singleton.mpr rfl, by simp only; omega, hin.2⟩
    · intro x hx h1 h2
      simp only [List.mem_singleton] at hx
      subst hx
      simp only at h1 h2
      refine ⟨by omega, h2, rfl, ?_, rfl, rfl⟩
      simp only
      unfold u32add u32sub
      unfold U32 at *
      omega
  · constructor
    · intro hin
      omega
    · intro x hx
      cases hx
  · constructor
    · intro hin
      exact ⟨a, List.mem_singleton.mpr rfl, hin.1, hin.2⟩
    · intro x hx h1 h2
      simp only [List.mem_singleton] at hx
      subst hx
      exact ⟨h1, h2, rfl, rfl, rfl, rfl⟩

/-- The list `vmmap_remove` leaves maps a page outside the range as the list before. -/
theorem remove_areas_page_view (map : vmmap) (lopage npages : Nat)
    (hwf : WellFormed map.vmm_list) (hw : lopage + npages < U32) (p : Nat)
    (hp : ¬ (lopage ≤ p ∧ p < lopage + npages)) :
    page_view { map with vmm_list := remove_areas map.vmm_addr lopage npages map.vmm_list } p
      = page_view map p := by
  have hwf1 : WellFormed (remove_areas map.vmm_addr lopage npages map.vmm_list) :=
    remove_areas_wellFormed hw hwf
  have hne := ((wellFormed_iff _).mp hwf).2
  have hL := vmmap_lookup_cases map p
  have hL1 := vmmap_lookup_cases
    { map with vmm_list := remove_areas map.vmm_addr lopage npages map.vmm_list } p
  unfold page_view
  by_cases hex : ∃ a ∈ map.vmm_list, a.vma_start ≤ p ∧ p < a.vma_end
  · obtain ⟨a, ha, ha1, ha2, ha3⟩ := hL.1 hex
    obtain ⟨x, hx, hx1, hx2⟩ :=
      (remove_area_view map.vmm_addr hw (hne a ha1) p hp).1 ⟨ha2, ha3⟩
    have hxm := mem_remove_areas_of_mem ha1 hx
    obtain ⟨y, hy, hy1, hy2, hy3⟩ := hL1.1 ⟨x, hxm, hx1, hx2⟩
    have hxy : x = y := hL1.2.2 hwf1 y hy x hxm hx1 hx2
    subst hxy
    obtain ⟨-, -, e1, e2, e3, e4⟩ :=
      (remove_area_view map.vmm_addr hw (hne a ha1) p hp).2 x hx hx1 hx2
    rw [hy, ha]
    simp only [Option.map_some', e1, e2, e3, e4]
  · have hn := hL.2.1 hex
    have hn1 : vmmap_lookup
        { map with vmm_list := remove_areas map.vmm_addr lopage npages map.vmm_list } p
        = none := by
      apply hL1.2.1
      rintro ⟨x, hxm, hx1, hx2⟩
      obtain ⟨a, ha, hxa⟩ := mem_remove_areas hxm
      obtain ⟨h1, h2, -⟩ :=
        (remove_area_view map.vmm_addr hw (hne a ha) p hp).2 x hxa hx1 hx2
      exact hex ⟨a, ha, h1, h2⟩
    rw [hn, hn1]

/-- C37 holds for `vmmap_remove` on a well-formed map inside the user window whose areas
are bound to objects, and a range that does not wrap around `2 ^ 32`: the call returns 0 (the
`KASSERT`s of the `vmmap_insert` call of case 1 hold, and every `ref` and `put` goes through
the object of an area), and every page outside `[lopage, lopage + npages)` is mapped after the
call exactly when it was before, and then resolves to the same object, the same page index of
the object (`p - vma_start + vma_off` in 32 bits), the same protection and the same flags. -/
theorem vmmap_remove_frame (K : KParams) (map : vmmap) (lopage npages fuel : Nat)
    (hwf : WellFormed map.vmm_list) (hwin : InWindow K map.vmm_list)
    (hobj : ∀ a ∈ map.vmm_list, a.vma_obj ≠ none) (hw : lopage + npages < U32)
    (hf : map.vmm_list.length < fuel) :
    ∃ map1 tr, vmmap_remove K fuel map lopage npages = some (0, map1, tr) ∧
      (∀ a ∈ map.vmm_list, a.vma_start < lopage → a.vma_end > lopage + npages →
        vmmap_insert_asserts K (vmmap_remove_newvma lopage npages a)) ∧
      (∀ c ∈ tr, c ≠ KCall.ref none ∧ c ≠ KCall.put none) ∧
      ∀ p, ¬ (lopage ≤ p ∧ p < lopage + npages) →
        page_view map1 p = page_view map p ∧
        ((∃ a ∈ map1.vmm_list, a.vma_start ≤ p ∧ p < a.vma_end) ↔
          ∃ a ∈ map.vmm_list, a.vma_start ≤ p ∧ p < a.vma_end) := by
  refine ⟨_, _, vmmap_remove_eq K map lopage npages hw hwf fuel hf, ?_, ?_, ?_⟩
  · intro a ha h1 h2
    exact vmmap_remove_newvma_asserts K lopage npages a hw (hwin a ha) h1 h2
  · exact remove_trace_objects lopage npages map.vmm_list _ hobj (fun c hc => by
      simp only [List.mem_cons, List.mem_singleton, List.not_mem_nil, or_false] at hc
      rcases hc with rfl | rfl <;> exact ⟨fun e => (by cases e), fun e => (by cases e)⟩)
  intro p hp
  have hne := ((wellFormed_iff _).mp hwf).2
  refine ⟨remove_areas_page_view map lopage npages hwf hw p hp, ?_, ?_⟩
  · rintro ⟨x, hxm, hx1, hx2⟩
    obtain ⟨a, ha, hxa⟩ := mem_remove_areas hxm
    obtain ⟨h1, h2, -⟩ :=
      (remove_area_view map.vmm_addr hw (hne a ha) p hp).2 x hxa hx1 hx2
    exact ⟨a, ha, h1, h2⟩
  · rintro ⟨a, ha, h1, h2⟩
    obtain ⟨x, hx, hx1, hx2⟩ :=
      (remove_area_view map.vmm_addr hw (hne a ha) p hp).1 ⟨h1, h2⟩
    exact ⟨x, mem_remove_areas_of_mem ha hx, hx1, hx2⟩

/-- The range `[1027, 1045)` removed from `exMap4`: the first area loses its tail, the
second goes, the third loses its head and has its offset advanced from 3 to 8; page 1046
resolves to page 9 of object 3 before and after. -/
theorem vmmap_remove_frame_witness :
    vmmap_remove exK 10 exMap4 1027 18 =
      some (0,
        { vmm_addr := 7
          vmm_list := [exArea 1024 1027 0 1, exArea 1045 1050 8 3, exArea 1060 1070 3 4]
          vmm_proc := none },
        [KCall.put (some 2), KCall.tlb_flush_all, KCall.pt_unmap_range 4206592 4280320]) ∧
    page_view exMap4 1046 = some (some 3, 9, 3, 1) ∧
    page_view
      { vmm_addr := 7
        vmm_list := [exArea 1024 1027 0 1, exArea 1045 1050 8 3, exArea 1060 1070 3 4]
        vmm_proc := none } 1046 = some (some 3, 9, 3, 1) ∧
    ∃ map1 tr, vmmap_remove exK 10 exMap4 1027 18 = some (0, map1, tr) ∧
      (∀ a ∈ exMap4.vmm_list, a.vma_start < 1027 → a.vma_end > 1027 + 18 →
        vmmap_insert_asserts exK (vmmap_remove_newvma 1027 18 a)) ∧
      (∀ c ∈ tr, c ≠ KCall.ref none ∧ c ≠ KCall.put none) ∧
      ∀ p, ¬ (1027 ≤ p ∧ p < 1027 + 18) →
        page_view map1 p = page_view exMap4 p ∧
        ((∃ a ∈ map1.vmm_list, a.vma_start ≤ p ∧ p < a.vma_end) ↔
          ∃ a ∈ exMap4.vmm_list, a.vma_start ≤ p ∧ p < a.vma_end) :=
  ⟨by decide, by decide, by decide,
   vmmap_remove_frame exK exMap4 1027 18 10 exMap4_wellFormed exMap4_inWindow exMap4_objects
     (by decide) (by decide)⟩

/-- The reference counts `handle_memory_object` leaves for a private area bound to `P` with
bottom object `b`: `P` has gained one reference and `b` two (three in all when `P` is its
own bottom object), and every object beside these and the two new ones is as it was. -/
theorem handle_memory_object_counts (K : KParams) (n : Nat) (st : VMState)
    (childVmArea parentVmArea : vmarea) (P b : Nat) (obP bob : mmobj)
    (hpriv : K.MAP_SHARED ≠ childVmArea.vma_flags &&& K.MAP_TYPE)
    (hP : parentVmArea.vma_obj = some P)
    (hobP : st.objs P = some obP) (hrP : 0 < obP.mmo_refcount)
    (hbotP : mmobj_bottom_obj st P = Res.ok (some b))
    (hbob : st.objs b = some bob) (hrb : 0 < bob.mmo_refcount)
    (hfresh : ∀ i, st.next_obj ≤ i → st.objs i = none) :
    ∃ st6,
      handle_memory_object K (mmo_ops_at K (n + 1)) st childVmArea parentVmArea
        = Res.ok ({ childVmArea with vma_obj := some (st.next_obj + 1) },
            { parentVmArea with vma_obj := some st.next_obj }, st6) ∧
      (st6.objs P).map (fun ob => ob.mmo_refcount)
        = some (obP.mmo_refcount + (if P = b then 3 else 1)) ∧
      (st6.objs b).map (fun ob => ob.mmo_refcount)
        = some (bob.mmo_refcount + (if P = b then 3 else 2)) ∧
      (∀ x, x ≠ P → x ≠ b → x ≠ st.next_obj → x ≠ st.next_obj + 1 →
        st6.objs x = st.objs x) := by
  have hN : st.objs st.next_obj = none := hfresh _ (le_refl _)
  have hN1 : st.objs (st.next_obj + 1) = none := hfresh _ (Nat.le_succ _)
  have hPN : P ≠ st.next_obj := by rintro rfl; rw [hN] at hobP; simp at hobP
  have hPN1 : P ≠ st.next_obj + 1 := by rintro rfl; rw [hN1] at hobP; simp at hobP
  have hbN : b ≠ st.next_obj := by rintro rfl; rw [hN] at hbob; simp at hbob
  have hbN1 : b ≠ st.next_obj + 1 := by rintro rfl; rw [hN1] at hbob; simp at hbob
  have hNN1 : st.next_obj ≠ st.next_obj + 1 := by omega
  have hN1N : st.next_obj + 1 ≠ st.next_obj := by omega
  simp only [mmobj_bottom_obj, hobP] at hbotP
  have hNP := Ne.symm hPN
  have hN1P := Ne.symm hPN1
  have hNb := Ne.symm hbN
  have hN1b := Ne.symm hbN1
  have hrP1 : 0 < obP.mmo_refcount + 1 := by omega
  have hrP2 : 0 < obP.mmo_refcount + 1 + 1 := by omega
  have hrb1 : 0 < bob.mmo_refcount + 1 := by omega
  by_cases hPb : P = b
  · subst hPb
    rw [hobP] at hbob
    simp only [Option.some.injEq] at hbob
    subst hbob
    by_cases hsh : obP.mmo_shadowed = none
    · simp [handle_memory_object, hpriv, hP, mmobj_bottom_obj, ops_ref_eq, VMState.set_objs,
        shadow_create_objs, shadow_create_fst, shadow_create_next_obj, shadow_create_free_pages,
        hPN, hPN1, hNN1, hN1N, hobP, hsh, hrP, hNP, hN1P, hrP1, hrP2]
      refine ⟨by omega, ?_⟩
      intro x hx hx0 hx1
      simp [hx, hx0, hx1]
    · simp only [if_neg hsh, Res.ok.injEq] at hbotP
      simp [handle_memory_object, hpriv, hP, mmobj_bottom_obj, ops_ref_eq, VMState.set_objs,
        shadow_create_objs, shadow_create_fst, shadow_create_next_obj, shadow_create_free_pages,
        hPN, hPN1, hNN1, hN1N, hobP, hsh, hrP, hNP, hN1P, hrP1, hrP2, hbotP]
      refine ⟨by omega, ?_⟩
      intro x hx hx0 hx1
      simp [hx, hx0, hx1]
  · have hsh : obP.mmo_shadowed ≠ none := by
      intro h
      simp only [h, if_true, Res.ok.injEq, Option.some.injEq] at hbotP
      exact hPb hbotP
    simp only [if_neg hsh, Res.ok.injEq] at hbotP
    have hbP2 : b ≠ P := Ne.symm hPb
    simp [handle_memory_object, hpriv, hP, mmobj_bottom_obj, ops_ref_eq, VMState.set_objs,
      shadow_create_objs, shadow_create_fst, shadow_create_next_obj, shadow_create_free_pages,
      hPN, hPN1, hNN1, hN1N, hobP, hsh, hrP, hNP, hN1P, hrP1, hrP2, hbotP, hbob, hbN, hbN1, hNb,
      hN1b, hrb, hrb1, hPb, hbP2]
    refine ⟨by omega, ?_⟩
    intro x hxP hxb hx0 hx1
    simp [hxP, hxb, hx0, hx1]

/-- C38 holds for `handle_memory_object` on an area bound to the live object `P` with bottom
object `b`, the addresses from `next_obj` on being free, each `ref` through the operation
table adding one to the count of a live object.  For a private area the call returns, the
parent area is bound to a new shadow object and the child area to another, with reference
count 1, shadowed object `P` and bottom object `b`; `P` has gained one reference and `b` two
(`P` three when it is its own bottom object), and no other object has changed.  For a
`MAP_SHARED` area the child area is bound to `P`, which has gained one reference, and nothing
else has changed. -/
theorem handle_memory_object_wiring (K : KParams) (n : Nat) (st : VMState)
    (childVmArea parentVmArea : vmarea) (P b : Nat) (obP bob : mmobj)
    (hP : parentVmArea.vma_obj = some P)
    (hobP : st.objs P = some obP) (hrP : 0 < obP.mmo_refcount)
    (hbotP : mmobj_bottom_obj st P = Res.ok (some b))
    (hbob : st.objs b = some bob) (hrb : 0 < bob.mmo_refcount)
    (hfresh : ∀ i, st.next_obj ≤ i → st.objs i = none) :
    (K.MAP_SHARED ≠ childVmArea.vma_flags &&& K.MAP_TYPE →
      ∃ st6,
        handle_memory_object K (mmo_ops_at K (n + 1)) st childVmArea parentVmArea
          = Res.ok ({ childVmArea with vma_obj := some (st.next_obj + 1) },
              { parentVmArea with vma_obj := some st.next_obj }, st6) ∧
        st.objs st.next_obj = none ∧ st.objs (st.next_obj + 1) = none ∧
        st6.objs st.next_obj
          = some { mmo_ops := mmobj_ops_t.shadow_mmobj_ops, mmo_refcount := 1,
                   mmo_nrespages := 0, mmo_respages := [], mmo_shadowed := some P,
                   mmo_bottom_obj := some b } ∧
        st6.objs (st.next_obj + 1)
          = some { mmo_ops := mmobj_ops_t.shadow_mmobj_ops, mmo_refcount := 1,
                   mmo_nrespages := 0, mmo_respages := [], mmo_shadowed := some P,
                   mmo_bottom_obj := some b } ∧
        (st6.objs P).map (fun ob => ob.mmo_refcount)
          = some (obP.mmo_refcount + (if P = b then 3 else 1)) ∧
        (st6.objs b).map (fun ob => ob.mmo_refcount)
          = some (bob.mmo_refcount + (if P = b then 3 else 2)) ∧
        (∀ x, x ≠ st.next_obj → x ≠ st.next_obj + 1 →
          (st6.objs x).map (fun ob => { ob with mmo_refcount := 0 })
            = (st.objs x).map (fun ob => { ob with mmo_refcount := 0 })) ∧
        (∀ x, x ≠ P → x ≠ b → x ≠ st.next_obj → x ≠ st.next_obj + 1 →
          st6.objs x = st.objs x)) ∧
    (K.MAP_SHARED = childVmArea.vma_flags &&& K.MAP_TYPE →
      handle_memory_object K (mmo_ops_at K (n + 1)) st childVmArea parentVmArea
        = Res.ok ({ childVmArea with vma_obj := some P }, parentVmArea,
            st.set P { obP with mmo_refcount := obP.mmo_refcount + 1 })) := by
  constructor
  · intro hpriv
    obtain ⟨st6, h1, h2, h3, h4, -⟩ := handle_memory_object_private K n st childVmArea
      parentVmArea P b obP bob hpriv hP hobP hrP hbotP hbob hrb hfresh
    obtain ⟨st6b, g1, g2, g3, g4⟩ := handle_memory_object_counts K n st childVmArea
      parentVmArea P b obP bob hpriv hP hobP hrP hbotP hbob hrb hfresh
    rw [h1] at g1
    simp only [Res.ok.injEq, Prod.mk.injEq, true_and] at g1
    subst g1
    exact ⟨st6, h1, hfresh _ (le_refl _), hfresh _ (Nat.le_succ _), h2, h3, g2, g3, h4, g4⟩
  · intro hshared
    have hnot : ¬ (K.MAP_SHARED ≠ childVmArea.vma_flags &&& K.MAP_TYPE) := fun e => e hshared
    unfold handle_memory_object
    rw [if_neg hnot, hP, ops_ref_spec K n st P obP hobP hrP]
    rfl

/-- C38 at the fork of `exParentArea` in `exHeap`, whose object at 2 shadows the anonymous
object at 1: the new shadow objects are at 3 and 4, object 2 goes from one reference to two
and object 1 from two to four. -/
theorem handle_memory_object_wiring_witness :
    exK.MAP_SHARED ≠ exChildArea.vma_flags &&& exK.MAP_TYPE ∧
    ∃ st6,
      handle_memory_object exK (mmo_ops_at exK (0 + 1)) exHeap exChildArea exParentArea
        = Res.ok ({ exChildArea with vma_obj := some 4 },
            { exParentArea with vma_obj := some 3 }, st6) ∧
      st6.objs 3
        = some { mmo_ops := mmobj_ops_t.shadow_mmobj_ops, mmo_refcount := 1,
                 mmo_nrespages := 0, mmo_respages := [], mmo_shadowed := some 2,
                 mmo_bottom_obj := some 1 } ∧
      st6.objs 4
        = some { mmo_ops := mmobj_ops_t.shadow_mmobj_ops, mmo_refcount := 1,
                 mmo_nrespages := 0, mmo_respages := [], mmo_shadowed := some 2,
                 mmo_bottom_obj := some 1 } ∧
      (st6.objs 2).map (fun ob => ob.mmo_refcount) = some 2 ∧
      (st6.objs 1).map (fun ob => ob.mmo_refcount) = some 4 :=
  ⟨by decide,
   ((handle_memory_object_wiring exK 0 exHeap exChildArea exParentArea 2 1 exShadow exAnon
      rfl rfl (by decide) rfl rfl (by decide) exHeap_fresh).1 (by decide)).imp
     (fun _ h => ⟨h.1, h.2.2.2.1, h.2.2.2.2.1, h.2.2.2.2.2.1, h.2.2.2.2.2.2.1⟩)⟩

/-! ### The shape of shadow chains -/

/-- The objects of a chain and its bottom object are pairwise distinct. -/
theorem shadowChain_nodup {st : VMState} {o b : Nat} {chain : List Nat}
    (h : ShadowChain st o chain b) : (chain ++ [b]).Nodup := by
  induction h with
  | bottom b ob hob hsh => simp
  | step o next b ob chain hob hsh hrest ih =>
    have hfull : ShadowChain st o (o :: chain) b := ShadowChain.step o next b ob chain hob hsh hrest
    have h1 : o ∉ chain := shadowChain_not_mem_tail hfull
    have h2 : o ≠ b := shadowChain_ne_bottom hfull o (List.mem_cons_self _ _)
    simp only [List.cons_append, List.nodup_cons, List.mem_append, List.mem_singleton]
    exact ⟨fun e => e.elim h1 h2, ih⟩

/-- The objects of a chain and its bottom object are in the heap. -/
theorem shadowChain_live {st : VMState} {o b : Nat} {chain : List Nat}
    (h : ShadowChain st o chain b) : ∀ x ∈ chain ++ [b], st.objs x ≠ none := by
  intro x hx
  rcases List.mem_append.mp hx with hx | hx
  · obtain ⟨obs, h1, -⟩ := shadowChain_mem h x hx
    rw [h1]
    simp
  · simp only [List.mem_singleton] at hx
    subst hx
    obtain ⟨bob, h1, -⟩ := shadowChain_bottom h
    rw [h1]
    simp

/-- A new object that shadows the head of a chain heads a chain to the same bottom object,
when the objects of the chain keep their `mmo_shadowed` links. -/
theorem shadowChain_extend {st st1 : VMState} {o b N : Nat} {chain : List Nat} {obN : mmobj}
    (hc : ShadowChain st o chain b) (hN : st1.objs N = some obN)
    (hsh : obN.mmo_shadowed = some o)
    (hsame : ∀ x ∈ chain ++ [b], (st1.objs x).map (fun ob => ob.mmo_shadowed)
      = (st.objs x).map (fun ob => ob.mmo_shadowed)) :
    ShadowChain st1 N (N :: chain) b :=
  ShadowChain.step N o b obN chain hN hsh (shadowChain_congr hsame hc)

/-- The shadow objects `handle_memory_object` makes for a private area head chains that end
at their bottom object, when the object of the parent area did. -/
theorem handle_memory_object_shadow_chain (K : KParams) (n : Nat) (st : VMState)
    (childVmArea parentVmArea : vmarea) (P b : Nat) (obP bob : mmobj) (cP : List Nat)
    (hpriv : K.MAP_SHARED ≠ childVmArea.vma_flags &&& K.MAP_TYPE)
    (hP : parentVmArea.vma_obj = some P)
    (hobP : st.objs P = some obP) (hrP : 0 < obP.mmo_refcount)
    (hchain : ShadowChain st P cP b)
    (hbotP : mmobj_bottom_obj st P = Res.ok (some b))
    (hbob : st.objs b = some bob) (hrb : 0 < bob.mmo_refcount)
    (hfresh : ∀ i, st.next_obj ≤ i → st.objs i = none) :
    ∃ st6,
      handle_memory_object K (mmo_ops_at K (n + 1)) st childVmArea parentVmArea
        = Res.ok ({ childVmArea with vma_obj := some (st.next_obj + 1) },
            { parentVmArea with vma_obj := some st.next_obj }, st6) ∧
      ShadowChain st6 st.next_obj (st.next_obj :: cP) b ∧
      (st6.objs st.next_obj).bind (fun ob => ob.mmo_bottom_obj) = some b ∧
      ShadowChain st6 (st.next_obj + 1) ((st.next_obj + 1) :: cP) b ∧
      (st6.objs (st.next_obj + 1)).bind (fun ob => ob.mmo_bottom_obj) = some b := by
  obtain ⟨st6, h1, h2, h3, h4, -⟩ := handle_memory_object_private K n st childVmArea
    parentVmArea P b obP bob hpriv hP hobP hrP hbotP hbob hrb hfresh
  have hsame : ∀ x ∈ cP ++ [b], (st6.objs x).map (fun ob => ob.mmo_shadowed)
      = (st.objs x).map (fun ob => ob.mmo_shadowed) := by
    intro x hx
    have hlive := shadowChain_live hchain x hx
    have hxN : x ≠ st.next_obj := by
      rintro rfl
      exact hlive (hfresh _ (le_refl _))
    have hxN1 : x ≠ st.next_obj + 1 := by
      rintro rfl
      exact hlive (hfresh _ (Nat.le_succ _))
    have := congrArg (Option.map (fun ob : mmobj => ob.mmo_shadowed)) (h4 x hxN hxN1)
    simpa [Option.map_map, Function.comp] using this
  exact ⟨st6, h1, shadowChain_extend hchain h2 rfl hsame, by rw [h2]; rfl,
    shadowChain_extend hchain h3 rfl hsame, by rw [h3]; rfl⟩

/-- The walks of `shadow_lookuppage` and `shadow_fillpage` on a chain end within the length
of the chain. -/
theorem shadowChain_walks (st : VMState) (o b : Nat) (chain : List Nat)
    (h : ShadowChain st o chain b) :
    (chain ++ [b]).Nodup ∧
    ∀ pagenum fuel, chain.length < fuel →
      shadow_lookuppage_walk st pagenum fuel o = Res.ok (first_resident st pagenum chain) ∧
      shadow_fillpage_walk st pagenum fuel (some o)
        = Res.ok (first_resident st pagenum (chain ++ [b]).tail) :=
  ⟨shadowChain_nodup h, fun pagenum fuel hf =>
    ⟨shadow_lookuppage_walk_eq st pagenum chain o b fuel h hf,
     shadow_fillpage_walk_eq st pagenum chain o b fuel h hf⟩⟩

/-! ## The shape of shadow chains as an invariant of the heap -/

/-! ### Sums over the addresses of the heap -/

theorem sum_range_congr (n : Nat) (f g : Nat → Nat) (h : ∀ o, o < n → f o = g o) :
    ((List.range n).map f).sum = ((List.range n).map g).sum := by
  congr 1
  apply List.map_congr_left
  intro o ho
  exact h o (List.mem_range.mp ho)

theorem sum_range_succ (n : Nat) (f : Nat → Nat) :
    ((List.range (n + 1)).map f).sum = ((List.range n).map f).sum + f n := by
  rw [List.range_succ]
  simp

theorem sum_range_update (n a : Nat) (f g : Nat → Nat) (ha : a < n)
    (h : ∀ o, o ≠ a → f o = g o) :
    ((List.range n).map f).sum + g a = ((List.range n).map g).sum + f a := by
  induction n with
  | zero => omega
  | succ m ih =>
    rw [sum_range_succ, sum_range_succ]
    by_cases hm : a = m
    · subst hm
      rw [sum_range_congr a f g (fun o ho => h o (by omega))]
      omega
    · have := ih (by omega)
      rw [h m (fun e => hm e.symm)]
      omega

theorem sum_range_eq_zero (n : Nat) (f : Nat → Nat) :
    ((List.range n).map f).sum = 0 ↔ ∀ o, o < n → f o = 0 := by
  induction n with
  | zero => simp
  | succ m ih =>
    rw [sum_range_succ]
    constructor
    · intro h o ho
      have h1 : ((List.range m).map f).sum = 0 := by omega
      have h2 : f m = 0 := by omega
      by_cases hm : o = m
      · subst hm; exact h2
      · exact ih.mp h1 o (by omega)
    · intro h
      have h1 := ih.mpr (fun o ho => h o (by omega))
      have h2 := h m (by omega)
      omega

theorem sum_range_le (n : Nat) (f g : Nat → Nat) (h : ∀ o, o < n → f o ≤ g o) :
    ((List.range n).map f).sum ≤ ((List.range n).map g).sum := by
  induction n with
  | zero => simp
  | succ m ih =>
    rw [sum_range_succ, sum_range_succ]
    have := ih (fun o ho => h o (by omega))
    have := h m (by omega)
    omega

/-! ### The references held by the objects of the heap -/

theorem links_to_dead {st : VMState} {dead : List Nat} {o : Nat} (h : o ∈ dead) (z : Nat) :
    links_to st dead o z = 0 := by
  simp [links_to, h]

theorem links_to_none {st : VMState} {dead : List Nat} {o : Nat} (h : st.objs o = none)
    (z : Nat) : links_to st dead o z = 0 := by
  simp [links_to, h]

theorem links_to_some {st : VMState} {dead : List Nat} {o : Nat} {ob : mmobj}
    (hd : o ∉ dead) (h : st.objs o = some ob) (z : Nat) :
    links_to st dead o z
      = (if ob.mmo_shadowed = some z then 1 else 0) +
        (if ob.mmo_shadowed ≠ none ∧ ob.mmo_bottom_obj = some z then 1 else 0) := by
  simp [links_to, hd, h]

/-- The references an object holds depend on its two links only. -/
theorem links_to_congr {st st1 : VMState} (dead : List Nat) (o : Nat)
    (h : (st1.objs o).map (fun ob => (ob.mmo_shadowed, ob.mmo_bottom_obj))
      = (st.objs o).map (fun ob => (ob.mmo_shadowed, ob.mmo_bottom_obj))) (z : Nat) :
    links_to st1 dead o z = links_to st dead o z := by
  unfold links_to
  by_cases hd : o ∈ dead
  · simp [hd]
  · simp only [hd, if_false]
    cases h1 : st1.objs o with
    | none =>
      rw [h1] at h
      cases h0 : st.objs o with
      | none => rfl
      | some ob => rw [h0] at h; simp at h
    | some ob1 =>
      rw [h1] at h
      cases h0 : st.objs o with
      | none => rw [h0] at h; simp at h
      | some ob =>
        rw [h0] at h
        simp only [Option.map_some', Option.some.injEq, Prod.mk.injEq] at h
        simp only [h.1, h.2]

theorem held_pos_of_link {st : VMState} {dead : List Nat} {o z : Nat}
    (ho : o < st.next_obj) (h : 0 < links_to st dead o z) : 0 < held st dead z := by
  unfold held
  by_contra hc
  have h0 : ((List.range st.next_obj).map (fun o => links_to st dead o z)).sum = 0 := by omega
  have := (sum_range_eq_zero _ _).mp h0 o ho
  simp only at this
  omega

/-! ### Heaps with the same objects up to their resident pages -/

theorem same_core_refl (st : VMState) : same_core st st := ⟨rfl, fun _ => rfl⟩

theorem same_core_trans {a b c : VMState} (h1 : same_core a b) (h2 : same_core b c) :
    same_core a c := ⟨h2.1.trans h1.1, fun x => (h2.2 x).trans (h1.2 x)⟩

theorem same_core_obj {st st1 : VMState} (h : same_core st st1) {x : Nat} {ob : mmobj}
    (hob : st.objs x = some ob) :
    ∃ ob1, st1.objs x = some ob1 ∧ ob1.mmo_ops = ob.mmo_ops ∧
      ob1.mmo_refcount - ob1.mmo_nrespages = ob.mmo_refcount - ob.mmo_nrespages ∧
      ob1.mmo_shadowed = ob.mmo_shadowed ∧ ob1.mmo_bottom_obj = ob.mmo_bottom_obj := by
  have := h.2 x
  rw [hob] at this
  cases h1 : st1.objs x with
  | none => rw [h1] at this; simp at this
  | some ob1 =>
    rw [h1] at this
    simp only [Option.map_some', Option.some.injEq, mmobj.core, Prod.mk.injEq] at this
    exact ⟨ob1, rfl, this.1, this.2.1, this.2.2.1, this.2.2.2⟩

theorem same_core_obj_rev {st st1 : VMState} (h : same_core st st1) {x : Nat} {ob1 : mmobj}
    (hob : st1.objs x = some ob1) :
    ∃ ob, st.objs x = some ob ∧ ob1.mmo_ops = ob.mmo_ops ∧
      ob1.mmo_refcount - ob1.mmo_nrespages = ob.mmo_refcount - ob.mmo_nrespages ∧
      ob1.mmo_shadowed = ob.mmo_shadowed ∧ ob1.mmo_bottom_obj = ob.mmo_bottom_obj := by
  have := h.2 x
  rw [hob] at this
  cases h1 : st.objs x with
  | none => rw [h1] at this; simp at this
  | some ob =>
    rw [h1] at this
    simp only [Option.map_some', Option.some.injEq, mmobj.core, Prod.mk.injEq] at this
    exact ⟨ob, rfl, this.1, this.2.1, this.2.2.1, this.2.2.2⟩

theorem same_core_none {st st1 : VMState} (h : same_core st st1) {x : Nat}
    (hob : st.objs x = none) : st1.objs x = none := by
  have := h.2 x
  rw [hob] at this
  cases h1 : st1.objs x with
  | none => rfl
  | some ob1 => rw [h1] at this; simp at this

theorem same_core_links {st st1 : VMState} (h : same_core st st1) (o : Nat) :
    (st1.objs o).map (fun ob => (ob.mmo_shadowed, ob.mmo_bottom_obj))
      = (st.objs o).map (fun ob => (ob.mmo_shadowed, ob.mmo_bottom_obj)) := by
  cases h0 : st.objs o with
  | none => rw [same_core_none h h0]
  | some ob =>
    obtain ⟨ob1, h1, -, -, e1, e2⟩ := same_core_obj h h0
    rw [h1]
    simp [e1, e2]

theorem same_core_shadowed {st st1 : VMState} (h : same_core st st1) (o : Nat) :
    (st1.objs o).map (fun ob => ob.mmo_shadowed)
      = (st.objs o).map (fun ob => ob.mmo_shadowed) := by
  cases h0 : st.objs o with
  | none => rw [same_core_none h h0]
  | some ob =>
    obtain ⟨ob1, h1, -, -, e1, -⟩ := same_core_obj h h0
    rw [h1]
    simp [e1]

theorem held_same_core {st st1 : VMState} (h : same_core st st1) (dead : List Nat) (z : Nat) :
    held st1 dead z = held st dead z := by
  unfold held
  rw [h.1]
  exact sum_range_congr _ _ _ (fun o _ => links_to_congr dead o (same_core_links h o) z)

/-- The invariant reads the heap up to resident pages. -/
theorem chainInv_same_core {st st1 : VMState} {dead : List Nat} {w : Nat → Nat}
    (h : same_core st st1) (hi : ChainInv st dead w) : ChainInv st1 dead w := by
  refine ⟨?_, ?_, ?_, ?_, ?_⟩
  · intro i hi1
    rw [h.1] at hi1
    exact same_core_none h (hi.fresh i hi1)
  · intro x hx hnone
    cases h0 : st.objs x with
    | none => exact hi.idle x hx h0
    | some ob =>
      obtain ⟨ob1, h1, -⟩ := same_core_obj h h0
      rw [hnone] at h1
      cases h1
  · intro x ob1 hx hob1
    obtain ⟨ob, hob, -, e, -, -⟩ := same_core_obj_rev h hob1
    rw [held_same_core h, e]
    exact hi.count x ob hx hob
  · intro d hd
    rw [held_same_core h]
    exact hi.closed d hd
  · intro x ob1 hx hob1
    obtain ⟨ob, hob, -, -, e1, e2⟩ := same_core_obj_rev h hob1
    obtain ⟨chain, b, hc, hb⟩ := hi.shape x ob hx hob
    refine ⟨chain, b, shadowChain_congr (fun z _ => same_core_shadowed h z) hc, ?_⟩
    rw [e1, e2]
    exact hb

theorem same_core_of_update {st st1 : VMState} {a : Nat} {ob : mmobj} (ob1 : mmobj)
    (hn : st1.next_obj = st.next_obj)
    (hobjs : ∀ x, st1.objs x = if x = a then some ob1 else st.objs x)
    (hob : st.objs a = some ob) (hc : ob1.core = ob.core) : same_core st st1 := by
  refine ⟨hn, fun x => ?_⟩
  rw [hobjs]
  by_cases hx : x = a
  · subst hx
    simp [hob, hc]
  · simp [hx]

theorem same_core_set (st : VMState) (a : Nat) (ob ob1 : mmobj) (hob : st.objs a = some ob)
    (hc : ob1.core = ob.core) : same_core st (st.set a ob1) :=
  same_core_of_update ob1 rfl (fun x => VMState.set_objs st a ob1 x) hob hc

theorem same_core_pframe_update (st : VMState) (pf : pframe) (g : pframe → pframe) :
    same_core st (pframe_update st pf g) := by
  unfold pframe_update
  cases hob : st.objs pf.pf_obj with
  | none => exact same_core_refl st
  | some ob => exact same_core_set st _ ob _ hob rfl

theorem same_core_pframe_free (st : VMState) (pf : pframe) :
    same_core st (pframe_free st pf) := by
  unfold pframe_free
  cases hob : st.objs pf.pf_obj with
  | none => exact same_core_refl st
  | some ob =>
    refine same_core_of_update
        { ob with
          mmo_respages := ob.mmo_respages.filter (fun q => q.pf_pagenum != pf.pf_pagenum)
          mmo_nrespages := ob.mmo_nrespages - 1
          mmo_refcount := ob.mmo_refcount - 1 } rfl (fun x => ?_) hob ?_
    · simp only [VMState.set_objs]
    · simp only [mmobj.core, Prod.mk.injEq, true_and, and_true]
      omega

theorem same_core_with_new_frame (st : VMState) (o : Nat) (ob : mmobj) (f : pframe)
    (rest : List (Nat × Nat)) (hob : st.objs o = some ob) :
    same_core st (with_new_frame st o ob f rest) := by
  refine same_core_of_update
      { ob with mmo_respages := f :: ob.mmo_respages
                mmo_nrespages := ob.mmo_nrespages + 1
                mmo_refcount := ob.mmo_refcount + 1 } rfl (fun x => ?_) hob ?_
  · simp only [with_new_frame, Function.update_apply]
  · simp only [mmobj.core, Prod.mk.injEq, true_and, and_true]
    omega

theorem same_core_put_free_pages (pages : List pframe) :
    ∀ st : VMState, same_core st (put_free_pages st pages) := by
  induction pages with
  | nil => intro st; exact same_core_refl st
  | cons pf rest ih =>
    intro st
    simp only [put_free_pages]
    refine same_core_trans ?_ (ih _)
    refine same_core_trans ?_ (same_core_pframe_free _ pf)
    split_ifs
    · exact same_core_pframe_update st pf _
    · exact same_core_refl st

/-! ### Objects, chains and objects being torn down -/

theorem chainInv_lt {st : VMState} {dead : List Nat} {w : Nat → Nat} (hi : ChainInv st dead w)
    {o : Nat} {ob : mmobj} (hob : st.objs o = some ob) : o < st.next_obj := by
  by_contra hc
  rw [hi.fresh o (by omega)] at hob
  cases hob

/-- An object that is not being torn down holds no reference on one that is. -/
theorem chainInv_link_alive {st : VMState} {dead : List Nat} {w : Nat → Nat}
    (hi : ChainInv st dead w) {o z : Nat} {ob : mmobj} (hob : st.objs o = some ob)
    (hl : 0 < links_to st dead o z) : z ∉ dead := by
  intro hz
  have h0 := hi.closed z hz
  have := held_pos_of_link (chainInv_lt hi hob) hl
  omega

theorem links_to_shadowed {st : VMState} {dead : List Nat} {o z : Nat} {ob : mmobj}
    (hd : o ∉ dead) (hob : st.objs o = some ob) (hsh : ob.mmo_shadowed = some z) :
    0 < links_to st dead o z := by
  rw [links_to_some hd hob, if_pos hsh]
  omega

theorem links_to_bottom {st : VMState} {dead : List Nat} {o z : Nat} {ob : mmobj}
    (hd : o ∉ dead) (hob : st.objs o = some ob) (hsh : ob.mmo_shadowed ≠ none)
    (hb : ob.mmo_bottom_obj = some z) : 0 < links_to st dead o z := by
  rw [links_to_some hd hob]
  have : (if ob.mmo_shadowed ≠ none ∧ ob.mmo_bottom_obj = some z then 1 else 0) = 1 :=
    if_pos ⟨hsh, hb⟩
  omega

/-- The chain of an object that is not being torn down passes through no object that is. -/
theorem chain_avoids_dead {st : VMState} {dead : List Nat} {w : Nat → Nat}
    (hi : ChainInv st dead w) {x b : Nat} {chain : List Nat}
    (hc : ShadowChain st x chain b) (hx : x ∉ dead) : ∀ z ∈ chain ++ [b], z ∉ dead := by
  induction hc with
  | bottom b ob hob hsh =>
    intro z hz
    simp only [List.nil_append, List.mem_singleton] at hz
    subst hz
    exact hx
  | step o next b ob chain hob hsh hrest ih =>
    intro z hz
    simp only [List.cons_append, List.mem_cons] at hz
    rcases hz with rfl | hz
    · exact hx
    · exact ih (chainInv_link_alive hi hob (links_to_shadowed hx hob hsh)) z hz

/-- The chain of an object passes through no other object on which no reference is held. -/
theorem chain_avoids_unheld {st : VMState} {dead : List Nat} {w : Nat → Nat}
    (hi : ChainInv st dead w) {x b y : Nat} {chain : List Nat}
    (hc : ShadowChain st x chain b) (hx : x ∉ dead) (hxy : x ≠ y)
    (hy : held st dead y = 0) : y ∉ chain ++ [b] := by
  induction hc with
  | bottom b ob hob hsh =>
    simp only [List.nil_append, List.mem_singleton]
    exact fun e => hxy e.symm
  | step o next b ob chain hob hsh hrest ih =>
    have hl := links_to_shadowed hx hob hsh
    have hne : next ≠ y := by
      rintro rfl
      have := held_pos_of_link (chainInv_lt hi hob) hl
      omega
    have := ih (chainInv_link_alive hi hob hl) hne
    simp only [List.cons_append, List.mem_cons, not_or]
    exact ⟨fun e => hxy e.symm, this⟩

theorem shadowChain_next_mem {st : VMState} {o b : Nat} {chain : List Nat}
    (h : ShadowChain st o chain b) : o ∈ chain ++ [b] := by
  cases h with
  | bottom b ob hob hsh => simp
  | step o next b ob chain hob hsh hrest => simp

/-- The object an object shadows, and its bottom object, are other objects. -/
theorem chainInv_links_ne {st : VMState} {dead : List Nat} {w : Nat → Nat}
    (hi : ChainInv st dead w) {y s : Nat} {ob : mmobj} (hy : y ∉ dead)
    (hob : st.objs y = some ob) (hsh : ob.mmo_shadowed = some s) :
    s ≠ y ∧ ∃ b, ob.mmo_bottom_obj = some b ∧ b ≠ y := by
  obtain ⟨chain, b, hc, hb⟩ := hi.shape y ob hy hob
  have hbb := hb (by rw [hsh]; simp)
  cases hc with
  | bottom b ob0 hob0 hsh0 =>
    rw [hob] at hob0
    cases hob0
    rw [hsh] at hsh0
    cases hsh0
  | step o next b ob0 chain hob0 hsh0 hrest =>
    rw [hob] at hob0
    cases hob0
    rw [hsh] at hsh0
    cases hsh0
    have hfull : ShadowChain st y (y :: chain) b :=
      ShadowChain.step y s b ob chain hob hsh hrest
    have hnd := shadowChain_nodup hfull
    simp only [List.cons_append, List.nodup_cons] at hnd
    have hs := shadowChain_next_mem hrest
    refine ⟨fun e => hnd.1 (e ▸ hs), b, hbb, fun e => hnd.1 (by rw [← e]; simp)⟩

/-! ### The invariant along a teardown -/

/-- An object on which no reference is held leaves the heap. -/
theorem chainInv_free {st : VMState} {dead : List Nat} {w w1 : Nat → Nat}
    (hi : ChainInv st dead w) {y : Nat} (hy : y ∉ dead) (hheld : held st dead y = 0)
    (hw : ∀ x, x ≠ y → w1 x = w x) (hwy : w1 y = 0) :
    ChainInv (slab_obj_free st y) dead w1 := by
  have hle : ∀ o z, links_to (slab_obj_free st y) dead o z ≤ links_to st dead o z := by
    intro o z
    by_cases ho : o = y
    · subst ho
      rw [links_to_none (slab_obj_free_objs_same st o)]
      exact Nat.zero_le _
    · rw [@links_to_congr st (slab_obj_free st y) dead o
        (by rw [slab_obj_free_objs, if_neg ho]) z]
  have hheldle : ∀ z, held (slab_obj_free st y) dead z ≤ held st dead z := by
    intro z
    exact sum_range_le _ _ _ (fun o _ => hle o z)
  refine ⟨?_, ?_, ?_, ?_, ?_⟩
  · intro i h
    rw [slab_obj_free_objs]
    split_ifs
    · rfl
    · exact hi.fresh i h
  · intro x hx hnone
    rw [slab_obj_free_objs] at hnone
    split_ifs at hnone with c
    · rw [c]; exact hwy
    · rw [hw x c]; exact hi.idle x hx hnone
  · intro x ob hx hob
    rw [slab_obj_free_objs] at hob
    split_ifs at hob with c
    have := hi.count x ob hx hob
    have := hheldle x
    rw [hw x c]
    omega
  · intro d hd
    have := hi.closed d hd
    have := hheldle d
    omega
  · intro x ob hx hob
    rw [slab_obj_free_objs] at hob
    split_ifs at hob with c
    obtain ⟨chain, b, hc, hb⟩ := hi.shape x ob hx hob
    have hav := chain_avoids_unheld hi hc hx c hheld
    refine ⟨chain, b, shadowChain_congr (fun z hz => ?_) hc, hb⟩
    rw [slab_obj_free_objs, if_neg (fun e : z = y => hav (e ▸ hz))]

/-- An object on which no reference is held starts being torn down: its references on the
object it shadows and on its bottom object are from then on held from outside the heap. -/
theorem chainInv_kill {st : VMState} {dead : List Nat} {w : Nat → Nat}
    (hi : ChainInv st dead w) {y s : Nat} {ob : mmobj} (hy : y ∉ dead)
    (hob : st.objs y = some ob) (hheld : held st dead y = 0)
    (hsh : ob.mmo_shadowed = some s) :
    ChainInv st (y :: dead)
      (fun x => w x + (if x = s then 1 else 0) +
        (if ob.mmo_bottom_obj = some x then 1 else 0)) := by
  have hylt := chainInv_lt hi hob
  have hsplit : ∀ z, held st (y :: dead) z + links_to st dead y z = held st dead z := by
    intro z
    have := sum_range_update st.next_obj y (fun o => links_to st dead o z)
      (fun o => links_to st (y :: dead) o z) hylt (fun o ho => by
        simp only [links_to, List.mem_cons, ho, false_or])
    simp only at this
    rw [links_to_dead (List.mem_cons_self y dead)] at this
    unfold held
    omega
  obtain ⟨chain0, b0, hc0, hb0⟩ := hi.shape y ob hy hob
  have hlive0 := shadowChain_live hc0
  have hbb0 := hb0 (by rw [hsh]; simp)
  have hsmem : s ∈ chain0 ++ [b0] := by
    cases hc0 with
    | bottom b ob0 hob0 hsh0 =>
      rw [hob] at hob0
      cases hob0
      rw [hsh] at hsh0
      cases hsh0
    | step o next b ob0 chain hob0 hsh0 hrest =>
      rw [hob] at hob0
      cases hob0
      rw [hsh] at hsh0
      cases hsh0
      exact List.mem_cons_of_mem _ (shadowChain_next_mem hrest)
  refine ⟨hi.fresh, ?_, ?_, ?_, ?_⟩
  · intro x hx hnone
    simp only [List.mem_cons, not_or] at hx
    have h0 := hi.idle x hx.2 hnone
    have hxs : x ≠ s := by
      rintro rfl
      exact hlive0 x hsmem hnone
    have hxb : ¬ (ob.mmo_bottom_obj = some x) := by
      rw [hbb0]
      intro e
      have e1 : b0 = x := Option.some.inj e
      exact hlive0 b0 (by simp) (e1 ▸ hnone)
    simp only [h0, if_neg hxs, if_neg hxb]
  · intro x obx hx hobx
    simp only [List.mem_cons, not_or] at hx
    have h1 := hi.count x obx hx.2 hobx
    have h2 := hsplit x
    rw [links_to_some hy hob] at h2
    have hne : ob.mmo_shadowed ≠ none := by rw [hsh]; simp
    have e1 : (ob.mmo_shadowed = some x) ↔ x = s := by
      rw [hsh]
      constructor
      · intro e; exact (Option.some.inj e).symm
      · intro e; rw [e]
    have e2 : (ob.mmo_shadowed ≠ none ∧ ob.mmo_bottom_obj = some x)
        ↔ ob.mmo_bottom_obj = some x := ⟨fun h => h.2, fun h => ⟨hne, h⟩⟩
    simp only [e1, e2] at h2
    split_ifs at h2 ⊢ <;> push_cast <;> omega
  · intro d hd
    have h2 := hsplit d
    rcases List.mem_cons.mp hd with rfl | hd
    · omega
    · have := hi.closed d hd
      omega
  · intro x obx hx hobx
    simp only [List.mem_cons, not_or] at hx
    exact hi.shape x obx hx.2 hobx

/-- An object that is being torn down may change, its two links apart. -/
theorem chainInv_set_dead {st : VMState} {dead : List Nat} {w : Nat → Nat}
    (hi : ChainInv st dead w) {y : Nat} {ob ob1 : mmobj} (hy : y ∈ dead)
    (hob : st.objs y = some ob) (h1 : ob1.mmo_shadowed = ob.mmo_shadowed)
    (h2 : ob1.mmo_bottom_obj = ob.mmo_bottom_obj) : ChainInv (st.set y ob1) dead w := by
  have hlinks : ∀ o, ((st.set y ob1).objs o).map (fun ob => (ob.mmo_shadowed, ob.mmo_bottom_obj))
      = (st.objs o).map (fun ob => (ob.mmo_shadowed, ob.mmo_bottom_obj)) := by
    intro o
    rw [VMState.set_objs]
    split_ifs with c
    · subst c
      rw [hob]
      simp [h1, h2]
    · rfl
  have hheld : ∀ z, held (st.set y ob1) dead z = held st dead z := by
    intro z
    exact sum_range_congr _ _ _ (fun o _ => links_to_congr dead o (hlinks o) z)
  refine ⟨?_, ?_, ?_, ?_, ?_⟩
  · intro i h
    rw [VMState.set_objs]
    split_ifs with c
    · subst c
      have := hi.fresh i h
      rw [hob] at this
      cases this
    · exact hi.fresh i h
  · intro x hx hnone
    rw [VMState.set_objs] at hnone
    split_ifs at hnone with c
    exact hi.idle x hx hnone
  · intro x obx hx hobx
    rw [VMState.set_objs, if_neg (fun e : x = y => hx (e ▸ hy))] at hobx
    rw [hheld]
    exact hi.count x obx hx hobx
  · intro d hd
    rw [hheld]
    exact hi.closed d hd
  · intro x obx hx hobx
    rw [VMState.set_objs, if_neg (fun e : x = y => hx (e ▸ hy))] at hobx
    obtain ⟨chain, b, hc, hb⟩ := hi.shape x obx hx hobx
    refine ⟨chain, b, shadowChain_congr (fun z _ => ?_) hc, hb⟩
    have := hlinks z
    cases ha : (st.set y ob1).objs z <;> cases hb0 : st.objs z <;> rw [ha, hb0] at this <;>
      simp_all

/-- An object that was being torn down leaves the heap. -/
theorem chainInv_bury {st : VMState} {dead : List Nat} {w w1 : Nat → Nat} {y : Nat}
    (hi : ChainInv st (y :: dead) w) (hy : y ∉ dead) (hw : ∀ x, x ≠ y → w1 x = w x)
    (hwy : w1 y = 0) : ChainInv (slab_obj_free st y) dead w1 := by
  have hlinks : ∀ o z, links_to (slab_obj_free st y) dead o z = links_to st (y :: dead) o z := by
    intro o z
    by_cases ho : o = y
    · subst ho
      rw [links_to_none (slab_obj_free_objs_same st o), links_to_dead (List.mem_cons_self o dead)]
    · simp only [links_to, List.mem_cons, ho, false_or, slab_obj_free_objs, if_false]
  have hheld : ∀ z, held (slab_obj_free st y) dead z = held st (y :: dead) z := by
    intro z
    exact sum_range_congr _ _ _ (fun o _ => hlinks o z)
  refine ⟨?_, ?_, ?_, ?_, ?_⟩
  · intro i h
    rw [slab_obj_free_objs]
    split_ifs
    · rfl
    · exact hi.fresh i h
  · intro x hx hnone
    rw [slab_obj_free_objs] at hnone
    split_ifs at hnone with c
    · rw [c]; exact hwy
    · rw [hw x c]
      exact hi.idle x (by simp only [List.mem_cons, not_or]; exact ⟨c, hx⟩) hnone
  · intro x ob hx hob
    rw [slab_obj_free_objs] at hob
    split_ifs at hob with c
    have := hi.count x ob (by simp only [List.mem_cons, not_or]; exact ⟨c, hx⟩) hob
    rw [hheld, hw x c]
    exact this
  · intro d hd
    rw [hheld]
    exact hi.closed d (List.mem_cons_of_mem y hd)
  · intro x ob hx hob
    rw [slab_obj_free_objs] at hob
    split_ifs at hob with c
    have hx' : x ∉ y :: dead := by simp only [List.mem_cons, not_or]; exact ⟨c, hx⟩
    obtain ⟨chain, b, hc, hb⟩ := hi.shape x ob hx' hob
    have hav := chain_avoids_dead hi hc hx'
    refine ⟨chain, b, shadowChain_congr (fun z hz => ?_) hc, hb⟩
    have : z ≠ y := fun e => hav z hz (e ▸ List.mem_cons_self y dead)
    rw [slab_obj_free_objs, if_neg this]

/-- A change of the reference count of one object that keeps it above the references held on
the object. -/
theorem chainInv_set_count {st : VMState} {dead : List Nat} {w w1 : Nat → Nat}
    (hi : ChainInv st dead w) {y : Nat} {ob ob1 : mmobj}
    (hob : st.objs y = some ob) (h1 : ob1.mmo_shadowed = ob.mmo_shadowed)
    (h2 : ob1.mmo_bottom_obj = ob.mmo_bottom_obj)
    (hw : ∀ x, x ≠ y → w1 x = w x)
    (hc : (w1 y : Int) + (ob.mmo_refcount - ob.mmo_nrespages)
      ≤ (w y : Int) + (ob1.mmo_refcount - ob1.mmo_nrespages)) :
    ChainInv (st.set y ob1) dead w1 := by
  have hlinks : ∀ o, ((st.set y ob1).objs o).map (fun ob => (ob.mmo_shadowed, ob.mmo_bottom_obj))
      = (st.objs o).map (fun ob => (ob.mmo_shadowed, ob.mmo_bottom_obj)) := by
    intro o
    rw [VMState.set_objs]
    split_ifs with c
    · subst c
      rw [hob]
      simp [h1, h2]
    · rfl
  have hheld : ∀ z, held (st.set y ob1) dead z = held st dead z := by
    intro z
    exact sum_range_congr _ _ _ (fun o _ => links_to_congr dead o (hlinks o) z)
  refine ⟨?_, ?_, ?_, ?_, ?_⟩
  · intro i h
    rw [VMState.set_objs]
    split_ifs with c
    · subst c
      have := hi.fresh i h
      rw [hob] at this
      cases this
    · exact hi.fresh i h
  · intro x hx hnone
    rw [VMState.set_objs] at hnone
    split_ifs at hnone with c
    rw [hw x c]
    exact hi.idle x hx hnone
  · intro x obx hx hobx
    rw [VMState.set_objs] at hobx
    rw [hheld]
    split_ifs at hobx with c
    · subst c
      cases hobx
      have := hi.count x ob hx hob
      omega
    · have := hi.count x obx hx hobx
      rw [hw x c]
      exact this
  · intro d hd
    rw [hheld]
    exact hi.closed d hd
  · intro x obx hx hobx
    have hsh : ∀ z, ((st.set y ob1).objs z).map (fun ob => ob.mmo_shadowed)
        = (st.objs z).map (fun ob => ob.mmo_shadowed) := by
      intro z
      have := hlinks z
      cases ha : (st.set y ob1).objs z <;> cases hb0 : st.objs z <;> rw [ha, hb0] at this <;>
        simp_all
    rw [VMState.set_objs] at hobx
    split_ifs at hobx with c
    · subst c
      cases hobx
      obtain ⟨chain, b, hc, hb⟩ := hi.shape x ob hx hob
      refine ⟨chain, b, shadowChain_congr (fun z _ => hsh z) hc, ?_⟩
      rw [h1, h2]
      exact hb
    · obtain ⟨chain, b, hc, hb⟩ := hi.shape x obx hx hobx
      exact ⟨chain, b, shadowChain_congr (fun z _ => hsh z) hc, hb⟩

theorem ops_put_none (K : KParams) (n : Nat) (st st1 : VMState) :
    (mmo_ops_at K n).put st none ≠ Res.ok st1 := by
  cases n with
  | zero => simp [mmo_ops_at]
  | succ m => simp [mmo_ops_at]

/-- A `put` through the operation table that releases a reference held from outside the heap
keeps the invariant, also when it tears objects down, and leaves the objects that are being
torn down as they are. -/
theorem put_chainInv (K : KParams) :
    ∀ (n : Nat) (st : VMState) (dead : List Nat) (w : Nat → Nat) (y : Nat) (st1 : VMState),
      ChainInv st dead w → y ∉ dead → 0 < w y →
      (mmo_ops_at K n).put st (some y) = Res.ok st1 →
      ChainInv st1 dead (fun x => if x = y then w y - 1 else w x) ∧
      st1.next_obj = st.next_obj ∧
      ∀ d ∈ dead, (st1.objs d).map mmobj.core = (st.objs d).map mmobj.core := by
  intro n
  induction n with
  | zero => intro st dead w y st1 _ _ _ h; simp [mmo_ops_at] at h
  | succ m ih =>
    intro st dead w y st1 hi hy hw h
    cases hob : st.objs y with
    | none => simp [mmo_ops_at, hob] at h
    | some ob =>
      have hcount := hi.count y ob hy hob
      -- the plain decrement
      have hdec : ChainInv (st.set y { ob with mmo_refcount := ob.mmo_refcount - 1 }) dead
            (fun x => if x = y then w y - 1 else w x) ∧
          (st.set y { ob with mmo_refcount := ob.mmo_refcount - 1 }).next_obj = st.next_obj ∧
          ∀ d ∈ dead,
            ((st.set y { ob with mmo_refcount := ob.mmo_refcount - 1 }).objs d).map mmobj.core
              = (st.objs d).map mmobj.core := by
        refine ⟨chainInv_set_count hi hob rfl rfl (fun x hx => by simp [hx]) ?_, rfl, ?_⟩
        · simp only [if_true]
          have : ((w y - 1 : Nat) : Int) = (w y : Int) - 1 := by omega
          rw [this]
          omega
        · intro d hd
          rw [VMState.set_objs, if_neg (fun e : d = y => hy (e ▸ hd))]
      -- the heap after the page loop
      have hsc := same_core_put_free_pages ob.mmo_respages st
      have hip := chainInv_same_core hsc hi
      obtain ⟨ob1, hob1, -, hD1, hsh1, hbo1⟩ := same_core_obj hsc hob
      cases hops : ob.mmo_ops with
      | anon_mmobj_ops =>
        simp only [mmo_ops_at, Option.bind, hob, hops, anon_put] at h
        simp only [hops] at hdec
        split_ifs at h with c1 c2
        · simp only [Res.ok.injEq] at h
          subst h
          have hheld : held st dead y = 0 := by omega
          have hheldp : held (put_free_pages st ob.mmo_respages) dead y = 0 := by
            rw [held_same_core hsc]; exact hheld
          have hwy : w y = 1 := by omega
          refine ⟨chainInv_free hip hy hheldp (fun x hx => by simp [hx])
            (by simp only [if_true]; omega), hsc.1, ?_⟩
          intro d hd
          rw [slab_obj_free_objs, if_neg (fun e : d = y => hy (e ▸ hd))]
          exact hsc.2 d
        · simp only [Res.ok.injEq] at h
          subst h
          exact hdec
      | shadow_mmobj_ops =>
        simp only [mmo_ops_at, Option.bind, hob, hops, shadow_put] at h
        simp only [hops] at hdec
        split_ifs at h with c1 c2
        · simp only [Res.ok.injEq] at h
          subst h
          exact hdec
        · -- the teardown with its two cascaded calls
          have hheld : held st dead y = 0 := by omega
          have hwy : w y = 1 := by omega
          have hheldp : held (put_free_pages st ob.mmo_respages) dead y = 0 := by
            rw [held_same_core hsc]; exact hheld
          simp only [hob1] at h
          obtain ⟨st3, hput1, h⟩ := Res.bind_eq_ok h
          cases hs : ob1.mmo_shadowed with
          | none =>
            rw [hs] at hput1
            exact absurd hput1 (ops_put_none K m _ _)
          | some s =>
            have hput1s : (mmo_ops_at K m).put
                ((put_free_pages st ob.mmo_respages).set y
                  { ob1 with mmo_refcount := ob1.mmo_refcount - 1 }) (some s) = Res.ok st3 := by
              rw [← hs]
              exact hput1
            obtain ⟨hsy, b, hb, hby⟩ := chainInv_links_ne hip hy hob1 hs
            have hsd : s ∉ dead := chainInv_link_alive hip hob1 (links_to_shadowed hy hob1 hs)
            have hbd : b ∉ dead := chainInv_link_alive hip hob1
              (links_to_bottom hy hob1 (by rw [hs]; simp) hb)
            have hi2 := chainInv_set_dead (chainInv_kill hip hy hob1 hheldp hs)
              (List.mem_cons_self y dead) hob1
              (rfl : ({ ob1 with mmo_refcount := ob1.mmo_refcount - 1 } : mmobj).mmo_shadowed
                = ob1.mmo_shadowed) rfl
            obtain ⟨hi3, hn3, hc3⟩ := ih _ (y :: dead) _ s st3 hi2
              (by simp only [List.mem_cons, not_or]; exact ⟨hsy, hsd⟩)
              (by simp only [if_true]; omega) hput1s
            have hy3 := hc3 y (List.mem_cons_self y dead)
            rw [VMState.set_objs_same] at hy3
            cases hob3 : st3.objs y with
            | none => rw [hob3] at hy3; simp at hy3
            | some ob3 =>
              rw [hob3] at hy3
              simp only [Option.map_some', Option.some.injEq, mmobj.core, Prod.mk.injEq] at hy3
              simp only [hob3] at h
              obtain ⟨st4, hput2, h⟩ := Res.bind_eq_ok h
              simp only [Res.ok.injEq] at h
              subst h
              have hb3 : ob3.mmo_bottom_obj = some b := by rw [hy3.2.2.2, hb]
              rw [hb3] at hput2
              obtain ⟨hi4, hn4, hc4⟩ := ih _ (y :: dead) _ b st4 hi3
                (by simp only [List.mem_cons, not_or]; exact ⟨hby, hbd⟩)
                (by
                  simp only [hb, Option.some.injEq]
                  rcases eq_or_ne b s with c | c
                  · subst c
                    simp
                  · simp [c]) hput2
              refine ⟨chainInv_bury hi4 hy (fun x hx => ?_) (by simp only [if_true]; omega),
                ?_, ?_⟩
              · simp only [hb, Option.some.injEq, if_neg hx]
                rcases eq_or_ne x b with c1 | c1
                · subst c1
                  rcases eq_or_ne x s with c2 | c2
                  · subst c2
                    simp
                  · simp [c2]
                · rcases eq_or_ne x s with c2 | c2
                  · subst c2
                    simp [c1, Ne.symm c1]
                  · simp [c1, c2, Ne.symm c1]
              · rw [slab_obj_free, hn4, hn3]
                exact hsc.1
              · intro d hd
                have hdy : d ≠ y := fun e => hy (e ▸ hd)
                rw [slab_obj_free_objs, if_neg hdy, hc4 d (List.mem_cons_of_mem y hd),
                  hc3 d (List.mem_cons_of_mem y hd), VMState.set_objs, if_neg hdy]
                exact hsc.2 d

/-! ### The page operations keep the objects up to their resident pages -/

theorem shadow_lookuppage_return_state (st : VMState) (pagenum : Nat) (pf : Option pframe)
    (r : Int × Option pframe × VMState)
    (h : shadow_lookuppage_return st pagenum pf = Res.ok r) : r.2.2 = st := by
  unfold shadow_lookuppage_return at h
  cases pf with
  | none => cases h
  | some f =>
    simp only at h
    split_ifs at h
    cases h
    rfl

theorem pframe_get_filled_same_core (o pagenum : Nat) (pf : pframe) (r0 : Int × VMState)
    (r : Int × Option pframe × VMState)
    (h : pframe_get_filled o pagenum pf r0 = Res.ok r) : same_core r0.2 r.2.2 := by
  unfold pframe_get_filled at h
  split_ifs at h
  · cases h
    exact same_core_pframe_free _ _
  · simp only at h
    split at h
    · cases h
    · cases h
      exact same_core_pframe_update _ _ _

theorem pframe_get_same_core (K : KParams) (T : OpsCalls)
    (hT : ∀ st o pf r, T.fillpage st o pf = Res.ok r → same_core st r.2)
    (st : VMState) (o pagenum : Nat) (r : Int × Option pframe × VMState)
    (h : pframe_get K T st o pagenum = Res.ok r) : same_core st r.2.2 := by
  unfold pframe_get at h
  split at h
  · cases h
    exact same_core_refl st
  · split at h
    · cases h
    · cases h
      exact same_core_refl st
    · rename_i ob addr bytes rest hob hfp
      obtain ⟨r0, h0, h1⟩ := Res.bind_eq_ok h
      exact same_core_trans (same_core_with_new_frame st o ob _ rest hob)
        (same_core_trans (hT _ _ _ _ h0) (pframe_get_filled_same_core _ _ _ _ _ h1))

theorem pframe_lookup_same_core (T : OpsCalls)
    (hT : ∀ st o pagenum forwrite r, T.lookuppage st o pagenum forwrite = Res.ok r →
      same_core st r.2.2)
    (st : VMState) (o : Option Nat) (pagenum : Nat) (forwrite : Int)
    (r : Int × Option pframe × VMState)
    (h : pframe_lookup T st o pagenum forwrite = Res.ok r) : same_core st r.2.2 := by
  unfold pframe_lookup at h
  cases o with
  | none => cases h
  | some a => exact hT _ _ _ _ _ h

theorem shadow_lookuppage_same_core (K : KParams) (T : OpsCalls)
    (hL : ∀ st o pagenum forwrite r, T.lookuppage st o pagenum forwrite = Res.ok r →
      same_core st r.2.2)
    (hF : ∀ st o pf r, T.fillpage st o pf = Res.ok r → same_core st r.2)
    (fuel : Nat) (st : VMState) (o pagenum : Nat) (forwrite : Int)
    (r : Int × Option pframe × VMState)
    (h : shadow_lookuppage K T fuel st o pagenum forwrite = Res.ok r) :
    same_core st r.2.2 := by
  unfold shadow_lookuppage at h
  split_ifs at h with c
  · obtain ⟨tempPf, -, h⟩ := Res.bind_eq_ok h
    cases tempPf with
    | some f =>
      simp only at h
      rw [shadow_lookuppage_return_state _ _ _ _ h]
      exact same_core_refl st
    | none =>
      simp only at h
      split at h
      · cases h
      · obtain ⟨r1, h1, h⟩ := Res.bind_eq_ok h
        have hs := pframe_lookup_same_core T hL _ _ _ _ _ h1
        split_ifs at h
        · cases h
          exact hs
        · rw [shadow_lookuppage_return_state _ _ _ _ h]
          exact hs
  · split at h
    · rw [shadow_lookuppage_return_state _ _ _ _ h]
      exact same_core_refl st
    · obtain ⟨r1, h1, h⟩ := Res.bind_eq_ok h
      have hs := pframe_get_same_core K T hF _ _ _ _ h1
      split_ifs at h
      · cases h
        exact hs
      · split at h
        · cases h
        · rw [shadow_lookuppage_return_state _ _ _ _ h]
          exact same_core_trans hs (same_core_pframe_update _ _ _)

theorem shadow_fillpage_same_core (T : OpsCalls)
    (hL : ∀ st o pagenum forwrite r, T.lookuppage st o pagenum forwrite = Res.ok r →
      same_core st r.2.2)
    (fuel : Nat) (st : VMState) (o : Nat) (pf : pframe) (r : Int × VMState)
    (h : shadow_fillpage T fuel st o pf = Res.ok r) : same_core st r.2 := by
  unfold shadow_fillpage at h
  split_ifs at h
  · obtain ⟨shadowpf, -, h⟩ := Res.bind_eq_ok h
    cases shadowpf with
    | some src =>
      simp only [Res.ok.injEq] at h
      subst h
      exact same_core_trans (same_core_pframe_update _ _ _) (same_core_pframe_update _ _ _)
    | none =>
      simp only at h
      split at h
      · cases h
      · obtain ⟨r1, h1, h⟩ := Res.bind_eq_ok h
        have hs := pframe_lookup_same_core T hL _ _ _ _ _ h1
        split_ifs at h
        · split at h
          · cases h
          · simp only [Res.ok.injEq] at h
            subst h
            exact same_core_trans hs
              (same_core_trans (same_core_pframe_update _ _ _) (same_core_pframe_update _ _ _))
        · simp only [Res.ok.injEq] at h
          subst h
          exact hs

/-- The `lookuppage` and `fillpage` operations keep every object of the heap, its links and
its references beside those of its resident pages. -/
theorem page_ops_same_core (K : KParams) :
    ∀ n : Nat,
      (∀ st o pagenum forwrite r,
        (mmo_ops_at K n).lookuppage st o pagenum forwrite = Res.ok r → same_core st r.2.2) ∧
      (∀ st o pf r, (mmo_ops_at K n).fillpage st o pf = Res.ok r → same_core st r.2) := by
  intro n
  induction n with
  | zero =>
    constructor
    · intro st o pagenum forwrite r h
      simp [mmo_ops_at] at h
    · intro st o pf r h
      simp [mmo_ops_at] at h
  | succ m ih =>
    constructor
    · intro st o pagenum forwrite r h
      simp only [mmo_ops_at] at h
      split at h
      · cases h
      · split at h
        · exact pframe_get_same_core K _ ih.2 _ _ _ _ h
        · exact shadow_lookuppage_same_core K _ ih.1 ih.2 _ _ _ _ _ _ h
    · intro st o pf r h
      simp only [mmo_ops_at] at h
      split at h
      · cases h
      · split at h
        · unfold anon_fillpage at h
          split_ifs at h
          simp only [Res.ok.injEq] at h
          subst h
          exact same_core_trans (same_core_pframe_update _ _ _) (same_core_pframe_update _ _ _)
        · exact shadow_fillpage_same_core _ ih.1 _ _ _ _ _ h

/-- The page fault handler keeps every object of the heap, its links and its references
beside those of its resident pages. -/
theorem handle_pagefault_same_core (K : KParams) (P : PfParams) (n : Nat)
    (virt_to_phys : Nat → Nat) (map : vmmap) (st : VMState) (vaddr cause : Nat) (r : PfResult)
    (h : handle_pagefault K P (mmo_ops_at K n) virt_to_phys map st vaddr cause = Res.ok r) :
    same_core st r.st := by
  unfold handle_pagefault at h
  split at h
  · cases h
    exact same_core_refl st
  · by_cases hd : pagefault_denied P cause (by assumption : vmarea).vma_prot
    · rw [if_pos hd] at h
      cases h
      exact same_core_refl st
    · rw [if_neg hd] at h
      simp only at h
      generalize (if cause &&& P.FAULT_WRITE ≠ 0 then (1 : Int) else 0) = aw at h
      obtain ⟨x, hx, h⟩ := Res.bind_eq_ok h
      have hs := pframe_lookup_same_core _ (page_ops_same_core K n).1 _ _ _ _ _ hx
      by_cases hneg : x.1 < 0
      · rw [if_pos hneg] at h
        cases h
        exact hs
      · rw [if_neg hneg] at h
        split at h
        · cases h
        · by_cases hz : (by assumption : pframe).pf_addr = 0
          · rw [if_pos hz] at h
            cases h
          · rw [if_neg hz] at h
            cases h
            simp only
            split_ifs
            · exact same_core_trans hs (same_core_trans (same_core_trans
                (same_core_pframe_update _ _ _) (same_core_pframe_update _ _ _))
                (same_core_pframe_update _ _ _))
            · exact hs

/-! ### New objects -/

/-- No object holds a reference on an address without an object. -/
theorem links_to_not_live {st : VMState} {w : Nat → Nat} (hi : ChainInv st [] w) {z : Nat}
    (hz : st.objs z = none) (o : Nat) : links_to st [] o z = 0 := by
  cases hob : st.objs o with
  | none => exact links_to_none hob z
  | some ob =>
    rw [links_to_some (List.not_mem_nil o) hob]
    obtain ⟨chain, b, hc, hb⟩ := hi.shape o ob (List.not_mem_nil o) hob
    have hlive := shadowChain_live hc
    have h1 : ¬ (ob.mmo_shadowed = some z) := by
      intro hsh
      cases hc with
      | bottom b ob0 hob0 hsh0 =>
        rw [hob] at hob0
        cases hob0
        rw [hsh] at hsh0
        cases hsh0
      | step o next b ob0 chain hob0 hsh0 hrest =>
        rw [hob] at hob0
        cases hob0
        rw [hsh] at hsh0
        cases hsh0
        exact hlive z (List.mem_cons_of_mem _ (shadowChain_next_mem hrest)) hz
    have h2 : ¬ (ob.mmo_shadowed ≠ none ∧ ob.mmo_bottom_obj = some z) := by
      rintro ⟨hne, hbo⟩
      have := hb hne
      rw [hbo] at this
      have e : z = b := Option.some.inj this
      exact hlive b (by simp) (e ▸ hz)
    rw [if_neg h1, if_neg h2]

theorem held_not_live {st : VMState} {w : Nat → Nat} (hi : ChainInv st [] w) {z : Nat}
    (hz : st.objs z = none) : held st [] z = 0 := by
  unfold held
  rw [sum_range_eq_zero]
  intro o _
  exact links_to_not_live hi hz o

/-- The references held on `z` after one object was added at the next address, the links of
the other objects being as before. -/
theorem held_grow {st st1 : VMState} (hn : st1.next_obj = st.next_obj + 1)
    (hold : ∀ x, x ≠ st.next_obj →
      (st1.objs x).map (fun ob => (ob.mmo_shadowed, ob.mmo_bottom_obj))
        = (st.objs x).map (fun ob => (ob.mmo_shadowed, ob.mmo_bottom_obj))) (z : Nat) :
    held st1 [] z = held st [] z + links_to st1 [] st.next_obj z := by
  unfold held
  rw [hn, sum_range_succ]
  congr 1
  exact sum_range_congr _ _ _ (fun o ho => links_to_congr [] o (hold o (by omega)) z)

theorem shadowed_of_links {st st1 : VMState} {x : Nat}
    (h : (st1.objs x).map (fun ob => (ob.mmo_shadowed, ob.mmo_bottom_obj))
      = (st.objs x).map (fun ob => (ob.mmo_shadowed, ob.mmo_bottom_obj))) :
    (st1.objs x).map (fun ob => ob.mmo_shadowed) = (st.objs x).map (fun ob => ob.mmo_shadowed) := by
  cases h1 : st1.objs x <;> cases h0 : st.objs x <;> rw [h1, h0] at h <;> simp_all

/-- The shape of the chains after one object was added at the next address: the old objects
keep their chains. -/
theorem shape_grow {st st1 : VMState} {w : Nat → Nat} (hi : ChainInv st [] w)
    (hold : ∀ x, x ≠ st.next_obj →
      (st1.objs x).map (fun ob => (ob.mmo_shadowed, ob.mmo_bottom_obj))
        = (st.objs x).map (fun ob => (ob.mmo_shadowed, ob.mmo_bottom_obj)))
    {x b : Nat} {chain : List Nat} (hc : ShadowChain st x chain b) :
    ShadowChain st1 x chain b := by
  refine shadowChain_congr (fun z hz => ?_) hc
  have hlive := shadowChain_live hc z hz
  have hzn : z ≠ st.next_obj := by
    rintro rfl
    exact hlive (hi.fresh _ (le_refl _))
  exact shadowed_of_links (hold z hzn)

/-- An object that shadows nothing is added at the next address, with `c` references held on
it from outside the heap. -/
theorem chainInv_alloc {st st1 : VMState} {w : Nat → Nat} (hi : ChainInv st [] w)
    (c : Nat) (obN : mmobj)
    (hn : st1.next_obj = st.next_obj + 1)
    (hN : st1.objs st.next_obj = some obN) (hsh : obN.mmo_shadowed = none)
    (hc : (c : Int) ≤ obN.mmo_refcount - obN.mmo_nrespages)
    (hold : ∀ x, x ≠ st.next_obj → (st1.objs x).map mmobj.core = (st.objs x).map mmobj.core) :
    ChainInv st1 [] (fun z => if z = st.next_obj then c else w z) := by
  have hlinks : ∀ x, x ≠ st.next_obj →
      (st1.objs x).map (fun ob => (ob.mmo_shadowed, ob.mmo_bottom_obj))
        = (st.objs x).map (fun ob => (ob.mmo_shadowed, ob.mmo_bottom_obj)) := by
    intro x hx
    have := hold x hx
    cases h1 : st1.objs x <;> cases h0 : st.objs x <;> rw [h1, h0] at this <;>
      simp_all [mmobj.core]
  have hheld : ∀ z, held st1 [] z = held st [] z := by
    intro z
    rw [held_grow hn hlinks z, links_to_some (List.not_mem_nil _) hN, hsh]
    simp
  refine ⟨?_, ?_, ?_, ?_, ?_⟩
  · intro i h
    rw [hn] at h
    have := hold i (by omega)
    rw [hi.fresh i (by omega)] at this
    cases h1 : st1.objs i with
    | none => rfl
    | some ob => rw [h1] at this; simp at this
  · intro x _ hnone
    have hx : x ≠ st.next_obj := by
      rintro rfl
      rw [hN] at hnone
      cases hnone
    rw [if_neg hx]
    have := hold x hx
    rw [hnone] at this
    cases h0 : st.objs x with
    | none => exact hi.idle x (List.not_mem_nil x) h0
    | some ob => rw [h0] at this; simp at this
  · intro x ob1 _ hob1
    rw [hheld]
    by_cases hx : x = st.next_obj
    · subst hx
      rw [hN] at hob1
      cases hob1
      rw [held_not_live hi (hi.fresh _ (le_refl _)), if_pos rfl]
      simpa using hc
    · rw [if_neg hx]
      have := hold x hx
      rw [hob1] at this
      cases h0 : st.objs x with
      | none => rw [h0] at this; simp at this
      | some ob =>
        rw [h0] at this
        simp only [Option.map_some', Option.some.injEq, mmobj.core, Prod.mk.injEq] at this
        rw [this.2.1]
        exact hi.count x ob (List.not_mem_nil x) h0
  · intro d hd
    cases hd
  · intro x ob1 _ hob1
    by_cases hx : x = st.next_obj
    · subst hx
      rw [hN] at hob1
      cases hob1
      exact ⟨[], _, ShadowChain.bottom _ _ hN hsh, fun h => absurd hsh h⟩
    · have := hold x hx
      rw [hob1] at this
      cases h0 : st.objs x with
      | none => rw [h0] at this; simp at this
      | some ob =>
        rw [h0] at this
        simp only [Option.map_some', Option.some.injEq, mmobj.core, Prod.mk.injEq] at this
        obtain ⟨chain, b, hc0, hb⟩ := hi.shape x ob (List.not_mem_nil x) h0
        refine ⟨chain, b, shape_grow hi hlinks hc0, ?_⟩
        rw [this.2.2.1, this.2.2.2]
        exact hb

/-- A shadow object over `P`, with the bottom object `b` of `P` as its bottom object, is added
at the next address, with one reference held on it from outside the heap.  Its reference on
`b` is new; its reference on `P` is new (`t = 0`) or was held from outside the heap before
(`t = 1`). -/
theorem chainInv_add_shadow {st st1 : VMState} {w : Nat → Nat} (hi : ChainInv st [] w)
    (t P b : Nat) (obS : mmobj) (chain : List Nat)
    (hn : st1.next_obj = st.next_obj + 1)
    (hS : st1.objs st.next_obj = some obS) (hsh : obS.mmo_shadowed = some P)
    (hbo : obS.mmo_bottom_obj = some b)
    (hD : (1 : Int) ≤ obS.mmo_refcount - obS.mmo_nrespages)
    (hchain : ShadowChain st P chain b)
    (hw : t ≤ w P)
    (hold : ∀ x, x ≠ st.next_obj →
      (st1.objs x).map (fun ob => (ob.mmo_shadowed, ob.mmo_bottom_obj))
        = (st.objs x).map (fun ob => (ob.mmo_shadowed, ob.mmo_bottom_obj)))
    (hcount : ∀ x ob ob1, st.objs x = some ob → st1.objs x = some ob1 →
      ob.mmo_refcount - ob.mmo_nrespages + (if x = b then 1 else 0)
          + (if x = P then 1 - (t : Int) else 0)
        ≤ ob1.mmo_refcount - ob1.mmo_nrespages) :
    ChainInv st1 []
      (fun z => if z = st.next_obj then 1 else if z = P then w P - t else w z) := by
  have hlive := shadowChain_live hchain
  have hPlive : st.objs P ≠ none := hlive P (shadowChain_next_mem hchain)
  have hblive : st.objs b ≠ none := hlive b (by simp)
  have hfreshN : st.objs st.next_obj = none := hi.fresh _ (le_refl _)
  have hPN : P ≠ st.next_obj := fun e => hPlive (e ▸ hfreshN)
  have hbN : b ≠ st.next_obj := fun e => hblive (e ▸ hfreshN)
  have hlS : ∀ z, links_to st1 [] st.next_obj z
      = (if z = P then 1 else 0) + (if z = b then 1 else 0) := by
    intro z
    rw [links_to_some (List.not_mem_nil _) hS, hsh, hbo]
    have e1 : (some P = some z) ↔ z = P :=
      ⟨fun e => (Option.some.inj e).symm, fun e => by rw [e]⟩
    have e2 : ((some P : Option Nat) ≠ none ∧ some b = some z) ↔ z = b :=
      ⟨fun e => (Option.some.inj e.2).symm, fun e => ⟨by simp, by rw [e]⟩⟩
    simp only [e1, e2]
  have hheld : ∀ z, held st1 [] z
      = held st [] z + ((if z = P then 1 else 0) + (if z = b then 1 else 0)) := by
    intro z
    rw [held_grow hn hold z, hlS]
  refine ⟨?_, ?_, ?_, ?_, ?_⟩
  · intro i h
    rw [hn] at h
    have := hold i (by omega)
    rw [hi.fresh i (by omega)] at this
    cases h1 : st1.objs i with
    | none => rfl
    | some ob => rw [h1] at this; simp at this
  · intro x _ hnone
    have hx : x ≠ st.next_obj := by
      rintro rfl
      rw [hS] at hnone
      cases hnone
    have := hold x hx
    rw [hnone] at this
    cases h0 : st.objs x with
    | some ob => rw [h0] at this; simp at this
    | none =>
      have hxP : x ≠ P := fun e => hPlive (e ▸ h0)
      rw [if_neg hx, if_neg hxP]
      exact hi.idle x (List.not_mem_nil x) h0
  · intro x ob1 _ hob1
    rw [hheld]
    by_cases hx : x = st.next_obj
    · subst hx
      rw [hS] at hob1
      cases hob1
      rw [held_not_live hi hfreshN, if_pos rfl, if_neg (Ne.symm hPN), if_neg (Ne.symm hbN)]
      simpa using hD
    · rw [if_neg hx]
      have := hold x hx
      rw [hob1] at this
      cases h0 : st.objs x with
      | none => rw [h0] at this; simp at this
      | some ob =>
        have h1 := hi.count x ob (List.not_mem_nil x) h0
        have h2 := hcount x ob ob1 h0 hob1
        rcases eq_or_ne x P with c1 | c1
        · subst c1
          rcases eq_or_ne x b with c2 | c2
          · subst c2
            simp only [if_true] at h2 ⊢
            omega
          · simp only [if_true, if_neg c2] at h2 ⊢
            omega
        · rcases eq_or_ne x b with c2 | c2
          · subst c2
            simp only [if_true, if_neg c1] at h2 ⊢
            omega
          · simp only [if_neg c1, if_neg c2] at h2 ⊢
            omega
  · intro d hd
    cases hd
  · intro x ob1 _ hob1
    by_cases hx : x = st.next_obj
    · subst hx
      rw [hS] at hob1
      cases hob1
      exact ⟨st.next_obj :: chain, b,
        ShadowChain.step _ P b _ chain hS hsh (shape_grow hi hold hchain), fun _ => hbo⟩
    · have := hold x hx
      rw [hob1] at this
      cases h0 : st.objs x with
      | none => rw [h0] at this; simp at this
      | some ob =>
        rw [h0] at this
        simp only [Option.map_some', Option.some.injEq, Prod.mk.injEq] at this
        obtain ⟨chain0, b0, hc0, hb0⟩ := hi.shape x ob (List.not_mem_nil x) h0
        refine ⟨chain0, b0, shape_grow hi hold hc0, ?_⟩
        rw [this.1, this.2]
        exact hb0

/-- A `ref` through the operation table by a new holder outside the heap keeps the
invariant. -/
theorem ref_chainInv (K : KParams) (n : Nat) (st st1 : VMState) (w : Nat → Nat) (x : Nat)
    (hi : ChainInv st [] w) (h : (mmo_ops_at K n).ref st (some x) = Res.ok st1) :
    ChainInv st1 [] (fun z => if z = x then w x + 1 else w z) ∧
    st1.next_obj = st.next_obj := by
  cases n with
  | zero => simp [mmo_ops_at] at h
  | succ m =>
    rw [ops_ref_eq] at h
    cases hob : st.objs x with
    | none => rw [hob] at h; cases h
    | some ob =>
      rw [hob] at h
      simp only at h
      split_ifs at h
      simp only [Res.ok.injEq] at h
      subst h
      refine ⟨chainInv_set_count hi hob rfl rfl (fun z hz => by simp [hz]) ?_, rfl⟩
      simp only [if_true]
      push_cast
      omega

theorem chainInv_congr_w {st : VMState} {dead : List Nat} {w w1 : Nat → Nat}
    (h : ∀ z, w1 z = w z) (hi : ChainInv st dead w) : ChainInv st dead w1 := by
  have : w1 = w := funext h
  rw [this]
  exact hi

theorem ops_ref_none (K : KParams) (n : Nat) (st st1 : VMState) :
    (mmo_ops_at K n).ref st none ≠ Res.ok st1 := by
  cases n with
  | zero => simp [mmo_ops_at]
  | succ m => simp [mmo_ops_at]

/-- The invariant after `anon_create`, the new object being held once from outside the
heap. -/
theorem anon_create_chainInv {st : VMState} {w : Nat → Nat} (hi : ChainInv st [] w) :
    ChainInv (anon_create st).2 [] (fun z => if z = st.next_obj then 1 else w z) := by
  refine chainInv_alloc hi 1
    { mmo_ops := mmobj_ops_t.anon_mmobj_ops, mmo_refcount := 1, mmo_nrespages := 0,
      mmo_respages := [], mmo_shadowed := none, mmo_bottom_obj := none } rfl ?_ rfl
    (by simp) ?_
  · simp [anon_create, VMState.set]
  · intro x hx
    simp [anon_create, VMState.set, Function.update_apply, hx]

/-- The calls of a trace, each `put` releasing a reference held from outside the heap and
each `ref` taking one, keep the invariant. -/
theorem run_calls_chainInv (K : KParams) (n : Nat) :
    ∀ (tr : List KCall) (st st1 : VMState) (w : Nat → Nat), ChainInv st [] w →
      (∀ x, put_calls x tr ≤ w x) →
      run_calls (mmo_ops_at K n) st tr = Res.ok st1 →
      ChainInv st1 [] (fun x => w x + ref_calls x tr - put_calls x tr) := by
  intro tr
  induction tr with
  | nil =>
    intro st st1 w hi _ h
    simp only [run_calls, Res.ok.injEq] at h
    subst h
    exact chainInv_congr_w (fun z => by simp [ref_calls, put_calls]) hi
  | cons c rest ih =>
    intro st st1 w hi hp h
    cases c with
    | ref o =>
      simp only [run_calls] at h
      obtain ⟨st2, h1, h2⟩ := Res.bind_eq_ok h
      cases o with
      | none => exact absurd h1 (ops_ref_none K n _ _)
      | some x =>
        obtain ⟨hi2, -⟩ := ref_chainInv K n st st2 w x hi h1
        have := ih st2 st1 _ hi2 (fun z => by
          have := hp z
          rw [put_calls_cons] at this
          simp only [reduceCtorEq, if_false, Nat.add_zero] at this
          show put_calls z rest ≤ if z = x then w x + 1 else w z
          split_ifs with c
          · subst c; omega
          · exact this) h2
        refine chainInv_congr_w (fun z => ?_) this
        rw [ref_calls_cons, put_calls_cons]
        simp only [reduceCtorEq, if_false, Nat.add_zero, KCall.ref.injEq, Option.some.injEq]
        by_cases c : z = x
        · subst c
          simp only [if_true]
          omega
        · have c' : ¬ x = z := fun e => c e.symm
          simp only [if_neg c, if_neg c', Nat.add_zero]
    | put o =>
      simp only [run_calls] at h
      obtain ⟨st2, h1, h2⟩ := Res.bind_eq_ok h
      cases o with
      | none => exact absurd h1 (ops_put_none K n _ _)
      | some x =>
        have hpx := hp x
        rw [put_calls_cons] at hpx
        simp only [if_true] at hpx
        obtain ⟨hi2, -, -⟩ := put_chainInv K n st [] w x st2 hi (List.not_mem_nil x)
          (by omega) h1
        have := ih st2 st1 _ hi2 (fun z => by
          have := hp z
          rw [put_calls_cons] at this
          simp only [KCall.put.injEq, Option.some.injEq] at this
          show put_calls z rest ≤ if z = x then w x - 1 else w z
          split_ifs with c
          · subst c
            simp only [if_true] at this
            omega
          · have c' : ¬ x = z := fun e => c e.symm
            simp only [if_neg c'] at this
            omega) h2
        refine chainInv_congr_w (fun z => ?_) this
        rw [ref_calls_cons, put_calls_cons]
        simp only [reduceCtorEq, if_false, Nat.add_zero, KCall.put.injEq, Option.some.injEq]
        have hpz := hp z
        rw [put_calls_cons] at hpz
        simp only [KCall.put.injEq, Option.some.injEq] at hpz
        by_cases c : z = x
        · subst c
          simp only [if_true] at hpz ⊢
          omega
        · have c' : ¬ x = z := fun e => c e.symm
          simp only [if_neg c, if_neg c', Nat.add_zero]
    | tlb_flush_all =>
      simp only [run_calls] at h
      have := ih st st1 w hi (fun z => by
        have := hp z
        rw [put_calls_cons] at this
        simpa using this) h
      refine chainInv_congr_w (fun z => ?_) this
      rw [ref_calls_cons, put_calls_cons]
      simp
    | pt_unmap_range a b =>
      simp only [run_calls] at h
      have := ih st st1 w hi (fun z => by
        have := hp z
        rw [put_calls_cons] at this
        simpa using this) h
      refine chainInv_congr_w (fun z => ?_) this
      rw [ref_calls_cons, put_calls_cons]
      simp

theorem areas_bound_perm (X : Nat) {l l1 : List vmarea} (h : List.Perm l l1) :
    areas_bound X l = areas_bound X l1 := by
  unfold areas_bound
  exact h.countP_eq _

theorem areas_bound_insert_list (X mapaddr : Nat) (v : vmarea) (l : List vmarea) :
    areas_bound X (vmmap_insert_list mapaddr v l)
      = areas_bound X l + (if v.vma_obj = some X then 1 else 0) := by
  rw [← areas_bound_perm X (vmmap_insert_list_perm mapaddr v l)]
  simp only [areas_bound, List.countP_cons, decide_eq_true_eq]

theorem put_calls_le_areas_bound (lopage npages X : Nat) (l : List vmarea) :
    put_calls X (remove_calls lopage npages l) ≤ areas_bound X l := by
  induction l with
  | nil => simp [remove_calls, put_calls]
  | cons a rest ih =>
    have e : areas_bound X (a :: rest) = areas_bound X [a] + areas_bound X rest := by
      rw [← areas_bound_append]; rfl
    have h1 : put_calls X (remove_area_calls lopage npages a) ≤ areas_bound X [a] := by
      unfold remove_area_calls
      split_ifs <;> simp [put_calls, areas_bound, List.count_cons, List.countP_cons]
    simp only [remove_calls, put_calls_append, e]
    omega

/-- The shape of an object that holds a reference from outside the heap: it is in the heap,
heads a chain, and `mmobj_bottom_obj` gives the end of the chain. -/
theorem chainInv_held_bottom {st : VMState} {w : Nat → Nat} (hi : ChainInv st [] w) {o : Nat}
    (hw : 0 < w o) :
    ∃ chain b, ShadowChain st o chain b ∧ mmobj_bottom_obj st o = Res.ok (some b) := by
  cases hob : st.objs o with
  | none =>
    have := hi.idle o (List.not_mem_nil _) hob
    omega
  | some ob =>
    obtain ⟨chain, b, hc, hb⟩ := hi.shape o ob (List.not_mem_nil _) hob
    refine ⟨chain, b, hc, ?_⟩
    simp only [mmobj_bottom_obj, hob]
    by_cases hsh : ob.mmo_shadowed = none
    · rw [if_pos hsh]
      cases hc with
      | bottom b ob1 h1 h2 => rfl
      | step o next b ob1 chain h1 h2 h3 =>
        rw [hob] at h1
        cases h1
        rw [hsh] at h2
        cases h2
    · rw [if_neg hsh, hb hsh]

/-- The second half of `vmmap_map` reads of the file only the object and the heap it hands
out. -/
theorem vmmap_map_area_created (K : KParams) (T : OpsCalls)
    (file : Option (VMState → Int × Option Nat × VMState)) (map : vmmap) (st st0 : VMState)
    (calls : List KCall) (lopage npages prot flags off : Nat) (o : Option Nat)
    (hcreated : (match file with
      | some mmap => ((mmap st).2.1, (mmap st).2.2)
      | none => anon_create st) = (o, st0)) :
    vmmap_map_area K T file map st calls lopage npages prot flags off
      = vmmap_map_area K T (some (fun _ => (0, o, st0))) map st calls lopage npages prot flags
          off := by
  rcases file with _ | mmap
  · simp only at hcreated
    unfold vmmap_map_area
    simp only [hcreated]
  · simp only at hcreated
    have h1 : (mmap st).2.1 = o := congrArg Prod.fst hcreated
    have h2 : (mmap st).2.2 = st0 := congrArg Prod.snd hcreated
    unfold vmmap_map_area
    simp only [h1, h2]

/-- The second half of `vmmap_map` keeps the invariant: the reference on the object handed
out by the file or by `anon_create` goes to the new area, or to the shadow object the new
area is bound to. -/
theorem vmmap_map_area_chainInv (K : KParams) (n : Nat)
    (file : Option (VMState → Int × Option Nat × VMState)) (map : vmmap) (st st0 : VMState)
    (calls : List KCall) (lopage npages prot flags off o : Nat) (r : MapResult)
    (w1 : Nat → Nat)
    (hcreated : (match file with
      | some mmap => ((mmap st).2.1, (mmap st).2.2)
      | none => anon_create st) = (some o, st0))
    (hi : ChainInv st0 [] (fun z => w1 z + if z = o then 1 else 0))
    (h : vmmap_map_area K (mmo_ops_at K n) file map st calls lopage npages prot flags off
      = Res.ok r) :
    ∃ x, ChainInv r.st [] (fun z => w1 z + if z = x then 1 else 0) ∧
      (∀ z, areas_bound z r.map.vmm_list
        = areas_bound z map.vmm_list + if z = x then 1 else 0) ∧
      (∃ new, r.new = some new ∧ new.vma_obj = some x) ∧
      (flags &&& K.MAP_PRIVATE ≠ 0 →
        ∃ sob, r.st.objs x = some sob ∧ sob.mmo_shadowed = some o) := by
  obtain ⟨x, hnew, hlist, -, -⟩ := vmmap_map_area_new K _ file map st calls lopage npages prot
    flags off r h
  have hab : ∀ z, areas_bound z r.map.vmm_list
      = areas_bound z map.vmm_list + if z = x then 1 else 0 := by
    intro z
    rw [hlist, areas_bound_insert_list]
    have e : ((some x : Option Nat) = some z) ↔ z = x :=
      ⟨fun e => (Option.some.inj e).symm, fun e => by rw [e]⟩
    simp only [e]
  have hins : vmmap_insert_asserts K
      { vma_start := lopage, vma_end := u32add lopage npages, vma_off := ADDR_TO_PN K off,
        vma_flags := flags, vma_prot := prot, vma_vmmap := none, vma_obj := none } := by
    by_contra hc
    unfold vmmap_map_area at h
    simp only [if_pos hc] at h
    cases h
  rw [vmmap_map_area_created K _ file map st st0 calls lopage npages prot flags off (some o)
    hcreated] at h
  by_cases hpriv : flags &&& K.MAP_PRIVATE ≠ 0
  swap
  · unfold vmmap_map_area at h
    simp only [if_neg (not_not.mpr hins)] at h
    simp only [if_neg hpriv, Res.ok.injEq] at h
    subst h
    simp only [Option.some.injEq, vmarea.mk.injEq, true_and] at hnew
    subst hnew
    exact ⟨o, hi, hab, ⟨_, rfl, rfl⟩, fun hp => absurd hp hpriv⟩
  · obtain ⟨chain, b, hchain, hbot⟩ := @chainInv_held_bottom st0 _ hi o (by simp)
    have hfresh : st0.objs st0.next_obj = none := hi.fresh _ (le_refl _)
    have hlive := shadowChain_live hchain
    obtain ⟨bob, hb, -⟩ := shadowChain_bottom hchain
    have hoN : o ≠ st0.next_obj := by
      rintro rfl
      simp [mmobj_bottom_obj, hfresh] at hbot
    have hbN : b ≠ st0.next_obj := by
      rintro rfl
      rw [hfresh] at hb
      simp at hb
    have hbot1 : mmobj_bottom_obj (shadow_create st0).2 o = Res.ok (some b) := by
      have : (shadow_create st0).2.objs o = st0.objs o := by
        rw [shadow_create_objs, if_neg hoN]
      simp only [mmobj_bottom_obj, this]
      exact hbot
    cases n with
    | zero =>
      unfold vmmap_map_area at h
      simp only [if_neg (not_not.mpr hins)] at h
      simp [if_pos hpriv, shadow_create_objs, shadow_create_fst, hbot1,
        mmo_ops_at, Res.bind] at h
    | succ m =>
      unfold vmmap_map_area at h
      simp only [if_neg (not_not.mpr hins)] at h
      by_cases hrb : 0 < bob.mmo_refcount
      swap
      · simp only [if_pos hpriv, shadow_create_objs, shadow_create_fst, if_true,
          hbot1, Res.bind_ok, ops_ref_eq, VMState.set_objs, if_neg hbN, hb, if_neg hrb] at h
        cases h
      simp only [if_pos hpriv, shadow_create_objs, shadow_create_fst, if_true,
        hbot1, Res.bind_ok, ops_ref_eq, VMState.set_objs, if_neg hbN, hb, if_pos hrb,
        Res.ok.injEq] at h
      subst h
      simp only [Option.some.injEq, vmarea.mk.injEq, true_and] at hnew
      subst hnew
      have hw0 : w1 st0.next_obj = 0 := by
        have := hi.idle st0.next_obj (List.not_mem_nil _) hfresh
        simp only at this
        omega
      have key := @chainInv_add_shadow st0
        (((shadow_create st0).2.set st0.next_obj
          { mmo_ops := mmobj_ops_t.shadow_mmobj_ops, mmo_refcount := 1, mmo_nrespages := 0,
            mmo_respages := [], mmo_shadowed := some o, mmo_bottom_obj := some b }).set b
          { bob with mmo_refcount := bob.mmo_refcount + 1 }) _ hi 1 o b
        { mmo_ops := mmobj_ops_t.shadow_mmobj_ops, mmo_refcount := 1, mmo_nrespages := 0,
          mmo_respages := [], mmo_shadowed := some o, mmo_bottom_obj := some b } chain
        rfl (by simp [VMState.set_objs, Ne.symm hbN]) rfl rfl (by simp) hchain (by simp)
        (fun x hx => by
          simp only [VMState.set_objs, shadow_create_objs, if_neg hx]
          split_ifs with c
          · subst c
            rw [hb]
            rfl
          · rfl)
        (fun x ob ob1 h0 h1 => by
          have hxN : x ≠ st0.next_obj := by
            rintro rfl
            rw [hfresh] at h0
            cases h0
          simp only [VMState.set_objs, shadow_create_objs, if_neg hxN] at h1
          split_ifs at h1 with c
          · subst c
            rw [hb] at h0
            cases h0
            cases h1
            simp only [if_true]
            split_ifs <;> push_cast <;> omega
          · rw [h0] at h1
            cases h1
            simp only [if_neg c]
            split_ifs <;> push_cast <;> omega)
      refine ⟨st0.next_obj, chainInv_congr_w (fun z => ?_) key, hab, ⟨_, rfl, rfl⟩,
        fun _ => Exists.intro
          (mmobj.mk mmobj_ops_t.shadow_mmobj_ops 1 0 [] (some o) (some b))
          ⟨by simp [VMState.set_objs, Ne.symm hbN], rfl⟩⟩
      by_cases c1 : z = st0.next_obj
      · subst c1
        simp [hw0]
      · by_cases c2 : z = o
        · subst c2
          simp [c1]
        · simp [c1, c2]

theorem range_asserts_no_wrap (K : KParams) (lopage npages : Nat) (hl : lopage < U32)
    (hnp : npages < U32) (h : vmmap_is_range_empty_asserts K lopage npages) :
    lopage + npages < U32 := by
  have h1 := h.1
  unfold u32add at h1
  by_contra hc
  have e : (lopage + npages) % U32 = lopage + npages - U32 := by
    rw [Nat.mod_eq_sub_mod (by omega)]
    exact Nat.mod_eq_of_lt (by omega)
  rw [e] at h1
  omega

/-- The first half of `vmmap_map` keeps the invariant: the references of the areas it unmaps
are given back, those of the areas it splits are taken. -/
theorem vmmap_map_settle_chainInv (K : KParams) (n fuel head_of_empty : Nat) (map : vmmap)
    (st : VMState) (lopage npages flags off : Nat) (dir : Int) (ext : Nat → Nat)
    (v : Int) (map1 : vmmap) (st1 : VMState) (tr : List KCall) (p : Nat)
    (hi : ChainInv st [] ext) (hwf : WellFormed map.vmm_list)
    (hl : lopage < U32) (hnp : npages < U32)
    (hext : ∀ x, areas_bound x map.vmm_list ≤ ext x)
    (h : vmmap_map_settle K (mmo_ops_at K n) fuel head_of_empty map st lopage npages flags off
      dir = Res.ok (v, map1, st1, tr, p)) :
    ChainInv st1 []
      (fun x => ext x - areas_bound x map.vmm_list + areas_bound x map1.vmm_list) ∧
    (v < 0 → st1 = st ∧ map1 = map) ∧ map1.vmm_addr = map.vmm_addr := by
  have hsame : ChainInv st []
      (fun x => ext x - areas_bound x map.vmm_list + areas_bound x map.vmm_list) :=
    chainInv_congr_w (fun z => by have := hext z; show _ = ext z; omega) hi
  unfold vmmap_map_settle at h
  by_cases h1 : vmmap_map_asserts K lopage npages flags off
  swap
  · rw [if_pos h1] at h
    cases h
  rw [if_neg (not_not.mpr h1)] at h
  by_cases h2 : lopage = 0
  · rw [if_pos h2] at h
    simp only at h
    split_ifs at h <;>
    · simp only [Res.ok.injEq, Prod.mk.injEq] at h
      obtain ⟨-, rfl, rfl, -, -⟩ := h
      exact ⟨hsame, fun _ => ⟨rfl, rfl⟩, rfl⟩
  rw [if_neg h2] at h
  by_cases h3 : vmmap_is_range_empty_asserts K lopage npages
  swap
  · rw [if_pos h3] at h
    cases h
  rw [if_neg (not_not.mpr h3)] at h
  by_cases h4 : vmmap_is_range_empty map lopage npages = 0
  swap
  · rw [if_neg h4] at h
    simp only [Res.ok.injEq, Prod.mk.injEq] at h
    obtain ⟨-, rfl, rfl, -, -⟩ := h
    exact ⟨hsame, fun _ => ⟨rfl, rfl⟩, rfl⟩
  rw [if_pos h4] at h
  have hw := range_asserts_no_wrap K lopage npages hl hnp h3
  rw [vmmap_remove_eq_ite K map lopage npages hw hwf fuel] at h
  split_ifs at h with hf
  simp only at h
  obtain ⟨st2, hrun, h⟩ := Res.bind_eq_ok h
  simp only [Res.ok.injEq, Prod.mk.injEq] at h
  obtain ⟨rfl, rfl, rfl, rfl, -⟩ := h
  have hput : ∀ x, put_calls x (remove_calls lopage npages map.vmm_list ++
      [KCall.tlb_flush_all,
        KCall.pt_unmap_range (PN_TO_ADDR K lopage) (PN_TO_ADDR K (lopage + npages))])
      = put_calls x (remove_calls lopage npages map.vmm_list) := by
    intro x
    simp [put_calls_append, put_calls]
  have href : ∀ x, ref_calls x (remove_calls lopage npages map.vmm_list ++
      [KCall.tlb_flush_all,
        KCall.pt_unmap_range (PN_TO_ADDR K lopage) (PN_TO_ADDR K (lopage + npages))])
      = ref_calls x (remove_calls lopage npages map.vmm_list) := by
    intro x
    simp [ref_calls_append, ref_calls]
  have := run_calls_chainInv K n _ st st2 ext hi (fun x => by
    rw [hput]
    exact le_trans (put_calls_le_areas_bound lopage npages x map.vmm_list) (hext x)) hrun
  refine ⟨chainInv_congr_w (fun z => ?_) this, fun hv => absurd hv (by decide), rfl⟩
  have hb := remove_areas_balance map.vmm_addr lopage npages z map.vmm_list
  have h1 := put_calls_le_areas_bound lopage npages z map.vmm_list
  have h2 := hext z
  simp only [hput, href]
  omega

/-- The function `vmmap_map` keeps the invariant, the references of the areas of the map
being among those held from outside the heap: those of the areas unmapped are given back, and
the new area holds one on the object it is bound to.  The object a file hands out is assumed
to come with a reference in a heap that has the invariant. -/
theorem vmmap_map_chainInv (K : KParams) (n fuel head_of_empty : Nat) (map : vmmap)
    (st : VMState) (file : Option (VMState → Int × Option Nat × VMState))
    (lopage npages prot flags off : Nat) (dir : Int) (r : MapResult) (ext : Nat → Nat)
    (hi : ChainInv st [] ext) (hwf : WellFormed map.vmm_list)
    (hl : lopage < U32) (hnp : npages < U32)
    (hext : ∀ x, areas_bound x map.vmm_list ≤ ext x)
    (hfile : ∀ mmap v map1 st1 tr p, file = some mmap →
      vmmap_map_settle K (mmo_ops_at K n) fuel head_of_empty map st lopage npages flags off
        dir = Res.ok (v, map1, st1, tr, p) → ¬ v < 0 →
      ∃ o, (mmap st1).2.1 = some o ∧
        ChainInv (mmap st1).2.2 []
          (fun x => ext x - areas_bound x map.vmm_list + areas_bound x map1.vmm_list
            + if x = o then 1 else 0))
    (h : vmmap_map K (mmo_ops_at K n) fuel head_of_empty map st file lopage npages prot flags
      off dir = Res.ok r) :
    ChainInv r.st []
      (fun x => ext x - areas_bound x map.vmm_list + areas_bound x r.map.vmm_list) ∧
    (¬ r.ret < 0 → flags &&& K.MAP_PRIVATE ≠ 0 →
      ∃ new s sob, r.new = some new ∧ new.vma_obj = some s ∧ r.st.objs s = some sob ∧
        sob.mmo_shadowed ≠ none) := by
  rw [vmmap_map_eq_settle] at h
  obtain ⟨x, hx, h⟩ := Res.bind_eq_ok h
  obtain ⟨v, map1, st1, tr, p⟩ := x
  obtain ⟨hi1, hneg, -⟩ := vmmap_map_settle_chainInv K n fuel head_of_empty map st lopage
    npages flags off dir ext v map1 st1 tr p hi hwf hl hnp hext hx
  simp only at h
  by_cases hv : v < 0
  · rw [if_pos hv] at h
    simp only [Res.ok.injEq] at h
    subst h
    obtain ⟨rfl, rfl⟩ := hneg hv
    exact ⟨hi1, fun hr => absurd hv hr⟩
  rw [if_neg hv] at h
  have hcre : ∃ o st0, (match file with
      | some mmap => ((mmap st1).2.1, (mmap st1).2.2)
      | none => anon_create st1) = (some o, st0) ∧
      ChainInv st0 []
        (fun x => ext x - areas_bound x map.vmm_list + areas_bound x map1.vmm_list
          + if x = o then 1 else 0) := by
    rcases file with _ | mmap
    · refine ⟨st1.next_obj, (anon_create st1).2, rfl, ?_⟩
      refine chainInv_congr_w (fun z => ?_) (anon_create_chainInv hi1)
      have h0 := hi1.idle st1.next_obj (List.not_mem_nil _) (hi1.fresh _ (le_refl _))
      simp only at h0
      by_cases c : z = st1.next_obj
      · subst c
        simp only [if_true]
        omega
      · simp only [if_neg c, Nat.add_zero]
    · obtain ⟨o, h1, h2⟩ := hfile mmap v map1 st1 tr p rfl hx hv
      refine ⟨o, (mmap st1).2.2, ?_, h2⟩
      simp only [h1]
  obtain ⟨o, st0, hcreated, hi0⟩ := hcre
  obtain ⟨s, his, hab, ⟨new, hnew, hobj⟩, hsh⟩ := vmmap_map_area_chainInv K n file map1 st1 st0
    tr p npages prot flags off o r _ hcreated hi0 h
  refine ⟨chainInv_congr_w (fun z => ?_) his, fun _ hp => ?_⟩
  · rw [hab z]
    omega
  · obtain ⟨sob, h1, h2⟩ := hsh hp
    exact ⟨new, s, sob, hnew, hobj, h1, by rw [h2]; simp⟩

/-- A call of `handle_memory_object` for a private area that returns was made with fuel, on an
object and a bottom object whose reference counts are positive, and leaves the allocator two
addresses further. -/
theorem handle_memory_object_private_ok (K : KParams) (n : Nat) (st st6 : VMState)
    (childVmArea parentVmArea c p : vmarea) (P b : Nat) (obP bob : mmobj)
    (hpriv : K.MAP_SHARED ≠ childVmArea.vma_flags &&& K.MAP_TYPE)
    (hP : parentVmArea.vma_obj = some P)
    (hobP : st.objs P = some obP)
    (hbotP : mmobj_bottom_obj st P = Res.ok (some b))
    (hbob : st.objs b = some bob)
    (hfresh : ∀ i, st.next_obj ≤ i → st.objs i = none)
    (h : handle_memory_object K (mmo_ops_at K n) st childVmArea parentVmArea
      = Res.ok (c, p, st6)) :
    0 < obP.mmo_refcount ∧ 0 < bob.mmo_refcount ∧ st6.next_obj = st.next_obj + 2 ∧
    ∃ m, n = m + 1 := by
  have hN : st.objs st.next_obj = none := hfresh _ (le_refl _)
  have hN1 : st.objs (st.next_obj + 1) = none := hfresh _ (Nat.le_succ _)
  have hPN : P ≠ st.next_obj := by rintro rfl; rw [hN] at hobP; simp at hobP
  have hPN1 : P ≠ st.next_obj + 1 := by rintro rfl; rw [hN1] at hobP; simp at hobP
  have hbN : b ≠ st.next_obj := by rintro rfl; rw [hN] at hbob; simp at hbob
  have hbN1 : b ≠ st.next_obj + 1 := by rintro rfl; rw [hN1] at hbob; simp at hbob
  have hNN1 : st.next_obj ≠ st.next_obj + 1 := by omega
  have hN1N : st.next_obj + 1 ≠ st.next_obj := by omega
  simp only [mmobj_bottom_obj, hobP] at hbotP
  have hNP := Ne.symm hPN
  have hN1P := Ne.symm hPN1
  have hNb := Ne.symm hbN
  have hN1b := Ne.symm hbN1
  cases n with
  | zero =>
    by_cases hsh : obP.mmo_shadowed = none
    · simp [handle_memory_object, hpriv, hP, mmobj_bottom_obj, mmo_ops_at, VMState.set_objs,
        shadow_create_objs, shadow_create_fst, shadow_create_next_obj,
        hPN, hPN1, hNN1, hN1N, hobP, hsh, hNP, hN1P] at h
    · simp only [if_neg hsh, Res.ok.injEq] at hbotP
      simp [handle_memory_object, hpriv, hP, mmobj_bottom_obj, mmo_ops_at, VMState.set_objs,
        shadow_create_objs, shadow_create_fst, shadow_create_next_obj,
        hPN, hPN1, hNN1, hN1N, hobP, hsh, hNP, hN1P, hbotP] at h
  | succ m =>
    by_cases hrP : 0 < obP.mmo_refcount
    swap
    · exfalso
      by_cases hsh : obP.mmo_shadowed = none
      · simp [handle_memory_object, hpriv, hP, mmobj_bottom_obj, ops_ref_eq, VMState.set_objs,
          shadow_create_objs, shadow_create_fst, shadow_create_next_obj,
          hPN, hPN1, hNN1, hN1N, hobP, hsh, hNP, hN1P, hrP] at h
      · simp only [if_neg hsh, Res.ok.injEq] at hbotP
        simp [handle_memory_object, hpriv, hP, mmobj_bottom_obj, ops_ref_eq, VMState.set_objs,
          shadow_create_objs, shadow_create_fst, shadow_create_next_obj,
          hPN, hPN1, hNN1, hN1N, hobP, hsh, hNP, hN1P, hbotP, hrP] at h
    have hrP1 : 0 < obP.mmo_refcount + 1 := by omega
    have hrP2 : 0 < obP.mmo_refcount + 1 + 1 := by omega
    by_cases hPb : P = b
    · subst hPb
      rw [hobP] at hbob
      simp only [Option.some.injEq] at hbob
      subst hbob
      refine ⟨hrP, hrP, ?_, m, rfl⟩
      by_cases hsh : obP.mmo_shadowed = none
      · simp [handle_memory_object, hpriv, hP, mmobj_bottom_obj, ops_ref_eq, VMState.set_objs,
          shadow_create_objs, shadow_create_fst, shadow_create_next_obj,
          hPN, hPN1, hNN1, hN1N, hobP, hsh, hrP, hNP, hN1P, hrP1, hrP2] at h
        obtain ⟨-, -, rfl⟩ := h
        rfl
      · simp only [if_neg hsh, Res.ok.injEq] at hbotP
        simp [handle_memory_object, hpriv, hP, mmobj_bottom_obj, ops_ref_eq, VMState.set_objs,
          shadow_create_objs, shadow_create_fst, shadow_create_next_obj,
          hPN, hPN1, hNN1, hN1N, hobP, hsh, hrP, hNP, hN1P, hrP1, hrP2, hbotP] at h
        obtain ⟨-, -, rfl⟩ := h
        rfl
    · have hsh : obP.mmo_shadowed ≠ none := by
        intro h
        simp only [h, if_true, Res.ok.injEq, Option.some.injEq] at hbotP
        exact hPb hbotP
      simp only [if_neg hsh, Res.ok.injEq] at hbotP
      have hbP2 : b ≠ P := Ne.symm hPb
      by_cases hrb : 0 < bob.mmo_refcount
      swap
      · exfalso
        simp [handle_memory_object, hpriv, hP, mmobj_bottom_obj, ops_ref_eq, VMState.set_objs,
          shadow_create_objs, shadow_create_fst, shadow_create_next_obj,
          hPN, hPN1, hNN1, hN1N, hobP, hsh, hrP, hNP, hN1P, hrP1, hrP2, hbotP, hbob, hbN, hbN1,
          hNb, hN1b, hrb, hPb, hbP2] at h
      have hrb1 : 0 < bob.mmo_refcount + 1 := by omega
      refine ⟨hrP, hrb, ?_, m, rfl⟩
      simp [handle_memory_object, hpriv, hP, mmobj_bottom_obj, ops_ref_eq, VMState.set_objs,
        shadow_create_objs, shadow_create_fst, shadow_create_next_obj,
        hPN, hPN1, hNN1, hN1N, hobP, hsh, hrP, hNP, hN1P, hrP1, hrP2, hbotP, hbob, hbN, hbN1,
        hNb, hN1b, hrb, hrb1, hPb, hbP2] at h
      obtain ⟨-, -, rfl⟩ := h
      rfl

theorem counts_of_same_up_to_refcount {st st6 : VMState} {x : Nat} {ob ob6 : mmobj}
    (h : (st6.objs x).map (fun ob => { ob with mmo_refcount := 0 })
      = (st.objs x).map (fun ob => { ob with mmo_refcount := 0 }))
    (hob : st.objs x = some ob) (hob6 : st6.objs x = some ob6) :
    ob6.mmo_nrespages = ob.mmo_nrespages ∧ ob6.mmo_shadowed = ob.mmo_shadowed ∧
    ob6.mmo_bottom_obj = ob.mmo_bottom_obj := by
  rw [hob, hob6] at h
  simp only [Option.map_some', Option.some.injEq, mmobj.mk.injEq] at h
  exact ⟨h.2.2.1, h.2.2.2.2.1, h.2.2.2.2.2⟩

theorem areas_bound_single (X : Nat) (a : vmarea) :
    areas_bound X [a] = if a.vma_obj = some X then 1 else 0 := by
  simp [areas_bound, List.countP_cons]

theorem areas_bound_pair (X : Nat) (a c : vmarea) :
    areas_bound X [a, c]
      = (if a.vma_obj = some X then 1 else 0) + (if c.vma_obj = some X then 1 else 0) := by
  simp only [areas_bound, List.countP_cons, List.countP_nil, decide_eq_true_eq]
  omega

/-- The function `handle_memory_object` keeps the invariant, the reference of the parent area
being among those held from outside the heap: both areas it returns hold a reference on the
object they are bound to. -/
theorem handle_memory_object_chainInv (K : KParams) (n : Nat) (st st6 : VMState)
    (childVmArea parentVmArea c p : vmarea) (ext : Nat → Nat)
    (hi : ChainInv st [] ext)
    (hext : ∀ x, areas_bound x [parentVmArea] ≤ ext x)
    (h : handle_memory_object K (mmo_ops_at K n) st childVmArea parentVmArea
      = Res.ok (c, p, st6)) :
    ChainInv st6 []
      (fun x => ext x - areas_bound x [parentVmArea] + areas_bound x [c, p]) ∧
    (K.MAP_SHARED ≠ childVmArea.vma_flags &&& K.MAP_TYPE →
      ∃ s1 s2 ob1 ob2, p.vma_obj = some s1 ∧ c.vma_obj = some s2 ∧
        st6.objs s1 = some ob1 ∧ ob1.mmo_shadowed ≠ none ∧
        st6.objs s2 = some ob2 ∧ ob2.mmo_shadowed ≠ none) := by
  have some_eq : ∀ a z : Nat, ((some a : Option Nat) = some z) ↔ z = a :=
    fun a z => ⟨fun e => (Option.some.inj e).symm, fun e => by rw [e]⟩
  by_cases hpriv : K.MAP_SHARED ≠ childVmArea.vma_flags &&& K.MAP_TYPE
  swap
  · refine ⟨?_, fun hp => absurd hp hpriv⟩
    unfold handle_memory_object at h
    rw [if_neg hpriv] at h
    obtain ⟨st1, h1, h⟩ := Res.bind_eq_ok h
    simp only [Res.ok.injEq, Prod.mk.injEq] at h
    obtain ⟨rfl, rfl, rfl⟩ := h
    cases hP : parentVmArea.vma_obj with
    | none =>
      rw [hP] at h1
      exact absurd h1 (ops_ref_none K n _ _)
    | some P =>
      rw [hP] at h1
      obtain ⟨hi1, -⟩ := ref_chainInv K n st st1 ext P hi h1
      refine chainInv_congr_w (fun z => ?_) hi1
      have := hext z
      rw [areas_bound_single, hP] at this
      rw [areas_bound_single, areas_bound_pair, hP]
      simp only [some_eq] at this ⊢
      by_cases c : z = P
      · subst c
        simp only [if_true] at this ⊢
        omega
      · simp only [if_neg c, Nat.add_zero, Nat.sub_zero]
  cases hP : parentVmArea.vma_obj with
  | none =>
    unfold handle_memory_object at h
    rw [if_pos hpriv] at h
    simp only [hP] at h
    cases h
  | some P =>
    have hextP : 0 < ext P := by
      have := hext P
      rw [areas_bound_single, hP] at this
      simpa using this
    obtain ⟨cP, b, hchain, hbotP⟩ := chainInv_held_bottom hi hextP
    obtain ⟨bob, hbob, -⟩ := shadowChain_bottom hchain
    have hPlive := shadowChain_live hchain P (shadowChain_next_mem hchain)
    cases hobP : st.objs P with
    | none => exact absurd hobP hPlive
    | some obP =>
      obtain ⟨hrP, hrb, hnext, m, rfl⟩ := handle_memory_object_private_ok K n st st6
        childVmArea parentVmArea c p P b obP bob hpriv hP hobP hbotP hbob hi.fresh h
      obtain ⟨st6a, ha, hS1, hS2, hrest, -⟩ := handle_memory_object_private K m st childVmArea
        parentVmArea P b obP bob hpriv hP hobP hrP hbotP hbob hrb hi.fresh
      obtain ⟨st6b, hb, hcP, hcb, hcx⟩ := handle_memory_object_counts K m st childVmArea
        parentVmArea P b obP bob hpriv hP hobP hrP hbotP hbob hrb hi.fresh
      rw [h] at ha hb
      simp only [Res.ok.injEq, Prod.mk.injEq] at ha hb
      obtain ⟨rfl, rfl, rfl⟩ := ha
      obtain ⟨-, -, rfl⟩ := hb
      have hN : st.objs st.next_obj = none := hi.fresh _ (le_refl _)
      have hN1 : st.objs (st.next_obj + 1) = none := hi.fresh _ (Nat.le_succ _)
      have hPN : P ≠ st.next_obj := by rintro rfl; rw [hN] at hobP; simp at hobP
      have hPN1 : P ≠ st.next_obj + 1 := by rintro rfl; rw [hN1] at hobP; simp at hobP
      have hbN : b ≠ st.next_obj := by rintro rfl; rw [hN] at hbob; simp at hbob
      have hbN1 : b ≠ st.next_obj + 1 := by rintro rfl; rw [hN1] at hbob; simp at hbob
      refine ⟨?_, fun _ => ⟨st.next_obj, st.next_obj + 1, _, _, rfl, rfl, hS1, by simp, hS2,
        by simp⟩⟩
      -- the heap after the shadow object of the parent area alone was added
      have hiA := @chainInv_add_shadow st
        (VMState.mk
          (fun x =>
            if x = st.next_obj then
              some { mmo_ops := mmobj_ops_t.shadow_mmobj_ops, mmo_refcount := 1,
                     mmo_nrespages := 0, mmo_respages := [], mmo_shadowed := some P,
                     mmo_bottom_obj := some b }
            else if x = b then some { bob with mmo_refcount := bob.mmo_refcount + 1 }
            else st.objs x)
          (st.next_obj + 1) st.free_pages) _ hi 1 P b
        { mmo_ops := mmobj_ops_t.shadow_mmobj_ops, mmo_refcount := 1, mmo_nrespages := 0,
          mmo_respages := [], mmo_shadowed := some P, mmo_bottom_obj := some b } cP
        rfl (by simp) rfl rfl (by simp) hchain (by omega)
        (fun x hx => by
          simp only [if_neg hx]
          split_ifs with c
          · subst c
            rw [hbob]
            rfl
          · rfl)
        (fun x ob ob1 h0 h1 => by
          have hxN : x ≠ st.next_obj := by
            rintro rfl
            rw [hN] at h0
            cases h0
          simp only [if_neg hxN] at h1
          split_ifs at h1 with c
          · subst c
            rw [hbob] at h0
            cases h0
            cases h1
            simp only [if_true]
            split_ifs <;> push_cast <;> omega
          · rw [h0] at h1
            cases h1
            simp only [if_neg c]
            split_ifs <;> push_cast <;> omega)
      have hchainA := @shape_grow st
        (VMState.mk
          (fun x =>
            if x = st.next_obj then
              some { mmo_ops := mmobj_ops_t.shadow_mmobj_ops, mmo_refcount := 1,
                     mmo_nrespages := 0, mmo_respages := [], mmo_shadowed := some P,
                     mmo_bottom_obj := some b }
            else if x = b then some { bob with mmo_refcount := bob.mmo_refcount + 1 }
            else st.objs x)
          (st.next_obj + 1) st.free_pages) _ hi
        (fun x hx => by
          simp only [if_neg hx]
          split_ifs with c
          · subst c
            rw [hbob]
            rfl
          · rfl) P b cP hchain
      have hi6 := @chainInv_add_shadow _ st6 _ hiA 0 P b
        { mmo_ops := mmobj_ops_t.shadow_mmobj_ops, mmo_refcount := 1, mmo_nrespages := 0,
          mmo_respages := [], mmo_shadowed := some P, mmo_bottom_obj := some b } cP
        hnext hS2 rfl rfl (by simp) hchainA (Nat.zero_le _)
        (fun x hx => by
          simp only at hx ⊢
          by_cases c0 : x = st.next_obj
          · subst c0
            rw [hS1]
            simp
          · simp only [if_neg c0]
            have hr := hrest x c0 hx
            by_cases c : x = b
            · subst c
              simp only [if_true]
              cases h6 : st6.objs x with
              | none => rw [h6, hbob] at hr; simp at hr
              | some ob6 =>
                obtain ⟨-, e1, e2⟩ := counts_of_same_up_to_refcount hr hbob h6
                simp [e1, e2]
            · simp only [if_neg c]
              cases h0 : st.objs x with
              | none =>
                rw [h0] at hr
                cases h6 : st6.objs x with
                | none => rfl
                | some ob6 => rw [h6] at hr; simp at hr
              | some ob =>
                cases h6 : st6.objs x with
                | none => rw [h6, h0] at hr; simp at hr
                | some ob6 =>
                  obtain ⟨-, e1, e2⟩ := counts_of_same_up_to_refcount hr h0 h6
                  simp [e1, e2])
        (fun x ob ob1 h0 h1 => by
          simp only at h0
          by_cases c0 : x = st.next_obj
          · subst c0
            rw [hS1] at h1
            simp only [if_true] at h0
            cases h0
            cases h1
            simp only [if_neg (Ne.symm hbN), if_neg (Ne.symm hPN)]
            omega
          · simp only [if_neg c0] at h0
            have hx1 : x ≠ st.next_obj + 1 := by
              rintro rfl
              rw [if_neg (Ne.symm hbN1), hN1] at h0
              cases h0
            have hr := hrest x c0 hx1
            by_cases c : x = b
            · subst c
              simp only [if_true] at h0
              cases h0
              obtain ⟨e0, -, -⟩ := counts_of_same_up_to_refcount hr hbob h1
              rw [h1] at hcb
              simp only [Option.map_some', Option.some.injEq] at hcb
              simp only [if_true, e0, hcb]
              split_ifs <;> push_cast <;> omega
            · simp only [if_neg c] at h0
              obtain ⟨e0, -, -⟩ := counts_of_same_up_to_refcount hr h0 h1
              by_cases cP : x = P
              · subst cP
                rw [h1] at hcP
                rw [hobP] at h0
                cases h0
                simp only [Option.map_some', Option.some.injEq] at hcP
                simp only [if_neg c, if_true, e0, hcP, if_neg (Ne.symm c)]
                push_cast
                omega
              · have := hcx x cP c c0 hx1
                rw [h1, h0] at this
                cases this
                simp only [if_neg c, if_neg cP]
                omega)
      refine chainInv_congr_w (fun z => ?_) hi6
      have hz1 := hi.idle (st.next_obj + 1) (List.not_mem_nil _) hN1
      have hz0 := hi.idle st.next_obj (List.not_mem_nil _) hN
      rw [areas_bound_single, areas_bound_pair, hP]
      simp only [some_eq]
      by_cases c1 : z = st.next_obj + 1
      · subst c1
        simp only [if_true, if_neg (Ne.symm hPN1)]
        simp
        omega
      · by_cases c0 : z = st.next_obj
        · subst c0
          simp only [if_true, if_neg c1, if_neg (Ne.symm hPN)]
          omega
        · by_cases cP : z = P
          · subst cP
            simp only [if_true, if_neg c1, if_neg c0]
            omega
          · simp only [if_neg c1, if_neg c0, if_neg cP]
            omega

/-- The heap without objects has the invariant. -/
theorem chainInv_init (next : Nat) (free : List (Nat × Nat)) :
    ChainInv { objs := fun _ => none, next_obj := next, free_pages := free } []
      (fun _ => 0) := by
  refine ⟨fun _ _ => rfl, fun _ _ _ => rfl, ?_, ?_, ?_⟩
  · intro x ob _ h
    cases h
  · intro d hd
    cases hd
  · intro x ob _ h
    cases h

/-- Every reached heap has the invariant: the shape of the shadow chains persists from one
function of the heap to the next. -/
theorem heapReach_chainInv (K : KParams) {st : VMState} {ext : Nat → Nat}
    (h : HeapReach K st ext) : ChainInv st [] ext := by
  induction h with
  | init next free => exact chainInv_init next free
  | create st ext _ ih => exact anon_create_chainInv ih
  | ref n st st1 ext x _ h ih => exact (ref_chainInv K n st st1 ext x ih h).1
  | put n st st1 ext x _ hpos h ih =>
    exact (put_chainInv K n st [] ext x st1 ih (List.not_mem_nil _) hpos h).1
  | lookuppage n st ext o pagenum forwrite r _ h ih =>
    exact chainInv_same_core ((page_ops_same_core K n).1 _ _ _ _ _ h) ih
  | fillpage n st ext o pf r _ h ih =>
    exact chainInv_same_core ((page_ops_same_core K n).2 _ _ _ _ h) ih
  | pagefault P n virt_to_phys map st ext vaddr cause r _ h ih =>
    exact chainInv_same_core (handle_pagefault_same_core K P n virt_to_phys map st vaddr cause
      r h) ih
  | map n fuel head_of_empty map st ext lopage npages prot flags off dir r _ hwf hl hnp hext h
      ih =>
    exact (vmmap_map_chainInv K n fuel head_of_empty map st none lopage npages prot flags off
      dir r ext ih hwf hl hnp hext (fun _ _ _ _ _ _ e => by cases e) h).1
  | map_file n fuel head_of_empty map st ext mmap lopage npages prot flags off dir r v map1
      st1 tr p o _ hwf hl hnp hext hs ho _ h ih ih1 =>
    refine (vmmap_map_chainInv K n fuel head_of_empty map st (some mmap) lopage npages prot
      flags off dir r ext ih hwf hl hnp hext ?_ h).1
    intro mmap2 v2 map2 st2 tr2 p2 e hs2 _
    cases e
    rw [hs] at hs2
    simp only [Res.ok.injEq, Prod.mk.injEq] at hs2
    obtain ⟨-, rfl, rfl, -, -⟩ := hs2
    exact ⟨o, ho, ih1⟩
  | fork n st st1 ext childVmArea parentVmArea c p _ hext h ih =>
    exact (handle_memory_object_chainInv K n st st1 childVmArea parentVmArea c p ext ih hext
      h).1

theorem exReachMap_run :
    vmmap_map exK (mmo_ops_at exK 1) 1 0 exMap0 exHeap0 none 1024 3 3 2 0 0
      = Res.ok exReachMap := rfl

theorem exReachFork_run :
    handle_memory_object exK (mmo_ops_at exK 1) exReachMap.st exChildArea exParentArea
      = Res.ok ({ exChildArea with vma_obj := some 4 }, { exParentArea with vma_obj := some 3 },
          exReachFork) := rfl

theorem exMap0_wellFormed : WellFormed exMap0.vmm_list := by
  simp [WellFormed, exMap0]

/-- C39 holds in every heap reached from the empty heap (`HeapReach`) by `anon_create`, the
`ref`, `put`, `lookuppage` and `fillpage` operations, `handle_pagefault`, `vmmap_map` and
`handle_memory_object`, with `put` tearing objects down in between, given back only
references that are held.  In such a heap every object that shadows another heads a chain
of `mmo_shadowed` links (`ShadowChain`) whose objects are pairwise distinct and which ends at
an object that shadows nothing; that object is its `mmo_bottom_obj`; and with fuel above the
length of the chain the walks of `shadow_lookuppage` and `shadow_fillpage` return, having
visited the objects of the chain only.  The shadow object that `vmmap_map` makes for a
private anonymous mapping, and the two that `handle_memory_object` makes for a private area,
are such objects of a heap that is reached again. -/
theorem shadow_chain_shape (K : KParams) (st : VMState) (ext : Nat → Nat)
    (h : HeapReach K st ext) :
    (∀ x ob, st.objs x = some ob → ob.mmo_shadowed ≠ none →
      ∃ chain b, ShadowChain st x chain b ∧ ob.mmo_bottom_obj = some b ∧
        (chain ++ [b]).Nodup ∧
        (∃ bob, st.objs b = some bob ∧ bob.mmo_shadowed = none) ∧
        ∀ pagenum fuel, chain.length < fuel →
          shadow_lookuppage_walk st pagenum fuel x
            = Res.ok (first_resident st pagenum chain) ∧
          shadow_fillpage_walk st pagenum fuel (some x)
            = Res.ok (first_resident st pagenum (chain ++ [b]).tail)) ∧
    (∀ (n fuel head_of_empty : Nat) (map : vmmap) (lopage npages prot flags off : Nat)
      (dir : Int) (r : MapResult),
      WellFormed map.vmm_list → lopage < U32 → npages < U32 →
      (∀ x, areas_bound x map.vmm_list ≤ ext x) →
      vmmap_map K (mmo_ops_at K n) fuel head_of_empty map st none lopage npages prot flags off
        dir = Res.ok r →
      ¬ r.ret < 0 → flags &&& K.MAP_PRIVATE ≠ 0 →
      HeapReach K r.st
        (fun x => ext x - areas_bound x map.vmm_list + areas_bound x r.map.vmm_list) ∧
      ∃ new s sob, r.new = some new ∧ new.vma_obj = some s ∧ r.st.objs s = some sob ∧
        sob.mmo_shadowed ≠ none) ∧
    (∀ (n : Nat) (childVmArea parentVmArea c p : vmarea) (st1 : VMState),
      (∀ x, areas_bound x [parentVmArea] ≤ ext x) →
      handle_memory_object K (mmo_ops_at K n) st childVmArea parentVmArea
        = Res.ok (c, p, st1) →
      K.MAP_SHARED ≠ childVmArea.vma_flags &&& K.MAP_TYPE →
      HeapReach K st1
        (fun x => ext x - areas_bound x [parentVmArea] + areas_bound x [c, p]) ∧
      ∃ s1 s2 ob1 ob2, p.vma_obj = some s1 ∧ c.vma_obj = some s2 ∧
        st1.objs s1 = some ob1 ∧ ob1.mmo_shadowed ≠ none ∧
        st1.objs s2 = some ob2 ∧ ob2.mmo_shadowed ≠ none) := by
  have hi := heapReach_chainInv K h
  refine ⟨?_, ?_, ?_⟩
  · intro x ob hob hsh
    obtain ⟨chain, b, hc, hb⟩ := hi.shape x ob (List.not_mem_nil _) hob
    have hw := shadowChain_walks st x b chain hc
    exact ⟨chain, b, hc, hb hsh, hw.1, shadowChain_bottom hc, hw.2⟩
  · intro n fuel head_of_empty map lopage npages prot flags off dir r hwf hl hnp hext hrun hret
      hpriv
    exact ⟨HeapReach.map n fuel head_of_empty map st ext lopage npages prot flags off dir r h
        hwf hl hnp hext hrun,
      (vmmap_map_chainInv K n fuel head_of_empty map st none lopage npages prot flags off dir r
        ext hi hwf hl hnp hext (fun _ _ _ _ _ _ e => by cases e) hrun).2 hret hpriv⟩
  · intro n childVmArea parentVmArea c p st1 hext hrun hpriv
    exact ⟨HeapReach.fork n st st1 ext childVmArea parentVmArea c p h hext hrun,
      (handle_memory_object_chainInv K n st st1 childVmArea parentVmArea c p ext hi hext
        hrun).2 hpriv⟩

/-- The heap `exReachFork` is reached: `vmmap_map` maps three private anonymous pages into
the empty map from the empty heap, then `handle_memory_object` forks the area.  Its shadow
objects at 3 and 4 head the chains [3, 2] and [4, 2], which end at the anonymous object at
address 1. -/
theorem shadow_chain_shape_witness :
    HeapReach exK exReachFork
      (fun x =>
        (0 - areas_bound x exMap0.vmm_list + areas_bound x exReachMap.map.vmm_list)
          - areas_bound x [exParentArea]
          + areas_bound x [{ exChildArea with vma_obj := some 4 },
              { exParentArea with vma_obj := some 3 }]) ∧
    exReachFork.objs 3 = some exShadow2 ∧ exReachFork.objs 4 = some exShadow2 ∧
    ShadowChain exReachFork 3 [3, 2] 1 ∧ ShadowChain exReachFork 4 [4, 2] 1 ∧
    ((∀ x ob, exReachFork.objs x = some ob → ob.mmo_shadowed ≠ none →
      ∃ chain b, ShadowChain exReachFork x chain b ∧ ob.mmo_bottom_obj = some b ∧
        (chain ++ [b]).Nodup ∧
        (∃ bob, exReachFork.objs b = some bob ∧ bob.mmo_shadowed = none) ∧
        ∀ pagenum fuel, chain.length < fuel →
          shadow_lookuppage_walk exReachFork pagenum fuel x
            = Res.ok (first_resident exReachFork pagenum chain) ∧
          shadow_fillpage_walk exReachFork pagenum fuel (some x)
            = Res.ok (first_resident exReachFork pagenum (chain ++ [b]).tail)) ∧
    (∀ (n fuel head_of_empty : Nat) (map : vmmap) (lopage npages prot flags off : Nat)
      (dir : Int) (r : MapResult),
      WellFormed map.vmm_list → lopage < U32 → npages < U32 →
      (∀ x, areas_bound x map.vmm_list ≤
        (0 - areas_bound x exMap0.vmm_list + areas_bound x exReachMap.map.vmm_list)
          - areas_bound x [exParentArea]
          + areas_bound x [{ exChildArea with vma_obj := some 4 },
              { exParentArea with vma_obj := some 3 }]) →
      vmmap_map exK (mmo_ops_at exK n) fuel head_of_empty map exReachFork none lopage npages
        prot flags off dir = Res.ok r →
      ¬ r.ret < 0 → flags &&& exK.MAP_PRIVATE ≠ 0 →
      HeapReach exK r.st
        (fun x =>
          (0 - areas_bound x exMap0.vmm_list + areas_bound x exReachMap.map.vmm_list)
            - areas_bound x [exParentArea]
            + areas_bound x [{ exChildArea with vma_obj := some 4 },
                { exParentArea with vma_obj := some 3 }]
            - areas_bound x map.vmm_list + areas_bound x r.map.vmm_list) ∧
      ∃ new s sob, r.new = some new ∧ new.vma_obj = some s ∧ r.st.objs s = some sob ∧
        sob.mmo_shadowed ≠ none) ∧
    (∀ (n : Nat) (childVmArea parentVmArea c p : vmarea) (st1 : VMState),
      (∀ x, areas_bound x [parentVmArea] ≤
        (0 - areas_bound x exMap0.vmm_list + areas_bound x exReachMap.map.vmm_list)
          - areas_bound x [exParentArea]
          + areas_bound x [{ exChildArea with vma_obj := some 4 },
              { exParentArea with vma_obj := some 3 }]) →
      handle_memory_object exK (mmo_ops_at exK n) exReachFork childVmArea parentVmArea
        = Res.ok (c, p, st1) →
      exK.MAP_SHARED ≠ childVmArea.vma_flags &&& exK.MAP_TYPE →
      HeapReach exK st1
        (fun x =>
          (0 - areas_bound x exMap0.vmm_list + areas_bound x exReachMap.map.vmm_list)
            - areas_bound x [exParentArea]
            + areas_bound x [{ exChildArea with vma_obj := some 4 },
                { exParentArea with vma_obj := some 3 }]
            - areas_bound x [parentVmArea] + areas_bound x [c, p]) ∧
      ∃ s1 s2 ob1 ob2, p.vma_obj = some s1 ∧ c.vma_obj = some s2 ∧
        st1.objs s1 = some ob1 ∧ ob1.mmo_shadowed ≠ none ∧
        st1.objs s2 = some ob2 ∧ ob2.mmo_shadowed ≠ none)) :=
  have hmap : HeapReach exK exReachMap.st
      (fun x => 0 - areas_bound x exMap0.vmm_list + areas_bound x exReachMap.map.vmm_list) :=
    HeapReach.map 1 1 0 exMap0 exHeap0 (fun _ => 0) 1024 3 3 2 0 0 exReachMap
      (HeapReach.init 1 []) exMap0_wellFormed (by decide) (by decide)
      (fun x => by simp [areas_bound, exMap0]) rfl
  have hfork : HeapReach exK exReachFork
      (fun x =>
        (0 - areas_bound x exMap0.vmm_list + areas_bound x exReachMap.map.vmm_list)
          - areas_bound x [exParentArea]
          + areas_bound x [{ exChildArea with vma_obj := some 4 },
              { exParentArea with vma_obj := some 3 }]) :=
    HeapReach.fork 1 exReachMap.st exReachFork _ exChildArea exParentArea _ _ hmap
      (fun x => by simp [areas_bound, exMap0, exReachMap]) rfl
  ⟨hfork, rfl, rfl,
   ShadowChain.step 3 2 1 exShadow2 [2] rfl rfl
     (ShadowChain.step 2 1 1 { exShadow with mmo_refcount := 2 } [] rfl rfl
       (ShadowChain.bottom 1 { exAnon with mmo_refcount := 4 } rfl rfl)),
   ShadowChain.step 4 2 1 exShadow2 [2] rfl rfl
     (ShadowChain.step 2 1 1 { exShadow with mmo_refcount := 2 } [] rfl rfl
       (ShadowChain.bottom 1 { exAnon with mmo_refcount := 4 } rfl rfl)),
   shadow_chain_shape exK exReachFork _ hfork⟩

end Weenix
